import Mathlib

/-!
# Software fault tolerance pass (p3.cpp)

A shallow embedding of the two instrumentation routines of `p3.cpp`,
`replicate` and `verifyControlFlow`, and of the driver `SoftwareFaultTolerance`
with the step of `main` that calls it, over a small model of the LLVM IR they
manipulate, followed by theorems about them.

Modelling conventions.

* An instruction is identified by `id` (the address of the `Instruction`
  object).  New instructions take their identity from `PassState.nextId`.
* A basic block is identified by its position in the function's block list
  (layout order); successor lists and phi incoming blocks hold positions.
* A null dereference or a dereference of `end()` in the source is the result
  `none`.
* `std::unordered_map` iteration order is not fixed by the language; the loop
  over `cloneMap` takes the iteration order as a parameter `order`.
* The globals `AssertFT` and `AssertCFG` are set by `BuildHelperFunctions`,
  which `p3.cpp` only declares; the driver takes them as a parameter.
* A corrupted constant is a change of the instrumented function
  (`injectFault`); paths through it are run like paths through any function.
* `IRBuilder` folds an operation on constants instead of inserting it:
  `foldSelect` and `foldXor` follow the tests of the constant folder on
  integer constants, `undef` and poison.  The model has no constant
  expressions; `Value.func` and `Value.constant` are constants it does not
  interpret.
-/

namespace SWFT

/-! ## IR model -/

/-- Result type of an instruction, as far as the pass inspects it
(`isIntegerTy`, `isPointerTy`, `isFloatTy`). -/
inductive Ty where
  | integer (bits : Nat)
  | pointer
  | float
  | double
  | void
  | other (k : Nat)
deriving DecidableEq, Repr

/-- Names of functions of the module: the two fault handlers and user functions. -/
inductive FuncName where
  | assert_ft
  | assert_cfg_ft
  | user (k : Nat)
deriving DecidableEq, Repr

/-- Instruction opcodes.  The terminators are listed one by one; `other`
stands for every remaining non-terminator opcode (add, load, fence, ...). -/
inductive Opcode where
  | ret
  | br
  | switch
  | indirectbr
  | invoke
  | resume
  | unreachable
  | store
  | call
  | alloca
  | phi
  | select
  | xor
  | zext
  | icmpEQ
  | fcmpOEQ
  | other (code : Nat)
deriving DecidableEq, Repr

/-- Mirror of `Instruction::isTerminator`. -/
def Opcode.isTerminator : Opcode → Bool
  | .ret => true
  | .br => true
  | .switch => true
  | .indirectbr => true
  | .invoke => true
  | .resume => true
  | .unreachable => true
  | _ => false

/-- An operand. -/
inductive Value where
  | inst (id : Nat)
  | arg (k : Nat)
  | constInt (bits : Nat) (val : Nat)
  | undef
  | poison
  | func (name : FuncName)
  | constant (k : Nat)
deriving DecidableEq, Repr

/-- An instruction: identity, opcode, result type, value operands, successor
blocks (terminators) and incoming blocks (phi nodes, parallel to `operands`). -/
structure Instruction where
  id : Nat
  opcode : Opcode
  ty : Ty
  operands : List Value
  succs : List Nat := []
  incoming : List Nat := []
deriving DecidableEq, Repr

structure BasicBlock where
  insts : List Instruction
deriving DecidableEq, Repr

structure Function where
  name : FuncName
  blocks : List BasicBlock
deriving DecidableEq, Repr

structure Module where
  functions : List Function
deriving DecidableEq, Repr

/-- Mirror of `Module::getFunction`: `none` is the null pointer. -/
def Module.getFunction (M : Module) (name : FuncName) : Option Function :=
  M.functions.find? (fun g => g.name == name)

/-- State threaded through the pass: the allocator (`nextId`, identity of the
next instruction object) and the statistic `SWFTAdded`. -/
structure PassState where
  nextId : Nat
  SWFTAdded : Nat
deriving DecidableEq, Repr

def Instruction.isTerminator (I : Instruction) : Bool := I.opcode.isTerminator

/-- The test `isa<PHINode>`. -/
def Instruction.isPHI (I : Instruction) : Bool := I.opcode == Opcode.phi

def Ty.isIntegerTy : Ty → Bool
  | .integer _ => true
  | _ => false

def Ty.isPointerTy : Ty → Bool
  | .pointer => true
  | _ => false

def Ty.isFloatTy : Ty → Bool
  | .float => true
  | _ => false

/-- The block identity formula, `(bbCount << 20) | (iCount << 8) | ((bbCount*iCount) % 37)`,
converted to `unsigned int`.  The source computes in `int`; for counts small
enough that no signed overflow occurs the value is below `2^32` and the final
reduction is the identity. -/
def uniqueID (bbCount iCount : Nat) : Nat :=
  ((bbCount <<< 20) ||| (iCount <<< 8) ||| ((bbCount * iCount) % 37)) % 2 ^ 32

/-- `Builder.getInt32`, applied to a value already reduced to 32 bits. -/
def getInt32 (v : Nat) : Value := Value.constInt 32 v

/-! ## Eligibility filter -/

/-- Source: `isUndefOrPoison`. -/
def isUndefOrPoison (I : Instruction) : Bool :=
  I.operands.any (fun op => op == Value.undef || op == Value.poison)

/-- Source: `canRep`, with its side effect on the statistic. -/
def canRep (I : Instruction) (s : PassState) : Bool × PassState :=
  match I.opcode with
  | .store => (false, s)
  | .call => (false, s)
  | .alloca => (false, s)
  | .br => (false, s)
  | _ =>
    if I.isTerminator then (false, s)
    else (true, { s with SWFTAdded := s.SWFTAdded + 1 })

/-! ## Instruction replicator -/

/-- The per-block `cloneMap`: key, the original instruction (never mutated);
value, the identity of its clone. -/
abbrev CloneMap := List (Instruction × Nat)

/-- The lookup `cloneMap.find(dyn_cast<Instruction>(op))`. -/
def CloneMap.find (cm : CloneMap) (op : Value) : Option Nat :=
  match op with
  | .inst k => (List.find? (fun e => e.1.id == k) cm).map Prod.snd
  | _ => none

/-- First loop of `replicate` over one block: clone every instruction that
passes `canRep` and has no undef or poison operand, insert the clone before
the original, record the pair. -/
def cloneInsts : List Instruction → PassState → List Instruction × CloneMap × PassState
  | [], s => ([], [], s)
  | I :: rest, s =>
    let r := canRep I s
    if r.1 then
      if isUndefOrPoison I == false then
        let c : Instruction := { I with id := r.2.nextId }
        let out := cloneInsts rest { r.2 with nextId := r.2.nextId + 1 }
        (c :: I :: out.1, (I, c.id) :: out.2.1, out.2.2)
      else
        let out := cloneInsts rest r.2
        (I :: out.1, out.2.1, out.2.2)
    else
      let out := cloneInsts rest r.2
      (I :: out.1, out.2.1, out.2.2)

/-- One step of the inner loop: operand `op` of a clone is replaced by the
clone of the instruction it names when the map has one. -/
def remapOperand (cm : CloneMap) (op : Value) : Value :=
  match cm.find op with
  | some k => Value.inst k
  | none => op

/-- The inner `setOperand` loop on one clone. -/
def remapOperands (cm : CloneMap) (c : Instruction) : Instruction :=
  { c with operands := c.operands.map (remapOperand cm) }

/-- Mutation of the instruction object with identity `k`. -/
def updateInst (k : Nat) (g : Instruction → Instruction) (l : List Instruction) :
    List Instruction :=
  l.map (fun x => if x.id = k then g x else x)

/-- Position of the first non-phi instruction: the block split in front of it.
`none` when the scan runs off the end of the block. -/
def splitAtFirstNonPHI : List Instruction → Option (List Instruction × List Instruction)
  | [] => none
  | x :: xs =>
    if x.isPHI then
      (splitAtFirstNonPHI xs).map (fun p => (x :: p.1, p.2))
    else some ([], x :: xs)

/-- Position just after the instruction with identity `k` (`notPhi++`): the
block split there.  `none` when that position is `end()`. -/
def splitAfter (k : Nat) : List Instruction → Option (List Instruction × List Instruction)
  | [] => none
  | x :: xs =>
    if x.id = k then
      (match xs with
       | [] => none
       | _ :: _ => some ([x], xs))
    else (splitAfter k xs).map (fun p => (x :: p.1, p.2))

/-- Body of the loop over `cloneMap` for one pair `(i, c)`. -/
def processPair (M : Module) (uid : Nat) (cm : CloneMap) (i : Instruction) (c : Nat)
    (blk : List Instruction) (s : PassState) : Option (List Instruction × PassState) :=
  let blk1 := updateInst c (remapOperands cm) blk
  let it := if i.isPHI then splitAtFirstNonPHI blk1 else splitAfter i.id blk1
  match it with
  | none => none
  | some (front, back) =>
    let cmpOp : Option Opcode :=
      if i.ty.isIntegerTy || i.ty.isPointerTy then some Opcode.icmpEQ
      else if i.ty.isFloatTy then some Opcode.fcmpOEQ
      else none
    match cmpOp with
    | none => some (blk1, s)
    | some op =>
      let cmpInst : Instruction :=
        { id := s.nextId, opcode := op, ty := Ty.integer 1,
          operands := [Value.inst i.id, Value.inst c] }
      let zextInst : Instruction :=
        { id := s.nextId + 1, opcode := Opcode.zext, ty := Ty.integer 32,
          operands := [Value.inst cmpInst.id] }
      match M.getFunction FuncName.assert_ft with
      | none => none
      | some _ =>
        let callInst : Instruction :=
          { id := s.nextId + 2, opcode := Opcode.call, ty := Ty.void,
            operands := [Value.inst zextInst.id, getInt32 uid,
                         Value.func FuncName.assert_ft] }
        some (front ++ [cmpInst, zextInst, callInst] ++ back,
              { s with nextId := s.nextId + 3 })

/-- The loop over `cloneMap`, in the iteration order `ps`. -/
def processPairs (M : Module) (uid : Nat) (cm : CloneMap) :
    List (Instruction × Nat) → List Instruction → PassState →
    Option (List Instruction × PassState)
  | [], blk, s => some (blk, s)
  | p :: ps, blk, s =>
    match processPair M uid cm p.1 p.2 blk s with
    | none => none
    | some r => processPairs M uid cm ps r.1 r.2

/-- What one iteration of the block loop leaves: the block and the `cloneMap`
it used (discarded by the source at the next iteration). -/
structure BlockRep where
  block : BasicBlock
  cloneMap : CloneMap
deriving DecidableEq, Repr

/-- One iteration of the block loop of `replicate`; `bbCount` is the counter
after its increment. -/
def replicateBlock (M : Module) (order : CloneMap → CloneMap) (bbCount : Nat)
    (b : BasicBlock) (s : PassState) : Option (BlockRep × PassState) :=
  let iCount := b.insts.length
  let uid := uniqueID bbCount iCount
  let cl := cloneInsts b.insts s
  (processPairs M uid cl.2.1 (order cl.2.1) cl.1 cl.2.2).map
    (fun r => ({ block := { insts := r.1 }, cloneMap := cl.2.1 }, r.2))

/-- The block loop of `replicate`; `bbCount` is the counter before the
increment of the iteration. -/
def replicateBlocks (M : Module) (order : CloneMap → CloneMap) :
    Nat → List BasicBlock → PassState → Option (List BlockRep × PassState)
  | _, [], s => some ([], s)
  | bbCount, b :: bs, s =>
    match replicateBlock M order (bbCount + 1) b s with
    | none => none
    | some r =>
      match replicateBlocks M order (bbCount + 1) bs r.2 with
      | none => none
      | some rs => some (r.1 :: rs.1, rs.2)

/-- Source: `replicate`, with the `cloneMap` of every block. -/
def replicateMaps (f : Function) (M : Module) (order : CloneMap → CloneMap)
    (s : PassState) : Option (List BlockRep × PassState) :=
  replicateBlocks M order 1 f.blocks s

/-- Source: `replicate`. -/
def replicate (f : Function) (M : Module) (order : CloneMap → CloneMap) (s : PassState) :
    Option (Function × PassState) :=
  (replicateMaps f M order s).map
    (fun r => ({ f with blocks := r.1.map (fun g => g.block) }, r.2))

/-! ## Control-flow signature builder -/

/-- Mirror of `BasicBlock::getTerminator`: the last instruction when it is a
terminator, else null. -/
def getTerminator (l : List Instruction) : Option Instruction :=
  match l.getLast? with
  | some t => if t.isTerminator then some t else none
  | none => none

/-- Mirror of `BranchInst::isConditional` (three operands: the condition and
two destinations). -/
def Instruction.isConditional (t : Instruction) : Bool :=
  t.operands.length + t.succs.length == 3

/-- Mirror of `BranchInst::getCondition`. -/
def Instruction.getCondition (t : Instruction) : Option Value := t.operands.head?

/-- Mirror of `getSuccessor(i)`. -/
def Instruction.getSuccessor (t : Instruction) (i : Nat) : Option Nat := t.succs.get? i

/-- The test `isa<Constant>`: everything but an instruction or an argument. -/
def Value.isConstant : Value → Bool
  | .inst _ => false
  | .arg _ => false
  | _ => true

/-- The constant the builder's folder makes of the `xor` of two constants
(`ConstantFoldBinaryInstruction`): poison when an operand is poison, 0 for
`undef ^ undef`, `undef` when one operand is `undef`, the XOR of two constant
integers.  With an operand the model does not interpret (`func`, `constant`)
the folder leaves a constant expression, written `Value.constant 0` here; the
pass never passes such an operand. -/
def foldXor : Value → Value → Value
  | .poison, _ => Value.poison
  | _, .poison => Value.poison
  | .undef, .undef => Value.constInt 32 0
  | .undef, _ => Value.undef
  | _, .undef => Value.undef
  | .constInt w x, .constInt _ y => Value.constInt w (x ^^^ y)
  | _, _ => Value.constant 0

/-- `Builder.CreateXor` on 32-bit operands: two constants are folded by the
builder and nothing is inserted; with an operand that is no constant an `xor`
instruction is built at the insertion point.  Returns the value, the
instructions inserted, and the new state. -/
def createXor (a b : Value) (s : PassState) : Value × List Instruction × PassState :=
  if a.isConstant && b.isConstant then (foldXor a b, [], s)
  else
    (Value.inst s.nextId,
     [{ id := s.nextId, opcode := Opcode.xor, ty := Ty.integer 32, operands := [a, b] }],
     { s with nextId := s.nextId + 1 })

/-- What the builder's folder makes of `select c, x, y` with the two integer
constants `x` and `y` as arms (`ConstantFoldSelectInstruction`, in the order
of its tests): the arm chosen by a constant integer condition (`y` for 0), poison
for a poison condition, the false arm `y` for an `undef` condition; for a
condition that is another constant (`func`, `constant`) the common arm when
both arms are equal; otherwise the folder finds nothing and the builder emits
the instruction.  A condition that is no constant is not folded. -/
def foldSelect (c : Value) (x y : Nat) : Option Value :=
  match c with
  | .constInt _ v => some (getInt32 (if v = 0 then y else x))
  | .poison => some Value.poison
  | .undef => some (getInt32 y)
  | .inst _ => none
  | .arg _ => none
  | _ => if x = y then some (getInt32 x) else none

/-- `Builder.CreateSelect(c, getInt32(x), getInt32(y))`, the form in which the
pass calls it: the folded value with nothing inserted when the folder finds
one, a `select` instruction otherwise. -/
def createSelect (c : Value) (x y : Nat) (s : PassState) :
    Value × List Instruction × PassState :=
  match foldSelect c x y with
  | some v => (v, [], s)
  | none =>
    (Value.inst s.nextId,
     [{ id := s.nextId, opcode := Opcode.select, ty := Ty.integer 32,
        operands := [c, getInt32 x, getInt32 y] }],
     { s with nextId := s.nextId + 1 })

/-- First loop of `verifyControlFlow`: the `idMap`, as the list of the blocks'
IDs in layout order; `bbCount` is the counter before the increment. -/
def assignIds : Nat → List BasicBlock → List Nat
  | _, [] => []
  | bbCount, b :: bs =>
    uniqueID (bbCount + 1) b.insts.length :: assignIds (bbCount + 1) bs

/-- The lookup `idMap[block]` (a key that is absent reads as 0). -/
def idOf (idMap : List Nat) (k : Nat) : Nat := idMap.getD k 0

/-- The case analysis on a block's terminator (the same in the entry block and
in the other blocks): the pair `(diff, dest)` to record, if any, and the
instructions built above the terminator.  `brDest` is what a block ending in a
branch stores in `destMap`: the constant `newDest` in the entry block, the
value `xorDest` elsewhere. -/
def signTerminator (idMap : List Nat) (k : Nat) (t : Instruction) (brDest : Value)
    (s : PassState) : Option (Option (Value × Value) × List Instruction × PassState) :=
  if t.opcode = Opcode.br then
    if t.isConditional then
      match t.getCondition, t.getSuccessor 0, t.getSuccessor 1 with
      | some c, some s0, some s1 =>
        let selectedDest := createSelect c (idOf idMap s0) (idOf idMap s1) s
        let newDiff := createXor (getInt32 (idOf idMap k)) selectedDest.1 selectedDest.2.2
        some (some (newDiff.1, brDest), selectedDest.2.1 ++ newDiff.2.1, newDiff.2.2)
      | _, _, _ => none
    else
      match t.getSuccessor 0 with
      | some s0 =>
        let newDiff := createXor (getInt32 (idOf idMap k)) (getInt32 (idOf idMap s0)) s
        some (some (newDiff.1, brDest), newDiff.2.1, newDiff.2.2)
      | none => none
  else if t.succs.length > 0 then
    match t.getSuccessor 0 with
    | some s0 =>
      let newDest := getInt32 (idOf idMap k)
      let newDiff := createXor (getInt32 (idOf idMap k)) (getInt32 (idOf idMap s0)) s
      some (some (newDiff.1, newDest), newDiff.2.1, newDiff.2.2)
    | none => none
  else some (none, [], s)

/-- Insertion through a builder positioned at the terminator. -/
def insertBeforeTerminator (new : List Instruction) (l : List Instruction) :
    List Instruction :=
  l.dropLast ++ new ++ l.drop (l.length - 1)

/-- What the second loop leaves for one block: the block, its entries in
`diffMap` and `destMap`, and its entries in `diffPhiMap` and `destPhiMap`
(`none`: no entry, read back as null). -/
structure BlockSig where
  block : BasicBlock
  diff : Option Value
  dest : Option Value
  diffPhi : Option Nat
  destPhi : Option Nat
deriving DecidableEq, Repr

/-- Body of the second loop of `verifyControlFlow` for the block at position `k`. -/
def instrumentBlock (M : Module) (idMap : List Nat) (isEntryBlock : Bool) (k : Nat)
    (b : BasicBlock) (s : PassState) : Option (BlockSig × PassState) :=
  match splitAtFirstNonPHI b.insts with
  | none => none
  | some (phis, rest) =>
    if isEntryBlock = false then
      let Diff : Instruction :=
        { id := s.nextId, opcode := Opcode.phi, ty := Ty.integer 32, operands := [] }
      let Dest : Instruction :=
        { id := s.nextId + 1, opcode := Opcode.phi, ty := Ty.integer 32, operands := [] }
      let xorDest := createXor (Value.inst Diff.id) (Value.inst Dest.id)
        { s with nextId := s.nextId + 2 }
      let s1 := xorDest.2.2
      let cfgCmp : Instruction :=
        { id := s1.nextId, opcode := Opcode.icmpEQ, ty := Ty.integer 1,
          operands := [xorDest.1, getInt32 (idOf idMap k)] }
      let zext : Instruction :=
        { id := s1.nextId + 1, opcode := Opcode.zext, ty := Ty.integer 32,
          operands := [Value.inst cfgCmp.id] }
      match M.getFunction FuncName.assert_cfg_ft with
      | none => none
      | some _ =>
        let call : Instruction :=
          { id := s1.nextId + 2, opcode := Opcode.call, ty := Ty.void,
            operands := [Value.inst zext.id, Value.inst Dest.id, getInt32 (idOf idMap k),
                         Value.func FuncName.assert_cfg_ft] }
        let blk1 := phis ++ ([Diff, Dest] ++ xorDest.2.1 ++ [cfgCmp, zext, call]) ++ rest
        match getTerminator blk1 with
        | none => none
        | some terminator =>
          match signTerminator idMap k terminator xorDest.1
              { s1 with nextId := s1.nextId + 3 } with
          | none => none
          | some r =>
            some ({ block := { insts := insertBeforeTerminator r.2.1 blk1 },
                    diff := r.1.map Prod.fst, dest := r.1.map Prod.snd,
                    diffPhi := some Diff.id, destPhi := some Dest.id }, r.2.2)
    else
      match getTerminator b.insts with
      | none => none
      | some terminator =>
        match signTerminator idMap k terminator (getInt32 (idOf idMap k)) s with
        | none => none
        | some r =>
          some ({ block := { insts := insertBeforeTerminator r.2.1 b.insts },
                  diff := r.1.map Prod.fst, dest := r.1.map Prod.snd,
                  diffPhi := none, destPhi := none }, r.2.2)

/-- Second loop of `verifyControlFlow`, from position `k` on. -/
def instrumentBlocks (M : Module) (idMap : List Nat) :
    Bool → Nat → List BasicBlock → PassState → Option (List BlockSig × PassState)
  | _, _, [], s => some ([], s)
  | isEntryBlock, k, b :: bs, s =>
    match instrumentBlock M idMap isEntryBlock k b s with
    | none => none
    | some r =>
      match instrumentBlocks M idMap false (k + 1) bs r.2 with
      | none => none
      | some rs => some (r.1 :: rs.1, rs.2)

/-- Successor edges leaving block `p` for block `k`: one entry `p` per use of
`k` by a terminator of `p`. -/
def edgesFrom (k : Nat) (p : Nat) (b : BasicBlock) : List Nat :=
  (b.insts.filter (fun t => t.isTerminator)).flatMap
    (fun t => (t.succs.filter (fun d => d == k)).map (fun _ => p))

/-- The blocks from position `p` on, each with the edges it sends to `k`. -/
def predecessorsFrom (k : Nat) : Nat → List BasicBlock → List Nat
  | _, [] => []
  | p, b :: bs => edgesFrom k p b ++ predecessorsFrom k (p + 1) bs

/-- Mirror of `predecessors(&block)`: one entry per edge into block `k`, taken
in layout order of the predecessors (the source's order is that of the use
list). -/
def predecessors (blocks : List BasicBlock) (k : Nat) : List Nat :=
  predecessorsFrom k 0 blocks

/-- Mirror of `PHINode::addIncoming`. -/
def addIncoming (v : Value) (bb : Nat) (I : Instruction) : Instruction :=
  { I with operands := I.operands ++ [v], incoming := I.incoming ++ [bb] }

/-- The value the third loop adds to the Diff node of block `k` for the
predecessor `pred`: its recorded diff, or the constant fallback. -/
def incomingDiff (idMap : List Nat) (diffMap : List (Option Value)) (k pred : Nat) : Value :=
  match diffMap.getD pred none with
  | some v => v
  | none => getInt32 (idOf idMap pred ^^^ idOf idMap k)

/-- The value the third loop adds to the Dest node of block `k` for the
predecessor `pred`: its recorded dest, or the constant fallback. -/
def incomingDest (idMap : List Nat) (destMap : List (Option Value)) (k pred : Nat) : Value :=
  match destMap.getD pred none with
  | some v => v
  | none => getInt32 (idOf idMap k)

/-- Third loop of `verifyControlFlow`, inner loop over the predecessors of the
block at position `k`. -/
def fillPhis (idMap : List Nat) (diffMap destMap : List (Option Value)) (k : Nat)
    (diffPhiNode destPhiNode : Option Nat) :
    List Nat → List Instruction → Option (List Instruction)
  | [], blk => some blk
  | pred :: preds, blk =>
    match diffPhiNode, destPhiNode with
    | some dp, some xp =>
      let blk1 := updateInst dp (addIncoming (incomingDiff idMap diffMap k pred) pred) blk
      let blk2 := updateInst xp (addIncoming (incomingDest idMap destMap k pred) pred) blk1
      fillPhis idMap diffMap destMap k diffPhiNode destPhiNode preds blk2
    | _, _ => none

/-- Third loop of `verifyControlFlow`, from position `k` on; `all` is the
function's block list, from which the predecessors are read. -/
def fillBlocks (idMap : List Nat) (diffMap destMap : List (Option Value))
    (all : List BasicBlock) : Nat → List BlockSig → Option (List BasicBlock)
  | _, [] => some []
  | k, g :: gs =>
    match fillPhis idMap diffMap destMap k g.diffPhi g.destPhi (predecessors all k)
        g.block.insts with
    | none => none
    | some blk =>
      match fillBlocks idMap diffMap destMap all (k + 1) gs with
      | none => none
      | some rest => some ({ insts := blk } :: rest)

/-- Everything `verifyControlFlow` computes: the function and its maps. -/
structure CFResult where
  f : Function
  idMap : List Nat
  diffMap : List (Option Value)
  destMap : List (Option Value)
  diffPhiMap : List (Option Nat)
  destPhiMap : List (Option Nat)
  state : PassState
deriving DecidableEq, Repr

/-- Source: `verifyControlFlow`, with its local maps. -/
def verifyControlFlowMaps (f : Function) (M : Module) (s : PassState) : Option CFResult :=
  let idMap := assignIds 0 f.blocks
  match instrumentBlocks M idMap true 0 f.blocks s with
  | none => none
  | some r =>
    let diffMap := r.1.map (fun g => g.diff)
    let destMap := r.1.map (fun g => g.dest)
    match fillBlocks idMap diffMap destMap (r.1.map (fun g => g.block)) 0 r.1 with
    | none => none
    | some blocks =>
      some { f := { f with blocks := blocks }, idMap := idMap, diffMap := diffMap,
             destMap := destMap, diffPhiMap := r.1.map (fun g => g.diffPhi),
             destPhiMap := r.1.map (fun g => g.destPhi), state := r.2 }

/-- Source: `verifyControlFlow`. -/
def verifyControlFlow (f : Function) (M : Module) (s : PassState) :
    Option (Function × PassState) :=
  (verifyControlFlowMaps f M s).map (fun r => (r.f, r.state))

/-! ## Execution of a function

A small-step reading of the IR, block by block, precise on the opcodes the
pass builds (`phi`, `xor`, `icmp eq`, `zext`, `select`) and on two-way
branches; every other result is supplied from outside. -/

/-- What one block execution takes from outside: the results of the
instructions the model does not compute, the values of arguments and other
non-instruction operands, and the successor index taken by a terminator that
is not a branch. -/
structure Oracle where
  result : Nat → Nat
  input : Value → Nat
  choice : Nat

/-- Run-time values of the instructions, by identity. -/
abbrev Env := Nat → Nat

/-- Value of an operand; `undef` and `poison` have none. -/
def evalValue (env : Env) (o : Oracle) : Value → Option Nat
  | .inst k => some (env k)
  | .constInt _ v => some v
  | .undef => none
  | .poison => none
  | v => some (o.input v)

/-- Result of a non-phi instruction. -/
def evalInst (env : Env) (o : Oracle) (I : Instruction) : Nat :=
  match I.opcode, I.operands with
  | .xor, [a, b] =>
    (match evalValue env o a, evalValue env o b with
     | some x, some y => x ^^^ y
     | _, _ => o.result I.id)
  | .icmpEQ, [a, b] =>
    (match evalValue env o a, evalValue env o b with
     | some x, some y => if x = y then 1 else 0
     | _, _ => o.result I.id)
  | .zext, [a] =>
    (match evalValue env o a with
     | some x => x
     | none => o.result I.id)
  | .select, [c, t, e] =>
    (match evalValue env o c, evalValue env o t, evalValue env o e with
     | some x, some y, some z => if x = 0 then z else y
     | _, _, _ => o.result I.id)
  | _, _ => o.result I.id

/-- Result of a phi node on entry from `pred`: its incoming value for that
block, read in the environment at block entry. -/
def phiValue (entryEnv : Env) (o : Oracle) (pred : Option Nat) (I : Instruction) : Nat :=
  match pred with
  | none => o.result I.id
  | some p =>
    match List.lookup p (I.incoming.zip I.operands) with
    | some v => (evalValue entryEnv o v).getD (o.result I.id)
    | none => o.result I.id

/-- A call executed at run time: the call instruction, the callee operand and
the argument values. -/
structure CallEvent where
  inst : Nat
  callee : Option Value
  args : List (Option Nat)

/-- Execute the instructions of a block in order. -/
def execInsts (entryEnv : Env) (o : Oracle) (pred : Option Nat) :
    List Instruction → Env → List CallEvent → Env × List CallEvent
  | [], env, tr => (env, tr)
  | I :: rest, env, tr =>
    let v := if I.isPHI then phiValue entryEnv o pred I else evalInst env o I
    let tr1 :=
      if I.opcode = Opcode.call then
        tr ++ [{ inst := I.id, callee := I.operands.getLast?,
                 args := I.operands.dropLast.map (evalValue env o) }]
      else tr
    execInsts entryEnv o pred rest (fun k => if k = I.id then v else env k) tr1

/-- The block control moves to: successor 0 of a two-way branch when its
condition is true, successor 1 otherwise; the only successor of a terminator
that has one; for any other terminator the successor the oracle picks. -/
def nextBlock (t : Instruction) (env : Env) (o : Oracle) : Option Nat :=
  if t.opcode = Opcode.br ∧ t.isConditional = true then
    match t.getCondition with
    | some c =>
      (match evalValue env o c with
       | some v => if v = 0 then t.getSuccessor 1 else t.getSuccessor 0
       | none => none)
    | none => none
  else if t.succs.length = 1 then t.getSuccessor 0
  else t.getSuccessor o.choice

/-- One block execution of a path: the block, the block it was entered from,
the environment when the block has run, and the calls it made. -/
structure Visit where
  block : Nat
  pred : Option Nat
  env : Env
  calls : List CallEvent

/-- The path taken from block `cur`, one oracle per block executed.  The
terminator reads its operands in the environment the instructions before it
leave, then its own result is set. -/
def run (blocks : List BasicBlock) : List Oracle → Nat → Option Nat → Env → List Visit
  | [], _, _, _ => []
  | o :: os, cur, pred, env =>
    match blocks.get? cur with
    | none => []
    | some b =>
      let r := execInsts env o pred b.insts.dropLast env []
      match getTerminator b.insts with
      | none => [{ block := cur, pred := pred, env := r.1, calls := r.2 }]
      | some t =>
        let env2 : Env := fun k => if k = t.id then o.result t.id else r.1 k
        { block := cur, pred := pred, env := env2, calls := r.2 } ::
          (match nextBlock t r.1 o with
           | none => []
           | some nb => run blocks os nb (some cur) env2)

/-! ## Well-formedness of the input and vocabulary of the statements -/

/-- The exclusion set in the words of the specification: store, call,
allocation, branch, any terminator, or an undefined or poison operand. -/
def Excluded (I : Instruction) : Prop :=
  I.opcode = Opcode.store ∨ I.opcode = Opcode.call ∨ I.opcode = Opcode.alloca ∨
  I.opcode = Opcode.br ∨ I.isTerminator = true ∨
  ∃ op ∈ I.operands, op = Value.undef ∨ op = Value.poison

/-- The test the first loop of `replicate` applies to an instruction. -/
def canClone (I : Instruction) : Bool :=
  (canRep I { nextId := 0, SWFTAdded := 0 }).1 && (isUndefOrPoison I == false)

/-- The result types for which `replicate` builds a comparison. -/
def Ty.isCompared (t : Ty) : Bool := t.isIntegerTy || t.isPointerTy || t.isFloatTy

/-- The comparison opcode `replicate` uses for a compared type. -/
def cmpOpcode (t : Ty) : Opcode :=
  if t.isIntegerTy || t.isPointerTy then Opcode.icmpEQ else Opcode.fcmpOEQ

/-- The operand denotes an object that exists when the allocator stands at `n`. -/
def Value.allocated (n : Nat) : Value → Bool
  | .inst k => decide (k < n)
  | _ => true

/-- All instructions of a function, in layout order. -/
def Function.allInsts (f : Function) : List Instruction :=
  f.blocks.flatMap (fun b => b.insts)

/-- The phi nodes of a block are grouped at its top. -/
def phisLead (l : List Instruction) : Prop :=
  ∀ x ∈ l.dropWhile (fun i => i.isPHI), x.isPHI = false

/-- A branch has either no condition and one destination, or a condition and
two destinations. -/
def branchShaped (t : Instruction) : Prop :=
  t.opcode = Opcode.br →
    (t.operands.length = 0 ∧ t.succs.length = 1) ∨
    (t.operands.length = 1 ∧ t.succs.length = 2)

/-- Structural well-formedness of a function body with respect to the
allocator: every block ends in a terminator, instruction identities are
pairwise distinct and already allocated, operands refer to allocated objects,
phi nodes lead their block, branches are well shaped. -/
structure WellFormed (f : Function) (s : PassState) : Prop where
  terminated : ∀ b ∈ f.blocks, (getTerminator b.insts).isSome = true
  distinct : (f.allInsts.map (fun i => i.id)).Nodup
  allocated : ∀ i ∈ f.allInsts, i.id < s.nextId
  operandsAllocated : ∀ i ∈ f.allInsts, ∀ op ∈ i.operands, op.allocated s.nextId = true
  phis : ∀ b ∈ f.blocks, phisLead b.insts
  branches : ∀ i ∈ f.allInsts, branchShaped i

/-- Sequence `xs` occurs in `l` as a block of consecutive elements. -/
def Adjacent {α : Type} (xs l : List α) : Prop := ∃ pre post, l = pre ++ xs ++ post

/-- The clone of `i` as `clone()` returns it, with identity `c`. -/
def rawClone (i : Instruction) (c : Nat) : Instruction := { i with id := c }

/-- The three instructions `replicate` builds for a pair `(i, c)` of compared
type: comparison, widening and handler call, numbered from `n`. -/
def checkInsts (uid : Nat) (i : Instruction) (c n : Nat) : List Instruction :=
  [ { id := n, opcode := cmpOpcode i.ty, ty := Ty.integer 1,
      operands := [Value.inst i.id, Value.inst c] },
    { id := n + 1, opcode := Opcode.zext, ty := Ty.integer 32,
      operands := [Value.inst n] },
    { id := n + 2, opcode := Opcode.call, ty := Ty.void,
      operands := [Value.inst (n + 1), getInt32 uid, Value.func FuncName.assert_ft] } ]

/-- The clone of the pair `e` while the loop over `cloneMap` runs: remapped
once its pair has been processed. -/
def cloneState (cm : CloneMap) (done : List (Instruction × Nat)) (e : Instruction × Nat) :
    Instruction :=
  if e ∈ done then remapOperands cm (rawClone e.1 e.2) else rawClone e.1 e.2

/-- Where the check of the pair `e` stands in a block: right after the
original, or, for a phi node, somewhere ahead of every non-phi instruction
that follows it and behind all phi nodes. -/
def CheckPlaced (uid : Nat) (e : Instruction × Nat) (n : Nat) (blk : List Instruction) :
    Prop :=
  if e.1.isPHI = true then
    ∃ pre post, blk = pre ++ checkInsts uid e.1 e.2 n ++ post ∧
      ∀ x ∈ post, x.isPHI = false
  else Adjacent (e.1 :: checkInsts uid e.1 e.2 n) blk

/-- Facts about a block `l` and its `cloneMap` that do not change while the
loop over `cloneMap` runs; `lo0` and `lo` are the allocator before and after
the cloning loop. -/
structure RepCtx (lo0 lo : Nat) (l : List Instruction) (cm : CloneMap) : Prop where
  lo0_le : lo0 ≤ lo
  origAlloc : ∀ x ∈ l, x.id < lo0
  key : ∀ e ∈ cm, e.1 ∈ l ∧ canClone e.1 = true
  value : ∀ e ∈ cm, lo0 ≤ e.2 ∧ e.2 < lo
  inj : ∀ e ∈ cm, ∀ e' ∈ cm, (e.1.id = e'.1.id ∨ e.2 = e'.2) → e = e'

/-- Loop invariant of the loop over `cloneMap`: `l` is the block before
`replicate`, `dc` the pairs whose clone has been remapped so far, `dk` the
pairs whose check has been placed, `num` the identity given to the comparison
of each of them. -/
structure RepInv (uid lo0 lo : Nat) (l : List Instruction) (cm : CloneMap)
    (dc dk : List (Instruction × Nat)) (num : Instruction × Nat → Nat)
    (blk : List Instruction) (st : PassState) : Prop where
  lo_le : lo ≤ st.nextId
  alloc : ∀ x ∈ blk, x.id < st.nextId
  nodup : (blk.map (fun x => x.id)).Nodup
  orig : blk.filter (fun x => decide (x.id < lo0)) = l
  last : blk.getLast? = l.getLast?
  phis : ∃ ph rest, blk = ph ++ rest ∧ (∀ x ∈ ph, x.isPHI = true) ∧
    (∀ x ∈ rest, x.isPHI = false)
  dkMem : ∀ e ∈ dk, e ∈ cm
  numRange : ∀ e ∈ dk, e.1.ty.isCompared = true → lo ≤ num e ∧ num e + 3 ≤ st.nextId
  classify : ∀ x ∈ blk, x ∈ l ∨ (∃ e ∈ cm, x = cloneState cm dc e) ∨
    (∃ e ∈ dk, e.1.ty.isCompared = true ∧ x ∈ checkInsts uid e.1 e.2 (num e))
  clone : ∀ e ∈ cm, Adjacent [cloneState cm dc e, e.1] blk
  check : ∀ e ∈ dk, e.1.ty.isCompared = true → CheckPlaced uid e (num e) blk
  length : blk.length =
    l.length + cm.length + 3 * (dk.filter (fun e => e.1.ty.isCompared)).length

/-- A Diff or Dest node as the third loop completes it. -/
def phiNode (n : Nat) (vals : List Value) (preds : List Nat) : Instruction :=
  { id := n, opcode := Opcode.phi, ty := Ty.integer 32, operands := vals, incoming := preds }

/-- The four instructions `verifyControlFlow` builds behind the Diff node `n`
and the Dest node `n + 1` of a block with ID `own`: `xorDest`, `cfgCmp`, its
widening and the call of `assert_cfg_ft`. -/
def cfgCheck (own n : Nat) : List Instruction :=
  [ { id := n + 2, opcode := Opcode.xor, ty := Ty.integer 32,
      operands := [Value.inst n, Value.inst (n + 1)] },
    { id := n + 3, opcode := Opcode.icmpEQ, ty := Ty.integer 1,
      operands := [Value.inst (n + 2), getInt32 own] },
    { id := n + 4, opcode := Opcode.zext, ty := Ty.integer 32,
      operands := [Value.inst (n + 3)] },
    { id := n + 5, opcode := Opcode.call, ty := Ty.void,
      operands := [Value.inst (n + 4), Value.inst (n + 1), getInt32 own,
                   Value.func FuncName.assert_cfg_ft] } ]

/-- What `replicate` needs of a block at allocator state `s`. -/
structure BlockOK (s : PassState) (l : List Instruction) : Prop where
  term : ∃ t, l.getLast? = some t ∧ t.isTerminator = true
  nodup : (l.map (fun x => x.id)).Nodup
  alloc : ∀ x ∈ l, x.id < s.nextId
  phis : phisLead l

/-- What one iteration of the block loop of `replicate` achieves. -/
structure BlockDone (M : Module) (order : CloneMap → CloneMap) (bbCount : Nat)
    (l : List Instruction) (s : PassState) (rep : BlockRep) (s' : PassState) : Prop where
  run : replicateBlock M order bbCount { insts := l } s = some (rep, s')
  map : rep.cloneMap = (cloneInsts l s).2.1
  ctx : RepCtx s.nextId (cloneInsts l s).2.2.nextId l rep.cloneMap
  inv : ∃ done num, (∀ e, e ∈ done ↔ e ∈ rep.cloneMap) ∧
    RepInv (uniqueID bbCount l.length) s.nextId (cloneInsts l s).2.2.nextId l rep.cloneMap
      done done num rep.block.insts s'
  nextId : s'.nextId = s.nextId + (l.filter canClone).length +
    3 * ((l.filter canClone).filter (fun i => i.ty.isCompared)).length
  added : s'.SWFTAdded = (cloneInsts l s).2.2.SWFTAdded
  length : rep.block.insts.length = l.length + rep.cloneMap.length +
    3 * (rep.cloneMap.filter (fun e => e.1.ty.isCompared)).length

/-- What the second loop of `verifyControlFlow` does to the block at position
`k`, with instructions `l`, at allocator state `s`: the result `g` and the
state `s'` it leaves. -/
structure SigDone (idMap : List Nat) (k : Nat) (l : List Instruction)
    (s : PassState) (g : BlockSig) (s' : PassState) : Prop where
  shape : ∃ phis body t r,
    l = phis ++ body ++ [t] ∧ (∀ x ∈ phis, x.isPHI = true) ∧
    (∀ y, (body ++ [t]).head? = some y → y.isPHI = false) ∧ t.isTerminator = true ∧
    signTerminator idMap k t
      (if k = 0 then getInt32 (idOf idMap k) else Value.inst (s.nextId + 2))
      { s with nextId := if k = 0 then s.nextId else s.nextId + 6 } = some r ∧
    s' = r.2.2 ∧ g.diff = r.1.map Prod.fst ∧ g.dest = r.1.map Prod.snd ∧
    (k = 0 → g.block.insts = phis ++ body ++ r.2.1 ++ [t] ∧
      g.diffPhi = none ∧ g.destPhi = none) ∧
    (k ≠ 0 → g.block.insts =
        phis ++ ([phiNode s.nextId [] [], phiNode (s.nextId + 1) [] []] ++
          cfgCheck (idOf idMap k) s.nextId) ++ body ++ r.2.1 ++ [t] ∧
      g.diffPhi = some s.nextId ∧ g.destPhi = some (s.nextId + 1))

/-- A phi node with further incoming values. -/
def addAll (D : Instruction) (vals : List Value) (preds : List Nat) : Instruction :=
  { D with operands := D.operands ++ vals, incoming := D.incoming ++ preds }

/-- What `verifyControlFlow` makes of the block at position `k`, with
instructions `l`, reached at allocator state `s`: `l` splits into leading phi
nodes, body and terminator `t`; `r` is what the terminator analysis returns;
`out` is the block in the result. -/
structure CFDone (idMap : List Nat) (diffMap destMap : List (Option Value))
    (preds : List Nat) (k : Nat) (l : List Instruction) (s : PassState)
    (phis body : List Instruction) (t : Instruction)
    (r : Option (Value × Value) × List Instruction × PassState)
    (out : List Instruction) : Prop where
  hsplit : l = phis ++ body ++ [t]
  hphis : ∀ x ∈ phis, x.isPHI = true
  hhead : ∀ y, (body ++ [t]).head? = some y → y.isPHI = false
  hterm : t.isTerminator = true
  hsign : signTerminator idMap k t
      (if k = 0 then getInt32 (idOf idMap k) else Value.inst (s.nextId + 2))
      { s with nextId := if k = 0 then s.nextId else s.nextId + 6 } = some r
  hentry : k = 0 → out = phis ++ body ++ r.2.1 ++ [t]
  hother : k ≠ 0 → out =
    phis ++ ([phiNode s.nextId (preds.map (incomingDiff idMap diffMap k)) preds,
              phiNode (s.nextId + 1) (preds.map (incomingDest idMap destMap k)) preds] ++
            cfgCheck (idOf idMap k) s.nextId) ++ body ++ r.2.1 ++ [t]

/-- What `verifyControlFlow` needs of a function at allocator state `s`: every
block ends in a terminator, identities are allocated, the terminators that
are branches are well shaped, and the entry block has no predecessor. -/
structure CFReady (f : Function) (s : PassState) : Prop where
  terminated : ∀ b ∈ f.blocks, (getTerminator b.insts).isSome = true
  allocated : ∀ b ∈ f.blocks, ∀ x ∈ b.insts, x.id < s.nextId
  branches : ∀ b ∈ f.blocks, ∀ t, getTerminator b.insts = some t → branchShaped t
  entry : predecessors f.blocks 0 = []

/-- A value the signature scheme records: an instruction or an integer constant. -/
def Value.isSig : Value → Bool
  | .inst _ => true
  | .constInt _ _ => true
  | _ => false

/-- What holds when control enters block `cur` from `pred` with environment
`env`: the two values the third loop registered for that edge evaluate to a
pair whose XOR is the ID of `cur`. -/
def EntryCond (idMap : List Nat) (dm xm : List (Option Value)) (blocks : List BasicBlock)
    (cur : Nat) (pred : Option Nat) (env : Env) : Prop :=
  cur ≠ 0 → ∃ p, pred = some p ∧ p ∈ predecessors blocks cur ∧
    ∃ dv xv, (∀ o, evalValue env o (incomingDiff idMap dm cur p) = some dv) ∧
      (∀ o, evalValue env o (incomingDest idMap xm cur p) = some xv) ∧
      dv ^^^ xv = idOf idMap cur

/-- What a visit of a non-entry block shows when the block's check passes: the
Diff and Dest nodes `d` and `d + 1` XOR to the block's ID, the widened
comparison is 1, and the call of `assert_cfg_ft` received 1, the value of
Dest and the block's ID. -/
def CheckPassed (res : CFResult) (v : Visit) : Prop :=
  ∃ d, res.diffPhiMap.get? v.block = some (some d) ∧
    res.destPhiMap.get? v.block = some (some (d + 1)) ∧
    v.env d ^^^ v.env (d + 1) = idOf res.idMap v.block ∧
    v.env (d + 4) = 1 ∧
    ({ inst := d + 5, callee := some (Value.func FuncName.assert_cfg_ft),
       args := [some 1, some (v.env (d + 1)), some (idOf res.idMap v.block)] } : CallEvent) ∈
      v.calls

/-- Declaration of the data-flow handler. -/
def exAssertFt : Function := { name := FuncName.assert_ft, blocks := [] }

/-- Declaration of the control-flow handler. -/
def exAssertCfgFt : Function := { name := FuncName.assert_cfg_ft, blocks := [] }

/-- A module that declares both handlers. -/
def exModule : Module := { functions := [exAssertFt, exAssertCfgFt] }

/-- A diamond: the entry block branches on a comparison to block 1 or block 2,
both branch to block 3, which merges a value and returns. -/
def exDiamond : Function :=
  { name := FuncName.user 0,
    blocks :=
      [ { insts :=
            [ { id := 0, opcode := Opcode.other 13, ty := Ty.integer 32,
                operands := [Value.arg 0, Value.arg 1] },
              { id := 1, opcode := Opcode.icmpEQ, ty := Ty.integer 1,
                operands := [Value.inst 0, Value.constInt 32 0] },
              { id := 2, opcode := Opcode.br, ty := Ty.void,
                operands := [Value.inst 1], succs := [1, 2] } ] },
        { insts :=
            [ { id := 3, opcode := Opcode.other 18, ty := Ty.double,
                operands := [Value.arg 2, Value.arg 2] },
              { id := 4, opcode := Opcode.br, ty := Ty.void, operands := [], succs := [3] } ] },
        { insts :=
            [ { id := 5, opcode := Opcode.store, ty := Ty.void,
                operands := [Value.inst 0, Value.arg 3] },
              { id := 6, opcode := Opcode.br, ty := Ty.void, operands := [], succs := [3] } ] },
        { insts :=
            [ { id := 7, opcode := Opcode.phi, ty := Ty.integer 32,
                operands := [Value.inst 0, Value.constInt 32 1], incoming := [1, 2] },
              { id := 8, opcode := Opcode.other 17, ty := Ty.integer 32,
                operands := [Value.inst 7, Value.inst 0] },
              { id := 9, opcode := Opcode.ret, ty := Ty.void,
                operands := [Value.inst 8] } ] } ] }

/-- The allocator behind the ten instructions of the diamond. -/
def exState : PassState := { nextId := 10, SWFTAdded := 0 }

/-- A single block that adds two doubles and returns the sum. -/
def exDouble : Function :=
  { name := FuncName.user 1,
    blocks :=
      [ { insts :=
            [ { id := 0, opcode := Opcode.other 14, ty := Ty.double,
                operands := [Value.arg 0, Value.arg 1] },
              { id := 1, opcode := Opcode.ret, ty := Ty.void,
                operands := [Value.inst 0] } ] } ] }

/-- The function `replicate` makes of `exDouble`: the sum and its clone, no
comparison and no call. -/
def exDoubleOut : Function :=
  { name := FuncName.user 1,
    blocks :=
      [ { insts :=
            [ { id := 2, opcode := Opcode.other 14, ty := Ty.double,
                operands := [Value.arg 0, Value.arg 1] },
              { id := 0, opcode := Opcode.other 14, ty := Ty.double,
                operands := [Value.arg 0, Value.arg 1] },
              { id := 1, opcode := Opcode.ret, ty := Ty.void,
                operands := [Value.inst 0] } ] } ] }

/-- Three blocks in a row: block 0 branches to block 1, block 1 to block 2,
which returns. -/
def exChain : Function :=
  { name := FuncName.user 2,
    blocks :=
      [ { insts := [ { id := 0, opcode := Opcode.br, ty := Ty.void, operands := [],
                       succs := [1] } ] },
        { insts := [ { id := 1, opcode := Opcode.br, ty := Ty.void, operands := [],
                       succs := [2] } ] },
        { insts := [ { id := 2, opcode := Opcode.ret, ty := Ty.void, operands := [] } ] } ] }

/-- An oracle for the diamond: every result it supplies is 7, so the
comparison of the entry block with 0 is false and the branch takes
successor 1. -/
def exOracle : Oracle := { result := fun _ => 7, input := fun _ => 0, choice := 0 }

/-- What a visit of a non-entry block shows when the block's check fails: the
Diff and Dest nodes `d` and `d + 1` do not XOR to the block's ID, the widened
comparison is 0, and the call of `assert_cfg_ft` received 0, the value of
Dest and the block's ID. -/
def CheckFailed (res : CFResult) (v : Visit) : Prop :=
  ∃ d, res.diffPhiMap.get? v.block = some (some d) ∧
    res.destPhiMap.get? v.block = some (some (d + 1)) ∧
    v.env d ^^^ v.env (d + 1) ≠ idOf res.idMap v.block ∧
    v.env (d + 4) = 0 ∧
    ({ inst := d + 5, callee := some (Value.func FuncName.assert_cfg_ft),
       args := [some 0, some (v.env (d + 1)), some (idOf res.idMap v.block)] } : CallEvent) ∈
      v.calls

/-! ## The pass over a module -/

/-- The command-line options declared for the pass. -/
structure Options where
  NoSWFT : Bool
  NoReplicate : Bool
  NoControlProtection : Bool
deriving DecidableEq, Repr

/-- The globals `AssertFT` and `AssertCFG`, set outside the pass: the position
in the module's function list of the function each callee points to, `none`
for a callee that is null or is no function of the module. -/
structure Callees where
  AssertFT : Option Nat
  AssertCFG : Option Nat
deriving DecidableEq, Repr

/-- The test of the first loop of `SoftwareFaultTolerance` on the function at
position `k`: it has a body and is neither callee. -/
def instrumentable (c : Callees) (k : Nat) (g : Function) : Bool :=
  decide (g.blocks.length > 0) && decide (some k ≠ c.AssertFT) &&
    decide (some k ≠ c.AssertCFG)

/-- First loop of `SoftwareFaultTolerance`: `flist`, as the positions of the
functions it collects; `k` is the position of the head of the list. -/
def selectFunctions (c : Callees) : Nat → List Function → List Nat
  | _, [] => []
  | k, g :: gs =>
    if instrumentable c k g then k :: selectFunctions c (k + 1) gs
    else selectFunctions c (k + 1) gs

/-- The module after the function at position `k` has been rewritten in place. -/
def setFunction (M : Module) (k : Nat) (g : Function) : Module :=
  { functions := M.functions.set k g }

/-- Second loop of `SoftwareFaultTolerance`: `replicate`, then
`verifyControlFlow`, on each collected function in turn. -/
def protectFunctions (order : CloneMap → CloneMap) :
    List Nat → Module → PassState → Option (Module × PassState)
  | [], M, s => some (M, s)
  | k :: ks, M, s =>
    match M.functions.get? k with
    | none => none
    | some g =>
      match replicate g M order s with
      | none => none
      | some r1 =>
        let M1 := setFunction M k r1.1
        match verifyControlFlow r1.1 M1 r1.2 with
        | none => none
        | some r2 => protectFunctions order ks (setFunction M1 k r2.1) r2.2

/-- Source: `SoftwareFaultTolerance`. -/
def SoftwareFaultTolerance (c : Callees) (order : CloneMap → CloneMap) (M : Module)
    (s : PassState) : Option (Module × PassState) :=
  protectFunctions order (selectFunctions c 0 M.functions) M s

/-- The step of `main` that runs the pass: skipped under `-no-swft`. -/
def runPass (opts : Options) (c : Callees) (order : CloneMap → CloneMap) (M : Module)
    (s : PassState) : Option (Module × PassState) :=
  if opts.NoSWFT then some (M, s) else SoftwareFaultTolerance c order M s

/-- Number of instructions of a module. -/
def Module.size (M : Module) : Nat :=
  (M.functions.map (fun g => g.allInsts.length)).sum

/-- The call instructions of a module whose callee is `h`. -/
def Module.callsTo (M : Module) (h : FuncName) : List Instruction :=
  (M.functions.flatMap (fun g => g.allInsts)).filter
    (fun x => x.opcode == Opcode.call && x.operands.getLast? == some (Value.func h))

/-- The phi nodes of a module. -/
def Module.phis (M : Module) : List Instruction :=
  (M.functions.flatMap (fun g => g.allInsts)).filter (fun x => x.isPHI)

/-- A module with the two handlers and the diamond. -/
def exProgram : Module := { functions := [exAssertFt, exAssertCfgFt, exDiamond] }

/-- The callees as the helper-building step leaves them for `exProgram`. -/
def exCallees : Callees := { AssertFT := some 0, AssertCFG := some 1 }

/-- A module without handlers, holding only `exDouble`. -/
def exBare : Module := { functions := [exDouble] }

/-- What `replicate` needs of a function at allocator state `s`: blocks that
end in a terminator, hold distinct allocated identities and lead with their
phi nodes; well-shaped branches; an entry block without predecessor. -/
structure RepReady (f : Function) (s : PassState) : Prop where
  blocks : ∀ b ∈ f.blocks, BlockOK s b.insts
  branches : ∀ b ∈ f.blocks, ∀ t, getTerminator b.insts = some t → branchShaped t
  entry : predecessors f.blocks 0 = []

/-- The call instructions of a function whose callee is `h`. -/
def Function.callsTo (f : Function) (h : FuncName) : List Instruction :=
  f.allInsts.filter
    (fun x => x.opcode == Opcode.call && x.operands.getLast? == some (Value.func h))

/-! ## Fault injection on the instrumented function -/

/-- The `select` of a two-way branch after the fault: each arm that stands for
the ID of successor `B` holds the constant `c` instead. -/
def corruptSelect (B c : Nat) (succs : List Nat) (I : Instruction) : Instruction :=
  match I.operands, succs with
  | [cond, a0, a1], [S0, S1] =>
    { I with operands := [cond, if S0 = B then getInt32 c else a0,
                                if S1 = B then getInt32 c else a1] }
  | _, _ => I

/-- A merge node after the fault: the value `v` on every entry for the
predecessor `P`. -/
def corruptIncoming (P : Nat) (v : Value) (I : Instruction) : Instruction :=
  { I with
    operands := List.zipWith (fun q old => if q = P then v else old) I.incoming I.operands }

/-- The block list with the block at position `k` rewritten by `g`. -/
def updateBlock (g : List Instruction → List Instruction) :
    Nat → List BasicBlock → List BasicBlock
  | _, [] => []
  | 0, b :: bs => { insts := g b.insts } :: bs
  | k + 1, b :: bs => b :: updateBlock g k bs

/-- The instrumented function with the constant that stands for the ID of `B`
in the outgoing diff of `P` replaced by `c`.  When the diff of `P` is computed
at run time (`xor` of the block's ID with a `select` of the successors' IDs)
the constant is the `select` arm for `B`; when the builder folded the diff to
the constant `id(P) XOR id(B)`, that constant lives in the entry for `P` of the
Diff node of `B`, and becomes `id(P) XOR c`.  A diff the builder folded to
poison (the branch of `P` is on poison) holds no such constant, and the
function is left as it is. -/
def injectFault (res : CFResult) (P B c : Nat) : List BasicBlock :=
  match res.diffMap.getD P none with
  | some (Value.inst m) =>
    (match (res.f.blocks.get? P).bind (fun b => getTerminator b.insts) with
     | some t =>
       updateBlock (updateInst (m - 1) (corruptSelect B c t.succs)) P res.f.blocks
     | none => res.f.blocks)
  | some (Value.constInt _ _) =>
    (match res.diffPhiMap.getD B none with
     | some d =>
       updateBlock (updateInst d (corruptIncoming P (getInt32 (idOf res.idMap P ^^^ c)))) B
         res.f.blocks
     | none => res.f.blocks)
  | _ => res.f.blocks

/-- The `select` and `xor` a two-way branch on a non-constant condition gets,
with the arms `a0` and `a1`. -/
def selectXor (n own : Nat) (c a0 a1 : Value) : List Instruction :=
  [ { id := n, opcode := Opcode.select, ty := Ty.integer 32, operands := [c, a0, a1] },
    { id := n + 1, opcode := Opcode.xor, ty := Ty.integer 32,
      operands := [getInt32 own, Value.inst n] } ]

/-- Entry condition on a path through the faulted function: the values the
merge nodes of `cur` hold for the edge taken (`gD` for the Diff node, the
recorded dest for the Dest node) XOR to the ID of `cur`, except over the
faulted edge `P → B`, where they do not. -/
def FaultEntry (idMap : List Nat) (xm : List (Option Value)) (blocks : List BasicBlock)
    (gD : Nat → Nat → Value) (P B : Nat) (cur : Nat) (pred : Option Nat) (env : Env) : Prop :=
  cur ≠ 0 → ∃ p, pred = some p ∧ p ∈ predecessors blocks cur ∧
    ∃ dv xv, (∀ o, evalValue env o (gD cur p) = some dv) ∧
      (∀ o, evalValue env o (incomingDest idMap xm cur p) = some xv) ∧
      ((p = P ∧ cur = B) → dv ^^^ xv ≠ idOf idMap cur) ∧
      (¬ (p = P ∧ cur = B) → dv ^^^ xv = idOf idMap cur)

/-- Three blocks: the entry block branches on `c` to block 1 or block 2, which
return. -/
def exBranchOn (c : Value) : Function :=
  { name := FuncName.user 4,
    blocks :=
      [ { insts := [ { id := 0, opcode := Opcode.br, ty := Ty.void, operands := [c],
                       succs := [1, 2] } ] },
        { insts := [ { id := 1, opcode := Opcode.ret, ty := Ty.void, operands := [] } ] },
        { insts := [ { id := 2, opcode := Opcode.ret, ty := Ty.void, operands := [] } ] } ] }

/-- A function whose entry block ends in a `switch` with the successors 1 and
2; both return. -/
def exSwitch : Function :=
  { name := FuncName.user 3,
    blocks :=
      [ { insts := [ { id := 0, opcode := Opcode.switch, ty := Ty.void,
                       operands := [Value.arg 0], succs := [1, 2] } ] },
        { insts := [ { id := 1, opcode := Opcode.ret, ty := Ty.void, operands := [] } ] },
        { insts := [ { id := 2, opcode := Opcode.ret, ty := Ty.void, operands := [] } ] } ] }

/-- An oracle under which the `switch` of `exSwitch` takes successor 1 of its
list, block 2. -/
def exChoice : Oracle := { result := fun _ => 0, input := fun _ => 0, choice := 1 }

/-- A module with the control-flow handler and the diamond, without
`assert_ft`. -/
def exNoFt : Module := { functions := [exAssertCfgFt, exDiamond] }

/-- The entry block of the diamond. -/
def exEntry : BasicBlock :=
  { insts :=
      [ { id := 0, opcode := Opcode.other 13, ty := Ty.integer 32,
          operands := [Value.arg 0, Value.arg 1] },
        { id := 1, opcode := Opcode.icmpEQ, ty := Ty.integer 1,
          operands := [Value.inst 0, Value.constInt 32 0] },
        { id := 2, opcode := Opcode.br, ty := Ty.void,
          operands := [Value.inst 1], succs := [1, 2] } ] }

/-- The first instruction of the diamond, an integer operation. -/
def exSum : Instruction :=
  { id := 0, opcode := Opcode.other 13, ty := Ty.integer 32,
    operands := [Value.arg 0, Value.arg 1] }

/-- The branch that ends the entry block of the diamond. -/
def exBranch : Instruction :=
  { id := 2, opcode := Opcode.br, ty := Ty.void, operands := [Value.inst 1], succs := [1, 2] }

/-- The `switch` that ends the entry block of `exSwitch`. -/
def exSwitchInst : Instruction :=
  { id := 0, opcode := Opcode.switch, ty := Ty.void, operands := [Value.arg 0],
    succs := [1, 2] }

/-! # Theorems -/

/-! ## Eligibility -/

theorem canRep_nextId (I : Instruction) (s : PassState) : (canRep I s).2.nextId = s.nextId := by
  unfold canRep
  split <;> try rfl
  split <;> rfl

theorem canRep_fst (I : Instruction) (s t : PassState) : (canRep I s).1 = (canRep I t).1 := by
  unfold canRep
  split <;> try rfl
  split <;> rfl

theorem canRep_true_iff (I : Instruction) (s : PassState) :
    (canRep I s).1 = true ↔
      I.opcode ≠ Opcode.store ∧ I.opcode ≠ Opcode.call ∧ I.opcode ≠ Opcode.alloca ∧
      I.opcode ≠ Opcode.br ∧ I.isTerminator = false := by
  unfold canRep
  split <;> simp_all
  split <;> simp_all

theorem isUndefOrPoison_iff (I : Instruction) :
    isUndefOrPoison I = true ↔ ∃ op ∈ I.operands, op = Value.undef ∨ op = Value.poison := by
  simp [isUndefOrPoison, List.any_eq_true]

theorem canClone_iff (I : Instruction) : canClone I = true ↔ ¬ Excluded I := by
  unfold canClone Excluded
  rw [Bool.and_eq_true, canRep_true_iff]
  have hU := isUndefOrPoison_iff I
  constructor
  · rintro ⟨⟨h1, h2, h3, h4, h5⟩, h6⟩
    have h7 : isUndefOrPoison I = false := by simpa using h6
    rintro (h | h | h | h | h | h)
    · exact h1 h
    · exact h2 h
    · exact h3 h
    · exact h4 h
    · rw [h5] at h; cases h
    · rw [hU.mpr h] at h7; cases h7
  · intro hn
    refine ⟨⟨fun e => hn (Or.inl e), fun e => hn (Or.inr (Or.inl e)),
      fun e => hn (Or.inr (Or.inr (Or.inl e))), fun e => hn (Or.inr (Or.inr (Or.inr (Or.inl e)))),
      ?_⟩, ?_⟩
    · cases hT : I.isTerminator
      · rfl
      · exact absurd (Or.inr (Or.inr (Or.inr (Or.inr (Or.inl hT))))) hn
    · cases hV : isUndefOrPoison I
      · rfl
      · exact absurd (Or.inr (Or.inr (Or.inr (Or.inr (Or.inr (hU.mp hV)))))) hn

theorem canClone_eq (I : Instruction) (s : PassState) :
    ((canRep I s).1 && (isUndefOrPoison I == false)) = canClone I := by
  unfold canClone
  rw [canRep_fst I s]

theorem canClone_not_terminator {I : Instruction} (h : canClone I = true) :
    I.isTerminator = false := by
  unfold canClone at h
  rw [Bool.and_eq_true, canRep_true_iff] at h
  exact h.1.2.2.2.2

/-! ## The cloning loop -/

theorem cloneInsts_nil (s : PassState) : cloneInsts [] s = ([], [], s) := rfl

theorem cloneInsts_cons_clone {I : Instruction} (h : canClone I = true)
    (rest : List Instruction) (s : PassState) :
    cloneInsts (I :: rest) s =
      ({ I with id := s.nextId } :: I ::
          (cloneInsts rest { (canRep I s).2 with nextId := s.nextId + 1 }).1,
       (I, s.nextId) :: (cloneInsts rest { (canRep I s).2 with nextId := s.nextId + 1 }).2.1,
       (cloneInsts rest { (canRep I s).2 with nextId := s.nextId + 1 }).2.2) := by
  have h1 := canClone_eq I s
  rw [h, Bool.and_eq_true] at h1
  rw [cloneInsts]
  simp only [h1.1, h1.2, if_true, canRep_nextId]

theorem cloneInsts_cons_skip {I : Instruction} (h : canClone I = false)
    (rest : List Instruction) (s : PassState) :
    cloneInsts (I :: rest) s =
      (I :: (cloneInsts rest (canRep I s).2).1,
       (cloneInsts rest (canRep I s).2).2.1,
       (cloneInsts rest (canRep I s).2).2.2) := by
  have h1 := canClone_eq I s
  rw [h, Bool.and_eq_false_iff] at h1
  rw [cloneInsts]
  rcases h1 with h1 | h1
  · simp [h1]
  · by_cases h2 : (canRep I s).1 = true
    · simp [h2, h1]
    · simp [h2]

/-- The keys of the clone map are the instructions that pass the test, in order. -/
theorem cloneInsts_keys (l : List Instruction) (s : PassState) :
    (cloneInsts l s).2.1.map Prod.fst = l.filter canClone := by
  induction l generalizing s with
  | nil => rfl
  | cons I rest ih =>
    by_cases h : canClone I = true
    · rw [cloneInsts_cons_clone h]; simp [h, ih]
    · have h' : canClone I = false := by simpa using h
      rw [cloneInsts_cons_skip h']; simp [h', ih]

theorem cloneInsts_nextId (l : List Instruction) (s : PassState) :
    (cloneInsts l s).2.2.nextId = s.nextId + (l.filter canClone).length := by
  induction l generalizing s with
  | nil => rfl
  | cons I rest ih =>
    by_cases h : canClone I = true
    · rw [cloneInsts_cons_clone h]; simp [h, ih]; omega
    · have h' : canClone I = false := by simpa using h
      rw [cloneInsts_cons_skip h']; simp [h', ih, canRep_nextId]

theorem cloneInsts_values (l : List Instruction) (s : PassState) :
    ∀ e ∈ (cloneInsts l s).2.1, s.nextId ≤ e.2 ∧ e.2 < (cloneInsts l s).2.2.nextId := by
  induction l generalizing s with
  | nil => intro e he; cases he
  | cons I rest ih =>
    by_cases h : canClone I = true
    · rw [cloneInsts_cons_clone h]
      intro e he
      rcases List.mem_cons.mp he with rfl | he
      · refine ⟨le_refl _, ?_⟩
        show s.nextId < _
        rw [cloneInsts_nextId]; simp; omega
      · have := ih _ e he
        simp at this ⊢
        omega
    · have h' : canClone I = false := by simpa using h
      rw [cloneInsts_cons_skip h']
      intro e he
      have := ih _ e he
      simpa [canRep_nextId] using this

/-! ## Lists: splitting and insertion -/

theorem splitAtFirstNonPHI_some {l front back : List Instruction}
    (h : splitAtFirstNonPHI l = some (front, back)) :
    l = front ++ back ∧ (∀ x ∈ front, x.isPHI = true) ∧
      ∃ y B, back = y :: B ∧ y.isPHI = false := by
  induction l generalizing front back with
  | nil => cases h
  | cons x xs ih =>
    rw [splitAtFirstNonPHI] at h
    by_cases hx : x.isPHI = true
    · rw [if_pos hx] at h
      cases hs : splitAtFirstNonPHI xs with
      | none => rw [hs] at h; cases h
      | some p =>
        rw [hs] at h
        simp only [Option.map_some', Option.some.injEq, Prod.mk.injEq] at h
        obtain ⟨h1, h2⟩ := h
        obtain ⟨e, hp, hb⟩ := @ih p.1 p.2 hs
        subst h1 h2
        refine ⟨by rw [e]; simp, ?_, hb⟩
        intro y hy
        rcases List.mem_cons.mp hy with rfl | hy
        · exact hx
        · exact hp y hy
    · rw [if_neg hx] at h
      simp only [Option.some.injEq, Prod.mk.injEq] at h
      obtain ⟨h1, h2⟩ := h
      subst h1 h2
      exact ⟨rfl, by simp, x, xs, rfl, by simpa using hx⟩

theorem splitAtFirstNonPHI_isSome {l : List Instruction}
    (h : ∃ x ∈ l, x.isPHI = false) : (splitAtFirstNonPHI l).isSome = true := by
  induction l with
  | nil => obtain ⟨x, hx, _⟩ := h; cases hx
  | cons y ys ih =>
    rw [splitAtFirstNonPHI]
    by_cases hy : y.isPHI = true
    · rw [if_pos hy]
      obtain ⟨x, hx, hx2⟩ := h
      rcases List.mem_cons.mp hx with rfl | hx
      · rw [hy] at hx2; cases hx2
      · have := ih ⟨x, hx, hx2⟩
        cases hs : splitAtFirstNonPHI ys with
        | none => rw [hs] at this; cases this
        | some p => rfl
    · rw [if_neg hy]; rfl

theorem splitAfter_some {k : Nat} {l front back : List Instruction}
    (h : splitAfter k l = some (front, back)) :
    l = front ++ back ∧ back ≠ [] ∧
      ∃ F x, front = F ++ [x] ∧ x.id = k ∧ ∀ y ∈ F, y.id ≠ k := by
  induction l generalizing front back with
  | nil => cases h
  | cons x xs ih =>
    simp only [splitAfter] at h
    by_cases hx : x.id = k
    · rw [if_pos hx] at h
      cases xs with
      | nil => cases h
      | cons y ys =>
        simp only [Option.some.injEq, Prod.mk.injEq] at h
        obtain ⟨h1, h2⟩ := h
        subst h1 h2
        exact ⟨rfl, by simp, [], x, rfl, hx, by simp⟩
    · rw [if_neg hx] at h
      cases hs : splitAfter k xs with
      | none => rw [hs] at h; cases h
      | some p =>
        rw [hs] at h
        simp only [Option.map_some', Option.some.injEq, Prod.mk.injEq] at h
        obtain ⟨h1, h2⟩ := h
        obtain ⟨e, hb, F, z, hF, hz, hall⟩ := @ih p.1 p.2 hs
        subst h1 h2
        refine ⟨by rw [e]; simp, hb, x :: F, z, by rw [hF]; simp, hz, ?_⟩
        intro y hy
        rcases List.mem_cons.mp hy with rfl | hy
        · exact hx
        · exact hall y hy

theorem splitAfter_isSome {k : Nat} {l : List Instruction}
    (h : ∃ x ∈ l.dropLast, x.id = k) : (splitAfter k l).isSome = true := by
  induction l with
  | nil => obtain ⟨x, hx, _⟩ := h; simp at hx
  | cons y ys ih =>
    simp only [splitAfter]
    by_cases hy : y.id = k
    · rw [if_pos hy]
      cases ys with
      | nil => obtain ⟨x, hx, _⟩ := h; simp at hx
      | cons z zs => rfl
    · rw [if_neg hy]
      obtain ⟨x, hx, hx2⟩ := h
      cases ys with
      | nil => simp at hx
      | cons z zs =>
        rw [List.dropLast_cons₂] at hx
        rcases List.mem_cons.mp hx with rfl | hx
        · exact absurd hx2 hy
        · have := ih ⟨x, hx, hx2⟩
          cases hs : splitAfter k (z :: zs) with
          | none => rw [hs] at this; cases this
          | some p => rfl

/-- Inserting `new` at a cut of `pre ++ xs ++ post` that does not fall strictly
inside `xs` inserts it into `pre` or into `post`. -/
theorem insert_outside {α : Type} {xs pre post front back : List α} (new : List α)
    (e : front ++ back = pre ++ xs ++ post)
    (hno : ∀ a b F B, a ≠ [] → b ≠ [] → xs = a ++ b → front = F ++ a → back = b ++ B → False) :
    (∃ a b, pre = a ++ b ∧ front = a ∧ front ++ new ++ back = (a ++ new ++ b) ++ xs ++ post) ∨
    (∃ a b, post = a ++ b ∧ back = b ∧ front ++ new ++ back = pre ++ xs ++ (a ++ new ++ b)) := by
  rw [List.append_assoc, List.append_eq_append_iff] at e
  rcases e with ⟨a', h1, h2⟩ | ⟨c', h1, h2⟩
  · left
    exact ⟨front, a', h1, rfl, by rw [h2]; simp⟩
  · rw [List.append_eq_append_iff] at h2
    rcases h2 with ⟨a'', h3, h4⟩ | ⟨c'', h3, h4⟩
    · right
      refine ⟨a'', back, h4, rfl, ?_⟩
      rw [h1, h3]; simp
    · by_cases hc : c' = []
      · subst hc
        left
        simp only [List.nil_append] at h3
        simp only [List.append_nil] at h1
        subst h3 h1
        exact ⟨front, [], by simp, rfl, by rw [h4]; simp⟩
      · by_cases ha : c'' = []
        · subst ha
          simp only [List.append_nil] at h3
          simp only [List.nil_append] at h4
          subst h3 h4
          right
          exact ⟨[], back, by simp, rfl, by rw [h1]; simp⟩
        · exact (hno c' c'' pre post hc ha h3 h1 h4).elim

/-! ## What the cloning loop leaves -/

theorem rawClone_id (i : Instruction) (c : Nat) : (rawClone i c).id = c := rfl

theorem rawClone_isPHI (i : Instruction) (c : Nat) : (rawClone i c).isPHI = i.isPHI := rfl

theorem rawClone_isTerminator (i : Instruction) (c : Nat) :
    (rawClone i c).isTerminator = i.isTerminator := rfl

theorem remapOperands_id (cm : CloneMap) (i : Instruction) : (remapOperands cm i).id = i.id := rfl

theorem remapOperands_isPHI (cm : CloneMap) (i : Instruction) :
    (remapOperands cm i).isPHI = i.isPHI := rfl

theorem remapOperands_isTerminator (cm : CloneMap) (i : Instruction) :
    (remapOperands cm i).isTerminator = i.isTerminator := rfl

theorem cloneInsts_key_mem (l : List Instruction) (s : PassState) :
    ∀ e ∈ (cloneInsts l s).2.1, e.1 ∈ l ∧ canClone e.1 = true := by
  intro e he
  have h : e.1 ∈ (cloneInsts l s).2.1.map Prod.fst := List.mem_map_of_mem _ he
  rw [cloneInsts_keys] at h
  exact List.mem_filter.mp h

theorem cloneInsts_mem (l : List Instruction) (s : PassState) :
    ∀ x ∈ (cloneInsts l s).1,
      x ∈ l ∨ ∃ e ∈ (cloneInsts l s).2.1, x = rawClone e.1 e.2 := by
  induction l generalizing s with
  | nil => intro x hx; cases hx
  | cons I rest ih =>
    by_cases h : canClone I = true
    · rw [cloneInsts_cons_clone h]
      intro x hx
      rcases List.mem_cons.mp hx with rfl | hx
      · exact Or.inr ⟨(I, s.nextId), List.mem_cons_self _ _, rfl⟩
      · rcases List.mem_cons.mp hx with rfl | hx
        · exact Or.inl (List.mem_cons_self _ _)
        · rcases ih _ x hx with h1 | ⟨e, he, h2⟩
          · exact Or.inl (List.mem_cons_of_mem _ h1)
          · exact Or.inr ⟨e, List.mem_cons_of_mem _ he, h2⟩
    · have h' : canClone I = false := by simpa using h
      rw [cloneInsts_cons_skip h']
      intro x hx
      rcases List.mem_cons.mp hx with rfl | hx
      · exact Or.inl (List.mem_cons_self _ _)
      · rcases ih _ x hx with h1 | ⟨e, he, h2⟩
        · exact Or.inl (List.mem_cons_of_mem _ h1)
        · exact Or.inr ⟨e, he, h2⟩

theorem cloneInsts_alloc (l : List Instruction) (s : PassState)
    (h : ∀ x ∈ l, x.id < s.nextId) :
    ∀ x ∈ (cloneInsts l s).1, x.id < (cloneInsts l s).2.2.nextId := by
  intro x hx
  rcases cloneInsts_mem l s x hx with h1 | ⟨e, he, h2⟩
  · have := h x h1
    rw [cloneInsts_nextId]; omega
  · rw [h2, rawClone_id]; exact (cloneInsts_values l s e he).2

theorem cloneInsts_orig (lo0 : Nat) (l : List Instruction) (s : PassState)
    (h : ∀ x ∈ l, x.id < lo0) (hs : lo0 ≤ s.nextId) :
    (cloneInsts l s).1.filter (fun x => decide (x.id < lo0)) = l := by
  induction l generalizing s with
  | nil => rfl
  | cons I rest ih =>
    have hI : I.id < lo0 := h I (List.mem_cons_self _ _)
    have hr : ∀ x ∈ rest, x.id < lo0 := fun x hx => h x (List.mem_cons_of_mem _ hx)
    by_cases hc : canClone I = true
    · rw [cloneInsts_cons_clone hc]
      have hn : ¬ (s.nextId < lo0) := by omega
      simp only [List.filter_cons, hn, decide_False, hI, decide_True, if_true]
      simp only [Bool.false_eq_true, if_false]
      rw [ih _ hr (by simp; omega)]
    · have h' : canClone I = false := by simpa using hc
      rw [cloneInsts_cons_skip h']
      simp only [List.filter_cons, hI, decide_True, if_true]
      rw [ih _ hr (by rw [canRep_nextId]; exact hs)]

theorem cloneInsts_last (l : List Instruction) (s : PassState) :
    (cloneInsts l s).1.getLast? = l.getLast? := by
  induction l generalizing s with
  | nil => rfl
  | cons I rest ih =>
    by_cases hc : canClone I = true
    · rw [cloneInsts_cons_clone hc]
      simp only [List.getLast?_cons_cons]
      rw [List.getLast?_cons, List.getLast?_cons, ih]
    · have h' : canClone I = false := by simpa using hc
      rw [cloneInsts_cons_skip h']
      rw [List.getLast?_cons, List.getLast?_cons, ih]

theorem cloneInsts_nodup (l : List Instruction) (s : PassState)
    (hN : (l.map (fun x => x.id)).Nodup) (h : ∀ x ∈ l, x.id < s.nextId) :
    ((cloneInsts l s).1.map (fun x => x.id)).Nodup := by
  induction l generalizing s with
  | nil => exact List.nodup_nil
  | cons I rest ih =>
    have hI : I.id < s.nextId := h I (List.mem_cons_self _ _)
    have hr : ∀ x ∈ rest, x.id < s.nextId := fun x hx => h x (List.mem_cons_of_mem _ hx)
    rw [List.map_cons, List.nodup_cons] at hN
    have key : ∀ (t : PassState), s.nextId ≤ t.nextId →
        I.id ∉ (cloneInsts rest t).1.map (fun x => x.id) := by
      intro t ht hmem
      obtain ⟨x, hx, hxi⟩ := List.mem_map.mp hmem
      rcases cloneInsts_mem rest t x hx with h1 | ⟨e, he, h2⟩
      · exact hN.1 (List.mem_map.mpr ⟨x, h1, hxi⟩)
      · have := (cloneInsts_values rest t e he).1
        rw [h2, rawClone_id] at hxi
        omega
    by_cases hc : canClone I = true
    · rw [cloneInsts_cons_clone hc]
      simp only [List.map_cons, List.nodup_cons, List.mem_cons, not_or]
      refine ⟨⟨by omega, ?_⟩, key _ (by simp), ih _ hN.2 (fun x hx => by simp; have := hr x hx; omega)⟩
      intro hmem
      obtain ⟨x, hx, hxi⟩ := List.mem_map.mp hmem
      rcases cloneInsts_mem rest _ x hx with h1 | ⟨e, he, h2⟩
      · have := hr x h1
        omega
      · have := (cloneInsts_values rest _ e he).1
        rw [h2, rawClone_id] at hxi
        simp at this hxi
        omega
    · have h' : canClone I = false := by simpa using hc
      rw [cloneInsts_cons_skip h']
      simp only [List.map_cons, List.nodup_cons]
      exact ⟨key _ (by rw [canRep_nextId]), ih _ hN.2 (by rw [canRep_nextId]; exact hr)⟩

theorem Adjacent.cons {α : Type} {xs l : List α} (a : α) (h : Adjacent xs l) :
    Adjacent xs (a :: l) := by
  obtain ⟨pre, post, e⟩ := h
  exact ⟨a :: pre, post, by rw [e]; simp⟩

theorem cloneInsts_adjacent (l : List Instruction) (s : PassState) :
    ∀ e ∈ (cloneInsts l s).2.1, Adjacent [rawClone e.1 e.2, e.1] (cloneInsts l s).1 := by
  induction l generalizing s with
  | nil => intro e he; cases he
  | cons I rest ih =>
    by_cases hc : canClone I = true
    · rw [cloneInsts_cons_clone hc]
      intro e he
      rcases List.mem_cons.mp he with rfl | he
      · exact ⟨[], _, rfl⟩
      · exact (ih _ e he).cons _ |>.cons _
    · have h' : canClone I = false := by simpa using hc
      rw [cloneInsts_cons_skip h']
      intro e he
      exact (ih _ e he).cons _

theorem cloneInsts_inj (l : List Instruction) (s : PassState)
    (hN : (l.map (fun x => x.id)).Nodup) (h : ∀ x ∈ l, x.id < s.nextId) :
    ∀ e ∈ (cloneInsts l s).2.1, ∀ e' ∈ (cloneInsts l s).2.1,
      (e.1.id = e'.1.id ∨ e.2 = e'.2) → e = e' := by
  induction l generalizing s with
  | nil => intro e he; cases he
  | cons I rest ih =>
    have hr : ∀ x ∈ rest, x.id < s.nextId := fun x hx => h x (List.mem_cons_of_mem _ hx)
    rw [List.map_cons, List.nodup_cons] at hN
    by_cases hc : canClone I = true
    · rw [cloneInsts_cons_clone hc]
      have aux : ∀ e' ∈ (cloneInsts rest { (canRep I s).2 with nextId := s.nextId + 1 }).2.1,
          ¬ (I.id = e'.1.id ∨ s.nextId = e'.2) := by
        intro e' he' hor
        have hv := (cloneInsts_values rest _ e' he').1
        have hk := (cloneInsts_key_mem rest _ e' he').1
        rcases hor with h1 | h1
        · exact hN.1 (List.mem_map.mpr ⟨e'.1, hk, h1.symm⟩)
        · simp at hv; omega
      intro e he e' he' hor
      rcases List.mem_cons.mp he with rfl | he
      · rcases List.mem_cons.mp he' with rfl | he'
        · rfl
        · exact (aux e' he' hor).elim
      · rcases List.mem_cons.mp he' with rfl | he'
        · exact (aux e he (hor.imp Eq.symm Eq.symm)).elim
        · exact ih _ hN.2 (fun x hx => by simp; have := hr x hx; omega) e he e' he' hor
    · have h' : canClone I = false := by simpa using hc
      rw [cloneInsts_cons_skip h']
      exact ih _ hN.2 (by rw [canRep_nextId]; exact hr)

/-- Phi nodes first, in the form used by the proofs. -/
theorem phisLead_iff (l : List Instruction) :
    phisLead l ↔ ∃ ph rest, l = ph ++ rest ∧ (∀ x ∈ ph, x.isPHI = true) ∧
      (∀ x ∈ rest, x.isPHI = false) := by
  constructor
  · intro h
    refine ⟨l.takeWhile (fun i => i.isPHI), l.dropWhile (fun i => i.isPHI),
      (List.takeWhile_append_dropWhile _ l).symm, ?_, h⟩
    intro x hx
    exact List.mem_takeWhile_imp hx
  · rintro ⟨ph, rest, e, h1, h2⟩
    intro x hx
    subst e
    have : List.dropWhile (fun i => i.isPHI) (ph ++ rest) = rest := by
      rw [List.dropWhile_append_of_pos h1]
      cases rest with
      | nil => rfl
      | cons y ys =>
        rw [List.dropWhile_cons_of_neg]
        simp [h2 y (List.mem_cons_self _ _)]
    rw [this] at hx
    exact h2 x hx

theorem cloneInsts_phis (l : List Instruction) (s : PassState)
    (hp : ∃ ph rest, l = ph ++ rest ∧ (∀ x ∈ ph, x.isPHI = true) ∧
      (∀ x ∈ rest, x.isPHI = false)) :
    ∃ ph rest, (cloneInsts l s).1 = ph ++ rest ∧ (∀ x ∈ ph, x.isPHI = true) ∧
      (∀ x ∈ rest, x.isPHI = false) := by
  obtain ⟨ph, rest, e, h1, h2⟩ := hp
  subst e
  induction ph generalizing s with
  | nil =>
    refine ⟨[], _, rfl, by simp, ?_⟩
    intro x hx
    rcases cloneInsts_mem _ s x hx with h3 | ⟨e, he, h3⟩
    · exact h2 x (by simpa using h3)
    · rw [h3, rawClone_isPHI]
      exact h2 _ (by simpa using (cloneInsts_key_mem _ s e he).1)
  | cons p ps ih =>
    have hp : p.isPHI = true := h1 p (List.mem_cons_self _ _)
    have hps : ∀ x ∈ ps, x.isPHI = true := fun x hx => h1 x (List.mem_cons_of_mem _ hx)
    by_cases hc : canClone p = true
    · rw [List.cons_append, cloneInsts_cons_clone hc]
      obtain ⟨ph', rest', e', h1', h2'⟩ := ih { (canRep p s).2 with nextId := s.nextId + 1 } hps
      refine ⟨{ p with id := s.nextId } :: p :: ph', rest', by rw [e']; simp, ?_, h2'⟩
      intro x hx
      rcases List.mem_cons.mp hx with rfl | hx
      · exact hp
      · rcases List.mem_cons.mp hx with rfl | hx
        · exact hp
        · exact h1' x hx
    · have h' : canClone p = false := by simpa using hc
      rw [List.cons_append, cloneInsts_cons_skip h']
      obtain ⟨ph', rest', e', h1', h2'⟩ := ih (canRep p s).2 hps
      refine ⟨p :: ph', rest', by rw [e']; rfl, ?_, h2'⟩
      intro x hx
      rcases List.mem_cons.mp hx with rfl | hx
      · exact hp
      · exact h1' x hx

/-! ## Mutating one instruction of a block -/

theorem updateInst_append (k : Nat) (g : Instruction → Instruction) (a b : List Instruction) :
    updateInst k g (a ++ b) = updateInst k g a ++ updateInst k g b := by
  simp [updateInst]

theorem updateInst_cons (k : Nat) (g : Instruction → Instruction) (x : Instruction)
    (l : List Instruction) :
    updateInst k g (x :: l) = (if x.id = k then g x else x) :: updateInst k g l := by
  simp [updateInst]

theorem updateInst_of_ne (k : Nat) (g : Instruction → Instruction) (l : List Instruction)
    (h : ∀ x ∈ l, x.id ≠ k) : updateInst k g l = l := by
  induction l with
  | nil => rfl
  | cons x xs ih =>
    rw [updateInst_cons, if_neg (h x (List.mem_cons_self _ _)),
      ih (fun y hy => h y (List.mem_cons_of_mem _ hy))]

theorem mem_updateInst {k : Nat} {g : Instruction → Instruction} {l : List Instruction}
    {x : Instruction} :
    x ∈ updateInst k g l ↔ ∃ y ∈ l, x = if y.id = k then g y else y := by
  simp only [updateInst, List.mem_map]
  constructor
  · rintro ⟨y, hy, rfl⟩; exact ⟨y, hy, rfl⟩
  · rintro ⟨y, hy, rfl⟩; exact ⟨y, hy, rfl⟩

theorem updateInst_ids (k : Nat) (g : Instruction → Instruction) (l : List Instruction)
    (hg : ∀ x, (g x).id = x.id) :
    (updateInst k g l).map (fun x => x.id) = l.map (fun x => x.id) := by
  induction l with
  | nil => rfl
  | cons x xs ih =>
    rw [updateInst_cons, List.map_cons, List.map_cons, ih]
    by_cases h : x.id = k
    · rw [if_pos h, hg]
    · rw [if_neg h]

theorem updateInst_filter (k : Nat) (g : Instruction → Instruction) (p : Instruction → Bool)
    (l : List Instruction) (h1 : ∀ x ∈ l, x.id = k → p x = false ∧ p (g x) = false) :
    (updateInst k g l).filter p = l.filter p := by
  induction l with
  | nil => rfl
  | cons x xs ih =>
    rw [updateInst_cons, List.filter_cons, List.filter_cons,
      ih (fun y hy => h1 y (List.mem_cons_of_mem _ hy))]
    by_cases h : x.id = k
    · obtain ⟨ha, hb⟩ := h1 x (List.mem_cons_self _ _) h
      rw [if_pos h, ha, hb]; simp
    · rw [if_neg h]

theorem updateInst_getLast? (k : Nat) (g : Instruction → Instruction) (l : List Instruction) :
    (updateInst k g l).getLast? = l.getLast?.map (fun x => if x.id = k then g x else x) := by
  simp [updateInst]

/-- Two members of a list with pairwise distinct identities that share an
identity are the same. -/
theorem eq_of_id_eq {l : List Instruction} (hN : (l.map (fun x => x.id)).Nodup)
    {x y : Instruction} (hx : x ∈ l) (hy : y ∈ l) (h : x.id = y.id) : x = y :=
  List.inj_on_of_nodup_map hN hx hy h

theorem cloneState_id (cm : CloneMap) (dc : List (Instruction × Nat)) (e : Instruction × Nat) :
    (cloneState cm dc e).id = e.2 := by
  unfold cloneState; split <;> rfl

theorem cloneState_isPHI (cm : CloneMap) (dc : List (Instruction × Nat))
    (e : Instruction × Nat) : (cloneState cm dc e).isPHI = e.1.isPHI := by
  unfold cloneState; split <;> rfl

theorem cloneState_isTerminator (cm : CloneMap) (dc : List (Instruction × Nat))
    (e : Instruction × Nat) : (cloneState cm dc e).isTerminator = e.1.isTerminator := by
  unfold cloneState; split <;> rfl

theorem cloneState_cons_self (cm : CloneMap) (dc : List (Instruction × Nat))
    (e : Instruction × Nat) :
    cloneState cm (e :: dc) e = remapOperands cm (rawClone e.1 e.2) := by
  unfold cloneState; rw [if_pos (List.mem_cons_self _ _)]

theorem cloneState_cons_ne (cm : CloneMap) (dc : List (Instruction × Nat))
    {e e' : Instruction × Nat} (h : e' ≠ e) :
    cloneState cm (e :: dc) e' = cloneState cm dc e' := by
  unfold cloneState
  by_cases hm : e' ∈ dc
  · rw [if_pos hm, if_pos (List.mem_cons_of_mem _ hm)]
  · rw [if_neg hm, if_neg]
    intro hc
    rcases List.mem_cons.mp hc with h1 | h1
    · exact h h1
    · exact hm h1

theorem cloneState_not_mem (cm : CloneMap) {dc : List (Instruction × Nat)}
    {e : Instruction × Nat} (h : e ∉ dc) : cloneState cm dc e = rawClone e.1 e.2 := by
  unfold cloneState; rw [if_neg h]

theorem checkInsts_id_ge {uid : Nat} {i : Instruction} {c n : Nat} {x : Instruction}
    (h : x ∈ checkInsts uid i c n) : n ≤ x.id ∧ x.id < n + 3 := by
  simp only [checkInsts, List.mem_cons, List.mem_singleton, List.not_mem_nil, or_false] at h
  rcases h with rfl | rfl | rfl <;> constructor <;> simp

theorem checkInsts_isPHI {uid : Nat} {i : Instruction} {c n : Nat} {x : Instruction}
    (h : x ∈ checkInsts uid i c n) : x.isPHI = false := by
  simp only [checkInsts, List.mem_cons, List.mem_singleton, List.not_mem_nil, or_false] at h
  rcases h with rfl | rfl | rfl
  · simp only [Instruction.isPHI, cmpOpcode]; split <;> rfl
  · rfl
  · rfl

theorem checkInsts_isTerminator {uid : Nat} {i : Instruction} {c n : Nat} {x : Instruction}
    (h : x ∈ checkInsts uid i c n) : x.isTerminator = false := by
  simp only [checkInsts, List.mem_cons, List.mem_singleton, List.not_mem_nil, or_false] at h
  rcases h with rfl | rfl | rfl
  · simp only [Instruction.isTerminator, cmpOpcode]; split <;> rfl
  · rfl
  · rfl

/-- First half of a loop iteration: the operands of the clone are remapped. -/
theorem RepInv.update {uid lo0 lo : Nat} {l : List Instruction} {cm : CloneMap}
    {dc dk : List (Instruction × Nat)} {num : Instruction × Nat → Nat}
    {blk : List Instruction} {st : PassState}
    (ctx : RepCtx lo0 lo l cm) (inv : RepInv uid lo0 lo l cm dc dk num blk st)
    {e : Instruction × Nat} (he : e ∈ cm) (hnd : e ∉ dc) :
    RepInv uid lo0 lo l cm (e :: dc) dk num (updateInst e.2 (remapOperands cm) blk) st := by
  have hv := ctx.value e he
  -- the update leaves every instruction but the clone of `e` as it is
  have horig : ∀ x ∈ l, (if x.id = e.2 then remapOperands cm x else x) = x := by
    intro x hx
    have := ctx.origAlloc x hx
    rw [if_neg (by omega)]
  have hclone : ∀ e' ∈ cm, (if (cloneState cm dc e').id = e.2
      then remapOperands cm (cloneState cm dc e') else cloneState cm dc e') =
      cloneState cm (e :: dc) e' := by
    intro e' he'
    by_cases hee : e' = e
    · subst hee
      rw [cloneState_id, if_pos rfl, cloneState_cons_self, cloneState_not_mem cm hnd]
    · rw [cloneState_id, if_neg, cloneState_cons_ne cm dc hee]
      intro h2
      exact hee (ctx.inj e' he' e he (Or.inr h2))
  have hcheck : ∀ e' ∈ dk, e'.1.ty.isCompared = true →
      ∀ x ∈ checkInsts uid e'.1 e'.2 (num e'),
        (if x.id = e.2 then remapOperands cm x else x) = x := by
    intro e' he' hc x hx
    have h1 := (inv.numRange e' he' hc).1
    have h2 := (checkInsts_id_ge hx).1
    rw [if_neg (by omega)]
  have hmap : updateInst e.2 (remapOperands cm) blk =
      blk.map (fun x => if x.id = e.2 then remapOperands cm x else x) := rfl
  refine
    { lo_le := inv.lo_le
      alloc := ?_
      nodup := by rw [updateInst_ids _ _ _ (remapOperands_id cm)]; exact inv.nodup
      orig := ?_
      last := ?_
      phis := ?_
      dkMem := inv.dkMem
      numRange := inv.numRange
      classify := ?_
      clone := ?_
      check := ?_
      length := by rw [hmap, List.length_map]; exact inv.length }
  · intro x hx
    obtain ⟨y, hy, rfl⟩ := mem_updateInst.mp hx
    have := inv.alloc y hy
    split <;> simpa [remapOperands_id] using this
  · rw [updateInst_filter, inv.orig]
    intro x _ hx
    have : ¬ (x.id < lo0) := by omega
    simp [remapOperands_id, this]
  · rw [updateInst_getLast?, inv.last]
    cases hl : l.getLast? with
    | none => rfl
    | some t =>
      have ht : t ∈ l := List.mem_of_getLast?_eq_some hl
      simp only [Option.map_some']
      rw [horig t ht]
  · obtain ⟨ph, rest, e1, h1, h2⟩ := inv.phis
    refine ⟨updateInst e.2 (remapOperands cm) ph, updateInst e.2 (remapOperands cm) rest,
      by rw [e1, updateInst_append], ?_, ?_⟩
    · intro x hx
      obtain ⟨y, hy, rfl⟩ := mem_updateInst.mp hx
      have := h1 y hy
      split <;> simpa [remapOperands_isPHI] using this
    · intro x hx
      obtain ⟨y, hy, rfl⟩ := mem_updateInst.mp hx
      have := h2 y hy
      split <;> simpa [remapOperands_isPHI] using this
  · intro x hx
    obtain ⟨y, hy, rfl⟩ := mem_updateInst.mp hx
    rcases inv.classify y hy with h1 | ⟨e', he', h1⟩ | ⟨e', he', hc, h1⟩
    · left; rw [horig y h1]; exact h1
    · right; left
      refine ⟨e', he', ?_⟩
      rw [h1, hclone e' he']
    · right; right
      refine ⟨e', he', hc, ?_⟩
      rw [hcheck e' he' hc y h1]; exact h1
  · intro e' he'
    obtain ⟨pre, post, e1⟩ := inv.clone e' he'
    refine ⟨updateInst e.2 (remapOperands cm) pre, updateInst e.2 (remapOperands cm) post, ?_⟩
    rw [e1, updateInst_append, updateInst_append, updateInst_cons, updateInst_cons,
      hclone e' he', horig _ (ctx.key e' he').1]
    rfl
  · intro e' he' hc
    have hrun : updateInst e.2 (remapOperands cm) (checkInsts uid e'.1 e'.2 (num e')) =
        checkInsts uid e'.1 e'.2 (num e') := by
      apply updateInst_of_ne
      intro x hx
      have h1 := (inv.numRange e' he' hc).1
      have h2 := (checkInsts_id_ge hx).1
      omega
    have hplaced := inv.check e' he' hc
    unfold CheckPlaced at hplaced ⊢
    by_cases hphi : e'.1.isPHI = true
    · rw [if_pos hphi] at hplaced ⊢
      obtain ⟨pre, post, e1, hpost⟩ := hplaced
      refine ⟨updateInst e.2 (remapOperands cm) pre, updateInst e.2 (remapOperands cm) post,
        by rw [e1, updateInst_append, updateInst_append, hrun], ?_⟩
      intro x hx
      obtain ⟨y, hy, rfl⟩ := mem_updateInst.mp hx
      have := hpost y hy
      split <;> simpa [remapOperands_isPHI] using this
    · rw [if_neg hphi] at hplaced ⊢
      obtain ⟨pre, post, e1⟩ := hplaced
      refine ⟨updateInst e.2 (remapOperands cm) pre, updateInst e.2 (remapOperands cm) post, ?_⟩
      have hk : e'.1 ∈ l := (ctx.key e' (inv.dkMem e' he')).1
      rw [e1, updateInst_append, updateInst_append, updateInst_cons, hrun, horig _ hk]

/-! ## Cuts of a block -/

theorem mem_dropLast_of_append {α : Type} {xs a b : List α} (h : xs = a ++ b) (hb : b ≠ []) :
    ∀ x ∈ a, x ∈ xs.dropLast := by
  intro x hx
  subst h
  rw [List.dropLast_append_of_ne_nil _ hb]
  exact List.mem_append_left _ hx

theorem head_mem_of_append {α : Type} {a b : List α} {h : α} {t : List α}
    (e : h :: t = a ++ b) (ha : a ≠ []) : h ∈ a := by
  cases a with
  | nil => exact absurd rfl ha
  | cons a0 as =>
    simp only [List.cons_append, List.cons.injEq] at e
    rw [e.1]; exact List.mem_cons_self _ _

theorem head_tail_of_append {α : Type} {a b : List α} {h : α} {t : List α}
    (e : h :: t = a ++ b) (ha : a ≠ []) (hb : b ≠ []) :
    ∃ y B, b = y :: B ∧ y ∈ t := by
  cases a with
  | nil => exact absurd rfl ha
  | cons a0 as =>
    simp only [List.cons_append, List.cons.injEq] at e
    cases b with
    | nil => exact absurd rfl hb
    | cons y B => exact ⟨y, B, rfl, by rw [e.2]; simp⟩

theorem last_mem_of_append {α : Type} {F F' a : List α} {z : α}
    (e : F ++ [z] = F' ++ a) (ha : a ≠ []) : z ∈ a := by
  have h1 : (F ++ [z]).getLast? = some z := List.getLast?_concat F
  rw [e, List.getLast?_append] at h1
  cases hl : a.getLast? with
  | none => exact absurd (List.getLast?_eq_none_iff.mp hl) ha
  | some w =>
    rw [hl] at h1
    simp only [Option.or_some, Option.some.injEq] at h1
    subst h1
    exact List.mem_of_getLast?_eq_some hl

/-- A cut of a block whose phi nodes lead, taken behind a non-phi instruction
or in front of the first one, has only non-phi instructions after it. -/
theorem phis_cut {front back : List Instruction}
    (hp : ∃ ph rest, front ++ back = ph ++ rest ∧ (∀ x ∈ ph, x.isPHI = true) ∧
      (∀ x ∈ rest, x.isPHI = false))
    (hcut : (∃ F x, front = F ++ [x] ∧ x.isPHI = false) ∨
      ((∀ x ∈ front, x.isPHI = true) ∧ ∃ y B, back = y :: B ∧ y.isPHI = false)) :
    (∀ y ∈ back, y.isPHI = false) ∧
      ∃ fp fr, front = fp ++ fr ∧ (∀ x ∈ fp, x.isPHI = true) ∧ (∀ x ∈ fr, x.isPHI = false) := by
  obtain ⟨ph, rest, e, h1, h2⟩ := hp
  rw [List.append_eq_append_iff] at e
  rcases e with ⟨a', e1, e2⟩ | ⟨c', e1, e2⟩
  · -- ph = front ++ a', back = a' ++ rest
    have ha : a' = [] := by
      rcases hcut with ⟨F, x, hF, hx⟩ | ⟨_, y, B, hB, hy⟩
      · have : x ∈ ph := by rw [e1, hF]; simp
        rw [h1 x this] at hx; cases hx
      · cases a' with
        | nil => rfl
        | cons z zs =>
          rw [hB] at e2
          simp only [List.cons_append, List.cons.injEq] at e2
          have : z ∈ ph := by rw [e1]; simp
          rw [e2.1, h1 z this] at hy; cases hy
    subst ha
    simp only [List.append_nil] at e1
    simp only [List.nil_append] at e2
    subst e1 e2
    exact ⟨h2, ph, [], by simp, h1, by simp⟩
  · -- front = ph ++ c', rest = c' ++ back
    refine ⟨fun y hy => h2 y (by rw [e2]; exact List.mem_append_right _ hy), ph, c', e1, h1, ?_⟩
    intro x hx
    exact h2 x (by rw [e2]; exact List.mem_append_left _ hx)

theorem nodup_insert {α : Type} {a b c : List α} (h : (a ++ b).Nodup) (hc : c.Nodup)
    (hd : ∀ x ∈ c, x ∉ a ++ b) : (a ++ c ++ b).Nodup := by
  have hperm : (a ++ c ++ b).Perm (c ++ (a ++ b)) := by
    rw [List.append_assoc]
    exact (List.perm_append_comm_assoc a c b)
  rw [hperm.nodup_iff, List.nodup_append]
  exact ⟨hc, h, fun x hx hx' => hd x hx hx'⟩

theorem checkInsts_ids (uid : Nat) (i : Instruction) (c n : Nat) :
    (checkInsts uid i c n).map (fun x => x.id) = [n, n + 1, n + 2] := rfl

/-- What the cut taken for the pair `e` looks like. -/
theorem cut_shape {uid lo0 lo : Nat} {l : List Instruction} {cm : CloneMap}
    {dc dk : List (Instruction × Nat)} {num : Instruction × Nat → Nat}
    {blk : List Instruction} {st : PassState}
    (ctx : RepCtx lo0 lo l cm) (inv : RepInv uid lo0 lo l cm dc dk num blk st)
    {e : Instruction × Nat} (he : e ∈ cm) {front back : List Instruction}
    (hsplit : (if e.1.isPHI = true then splitAtFirstNonPHI blk else splitAfter e.1.id blk) =
      some (front, back)) :
    blk = front ++ back ∧ back ≠ [] ∧
      ((e.1.isPHI = false ∧ ∃ F, front = F ++ [e.1]) ∨
       (e.1.isPHI = true ∧ (∀ x ∈ front, x.isPHI = true) ∧
          ∃ y B, back = y :: B ∧ y.isPHI = false)) := by
  by_cases hphi : e.1.isPHI = true
  · rw [if_pos hphi] at hsplit
    obtain ⟨e1, h1, y, B, h2, h3⟩ := splitAtFirstNonPHI_some hsplit
    exact ⟨e1, by rw [h2]; simp, Or.inr ⟨hphi, h1, y, B, h2, h3⟩⟩
  · rw [if_neg hphi] at hsplit
    obtain ⟨e1, hb, F, x, hF, hx, _⟩ := splitAfter_some hsplit
    have hk : e.1 ∈ blk := by
      have : e.1 ∈ blk.filter (fun x => decide (x.id < lo0)) := by
        rw [inv.orig]; exact (ctx.key e he).1
      exact List.mem_of_mem_filter this
    have hxm : x ∈ blk := by rw [e1, hF]; simp
    have : x = e.1 := eq_of_id_eq inv.nodup hxm hk hx
    subst this
    exact ⟨e1, hb, Or.inl ⟨by simpa using hphi, F, hF⟩⟩

/-- The cut taken for `e` does not fall strictly inside a clone pair. -/
theorem cut_not_in_clone {lo0 lo : Nat} {l : List Instruction} {cm : CloneMap}
    {dc : List (Instruction × Nat)}
    (ctx : RepCtx lo0 lo l cm)
    {e : Instruction × Nat} (he : e ∈ cm) {front back : List Instruction}
    (hcut : (e.1.isPHI = false ∧ ∃ F, front = F ++ [e.1]) ∨
       (e.1.isPHI = true ∧ (∀ x ∈ front, x.isPHI = true) ∧
          ∃ y B, back = y :: B ∧ y.isPHI = false))
    {e' : Instruction × Nat} (he' : e' ∈ cm) :
    ∀ a b F B, a ≠ [] → b ≠ [] → [cloneState cm dc e', e'.1] = a ++ b →
      front = F ++ a → back = b ++ B → False := by
  intro a b F B ha hb hab hf hbk
  rcases hcut with ⟨_, F0, hF0⟩ | ⟨_, hall, y, B0, hy, hyphi⟩
  · have h1 : e.1 ∈ a := last_mem_of_append (hF0.symm.trans hf) ha
    have h2 := mem_dropLast_of_append hab hb e.1 h1
    simp only [List.dropLast_cons₂, List.dropLast_single, List.mem_singleton] at h2
    have h3 : e.1.id = e'.2 := by rw [h2, cloneState_id]
    have h4 := ctx.origAlloc e.1 (ctx.key e he).1
    have h5 := (ctx.value e' he').1
    omega
  · have h1 : cloneState cm dc e' ∈ a := head_mem_of_append hab ha
    have h2 : (cloneState cm dc e').isPHI = true := hall _ (by rw [hf]; exact List.mem_append_right _ h1)
    obtain ⟨y', B', hb', hy'⟩ := head_tail_of_append hab ha hb
    simp only [List.mem_singleton] at hy'
    subst hy'
    rw [hb', hy] at hbk
    simp only [List.cons_append, List.cons.injEq] at hbk
    rw [cloneState_isPHI, ← hbk.1, hyphi] at h2
    cases h2

/-- The cut taken for `e` does not fall strictly inside the check of a pair
processed earlier. -/
theorem cut_not_in_check (uid : Nat) {lo0 lo : Nat} {l : List Instruction} {cm : CloneMap}
    (ctx : RepCtx lo0 lo l cm)
    {e : Instruction × Nat} (he : e ∈ cm) {front back : List Instruction}
    (hcut : (e.1.isPHI = false ∧ ∃ F, front = F ++ [e.1]) ∨
       (e.1.isPHI = true ∧ (∀ x ∈ front, x.isPHI = true) ∧
          ∃ y B, back = y :: B ∧ y.isPHI = false))
    {e' : Instruction × Nat} (he' : e' ∈ cm) (hne : e' ≠ e) {n : Nat} (hn : lo ≤ n) :
    (∀ a b F B, a ≠ [] → b ≠ [] → checkInsts uid e'.1 e'.2 n = a ++ b →
      front = F ++ a → back = b ++ B → False) ∧
    (e'.1.isPHI = false → ∀ a b F B, a ≠ [] → b ≠ [] →
      e'.1 :: checkInsts uid e'.1 e'.2 n = a ++ b →
      front = F ++ a → back = b ++ B → False) := by
  have hlow := ctx.origAlloc e.1 (ctx.key e he).1
  have hlo := ctx.lo0_le
  have hchk : ∀ x ∈ checkInsts uid e'.1 e'.2 n, x ≠ e.1 := by
    intro x hx hxe
    have := (checkInsts_id_ge hx).1
    rw [hxe] at this
    omega
  constructor
  · intro a b F B ha hb hab hf hbk
    rcases hcut with ⟨_, F0, hF0⟩ | ⟨_, hall, _⟩
    · have h1 : e.1 ∈ a := last_mem_of_append (hF0.symm.trans hf) ha
      have h2 := List.mem_of_mem_dropLast (mem_dropLast_of_append hab hb e.1 h1)
      exact hchk _ h2 rfl
    · have hab' : _ :: _ = a ++ b := hab
      have h1 := head_mem_of_append hab' ha
      have h2 := hall _ (by rw [hf]; exact List.mem_append_right _ h1)
      have hm : ∀ x ∈ a, x ∈ checkInsts uid e'.1 e'.2 n :=
        fun x hx => by rw [hab]; exact List.mem_append_left _ hx
      rw [checkInsts_isPHI (hm _ h1)] at h2
      cases h2
  · intro hnphi a b F B ha hb hab hf hbk
    rcases hcut with ⟨_, F0, hF0⟩ | ⟨_, hall, _⟩
    · have h1 : e.1 ∈ a := last_mem_of_append (hF0.symm.trans hf) ha
      have h2 := List.mem_of_mem_dropLast (mem_dropLast_of_append hab hb e.1 h1)
      rcases List.mem_cons.mp h2 with h3 | h3
      · exact hne (ctx.inj e' he' e he (Or.inl (by rw [h3])))
      · exact hchk _ h3 rfl
    · have h1 := head_mem_of_append hab ha
      have h2 := hall _ (by rw [hf]; exact List.mem_append_right _ h1)
      rw [hnphi] at h2
      cases h2

/-- Second half of a loop iteration for a pair of compared type: the check is
placed at the cut. -/
theorem RepInv.insert {uid lo0 lo : Nat} {l : List Instruction} {cm : CloneMap}
    {dc dk : List (Instruction × Nat)} {num : Instruction × Nat → Nat}
    {blk : List Instruction} {st : PassState}
    (ctx : RepCtx lo0 lo l cm) (inv : RepInv uid lo0 lo l cm dc dk num blk st)
    {e : Instruction × Nat} (he : e ∈ cm) (hnd : e ∉ dk) (hcmp : e.1.ty.isCompared = true)
    {front back : List Instruction}
    (hsplit : (if e.1.isPHI = true then splitAtFirstNonPHI blk else splitAfter e.1.id blk) =
      some (front, back)) :
    RepInv uid lo0 lo l cm dc (e :: dk) (fun p => if p = e then st.nextId else num p)
      (front ++ checkInsts uid e.1 e.2 st.nextId ++ back)
      { st with nextId := st.nextId + 3 } := by
  obtain ⟨hblk, hback, hcut⟩ := cut_shape ctx inv he hsplit
  have hlo := inv.lo_le
  have hne : ∀ e' ∈ dk, e' ≠ e := fun e' he' h => hnd (h ▸ he')
  have hnum : ∀ e' ∈ dk, (if e' = e then st.nextId else num e') = num e' := by
    intro e' he'
    rw [if_neg (hne e' he')]
  have hphis := phis_cut (hblk ▸ inv.phis)
    (hcut.imp (fun h => ⟨h.2.choose, e.1, h.2.choose_spec, h.1⟩) (fun h => h.2))
  have hnewid : ∀ x ∈ checkInsts uid e.1 e.2 st.nextId, st.nextId ≤ x.id :=
    fun x hx => (checkInsts_id_ge hx).1
  refine
    { lo_le := by simp; omega
      alloc := ?_
      nodup := ?_
      orig := ?_
      last := ?_
      phis := ?_
      dkMem := ?_
      numRange := ?_
      classify := ?_
      clone := ?_
      check := ?_
      length := ?_ }
  · intro x hx
    simp only [List.mem_append] at hx
    rcases hx with (hx | hx) | hx
    · have := inv.alloc x (by rw [hblk]; exact List.mem_append_left _ hx); simp; omega
    · have := (checkInsts_id_ge hx).2; simpa using this
    · have := inv.alloc x (by rw [hblk]; exact List.mem_append_right _ hx); simp; omega
  · rw [List.map_append, List.map_append]
    apply nodup_insert
    · rw [← List.map_append, ← hblk]; exact inv.nodup
    · rw [checkInsts_ids]; simp
    · intro k hk hk'
      rw [← List.map_append, ← hblk] at hk'
      obtain ⟨y, hy, rfl⟩ := List.mem_map.mp hk'
      obtain ⟨x, hx, hxy⟩ := List.mem_map.mp hk
      have := inv.alloc y hy
      have := hnewid x hx
      omega
  · rw [List.filter_append, List.filter_append]
    have : (checkInsts uid e.1 e.2 st.nextId).filter (fun x => decide (x.id < lo0)) = [] := by
      rw [List.filter_eq_nil_iff]
      intro x hx
      have := hnewid x hx
      have := ctx.lo0_le
      simp only [decide_eq_true_eq]
      omega
    rw [this, List.append_nil, ← List.filter_append, ← hblk, inv.orig]
  · rw [← inv.last, hblk]
    cases hb : back.getLast? with
    | none => exact absurd (List.getLast?_eq_none_iff.mp hb) hback
    | some z => simp [List.getLast?_append, hb]
  · obtain ⟨hbk, fp, fr, hf, h1, h2⟩ := hphis
    refine ⟨fp, fr ++ checkInsts uid e.1 e.2 st.nextId ++ back, by rw [hf]; simp, h1, ?_⟩
    intro x hx
    simp only [List.mem_append] at hx
    rcases hx with (hx | hx) | hx
    · exact h2 x hx
    · exact checkInsts_isPHI hx
    · exact hbk x hx
  · intro e' he'
    rcases List.mem_cons.mp he' with rfl | he'
    · exact he
    · exact inv.dkMem e' he'
  · intro e' he' hc
    rcases List.mem_cons.mp he' with rfl | he'
    · simp; omega
    · simp only [hnum e' he']
      have := inv.numRange e' he' hc
      omega
  · intro x hx
    have hx' : x ∈ checkInsts uid e.1 e.2 st.nextId ∨ x ∈ blk := by
      rw [hblk]
      simp only [List.mem_append] at hx ⊢
      tauto
    rcases hx' with hx' | hx'
    · exact Or.inr (Or.inr ⟨e, List.mem_cons_self _ _, hcmp, by simpa using hx'⟩)
    · rcases inv.classify x hx' with h | h | ⟨e', he', hc, h⟩
      · exact Or.inl h
      · exact Or.inr (Or.inl h)
      · exact Or.inr (Or.inr ⟨e', List.mem_cons_of_mem _ he', hc, by
          simp only [hnum e' he']; exact h⟩)
  · intro e' he'
    obtain ⟨pre, post, e1⟩ := inv.clone e' he'
    rcases insert_outside (checkInsts uid e.1 e.2 st.nextId) (hblk.symm.trans e1)
      (cut_not_in_clone ctx he hcut he') with ⟨a, b, _, _, h⟩ | ⟨a, b, _, _, h⟩
    · exact ⟨_, _, h⟩
    · exact ⟨_, _, h⟩
  · intro e' he' hc
    rcases List.mem_cons.mp he' with rfl | he'
    · simp only [if_true]
      unfold CheckPlaced
      rcases hcut with ⟨hphi, F, hF⟩ | ⟨hphi, _, _⟩
      · rw [if_neg (by simp [hphi])]
        exact ⟨F, back, by rw [hF]; simp⟩
      · rw [if_pos hphi]
        exact ⟨front, back, rfl, hphis.1⟩
    · simp only [hnum e' he']
      have hplaced := inv.check e' he' hc
      have hno := cut_not_in_check uid ctx he hcut (inv.dkMem e' he') (hne e' he')
        (inv.numRange e' he' hc).1
      unfold CheckPlaced at hplaced ⊢
      by_cases hphi : e'.1.isPHI = true
      · rw [if_pos hphi] at hplaced ⊢
        obtain ⟨pre, post, e1, hpost⟩ := hplaced
        rcases insert_outside (checkInsts uid e.1 e.2 st.nextId) (hblk.symm.trans e1) hno.1
          with ⟨a, b, _, _, h⟩ | ⟨a, b, hab, _, h⟩
        · exact ⟨_, _, h, hpost⟩
        · refine ⟨_, _, h, ?_⟩
          intro x hx
          simp only [List.mem_append] at hx
          rcases hx with (hx | hx) | hx
          · exact hpost x (by rw [hab]; exact List.mem_append_left _ hx)
          · exact checkInsts_isPHI hx
          · exact hpost x (by rw [hab]; exact List.mem_append_right _ hx)
      · rw [if_neg hphi] at hplaced ⊢
        obtain ⟨pre, post, e1⟩ := hplaced
        rcases insert_outside (checkInsts uid e.1 e.2 st.nextId) (hblk.symm.trans e1)
          (hno.2 (by simpa using hphi)) with ⟨a, b, _, _, h⟩ | ⟨a, b, _, _, h⟩
        · exact ⟨_, _, h⟩
        · exact ⟨_, _, h⟩
  · have h1 := inv.length
    rw [hblk, List.length_append] at h1
    simp only [List.length_append, List.filter_cons, hcmp, if_true, List.length_cons]
    have h2 : (checkInsts uid e.1 e.2 st.nextId).length = 3 := rfl
    omega

/-! ## One iteration of the loop over the clone map -/

theorem processPair_of_split {M : Module} {F : Function}
    (hF : M.getFunction FuncName.assert_ft = some F) (uid : Nat) (cm : CloneMap)
    (i : Instruction) (c : Nat) (blk : List Instruction) (s : PassState)
    {front back : List Instruction}
    (hsplit : (if i.isPHI = true then splitAtFirstNonPHI (updateInst c (remapOperands cm) blk)
      else splitAfter i.id (updateInst c (remapOperands cm) blk)) = some (front, back)) :
    processPair M uid cm i c blk s =
      if i.ty.isCompared = true then
        some (front ++ checkInsts uid i c s.nextId ++ back, { s with nextId := s.nextId + 3 })
      else some (updateInst c (remapOperands cm) blk, s) := by
  unfold processPair
  simp only [hsplit, hF]
  cases hty : i.ty <;>
    simp [Ty.isCompared, Ty.isIntegerTy, Ty.isPointerTy, Ty.isFloatTy, checkInsts, cmpOpcode, hty]

theorem processPair_none_of_split {M : Module} (uid : Nat) (cm : CloneMap)
    (i : Instruction) (c : Nat) (blk : List Instruction) (s : PassState)
    (hsplit : (if i.isPHI = true then splitAtFirstNonPHI (updateInst c (remapOperands cm) blk)
      else splitAfter i.id (updateInst c (remapOperands cm) blk)) = none) :
    processPair M uid cm i c blk s = none := by
  unfold processPair
  simp only [hsplit]

theorem isPHI_of_isTerminator {t : Instruction} (h : t.isTerminator = true) :
    t.isPHI = false := by
  unfold Instruction.isTerminator at h
  unfold Instruction.isPHI
  cases ho : t.opcode <;> rw [ho] at h <;> first | rfl | cases h

/-- While the invariant holds the cut for a pair of the clone map exists. -/
theorem RepInv.split_isSome {uid lo0 lo : Nat} {l : List Instruction} {cm : CloneMap}
    {dc dk : List (Instruction × Nat)} {num : Instruction × Nat → Nat}
    {blk : List Instruction} {st : PassState}
    (ctx : RepCtx lo0 lo l cm) (inv : RepInv uid lo0 lo l cm dc dk num blk st)
    (hT : ∃ t, l.getLast? = some t ∧ t.isTerminator = true)
    {e : Instruction × Nat} (he : e ∈ cm) :
    ∃ front back,
      (if e.1.isPHI = true then splitAtFirstNonPHI blk else splitAfter e.1.id blk) =
        some (front, back) := by
  obtain ⟨t, ht, hterm⟩ := hT
  have hlast : blk.getLast? = some t := inv.last.trans ht
  obtain ⟨ys, hys⟩ := List.getLast?_eq_some_iff.mp hlast
  have hsome : ((if e.1.isPHI = true then splitAtFirstNonPHI blk
      else splitAfter e.1.id blk)).isSome = true := by
    by_cases hphi : e.1.isPHI = true
    · rw [if_pos hphi]
      exact splitAtFirstNonPHI_isSome ⟨t, by rw [hys]; simp, isPHI_of_isTerminator hterm⟩
    · rw [if_neg hphi]
      apply splitAfter_isSome
      refine ⟨e.1, ?_, rfl⟩
      have hk : e.1 ∈ blk := by
        have : e.1 ∈ blk.filter (fun x => decide (x.id < lo0)) := by
          rw [inv.orig]; exact (ctx.key e he).1
        exact List.mem_of_mem_filter this
      rw [hys, List.dropLast_concat]
      rw [hys] at hk
      rcases List.mem_append.mp hk with h | h
      · exact h
      · simp only [List.mem_singleton] at h
        have := canClone_not_terminator (ctx.key e he).2
        rw [h, hterm] at this
        cases this
  cases hs : (if e.1.isPHI = true then splitAtFirstNonPHI blk else splitAfter e.1.id blk) with
  | none => rw [hs] at hsome; cases hsome
  | some p => exact ⟨p.1, p.2, rfl⟩

/-- A pair whose type is not compared joins the processed pairs without any
instruction being placed. -/
theorem RepInv.skip {uid lo0 lo : Nat} {l : List Instruction} {cm : CloneMap}
    {dc dk : List (Instruction × Nat)} {num : Instruction × Nat → Nat}
    {blk : List Instruction} {st : PassState}
    (inv : RepInv uid lo0 lo l cm dc dk num blk st)
    {e : Instruction × Nat} (he : e ∈ cm) (hcmp : e.1.ty.isCompared = false) :
    RepInv uid lo0 lo l cm dc (e :: dk) num blk st := by
  have hmem : ∀ e' ∈ e :: dk, e'.1.ty.isCompared = true → e' ∈ dk := by
    intro e' he' hc
    rcases List.mem_cons.mp he' with rfl | h
    · rw [hcmp] at hc; cases hc
    · exact h
  exact
    { lo_le := inv.lo_le
      alloc := inv.alloc
      nodup := inv.nodup
      orig := inv.orig
      last := inv.last
      phis := inv.phis
      dkMem := fun e' he' => by
        rcases List.mem_cons.mp he' with rfl | h
        · exact he
        · exact inv.dkMem e' h
      numRange := fun e' he' hc => inv.numRange e' (hmem e' he' hc) hc
      classify := fun x hx => by
        rcases inv.classify x hx with h | h | ⟨e', he', hc, h⟩
        · exact Or.inl h
        · exact Or.inr (Or.inl h)
        · exact Or.inr (Or.inr ⟨e', List.mem_cons_of_mem _ he', hc, h⟩)
      clone := inv.clone
      check := fun e' he' hc => inv.check e' (hmem e' he' hc) hc
      length := by
        rw [List.filter_cons, hcmp]
        exact inv.length }

/-- One iteration of the loop over the clone map keeps the invariant. -/
theorem RepInv.step {M : Module} {F : Function}
    (hF : M.getFunction FuncName.assert_ft = some F)
    {uid lo0 lo : Nat} {l : List Instruction} {cm : CloneMap}
    {dc : List (Instruction × Nat)} {num : Instruction × Nat → Nat}
    {blk : List Instruction} {st : PassState}
    (ctx : RepCtx lo0 lo l cm) (inv : RepInv uid lo0 lo l cm dc dc num blk st)
    (hT : ∃ t, l.getLast? = some t ∧ t.isTerminator = true)
    {e : Instruction × Nat} (he : e ∈ cm) (hnd : e ∉ dc) :
    ∃ r num', processPair M uid cm e.1 e.2 blk st = some r ∧
      RepInv uid lo0 lo l cm (e :: dc) (e :: dc) num' r.1 r.2 ∧
      r.2.nextId = st.nextId + (if e.1.ty.isCompared = true then 3 else 0) ∧
      r.2.SWFTAdded = st.SWFTAdded := by
  have inv1 := inv.update ctx he hnd
  obtain ⟨front, back, hsplit⟩ := inv1.split_isSome ctx hT he
  rw [processPair_of_split hF uid cm e.1 e.2 blk st hsplit]
  by_cases hcmp : e.1.ty.isCompared = true
  · rw [if_pos hcmp]
    exact ⟨_, _, rfl, inv1.insert ctx he hnd hcmp hsplit, by simp [hcmp], rfl⟩
  · rw [if_neg hcmp]
    exact ⟨_, num, rfl, inv1.skip he (by simpa using hcmp), by simp [hcmp], rfl⟩

/-- The loop over the clone map, run over pairwise distinct pairs of the map
not yet processed, succeeds and keeps the invariant. -/
theorem RepInv.loop {M : Module} {F : Function}
    (hF : M.getFunction FuncName.assert_ft = some F)
    {uid lo0 lo : Nat} {l : List Instruction} {cm : CloneMap}
    (ctx : RepCtx lo0 lo l cm)
    (hT : ∃ t, l.getLast? = some t ∧ t.isTerminator = true) :
    ∀ (ps dc : List (Instruction × Nat)) (num : Instruction × Nat → Nat)
      (blk : List Instruction) (st : PassState),
      RepInv uid lo0 lo l cm dc dc num blk st →
      (∀ e ∈ ps, e ∈ cm) → ps.Nodup → (∀ e ∈ ps, e ∉ dc) →
      ∃ r num', processPairs M uid cm ps blk st = some r ∧
        RepInv uid lo0 lo l cm (ps.reverse ++ dc) (ps.reverse ++ dc) num' r.1 r.2 ∧
        r.2.nextId = st.nextId + 3 * (ps.filter (fun e => e.1.ty.isCompared)).length ∧
        r.2.SWFTAdded = st.SWFTAdded := by
  intro ps
  induction ps with
  | nil =>
    intro dc num blk st inv _ _ _
    exact ⟨(blk, st), num, rfl, by simpa using inv, by simp, rfl⟩
  | cons p ps ih =>
    intro dc num blk st inv hmem hnd hdc
    rw [List.nodup_cons] at hnd
    obtain ⟨r, num1, hr, inv1, hn1, hs1⟩ :=
      inv.step hF ctx hT (hmem p (List.mem_cons_self _ _)) (hdc p (List.mem_cons_self _ _))
    obtain ⟨r2, num2, hr2, inv2, hn2, hs2⟩ := ih (p :: dc) num1 r.1 r.2 inv1
      (fun e he => hmem e (List.mem_cons_of_mem _ he)) hnd.2
      (fun e he hc => by
        rcases List.mem_cons.mp hc with h | h
        · exact hnd.1 (h ▸ he)
        · exact hdc e (List.mem_cons_of_mem _ he) h)
    refine ⟨r2, num2, ?_, ?_, ?_, ?_⟩
    · simp only [processPairs, hr]; exact hr2
    · simpa using inv2
    · rw [hn2, hn1, List.filter_cons]
      by_cases hc : p.1.ty.isCompared = true
      · simp [hc]; omega
      · simp [hc]
    · rw [hs2, hs1]

/-! ## One block, then all blocks -/

theorem cloneInsts_cm_nodup (l : List Instruction) (s : PassState) :
    (cloneInsts l s).2.1.Nodup := by
  induction l generalizing s with
  | nil => exact List.nodup_nil
  | cons I rest ih =>
    by_cases hc : canClone I = true
    · rw [cloneInsts_cons_clone hc]
      simp only [List.nodup_cons]
      refine ⟨?_, ih _⟩
      intro hmem
      have := (cloneInsts_values rest _ _ hmem).1
      simp at this
    · have h' : canClone I = false := by simpa using hc
      rw [cloneInsts_cons_skip h']
      exact ih _

theorem cloneInsts_length (l : List Instruction) (s : PassState) :
    (cloneInsts l s).1.length = l.length + (cloneInsts l s).2.1.length := by
  induction l generalizing s with
  | nil => rfl
  | cons I rest ih =>
    by_cases hc : canClone I = true
    · rw [cloneInsts_cons_clone hc]
      simp only [List.length_cons, ih]; omega
    · have h' : canClone I = false := by simpa using hc
      rw [cloneInsts_cons_skip h']
      simp only [List.length_cons, ih]; omega

theorem cloneInsts_SWFTAdded_nextId (l : List Instruction) (s : PassState) :
    s.nextId ≤ (cloneInsts l s).2.2.nextId := by
  rw [cloneInsts_nextId]; omega

/-- The facts that stay fixed during the loop over the clone map. -/
theorem cloneInsts_ctx (l : List Instruction) (s : PassState)
    (hN : (l.map (fun x => x.id)).Nodup) (hA : ∀ x ∈ l, x.id < s.nextId) :
    RepCtx s.nextId (cloneInsts l s).2.2.nextId l (cloneInsts l s).2.1 :=
  { lo0_le := cloneInsts_SWFTAdded_nextId l s
    origAlloc := hA
    key := cloneInsts_key_mem l s
    value := cloneInsts_values l s
    inj := cloneInsts_inj l s hN hA }

/-- The invariant holds when the loop over the clone map starts. -/
theorem cloneInsts_inv (uid : Nat) (l : List Instruction) (s : PassState)
    (hN : (l.map (fun x => x.id)).Nodup) (hA : ∀ x ∈ l, x.id < s.nextId)
    (hP : phisLead l) :
    RepInv uid s.nextId (cloneInsts l s).2.2.nextId l (cloneInsts l s).2.1 [] []
      (fun _ => 0) (cloneInsts l s).1 (cloneInsts l s).2.2 :=
  { lo_le := le_refl _
    alloc := cloneInsts_alloc l s hA
    nodup := cloneInsts_nodup l s hN hA
    orig := cloneInsts_orig s.nextId l s hA (le_refl _)
    last := cloneInsts_last l s
    phis := cloneInsts_phis l s ((phisLead_iff l).mp hP)
    dkMem := fun e he => by cases he
    numRange := fun e he => by cases he
    classify := fun x hx => by
      rcases cloneInsts_mem l s x hx with h | ⟨e, he, h⟩
      · exact Or.inl h
      · exact Or.inr (Or.inl ⟨e, he, by rw [h, cloneState_not_mem]; simp⟩)
    clone := fun e he => by
      rw [cloneState_not_mem]
      · exact cloneInsts_adjacent l s e he
      · simp
    check := fun e he => by cases he
    length := by simp [cloneInsts_length] }

theorem replicateBlock_spec {M : Module} {F : Function}
    (hF : M.getFunction FuncName.assert_ft = some F)
    (order : CloneMap → CloneMap) (hord : ∀ cm, (order cm).Perm cm)
    (bbCount : Nat) (l : List Instruction) (s : PassState) (ok : BlockOK s l) :
    ∃ rep s', BlockDone M order bbCount l s rep s' := by
  have ctx := cloneInsts_ctx l s ok.nodup ok.alloc
  have inv0 := cloneInsts_inv (uniqueID bbCount l.length) l s ok.nodup ok.alloc ok.phis
  have hperm := hord (cloneInsts l s).2.1
  obtain ⟨r, num, hr, inv, hn, hadd⟩ := RepInv.loop hF ctx ok.term (order (cloneInsts l s).2.1) []
    (fun _ => 0) _ _ inv0 (fun e he => hperm.subset he)
    (hperm.nodup_iff.mpr (cloneInsts_cm_nodup l s)) (fun e _ h => by cases h)
  refine ⟨{ block := { insts := r.1 }, cloneMap := (cloneInsts l s).2.1 }, r.2, ?_⟩
  refine
    { run := ?_
      map := rfl
      ctx := ctx
      inv := ⟨(order (cloneInsts l s).2.1).reverse ++ [], num, ?_, inv⟩
      nextId := ?_
      added := hadd
      length := ?_ }
  · unfold replicateBlock
    simp only [hr, Option.map_some']
  · intro e
    simp only [List.append_nil, List.mem_reverse]
    exact hperm.mem_iff
  · rw [hn, cloneInsts_nextId, (hperm.filter _).length_eq]
    have h1 : ((cloneInsts l s).2.1.filter (fun e => e.1.ty.isCompared)).length =
        (((cloneInsts l s).2.1.map Prod.fst).filter (fun i => i.ty.isCompared)).length := by
      rw [List.filter_map, List.length_map]; rfl
    rw [h1, cloneInsts_keys]
  · have := inv.length
    rw [this]
    simp only [List.append_nil]
    rw [((List.reverse_perm _).trans hperm).filter _ |>.length_eq]

theorem BlockOK.mono {s t : PassState} {l : List Instruction} (ok : BlockOK s l)
    (h : s.nextId ≤ t.nextId) : BlockOK t l :=
  { term := ok.term
    nodup := ok.nodup
    alloc := fun x hx => lt_of_lt_of_le (ok.alloc x hx) h
    phis := ok.phis }

theorem BlockDone.rep_nextId_le {M : Module} {order : CloneMap → CloneMap} {bbCount : Nat}
    {l : List Instruction} {s s' : PassState} {rep : BlockRep}
    (h : BlockDone M order bbCount l s rep s') : s.nextId ≤ s'.nextId := by
  rw [h.nextId]; omega

/-- The block loop of `replicate` succeeds on well-formed blocks, and every
block is processed as `BlockDone` says, at some allocator state not below the
initial one. -/
theorem replicateBlocks_spec {M : Module} {F : Function}
    (hF : M.getFunction FuncName.assert_ft = some F)
    (order : CloneMap → CloneMap) (hord : ∀ cm, (order cm).Perm cm) :
    ∀ (bs : List BasicBlock) (bbCount : Nat) (s : PassState),
      (∀ b ∈ bs, BlockOK s b.insts) →
      ∃ reps s', replicateBlocks M order bbCount bs s = some (reps, s') ∧
        s.nextId ≤ s'.nextId ∧ reps.length = bs.length ∧
        ∀ k b rep, bs.get? k = some b → reps.get? k = some rep →
          ∃ sk sk', s.nextId ≤ sk.nextId ∧ sk'.nextId ≤ s'.nextId ∧
            BlockDone M order (bbCount + k + 1) b.insts sk rep sk' := by
  intro bs
  induction bs with
  | nil =>
    intro bbCount s _
    exact ⟨[], s, rfl, le_refl _, rfl, fun k b rep hb => by cases hb⟩
  | cons b bs ih =>
    intro bbCount s hok
    obtain ⟨rep, s1, hd⟩ := replicateBlock_spec hF order hord (bbCount + 1) b.insts s
      (hok b (List.mem_cons_self _ _))
    have hle := hd.rep_nextId_le
    obtain ⟨reps, s2, hrun, hle2, hlen, hall⟩ := ih (bbCount + 1) s1
      (fun b' hb' => (hok b' (List.mem_cons_of_mem _ hb')).mono hle)
    refine ⟨rep :: reps, s2, ?_, le_trans hle hle2, by simp [hlen], ?_⟩
    · have := hd.run
      simp only [replicateBlocks, this, hrun]
    · intro k b' rep' hb' hrep'
      cases k with
      | zero =>
        simp only [List.get?_cons_zero, Option.some.injEq] at hb' hrep'
        subst hb' hrep'
        exact ⟨s, s1, le_refl _, hle2, hd⟩
      | succ k =>
        simp only [List.get?_cons_succ] at hb' hrep'
        obtain ⟨sk, sk', h1, h2, h3⟩ := hall k b' rep' hb' hrep'
        refine ⟨sk, sk', le_trans hle h1, h2, ?_⟩
        have : bbCount + (k + 1) + 1 = bbCount + 1 + k + 1 := by omega
        rw [this]; exact h3

/-- The allocator state a block iteration ends in does not depend on the
iteration order of the clone map. -/
theorem BlockDone.state_eq {M : Module} {order : CloneMap → CloneMap} {bbCount : Nat}
    {l : List Instruction} {s s' : PassState} {rep : BlockRep}
    (h : BlockDone M order bbCount l s rep s') :
    s' = { nextId := s.nextId + (l.filter canClone).length +
             3 * ((l.filter canClone).filter (fun i => i.ty.isCompared)).length,
           SWFTAdded := (cloneInsts l s).2.2.SWFTAdded } := by
  have h1 := h.nextId
  have h2 := h.added
  cases s'
  simp only at h1 h2
  rw [h1, h2]

/-- Two iteration orders give the same clone maps. -/
theorem replicateBlocks_order {M : Module} {F : Function}
    (hF : M.getFunction FuncName.assert_ft = some F)
    (o1 o2 : CloneMap → CloneMap) (h1 : ∀ cm, (o1 cm).Perm cm) (h2 : ∀ cm, (o2 cm).Perm cm) :
    ∀ (bs : List BasicBlock) (bbCount : Nat) (s : PassState),
      (∀ b ∈ bs, BlockOK s b.insts) →
      ∀ r1 r2, replicateBlocks M o1 bbCount bs s = some r1 →
        replicateBlocks M o2 bbCount bs s = some r2 →
        r1.2 = r2.2 ∧ r1.1.map (fun g => g.cloneMap) = r2.1.map (fun g => g.cloneMap) := by
  intro bs
  induction bs with
  | nil =>
    intro bbCount s _ r1 r2 e1 e2
    simp only [replicateBlocks, Option.some.injEq] at e1 e2
    subst e1 e2
    exact ⟨rfl, rfl⟩
  | cons b bs ih =>
    intro bbCount s hok r1 r2 e1 e2
    have okb := hok b (List.mem_cons_self _ _)
    obtain ⟨rep1, s1, hd1⟩ := replicateBlock_spec hF o1 h1 (bbCount + 1) b.insts s okb
    obtain ⟨rep2, s2, hd2⟩ := replicateBlock_spec hF o2 h2 (bbCount + 1) b.insts s okb
    have hs : s1 = s2 := by rw [hd1.state_eq, hd2.state_eq]
    subst hs
    have hr1 := hd1.run
    have hr2 := hd2.run
    simp only [replicateBlocks, hr1] at e1
    simp only [replicateBlocks, hr2] at e2
    cases hb1 : replicateBlocks M o1 (bbCount + 1) bs s1 with
    | none => rw [hb1] at e1; cases e1
    | some q1 =>
      cases hb2 : replicateBlocks M o2 (bbCount + 1) bs s1 with
      | none => rw [hb2] at e2; cases e2
      | some q2 =>
        rw [hb1] at e1
        rw [hb2] at e2
        simp only [Option.some.injEq] at e1 e2
        subst e1 e2
        obtain ⟨h3, h4⟩ := ih (bbCount + 1) s1
          (fun b' hb' => (hok b' (List.mem_cons_of_mem _ hb')).mono hd1.rep_nextId_le) q1 q2 hb1 hb2
        refine ⟨h3, ?_⟩
        simp only [List.map_cons, h4, hd1.map, hd2.map]

/-! ## From the function to its blocks -/

theorem getTerminator_eq_some {l : List Instruction} {t : Instruction} :
    getTerminator l = some t ↔ l.getLast? = some t ∧ t.isTerminator = true := by
  unfold getTerminator
  cases hl : l.getLast? with
  | none => simp
  | some u =>
    by_cases hu : u.isTerminator = true
    · simp only [hu, if_true, Option.some.injEq]
      constructor
      · rintro rfl; exact ⟨rfl, hu⟩
      · rintro ⟨h, _⟩; exact h
    · simp only [hu, Option.some.injEq]
      constructor
      · intro h; cases h
      · rintro ⟨h, h2⟩; rw [h] at hu; exact absurd h2 hu

theorem getTerminator_isSome {l : List Instruction} (h : (getTerminator l).isSome = true) :
    ∃ t, l.getLast? = some t ∧ t.isTerminator = true := by
  cases hg : getTerminator l with
  | none => rw [hg] at h; cases h
  | some t => exact ⟨t, getTerminator_eq_some.mp hg⟩

theorem mem_allInsts {f : Function} {b : BasicBlock} {x : Instruction}
    (hb : b ∈ f.blocks) (hx : x ∈ b.insts) : x ∈ f.allInsts := by
  unfold Function.allInsts
  exact List.mem_flatMap.mpr ⟨b, hb, hx⟩

theorem sublist_flatMap {bs : List BasicBlock} {b : BasicBlock} (hb : b ∈ bs) :
    b.insts.Sublist (bs.flatMap (fun b => b.insts)) := by
  induction bs with
  | nil => cases hb
  | cons c cs ih =>
    rw [List.flatMap_cons]
    rcases List.mem_cons.mp hb with rfl | h
    · exact List.sublist_append_left _ _
    · exact (ih h).trans (List.sublist_append_right _ _)

theorem sublist_allInsts {f : Function} {b : BasicBlock} (hb : b ∈ f.blocks) :
    b.insts.Sublist f.allInsts := sublist_flatMap hb

theorem WellFormed.blockOK {f : Function} {s : PassState} (hwf : WellFormed f s)
    {b : BasicBlock} (hb : b ∈ f.blocks) : BlockOK s b.insts :=
  { term := getTerminator_isSome (hwf.terminated b hb)
    nodup := ((sublist_allInsts hb).map _).nodup hwf.distinct
    alloc := fun x hx => hwf.allocated x (mem_allInsts hb hx)
    phis := hwf.phis b hb }

/-- `replicate` succeeds on a well-formed function, block by block. -/
theorem replicateMaps_spec {f : Function} {M : Module} {F : Function}
    (hF : M.getFunction FuncName.assert_ft = some F)
    (order : CloneMap → CloneMap) (hord : ∀ cm, (order cm).Perm cm)
    {s : PassState} (hwf : WellFormed f s) :
    ∃ reps s', replicateMaps f M order s = some (reps, s') ∧
      replicate f M order s = some ({ f with blocks := reps.map (fun g => g.block) }, s') ∧
      s.nextId ≤ s'.nextId ∧ reps.length = f.blocks.length ∧
      ∀ k b rep, f.blocks.get? k = some b → reps.get? k = some rep →
        ∃ sk sk', s.nextId ≤ sk.nextId ∧ sk'.nextId ≤ s'.nextId ∧
          BlockDone M order (k + 2) b.insts sk rep sk' := by
  obtain ⟨reps, s', hrun, hle, hlen, hall⟩ := replicateBlocks_spec hF order hord f.blocks 1 s
    (fun b hb => hwf.blockOK hb)
  refine ⟨reps, s', hrun, ?_, hle, hlen, ?_⟩
  · unfold replicate
    rw [show replicateMaps f M order s = some (reps, s') from hrun]
    rfl
  · intro k b rep hb hrep
    obtain ⟨sk, sk', h1, h2, h3⟩ := hall k b rep hb hrep
    refine ⟨sk, sk', h1, h2, ?_⟩
    have : k + 2 = 1 + k + 1 := by omega
    rw [this]; exact h3

/-! ## The clone map as a function -/

theorem CloneMap.find_some {cm : CloneMap} {op : Value} {k : Nat}
    (h : cm.find op = some k) : ∃ e ∈ cm, op = Value.inst e.1.id ∧ e.2 = k := by
  unfold CloneMap.find at h
  cases op with
  | inst j =>
    simp only at h
    cases hf : List.find? (fun e => e.1.id == j) cm with
    | none => rw [hf] at h; cases h
    | some e =>
      rw [hf] at h
      simp only [Option.map_some', Option.some.injEq] at h
      have h1 := List.find?_some hf
      have h2 := List.mem_of_find?_eq_some hf
      exact ⟨e, h2, by simp only [beq_iff_eq] at h1; rw [h1], h⟩
  | _ => cases h

theorem CloneMap.find_none {cm : CloneMap} {op : Value}
    (h : ∀ e ∈ cm, op ≠ Value.inst e.1.id) : cm.find op = none := by
  cases hf : cm.find op with
  | none => rfl
  | some k =>
    obtain ⟨e, he, h1, _⟩ := CloneMap.find_some hf
    exact absurd h1 (h e he)

theorem CloneMap.find_mem {cm : CloneMap}
    (hinj : ∀ e ∈ cm, ∀ e' ∈ cm, (e.1.id = e'.1.id ∨ e.2 = e'.2) → e = e')
    {e : Instruction × Nat} (he : e ∈ cm) : cm.find (Value.inst e.1.id) = some e.2 := by
  cases hf : cm.find (Value.inst e.1.id) with
  | none =>
    unfold CloneMap.find at hf
    simp only [Option.map_eq_none', List.find?_eq_none] at hf
    have := hf e he
    simp at this
  | some k =>
    obtain ⟨e', he', h1, h2⟩ := CloneMap.find_some hf
    simp only [Value.inst.injEq] at h1
    rw [hinj e he e' he' (Or.inl h1), h2]

/-- In a list without repetition, a property that only `a` can have and `a`
has is had by exactly one element. -/
theorem filter_length_one {α : Type} {l : List α} (hN : l.Nodup) (p : α → Bool) {a : α}
    (ha : a ∈ l) (hpa : p a = true) (hall : ∀ x ∈ l, p x = true → x = a) :
    (l.filter p).length = 1 := by
  induction l with
  | nil => cases ha
  | cons y ys ih =>
    rw [List.nodup_cons] at hN
    rw [List.filter_cons]
    by_cases hy : p y = true
    · have hya : y = a := hall y (List.mem_cons_self _ _) hy
      subst hya
      rw [if_pos hy]
      have : ys.filter p = [] := by
        rw [List.filter_eq_nil_iff]
        intro x hx hpx
        have := hall x (List.mem_cons_of_mem _ hx) hpx
        subst this
        exact hN.1 hx
      rw [this]; rfl
    · rw [if_neg hy]
      rcases List.mem_cons.mp ha with h | h
      · subst h; exact absurd hpa hy
      · exact ih hN.2 h (fun x hx => hall x (List.mem_cons_of_mem _ hx))

theorem nodup_of_ids {l : List Instruction} (h : (l.map (fun x => x.id)).Nodup) : l.Nodup :=
  List.Nodup.of_map _ h

/-! ## The block `replicate` leaves -/

/-- The loop invariant read at loop exit, when every pair has been processed. -/
theorem BlockDone.final {M : Module} {order : CloneMap → CloneMap} {bbCount : Nat}
    {l : List Instruction} {s s' : PassState} {rep : BlockRep}
    (hd : BlockDone M order bbCount l s rep s') :
    ∃ num : Instruction × Nat → Nat,
      (∀ e ∈ rep.cloneMap, e.1.ty.isCompared = true →
        (cloneInsts l s).2.2.nextId ≤ num e ∧
        CheckPlaced (uniqueID bbCount l.length) e (num e) rep.block.insts) ∧
      (∀ x ∈ rep.block.insts, x ∈ l ∨
        (∃ e ∈ rep.cloneMap, x = remapOperands rep.cloneMap (rawClone e.1 e.2)) ∨
        (∃ e ∈ rep.cloneMap, e.1.ty.isCompared = true ∧
          x ∈ checkInsts (uniqueID bbCount l.length) e.1 e.2 (num e))) ∧
      (∀ e ∈ rep.cloneMap,
        Adjacent [remapOperands rep.cloneMap (rawClone e.1 e.2), e.1] rep.block.insts) ∧
      (rep.block.insts.map (fun x => x.id)).Nodup ∧
      rep.block.insts.filter (fun x => decide (x.id < s.nextId)) = l ∧
      rep.block.insts.getLast? = l.getLast? := by
  obtain ⟨done, num, hmem, inv⟩ := hd.inv
  have hcs : ∀ e ∈ rep.cloneMap,
      cloneState rep.cloneMap done e = remapOperands rep.cloneMap (rawClone e.1 e.2) := by
    intro e he
    unfold cloneState
    rw [if_pos ((hmem e).mpr he)]
  refine ⟨num, ?_, ?_, ?_, inv.nodup, inv.orig, inv.last⟩
  · intro e he hc
    exact ⟨(inv.numRange e ((hmem e).mpr he) hc).1, inv.check e ((hmem e).mpr he) hc⟩
  · intro x hx
    rcases inv.classify x hx with h | ⟨e, he, h⟩ | ⟨e, he, hc, h⟩
    · exact Or.inl h
    · exact Or.inr (Or.inl ⟨e, he, by rw [h, hcs e he]⟩)
    · exact Or.inr (Or.inr ⟨e, (hmem e).mp he, hc, h⟩)
  · intro e he
    rw [← hcs e he]
    exact inv.clone e he

theorem Value.allocated_inst {k n : Nat} : (Value.inst k).allocated n = true ↔ k < n := by
  simp [Value.allocated]

theorem Value.allocated_mono {v : Value} {m n : Nat} (h : v.allocated m = true) (hmn : m ≤ n) :
    v.allocated n = true := by
  cases v <;> simp_all [Value.allocated]
  omega

/-- Operand `j` of a remapped clone. -/
theorem remapOperands_get? (cm : CloneMap) (i : Instruction) (j : Nat) :
    (remapOperands cm i).operands.get? j = (i.operands.get? j).map (remapOperand cm) := by
  simp [remapOperands, List.get?_eq_getElem?]

/-- A remapped operand refers to a clone, or is the operand itself and then
not the original of any pair. -/
theorem remap_cases {lo0 lo : Nat} {l : List Instruction} {cm : CloneMap}
    (ctx : RepCtx lo0 lo l cm) (op : Value) :
    (∃ e ∈ cm, op = Value.inst e.1.id ∧ remapOperand cm op = Value.inst e.2) ∨
    ((∀ e ∈ cm, op ≠ Value.inst e.1.id) ∧ remapOperand cm op = op) := by
  unfold remapOperand
  cases hf : cm.find op with
  | none =>
    right
    refine ⟨?_, rfl⟩
    intro e he hop
    rw [hop, CloneMap.find_mem ctx.inj he] at hf
    cases hf
  | some k =>
    left
    obtain ⟨e, he, h1, h2⟩ := CloneMap.find_some hf
    exact ⟨e, he, h1, by rw [h2]⟩

/-- No operand list of the block `replicate` leaves names the original and
the clone of a pair, except the comparison of that pair. -/
theorem BlockDone.compares {M : Module} {order : CloneMap → CloneMap} {bbCount : Nat}
    {l : List Instruction} {s s' : PassState} {rep : BlockRep}
    (hd : BlockDone M order bbCount l s rep s')
    (hops : ∀ i ∈ l, ∀ op ∈ i.operands, op.allocated s.nextId = true)
    (num : Instruction × Nat → Nat)
    (hcl : ∀ x ∈ rep.block.insts, x ∈ l ∨
        (∃ e ∈ rep.cloneMap, x = remapOperands rep.cloneMap (rawClone e.1 e.2)) ∨
        (∃ e ∈ rep.cloneMap, e.1.ty.isCompared = true ∧
          x ∈ checkInsts (uniqueID bbCount l.length) e.1 e.2 (num e)))
    {e : Instruction × Nat} (he : e ∈ rep.cloneMap) :
    ∀ x ∈ rep.block.insts, x.operands = [Value.inst e.1.id, Value.inst e.2] →
      e.1.ty.isCompared = true ∧
        x = { id := num e, opcode := cmpOpcode e.1.ty, ty := Ty.integer 1,
              operands := [Value.inst e.1.id, Value.inst e.2] } := by
  intro x hx hxo
  have ctx := hd.ctx
  have hv := ctx.value e he
  rcases hcl x hx with h | ⟨e', he', h⟩ | ⟨e', he', hc, h⟩
  · exfalso
    have := hops x h (Value.inst e.2) (by rw [hxo]; simp)
    rw [Value.allocated_inst] at this
    omega
  · exfalso
    have h0 : x.operands.get? 0 = some (Value.inst e.1.id) := by rw [hxo]; rfl
    rw [h, remapOperands_get?] at h0
    cases hop : (rawClone e'.1 e'.2).operands.get? 0 with
    | none => rw [hop] at h0; cases h0
    | some op =>
      rw [hop] at h0
      simp only [Option.map_some', Option.some.injEq] at h0
      rcases remap_cases ctx op with ⟨e2, he2, _, h2⟩ | ⟨h1, h2⟩
      · rw [h2] at h0
        simp only [Value.inst.injEq] at h0
        have := ctx.origAlloc e.1 (ctx.key e he).1
        have := (ctx.value e2 he2).1
        omega
      · rw [h2] at h0
        exact h1 e he h0
  · simp only [checkInsts, List.mem_cons, List.mem_singleton, List.not_mem_nil, or_false] at h
    rcases h with rfl | rfl | rfl
    · simp only [List.cons.injEq, Value.inst.injEq, and_true] at hxo
      have : e' = e := ctx.inj e' he' e he (Or.inl hxo.1)
      subst this
      exact ⟨hc, rfl⟩
    · simp at hxo
    · simp at hxo

theorem cmpOpcode_int {t : Ty} (h : t.isIntegerTy = true ∨ t.isPointerTy = true) :
    cmpOpcode t = Opcode.icmpEQ ∧ t.isCompared = true := by
  cases t <;> simp_all [cmpOpcode, Ty.isCompared, Ty.isIntegerTy, Ty.isPointerTy]

theorem cmpOpcode_float {t : Ty} (h : t.isFloatTy = true) :
    cmpOpcode t = Opcode.fcmpOEQ ∧ t.isCompared = true := by
  cases t <;> simp_all [cmpOpcode, Ty.isCompared, Ty.isIntegerTy, Ty.isPointerTy, Ty.isFloatTy]

/-- C6: for every pair `(i, c)` recorded in a block's clone map, `replicate`
places, when the result type of `i` is an integer or pointer type, an integer
equality comparison of `i` and `c`, its zero-extension to 32 bits and a call
of `assert_ft` on the widened comparison and the block tag; the same with an
ordered-equal floating comparison when the type is float; and for any other
type no instruction at all that compares `i` with `c`.  The three
instructions stand right after `i`, or behind all phi nodes of the block when
`i` is a phi node, and the block holds nothing but its original instructions,
the clones and these checks. -/
theorem C6_check_emitted (f : Function) (M : Module) (F : Function)
    (order : CloneMap → CloneMap) (s : PassState)
    (hwf : WellFormed f s) (hF : M.getFunction FuncName.assert_ft = some F)
    (hord : ∀ cm, (order cm).Perm cm) :
    ∃ reps s', replicateMaps f M order s = some (reps, s') ∧
      replicate f M order s = some ({ f with blocks := reps.map (fun g => g.block) }, s') ∧
      reps.length = f.blocks.length ∧
      ∀ k b rep, f.blocks.get? k = some b → reps.get? k = some rep →
        (∀ i c, (i, c) ∈ rep.cloneMap →
          (i.ty.isIntegerTy = true ∨ i.ty.isPointerTy = true →
            cmpOpcode i.ty = Opcode.icmpEQ ∧
            ∃ n, CheckPlaced (uniqueID (k + 2) b.insts.length) (i, c) n rep.block.insts) ∧
          (i.ty.isFloatTy = true →
            cmpOpcode i.ty = Opcode.fcmpOEQ ∧
            ∃ n, CheckPlaced (uniqueID (k + 2) b.insts.length) (i, c) n rep.block.insts) ∧
          (i.ty.isCompared = false →
            ∀ x ∈ rep.block.insts, x.operands ≠ [Value.inst i.id, Value.inst c])) ∧
        rep.block.insts.length = b.insts.length + rep.cloneMap.length +
          3 * (rep.cloneMap.filter (fun e => e.1.ty.isCompared)).length := by
  obtain ⟨reps, s', h1, h2, _, hlen, hall⟩ := replicateMaps_spec hF order hord hwf
  refine ⟨reps, s', h1, h2, hlen, ?_⟩
  intro k b rep hb hrep
  obtain ⟨sk, sk', hsk, _, hd⟩ := hall k b rep hb hrep
  obtain ⟨num, hplaced, hcl, _, _, _, _⟩ := hd.final
  have hbm : b ∈ f.blocks := List.get?_mem hb
  have hops : ∀ i ∈ b.insts, ∀ op ∈ i.operands, op.allocated sk.nextId = true :=
    fun i hi op hop =>
      Value.allocated_mono (hwf.operandsAllocated i (mem_allInsts hbm hi) op hop) hsk
  refine ⟨?_, hd.length⟩
  intro i c hic
  refine ⟨?_, ?_, ?_⟩
  · intro hty
    obtain ⟨ho, hc⟩ := cmpOpcode_int hty
    exact ⟨ho, num (i, c), (hplaced (i, c) hic hc).2⟩
  · intro hty
    obtain ⟨ho, hc⟩ := cmpOpcode_float hty
    exact ⟨ho, num (i, c), (hplaced (i, c) hic hc).2⟩
  · intro hty x hx hxo
    have := (hd.compares hops num hcl hic x hx hxo).1
    rw [hty] at this
    cases this

/-- C2: an instruction that is a store, call, alloca or branch, or a
terminator, or has an undef or poison operand, is never a key of its block's
clone map, and every instruction of the block `replicate` leaves that is not
an original instruction of the block is the clone, or part of the check, of a
pair whose original is another instruction, itself not excluded. -/
theorem C2_excluded_not_cloned (f : Function) (M : Module) (F : Function)
    (order : CloneMap → CloneMap) (s : PassState)
    (hwf : WellFormed f s) (hF : M.getFunction FuncName.assert_ft = some F)
    (hord : ∀ cm, (order cm).Perm cm) :
    ∃ reps s', replicateMaps f M order s = some (reps, s') ∧
      replicate f M order s = some ({ f with blocks := reps.map (fun g => g.block) }, s') ∧
      reps.length = f.blocks.length ∧
      ∀ k b rep, f.blocks.get? k = some b → reps.get? k = some rep →
        ∀ I ∈ b.insts, Excluded I →
          (∀ e ∈ rep.cloneMap, e.1.id ≠ I.id) ∧
          (∀ x ∈ rep.block.insts, x ∈ b.insts ∨
            ∃ e ∈ rep.cloneMap, e.1.id ≠ I.id ∧ ¬ Excluded e.1 ∧
              (x = remapOperands rep.cloneMap (rawClone e.1 e.2) ∨
               ∃ n, x ∈ checkInsts (uniqueID (k + 2) b.insts.length) e.1 e.2 n)) := by
  obtain ⟨reps, s', h1, h2, _, hlen, hall⟩ := replicateMaps_spec hF order hord hwf
  refine ⟨reps, s', h1, h2, hlen, ?_⟩
  intro k b rep hb hrep I hI hex
  obtain ⟨sk, sk', hsk, _, hd⟩ := hall k b rep hb hrep
  obtain ⟨num, _, hcl, _, _, _, _⟩ := hd.final
  have hbm : b ∈ f.blocks := List.get?_mem hb
  have ok := (hwf.blockOK hbm)
  have hkey : ∀ e ∈ rep.cloneMap, e.1.id ≠ I.id ∧ ¬ Excluded e.1 := by
    intro e he
    obtain ⟨hm, hc⟩ := hd.ctx.key e he
    have hne := (canClone_iff e.1).mp hc
    refine ⟨?_, hne⟩
    intro hid
    have : e.1 = I := eq_of_id_eq ok.nodup hm hI hid
    rw [this] at hne
    exact hne hex
  refine ⟨fun e he => (hkey e he).1, ?_⟩
  intro x hx
  rcases hcl x hx with h | ⟨e, he, h⟩ | ⟨e, he, _, h⟩
  · exact Or.inl h
  · exact Or.inr ⟨e, he, (hkey e he).1, (hkey e he).2, Or.inl h⟩
  · exact Or.inr ⟨e, he, (hkey e he).1, (hkey e he).2, Or.inr ⟨num e, h⟩⟩

/-- Instructions of different blocks have different identities. -/
theorem ids_ne_of_blocks_ne :
    ∀ (bs : List BasicBlock), ((bs.flatMap (fun b => b.insts)).map (fun i => i.id)).Nodup →
      ∀ k k' b b', k ≠ k' → bs.get? k = some b → bs.get? k' = some b' →
        ∀ x ∈ b.insts, ∀ y ∈ b'.insts, x.id ≠ y.id := by
  intro bs
  induction bs with
  | nil => intro _ k k' b b' _ hb; cases hb
  | cons c cs ih =>
    intro hN k k' b b' hne hb hb' x hx y hy
    rw [List.flatMap_cons, List.map_append, List.nodup_append] at hN
    obtain ⟨_, hN2, hdis⟩ := hN
    have hin : ∀ (j : Nat) (d : BasicBlock), cs.get? j = some d → ∀ z ∈ d.insts,
        z.id ∈ (cs.flatMap (fun b => b.insts)).map (fun i => i.id) := by
      intro j d hd z hz
      exact List.mem_map_of_mem _ (List.mem_flatMap.mpr ⟨d, List.get?_mem hd, hz⟩)
    cases k with
    | zero =>
      cases k' with
      | zero => exact absurd rfl hne
      | succ k' =>
        simp only [List.get?_cons_zero, Option.some.injEq] at hb
        simp only [List.get?_cons_succ] at hb'
        subst hb
        intro hxy
        exact hdis (List.mem_map_of_mem _ hx) (hxy ▸ hin k' b' hb' y hy)
    | succ k =>
      cases k' with
      | zero =>
        simp only [List.get?_cons_zero, Option.some.injEq] at hb'
        simp only [List.get?_cons_succ] at hb
        subst hb'
        intro hxy
        exact hdis (List.mem_map_of_mem _ hy) (hxy ▸ hin k b hb x hx)
      | succ k' =>
        simp only [List.get?_cons_succ] at hb hb'
        exact ih hN2 k k' b b' (fun h => hne (by rw [h])) hb hb' x hx y hy

/-- C5: in every block, for every recorded pair `(i, c)`, the clone `cl`
standing right before `i` has at every operand position the clone of the
operand of `i` when that operand is an instruction recorded in the same
block's clone map, and the operand of `i` itself otherwise; the keys of the
map are cloned instructions of this very block, never an instruction of
another block.  Two iteration orders of the clone map give the same map and
the same clones. -/
theorem C5_clone_operands (f : Function) (M : Module) (F : Function)
    (order₁ order₂ : CloneMap → CloneMap) (s : PassState)
    (hwf : WellFormed f s) (hF : M.getFunction FuncName.assert_ft = some F)
    (h₁ : ∀ cm, (order₁ cm).Perm cm) (h₂ : ∀ cm, (order₂ cm).Perm cm) :
    ∃ reps₁ s₁ reps₂ s₂, replicateMaps f M order₁ s = some (reps₁, s₁) ∧
      replicateMaps f M order₂ s = some (reps₂, s₂) ∧
      reps₁.length = f.blocks.length ∧ reps₂.length = f.blocks.length ∧
      ∀ k b rep₁ rep₂, f.blocks.get? k = some b → reps₁.get? k = some rep₁ →
        reps₂.get? k = some rep₂ →
        rep₁.cloneMap = rep₂.cloneMap ∧
        (∀ e ∈ rep₁.cloneMap, e.1 ∈ b.insts ∧ ¬ Excluded e.1) ∧
        (∀ k' b', k' ≠ k → f.blocks.get? k' = some b' →
          ∀ i' ∈ b'.insts, ∀ e ∈ rep₁.cloneMap, i'.id ≠ e.1.id) ∧
        ∀ i c, (i, c) ∈ rep₁.cloneMap →
          ∃ cl : Instruction, cl.id = c ∧ cl.opcode = i.opcode ∧
            cl.operands.length = i.operands.length ∧
            Adjacent [cl, i] rep₁.block.insts ∧ Adjacent [cl, i] rep₂.block.insts ∧
            ∀ j op, i.operands.get? j = some op →
              (∀ i' c', (i', c') ∈ rep₁.cloneMap → op = Value.inst i'.id →
                cl.operands.get? j = some (Value.inst c')) ∧
              ((∀ i' c', (i', c') ∈ rep₁.cloneMap → op ≠ Value.inst i'.id) →
                cl.operands.get? j = some op) := by
  obtain ⟨reps₁, s₁, hr1, _, _, hlen1, hall1⟩ := replicateMaps_spec hF order₁ h₁ hwf
  obtain ⟨reps₂, s₂, hr2, _, _, hlen2, hall2⟩ := replicateMaps_spec hF order₂ h₂ hwf
  refine ⟨reps₁, s₁, reps₂, s₂, hr1, hr2, hlen1, hlen2, ?_⟩
  have hmaps := (replicateBlocks_order hF order₁ order₂ h₁ h₂ f.blocks 1 s
    (fun b hb => hwf.blockOK hb) _ _ hr1 hr2).2
  intro k b rep₁ rep₂ hb hrep1 hrep2
  obtain ⟨sk, _, _, _, hd1⟩ := hall1 k b rep₁ hb hrep1
  obtain ⟨_, _, _, _, hd2⟩ := hall2 k b rep₂ hb hrep2
  have hcm : rep₁.cloneMap = rep₂.cloneMap := by
    have e1 : (reps₁.map (fun g => g.cloneMap)).get? k = some rep₁.cloneMap := by
      rw [List.get?_eq_getElem?, List.getElem?_map, ← List.get?_eq_getElem?, hrep1]; rfl
    have e2 : (reps₂.map (fun g => g.cloneMap)).get? k = some rep₂.cloneMap := by
      rw [List.get?_eq_getElem?, List.getElem?_map, ← List.get?_eq_getElem?, hrep2]; rfl
    simp only [] at hmaps
    rw [hmaps, e2] at e1
    exact (Option.some.inj e1).symm
  have ctx := hd1.ctx
  refine ⟨hcm, ?_, ?_, ?_⟩
  · intro e he
    exact ⟨(ctx.key e he).1, (canClone_iff e.1).mp (ctx.key e he).2⟩
  · intro k' b' hne hb' i' hi' e he
    exact ids_ne_of_blocks_ne f.blocks hwf.distinct k' k b' b hne hb' hb i' hi' e.1
      (ctx.key e he).1
  · intro i c hic
    obtain ⟨_, _, _, hadj1, _, _, _⟩ := hd1.final
    obtain ⟨_, _, _, hadj2, _, _, _⟩ := hd2.final
    refine ⟨remapOperands rep₁.cloneMap (rawClone i c), rfl, rfl, ?_, hadj1 (i, c) hic, ?_, ?_⟩
    · simp [remapOperands, rawClone]
    · have := hadj2 (i, c) (hcm ▸ hic)
      rw [← hcm] at this
      exact this
    · intro j op hj
      have hget : (remapOperands rep₁.cloneMap (rawClone i c)).operands.get? j =
          some (remapOperand rep₁.cloneMap op) := by
        rw [remapOperands_get?]
        show Option.map _ (i.operands.get? j) = _
        rw [hj]; rfl
      rw [hget]
      constructor
      · intro i' c' hic' hop
        rcases remap_cases ctx op with ⟨e, he, h3, h4⟩ | ⟨h3, _⟩
        · rw [h4]
          rw [hop] at h3
          simp only [Value.inst.injEq] at h3
          have := ctx.inj (i', c') hic' e he (Or.inl h3)
          rw [← this]
        · exact absurd hop (h3 (i', c') hic')
      · intro hnone
        rcases remap_cases ctx op with ⟨e, he, h3, _⟩ | ⟨_, h4⟩
        · exact absurd h3 (hnone e.1 e.2 he)
        · rw [h4]

/-- The only call of the block `replicate` leaves whose first argument is the
widened comparison of a pair is the handler call of that pair. -/
theorem BlockDone.calls {M : Module} {order : CloneMap → CloneMap} {bbCount : Nat}
    {l : List Instruction} {s s' : PassState} {rep : BlockRep}
    (hd : BlockDone M order bbCount l s rep s')
    (hops : ∀ i ∈ l, ∀ op ∈ i.operands, op.allocated s.nextId = true)
    (num : Instruction × Nat → Nat)
    (hnum : ∀ e ∈ rep.cloneMap, e.1.ty.isCompared = true →
        (cloneInsts l s).2.2.nextId ≤ num e)
    (hcl : ∀ x ∈ rep.block.insts, x ∈ l ∨
        (∃ e ∈ rep.cloneMap, x = remapOperands rep.cloneMap (rawClone e.1 e.2)) ∨
        (∃ e ∈ rep.cloneMap, e.1.ty.isCompared = true ∧
          x ∈ checkInsts (uniqueID bbCount l.length) e.1 e.2 (num e)))
    {e : Instruction × Nat} (he : e ∈ rep.cloneMap) (hc : e.1.ty.isCompared = true) :
    ∀ x ∈ rep.block.insts, x.opcode = Opcode.call →
      x.operands.head? = some (Value.inst (num e + 1)) →
      x = { id := num e + 2, opcode := Opcode.call, ty := Ty.void,
            operands := [Value.inst (num e + 1), getInt32 (uniqueID bbCount l.length),
                         Value.func FuncName.assert_ft] } := by
  intro x hx hxop hxo
  have ctx := hd.ctx
  have hn := hnum e he hc
  have hlo := ctx.lo0_le
  rcases hcl x hx with h | ⟨e', he', h⟩ | ⟨e', he', hc', h⟩
  · exfalso
    have hm : Value.inst (num e + 1) ∈ x.operands := List.mem_of_mem_head? hxo
    have := hops x h _ hm
    rw [Value.allocated_inst] at this
    omega
  · exfalso
    have h0 : x.operands.get? 0 = some (Value.inst (num e + 1)) := by
      rw [← hxo]; cases x.operands <;> rfl
    rw [h, remapOperands_get?] at h0
    cases hop : (rawClone e'.1 e'.2).operands.get? 0 with
    | none => rw [hop] at h0; cases h0
    | some op =>
      rw [hop] at h0
      simp only [Option.map_some', Option.some.injEq] at h0
      have hopm : op ∈ e'.1.operands := List.get?_mem hop
      rcases remap_cases ctx op with ⟨e2, he2, _, h2⟩ | ⟨_, h2⟩
      · rw [h2] at h0
        simp only [Value.inst.injEq] at h0
        have := (ctx.value e2 he2).2
        omega
      · rw [h2] at h0
        have := hops e'.1 (ctx.key e' he').1 op hopm
        rw [h0, Value.allocated_inst] at this
        omega
  · simp only [checkInsts, List.mem_cons, List.mem_singleton, List.not_mem_nil, or_false] at h
    rcases h with rfl | rfl | rfl
    · exfalso
      simp only [cmpOpcode] at hxop
      split at hxop <;> cases hxop
    · cases hxop
    · simp only [List.head?_cons, Option.some.injEq, Value.inst.injEq, add_left_inj] at hxo
      rw [hxo]

/-- A placed check lies behind the original and ahead of the terminator. -/
theorem placed_decomp {uid n : Nat} {I : Instruction} {c : Nat} {out : List Instruction}
    {t : Instruction} (hp : CheckPlaced uid (I, c) n out) (hI : I ∈ out)
    (hlast : out.getLast? = some t) (ht : t.id < n) :
    ∃ pre post, out = pre ++ checkInsts uid I c n ++ post ++ [t] ∧ I ∈ pre := by
  have key : ∀ P Q, out = P ++ checkInsts uid I c n ++ Q → I ∈ P →
      ∃ pre post, out = pre ++ checkInsts uid I c n ++ post ++ [t] ∧ I ∈ pre := by
    intro P Q hout hP
    have hQ : Q.getLast? = some t := by
      rw [hout, List.getLast?_append] at hlast
      cases hq : Q.getLast? with
      | some z => rw [hq] at hlast; simpa using hlast
      | none =>
        exfalso
        rw [hq] at hlast
        simp only [Option.none_or, List.getLast?_append] at hlast
        have h3 : (checkInsts uid I c n).getLast? =
            some { id := n + 2, opcode := Opcode.call, ty := Ty.void,
                   operands := [Value.inst (n + 1), getInt32 uid,
                                Value.func FuncName.assert_ft] } := rfl
        rw [h3] at hlast
        have h4 : t.id = n + 2 := by
          have := Option.some.inj hlast
          rw [← this]
        omega
    obtain ⟨ys, hys⟩ := List.getLast?_eq_some_iff.mp hQ
    exact ⟨P, ys, by rw [hout, hys]; simp, hP⟩
  unfold CheckPlaced at hp
  by_cases hphi : I.isPHI = true
  · rw [if_pos hphi] at hp
    obtain ⟨pre, post, hout, hpost⟩ := hp
    refine key pre post hout ?_
    rw [hout] at hI
    simp only [List.mem_append] at hI
    rcases hI with (h | h) | h
    · exact h
    · rw [checkInsts_isPHI h] at hphi; cases hphi
    · rw [hpost I h] at hphi; cases hphi
  · rw [if_neg hphi] at hp
    obtain ⟨pre, post, hout⟩ := hp
    exact key (pre ++ [I]) post (by rw [hout]; simp) (by simp)

/-- C3 (amended): every instruction that is not excluded has exactly one
entry in its block's clone map and exactly one clone in the block, standing
right before it.  When its result type is an integer, pointer or float type
the block holds exactly one instruction comparing it with its clone, and
exactly one call whose first argument is the widening of that comparison, in
a check placed behind the instruction and ahead of the block's terminator;
for any other result type no instruction compares it with its clone. -/
theorem C3_one_clone_one_check (f : Function) (M : Module) (F : Function)
    (order : CloneMap → CloneMap) (s : PassState)
    (hwf : WellFormed f s) (hF : M.getFunction FuncName.assert_ft = some F)
    (hord : ∀ cm, (order cm).Perm cm) :
    ∃ reps s', replicateMaps f M order s = some (reps, s') ∧
      replicate f M order s = some ({ f with blocks := reps.map (fun g => g.block) }, s') ∧
      reps.length = f.blocks.length ∧
      ∀ k b rep, f.blocks.get? k = some b → reps.get? k = some rep →
        ∀ I ∈ b.insts, ¬ Excluded I →
          ∃ c, (I, c) ∈ rep.cloneMap ∧
            (∀ e ∈ rep.cloneMap, e.1.id = I.id → e = (I, c)) ∧
            (rep.block.insts.filter (fun x => decide (x.id = c))).length = 1 ∧
            Adjacent [remapOperands rep.cloneMap (rawClone I c), I] rep.block.insts ∧
            (I.ty.isCompared = true →
              ∃ n pre post t,
                rep.block.insts =
                  pre ++ checkInsts (uniqueID (k + 2) b.insts.length) I c n ++ post ++ [t] ∧
                I ∈ pre ∧ getTerminator b.insts = some t ∧
                (rep.block.insts.filter (fun x =>
                  decide (x.operands = [Value.inst I.id, Value.inst c]))).length = 1 ∧
                (rep.block.insts.filter (fun x =>
                  decide (x.opcode = Opcode.call ∧
                    x.operands.head? = some (Value.inst (n + 1))))).length = 1) ∧
            (I.ty.isCompared = false →
              ∀ x ∈ rep.block.insts, x.operands ≠ [Value.inst I.id, Value.inst c]) := by
  obtain ⟨reps, s', h1, h2, _, hlen, hall⟩ := replicateMaps_spec hF order hord hwf
  refine ⟨reps, s', h1, h2, hlen, ?_⟩
  intro k b rep hb hrep I hI hex
  obtain ⟨sk, sk', hsk, _, hd⟩ := hall k b rep hb hrep
  obtain ⟨num, hplaced, hcl, hadj, hnodup, horig, hlast⟩ := hd.final
  have hbm : b ∈ f.blocks := List.get?_mem hb
  have ok := hwf.blockOK hbm
  have ctx := hd.ctx
  have hops : ∀ i ∈ b.insts, ∀ op ∈ i.operands, op.allocated sk.nextId = true :=
    fun i hi op hop =>
      Value.allocated_mono (hwf.operandsAllocated i (mem_allInsts hbm hi) op hop) hsk
  -- the pair of `I`
  have hkey : I ∈ rep.cloneMap.map Prod.fst := by
    rw [hd.map, cloneInsts_keys]
    exact List.mem_filter.mpr ⟨hI, (canClone_iff I).mpr hex⟩
  obtain ⟨e, he, heI⟩ := List.mem_map.mp hkey
  obtain ⟨i0, c⟩ := e
  simp only at heI
  subst heI
  have hIout : i0 ∈ rep.block.insts := by
    have : i0 ∈ rep.block.insts.filter (fun x => decide (x.id < sk.nextId)) := by
      rw [horig]; exact hI
    exact List.mem_of_mem_filter this
  have hclone := hadj (i0, c) he
  have hcmem : remapOperands rep.cloneMap (rawClone i0 c) ∈ rep.block.insts := by
    obtain ⟨pre, post, e1⟩ := hclone
    rw [e1]; simp
  refine ⟨c, he, ?_, ?_, hclone, ?_, ?_⟩
  · intro e' he' hid
    exact ctx.inj e' he' (i0, c) he (Or.inl hid)
  · refine filter_length_one (nodup_of_ids hnodup) _ hcmem (by simp [remapOperands, rawClone]) ?_
    intro x hx hxc
    simp only [decide_eq_true_eq] at hxc
    exact eq_of_id_eq hnodup hx hcmem (by rw [hxc]; rfl)
  · intro hc
    obtain ⟨hn, hp⟩ := hplaced (i0, c) he hc
    obtain ⟨t, ht, hterm⟩ := ok.term
    have htid : t.id < num (i0, c) := by
      have := ctx.origAlloc t (List.mem_of_getLast?_eq_some ht)
      have := ctx.lo0_le
      omega
    obtain ⟨pre, post, hout, hpre⟩ := placed_decomp hp hIout (hlast.trans ht) htid
    refine ⟨num (i0, c), pre, post, t, hout, hpre, getTerminator_eq_some.mpr ⟨ht, hterm⟩, ?_, ?_⟩
    · refine filter_length_one (nodup_of_ids hnodup) _
        (a := { id := num (i0, c), opcode := cmpOpcode i0.ty, ty := Ty.integer 1,
                operands := [Value.inst i0.id, Value.inst c] }) ?_ (by simp) ?_
      · rw [hout]; simp [checkInsts]
      · intro x hx hxo
        simp only [decide_eq_true_eq] at hxo
        exact (hd.compares hops num hcl he x hx hxo).2
    · refine filter_length_one (nodup_of_ids hnodup) _
        (a := { id := num (i0, c) + 2, opcode := Opcode.call, ty := Ty.void,
                operands := [Value.inst (num (i0, c) + 1),
                             getInt32 (uniqueID (k + 2) b.insts.length),
                             Value.func FuncName.assert_ft] }) ?_ (by simp) ?_
      · rw [hout]; simp [checkInsts]
      · intro x hx hxo
        simp only [decide_eq_true_eq] at hxo
        exact hd.calls hops num (fun e' he' hc' => (hplaced e' he' hc').1) hcl he hc x hx
          hxo.1 hxo.2
  · intro hc x hx hxo
    have := (hd.compares hops num hcl he x hx hxo).1
    rw [hc] at this
    cases this

/-! ## The signature builder: one terminator -/

theorem createXor_spec (a b : Value) (s : PassState) :
    (createXor a b s).2.2.nextId = s.nextId + (createXor a b s).2.1.length ∧
    (createXor a b s).2.2.SWFTAdded = s.SWFTAdded ∧
    (createXor a b s).2.1.map (fun x => x.id) =
      List.range' s.nextId (createXor a b s).2.1.length ∧
    (∀ x ∈ (createXor a b s).2.1, x.opcode = Opcode.xor) := by
  unfold createXor
  split <;> simp

theorem createSelect_spec (c : Value) (x y : Nat) (s : PassState) :
    (createSelect c x y s).2.2.nextId = s.nextId + (createSelect c x y s).2.1.length ∧
    (createSelect c x y s).2.2.SWFTAdded = s.SWFTAdded ∧
    (createSelect c x y s).2.1.map (fun x => x.id) =
      List.range' s.nextId (createSelect c x y s).2.1.length ∧
    (∀ i ∈ (createSelect c x y s).2.1, i.opcode = Opcode.select) := by
  unfold createSelect
  split <;> simp

theorem range'_append_range' (a m n : Nat) :
    List.range' a m ++ List.range' (a + m) n = List.range' a (m + n) := by
  rw [List.range'_append_1, Nat.add_comm n m]

/-- The instructions `signTerminator` builds take consecutive fresh
identities and are `select` or `xor` instructions. -/
theorem signTerminator_spec {idMap : List Nat} {k : Nat} {t : Instruction} {brDest : Value}
    {s : PassState} {r : Option (Value × Value) × List Instruction × PassState}
    (h : signTerminator idMap k t brDest s = some r) :
    r.2.2.nextId = s.nextId + r.2.1.length ∧
    r.2.2.SWFTAdded = s.SWFTAdded ∧
    r.2.1.map (fun x => x.id) = List.range' s.nextId r.2.1.length ∧
    (∀ x ∈ r.2.1, x.opcode = Opcode.select ∨ x.opcode = Opcode.xor) := by
  unfold signTerminator at h
  split at h
  · split at h
    · split at h
      · rename_i c s0 s1 _ _ _
        simp only [Option.some.injEq] at h
        subst h
        obtain ⟨a1, a2, a3, a4⟩ := createSelect_spec c (idOf idMap s0) (idOf idMap s1) s
        obtain ⟨b1, b2, b3, b4⟩ := createXor_spec (getInt32 (idOf idMap k))
          (createSelect c (idOf idMap s0) (idOf idMap s1) s).1
          (createSelect c (idOf idMap s0) (idOf idMap s1) s).2.2
        refine ⟨?_, ?_, ?_, ?_⟩
        · simp only [List.length_append]; rw [b1, a1]; omega
        · simp only []; rw [b2, a2]
        · simp only [List.map_append, List.length_append]
          rw [a3, b3, a1, range'_append_range']
        · intro x hx
          rcases List.mem_append.mp hx with hx | hx
          · exact Or.inl (a4 x hx)
          · exact Or.inr (b4 x hx)
      · cases h
    · split at h
      · rename_i s0 _
        simp only [Option.some.injEq] at h
        subst h
        obtain ⟨b1, b2, b3, b4⟩ := createXor_spec (getInt32 (idOf idMap k))
          (getInt32 (idOf idMap s0)) s
        exact ⟨b1, b2, b3, fun x hx => Or.inr (b4 x hx)⟩
      · cases h
  · split at h
    · split at h
      · rename_i s0 _
        simp only [Option.some.injEq] at h
        subst h
        obtain ⟨b1, b2, b3, b4⟩ := createXor_spec (getInt32 (idOf idMap k))
          (getInt32 (idOf idMap s0)) s
        exact ⟨b1, b2, b3, fun x hx => Or.inr (b4 x hx)⟩
      · cases h
    · simp only [Option.some.injEq] at h
      subst h
      simp

/-- On a well-shaped terminator `signTerminator` does not fail. -/
theorem signTerminator_isSome (idMap : List Nat) (k : Nat) {t : Instruction} (brDest : Value)
    (s : PassState) (hshape : branchShaped t) :
    ∃ r, signTerminator idMap k t brDest s = some r := by
  unfold signTerminator
  by_cases hbr : t.opcode = Opcode.br
  · rw [if_pos hbr]
    rcases hshape hbr with ⟨h1, h2⟩ | ⟨h1, h2⟩
    · have hc : t.isConditional = false := by
        simp [Instruction.isConditional, h1, h2]
      rw [hc]
      simp only [Bool.false_eq_true, if_false]
      cases hs : t.succs with
      | nil => rw [hs] at h2; cases h2
      | cons a as => simp [Instruction.getSuccessor, hs]
    · have hc : t.isConditional = true := by
        simp [Instruction.isConditional, h1, h2]
      rw [hc]
      simp only [if_true]
      cases ho : t.operands with
      | nil => rw [ho] at h1; cases h1
      | cons c cs =>
        cases hs : t.succs with
        | nil => rw [hs] at h2; cases h2
        | cons a as =>
          cases as with
          | nil => rw [hs] at h2; cases h2
          | cons a' as' => simp [Instruction.getCondition, Instruction.getSuccessor, ho, hs]
  · rw [if_neg hbr]
    by_cases hl : t.succs.length > 0
    · rw [if_pos hl]
      cases hs : t.succs with
      | nil => rw [hs] at hl; cases hl
      | cons a as => simp [Instruction.getSuccessor, hs]
    · rw [if_neg hl]
      exact ⟨_, rfl⟩

theorem insertBeforeTerminator_concat (new front : List Instruction) (t : Instruction) :
    insertBeforeTerminator new (front ++ [t]) = front ++ new ++ [t] := by
  unfold insertBeforeTerminator
  simp

/-! ## The signature builder: one block -/

/-- A block that ends in a terminator splits into its leading phi nodes, a
body that starts with a non-phi instruction if it is not empty, and the
terminator. -/
theorem split_terminated {l : List Instruction} {t : Instruction}
    (ht : getTerminator l = some t) :
    ∃ phis body, splitAtFirstNonPHI l = some (phis, body ++ [t]) ∧
      l = phis ++ body ++ [t] ∧ (∀ x ∈ phis, x.isPHI = true) ∧
      (∀ y, (body ++ [t]).head? = some y → y.isPHI = false) := by
  obtain ⟨hlast, hterm⟩ := getTerminator_eq_some.mp ht
  obtain ⟨ys, hys⟩ := List.getLast?_eq_some_iff.mp hlast
  have hsome := splitAtFirstNonPHI_isSome (l := l)
    ⟨t, by rw [hys]; simp, isPHI_of_isTerminator hterm⟩
  cases hs : splitAtFirstNonPHI l with
  | none => rw [hs] at hsome; cases hsome
  | some p =>
    obtain ⟨front, back⟩ := p
    obtain ⟨e1, h1, y, B, hB, hy⟩ := splitAtFirstNonPHI_some hs
    have hbl : back.getLast? = some t := by
      rw [e1, List.getLast?_append] at hlast
      rw [hB] at hlast ⊢
      cases hq : (y :: B).getLast? with
      | none => simp at hq
      | some z => rw [hq] at hlast; simpa using hlast
    obtain ⟨body, hbody⟩ := List.getLast?_eq_some_iff.mp hbl
    refine ⟨front, body, by rw [← hbody], by rw [e1, hbody]; simp, h1, ?_⟩
    intro y' hy'
    rw [← hbody, hB] at hy'
    simp only [List.head?_cons, Option.some.injEq] at hy'
    rw [← hy']; exact hy

theorem getTerminator_append {a b : List Instruction} {t : Instruction} :
    getTerminator (a ++ (b ++ [t])) = getTerminator (b ++ [t]) := by
  unfold getTerminator
  simp [List.getLast?_append]

theorem getTerminator_concat {b : List Instruction} {t : Instruction}
    (ht : t.isTerminator = true) : getTerminator (b ++ [t]) = some t := by
  unfold getTerminator
  simp [ht]

theorem getTerminator_mid (a H b : List Instruction) {t : Instruction}
    (ht : t.isTerminator = true) : getTerminator (a ++ H ++ (b ++ [t])) = some t := by
  apply getTerminator_eq_some.mpr
  exact ⟨by simp [List.getLast?_append], ht⟩

theorem insertBeforeTerminator_mid (new a H b : List Instruction) (t : Instruction) :
    insertBeforeTerminator new (a ++ H ++ (b ++ [t])) = a ++ H ++ b ++ new ++ [t] := by
  rw [← List.append_assoc, insertBeforeTerminator_concat]

theorem instrumentBlock_nonentry {M : Module} {F : Function}
    (hF : M.getFunction FuncName.assert_cfg_ft = some F)
    (idMap : List Nat) (k : Nat) (s : PassState)
    {phis body : List Instruction} {t : Instruction}
    {r : Option (Value × Value) × List Instruction × PassState}
    (hsplit : splitAtFirstNonPHI (phis ++ body ++ [t]) = some (phis, body ++ [t]))
    (hterm : t.isTerminator = true)
    (hr : signTerminator idMap k t (Value.inst (s.nextId + 2))
      { s with nextId := s.nextId + 6 } = some r) :
    instrumentBlock M idMap false k { insts := phis ++ body ++ [t] } s =
      some ({ block := { insts := phis ++ ([phiNode s.nextId [] [], phiNode (s.nextId + 1) [] []] ++
                cfgCheck (idOf idMap k) s.nextId) ++ body ++ r.2.1 ++ [t] },
              diff := r.1.map Prod.fst, dest := r.1.map Prod.snd,
              diffPhi := some s.nextId, destPhi := some (s.nextId + 1) }, r.2.2) := by
  unfold instrumentBlock
  simp only [hsplit, hF, createXor, Value.isConstant, Bool.false_and, Bool.false_eq_true,
    if_false]
  rw [if_pos trivial, getTerminator_mid _ _ _ hterm]
  simp only [Nat.add_assoc, Nat.reduceAdd] at hr ⊢
  rw [hr]
  simp only [insertBeforeTerminator_mid, phiNode, cfgCheck, Nat.add_assoc, Nat.reduceAdd]
  rfl

theorem instrumentBlock_entry {M : Module}
    (idMap : List Nat) (k : Nat) (s : PassState)
    {phis body : List Instruction} {t : Instruction}
    {r : Option (Value × Value) × List Instruction × PassState}
    (hsplit : splitAtFirstNonPHI (phis ++ body ++ [t]) = some (phis, body ++ [t]))
    (hterm : t.isTerminator = true)
    (hr : signTerminator idMap k t (getInt32 (idOf idMap k)) s = some r) :
    instrumentBlock M idMap true k { insts := phis ++ body ++ [t] } s =
      some ({ block := { insts := phis ++ body ++ r.2.1 ++ [t] },
              diff := r.1.map Prod.fst, dest := r.1.map Prod.snd,
              diffPhi := none, destPhi := none }, r.2.2) := by
  unfold instrumentBlock
  simp only [hsplit]
  rw [if_neg (by simp), getTerminator_concat hterm]
  simp only [hr, insertBeforeTerminator_concat]

theorem instrumentBlock_spec {M : Module} {F : Function}
    (hF : M.getFunction FuncName.assert_cfg_ft = some F)
    (idMap : List Nat) (flag : Bool) (k : Nat) (hflag : flag = true ↔ k = 0)
    (l : List Instruction) (s : PassState)
    (hT : (getTerminator l).isSome = true)
    (hshape : ∀ t, getTerminator l = some t → branchShaped t) :
    ∃ g s', instrumentBlock M idMap flag k { insts := l } s = some (g, s') ∧
      SigDone idMap k l s g s' := by
  cases ht : getTerminator l with
  | none => rw [ht] at hT; cases hT
  | some t =>
    obtain ⟨phis, body, hsplit, hl, hphis, hhead⟩ := split_terminated ht
    have hterm := (getTerminator_eq_some.mp ht).2
    subst hl
    by_cases hk : k = 0
    · have hfl : flag = true := hflag.mpr hk
      obtain ⟨r, hr⟩ := signTerminator_isSome idMap k (getInt32 (idOf idMap k)) s (hshape t ht)
      subst hfl
      refine ⟨_, _, instrumentBlock_entry idMap k s hsplit hterm hr,
        ⟨⟨phis, body, t, r, rfl, hphis, hhead, hterm, ?_, rfl, rfl, rfl, ?_, ?_⟩⟩⟩
      · simp only [hk, if_true]
        rw [hk] at hr
        exact hr
      · intro _; exact ⟨rfl, rfl, rfl⟩
      · intro h; exact absurd hk h
    · have hfl : flag = false := by
        cases flag
        · rfl
        · exact absurd (hflag.mp rfl) hk
      obtain ⟨r, hr⟩ := signTerminator_isSome idMap k (Value.inst (s.nextId + 2))
        { s with nextId := s.nextId + 6 } (hshape t ht)
      subst hfl
      refine ⟨_, _, instrumentBlock_nonentry hF idMap k s hsplit hterm hr,
        ⟨⟨phis, body, t, r, rfl, hphis, hhead, hterm, ?_, rfl, rfl, rfl, ?_, ?_⟩⟩⟩
      · simp only [hk, if_false]
        exact hr
      · intro h; exact absurd h hk
      · intro _; exact ⟨rfl, rfl, rfl⟩

/-! ## The signature builder: all blocks -/

theorem SigDone.sig_nextId_le {idMap : List Nat} {k : Nat} {l : List Instruction}
    {s s' : PassState} {g : BlockSig} (h : SigDone idMap k l s g s') :
    s.nextId ≤ s'.nextId := by
  obtain ⟨phis, body, t, r, _, _, _, _, hr, hs, _⟩ := h.shape
  have := (signTerminator_spec hr).1
  rw [hs, this]
  simp only []
  split <;> omega

theorem instrumentBlocks_spec {M : Module} {F : Function}
    (hF : M.getFunction FuncName.assert_cfg_ft = some F) (idMap : List Nat) :
    ∀ (bs : List BasicBlock) (flag : Bool) (k : Nat) (s : PassState),
      (flag = true ↔ k = 0) →
      (∀ b ∈ bs, (getTerminator b.insts).isSome = true ∧
        ∀ t, getTerminator b.insts = some t → branchShaped t) →
      ∃ sigs s', instrumentBlocks M idMap flag k bs s = some (sigs, s') ∧
        s.nextId ≤ s'.nextId ∧ sigs.length = bs.length ∧
        ∀ j b g, bs.get? j = some b → sigs.get? j = some g →
          ∃ sj sj', s.nextId ≤ sj.nextId ∧ sj'.nextId ≤ s'.nextId ∧
            SigDone idMap (k + j) b.insts sj g sj' := by
  intro bs
  induction bs with
  | nil =>
    intro flag k s _ _
    exact ⟨[], s, rfl, le_refl _, rfl, fun j b g hb => by cases hb⟩
  | cons b bs ih =>
    intro flag k s hflag hok
    obtain ⟨hT, hS⟩ := hok b (List.mem_cons_self _ _)
    obtain ⟨g, s1, hrun, hd⟩ := instrumentBlock_spec hF idMap flag k hflag b.insts s hT hS
    have hle := hd.sig_nextId_le
    obtain ⟨sigs, s2, hrun2, hle2, hlen, hall⟩ := ih false (k + 1) s1 (by simp)
      (fun b' hb' => hok b' (List.mem_cons_of_mem _ hb'))
    refine ⟨g :: sigs, s2, ?_, le_trans hle hle2, by simp [hlen], ?_⟩
    · simp only [instrumentBlocks, hrun, hrun2]
    · intro j b' g' hb' hg'
      cases j with
      | zero =>
        simp only [List.get?_cons_zero, Option.some.injEq] at hb' hg'
        subst hb' hg'
        exact ⟨s, s1, le_refl _, hle2, hd⟩
      | succ j =>
        simp only [List.get?_cons_succ] at hb' hg'
        obtain ⟨sj, sj', h1, h2, h3⟩ := hall j b' g' hb' hg'
        refine ⟨sj, sj', le_trans hle h1, h2, ?_⟩
        have : k + (j + 1) = k + 1 + j := by omega
        rw [this]; exact h3

/-! ## Completing the merge nodes -/

theorem updateInst_mid (n : Nat) (g : Instruction → Instruction) (A B : List Instruction)
    (D X : Instruction) (hD : D.id = n) (hX : X.id ≠ n)
    (hA : ∀ x ∈ A, x.id ≠ n) (hB : ∀ x ∈ B, x.id ≠ n) :
    updateInst n g (A ++ [D, X] ++ B) = A ++ [g D, X] ++ B := by
  rw [updateInst_append, updateInst_append, updateInst_of_ne n g A hA,
    updateInst_of_ne n g B hB, updateInst_cons, updateInst_cons, if_pos hD, if_neg hX]
  rfl

theorem updateInst_mid' (m : Nat) (g : Instruction → Instruction) (A B : List Instruction)
    (D X : Instruction) (hD : D.id ≠ m) (hX : X.id = m)
    (hA : ∀ x ∈ A, x.id ≠ m) (hB : ∀ x ∈ B, x.id ≠ m) :
    updateInst m g (A ++ [D, X] ++ B) = A ++ [D, g X] ++ B := by
  rw [updateInst_append, updateInst_append, updateInst_of_ne m g A hA,
    updateInst_of_ne m g B hB, updateInst_cons, updateInst_cons, if_neg hD, if_pos hX]
  rfl

/-- The inner loop of the third loop adds, to the Diff node and to the Dest
node, one incoming value per predecessor and touches nothing else. -/
theorem fillPhis_spec (idMap : List Nat) (dm xm : List (Option Value)) (k n m : Nat)
    (hnm : n ≠ m) (A B : List Instruction)
    (hA : ∀ x ∈ A, x.id ≠ n ∧ x.id ≠ m) (hB : ∀ x ∈ B, x.id ≠ n ∧ x.id ≠ m) :
    ∀ (preds : List Nat) (D X : Instruction), D.id = n → X.id = m →
      fillPhis idMap dm xm k (some n) (some m) preds (A ++ [D, X] ++ B) =
        some (A ++ [addAll D (preds.map (incomingDiff idMap dm k)) preds,
                    addAll X (preds.map (incomingDest idMap xm k)) preds] ++ B) := by
  intro preds
  induction preds with
  | nil =>
    intro D X _ _
    simp [fillPhis, addAll]
  | cons p ps ih =>
    intro D X hD hX
    simp only [fillPhis]
    rw [updateInst_mid n _ A B D X hD (by rw [hX]; exact fun h => hnm h.symm)
      (fun x hx => (hA x hx).1) (fun x hx => (hB x hx).1)]
    rw [updateInst_mid' m _ A B _ X (by simp [addIncoming, hD, hnm]) hX
      (fun x hx => (hA x hx).2) (fun x hx => (hB x hx).2)]
    rw [ih _ _ (by simp [addIncoming, hD]) (by simp [addIncoming, hX])]
    simp [addAll, addIncoming]

theorem fillPhis_nil (idMap : List Nat) (dm xm : List (Option Value)) (k : Nat)
    (dp xp : Option Nat) (blk : List Instruction) :
    fillPhis idMap dm xm k dp xp [] blk = some blk := rfl

theorem fillBlocks_spec (idMap : List Nat) (dm xm : List (Option Value))
    (all : List BasicBlock) :
    ∀ (sigs : List BlockSig) (k : Nat),
      (∀ j g, sigs.get? j = some g → ∃ out,
        fillPhis idMap dm xm (k + j) g.diffPhi g.destPhi (predecessors all (k + j))
          g.block.insts = some out) →
      ∃ blocks, fillBlocks idMap dm xm all k sigs = some blocks ∧
        blocks.length = sigs.length ∧
        ∀ j g, sigs.get? j = some g → ∃ out, blocks.get? j = some { insts := out } ∧
          fillPhis idMap dm xm (k + j) g.diffPhi g.destPhi (predecessors all (k + j))
            g.block.insts = some out := by
  intro sigs
  induction sigs with
  | nil =>
    intro k _
    exact ⟨[], rfl, rfl, fun j g hg => by cases hg⟩
  | cons g gs ih =>
    intro k h
    obtain ⟨out, hout⟩ := h 0 g rfl
    obtain ⟨blocks, hb, hlen, hall⟩ := ih (k + 1) (fun j g' hg' => by
      have := h (j + 1) g' (by simpa using hg')
      rw [show k + (j + 1) = k + 1 + j by omega] at this
      exact this)
    refine ⟨{ insts := out } :: blocks, ?_, by simp [hlen], ?_⟩
    · simp only [Nat.add_zero] at hout
      simp only [fillBlocks, hout, hb]
    · intro j g' hg'
      cases j with
      | zero =>
        simp only [List.get?_cons_zero, Option.some.injEq] at hg'
        subst hg'
        exact ⟨out, rfl, hout⟩
      | succ j =>
        simp only [List.get?_cons_succ] at hg'
        obtain ⟨o, h1, h2⟩ := hall j g' hg'
        refine ⟨o, by simpa using h1, ?_⟩
        rw [show k + (j + 1) = k + 1 + j by omega]
        exact h2

/-! ## Predecessors are those of the input -/

theorem predecessorsFrom_congr (k : Nat) :
    ∀ (bs cs : List BasicBlock) (p : Nat), bs.length = cs.length →
      (∀ j b c, bs.get? j = some b → cs.get? j = some c →
        c.insts.filter (fun t => t.isTerminator) = b.insts.filter (fun t => t.isTerminator)) →
      predecessorsFrom k p cs = predecessorsFrom k p bs := by
  intro bs
  induction bs with
  | nil =>
    intro cs p hlen _
    cases cs with
    | nil => rfl
    | cons c cs => cases hlen
  | cons b bs ih =>
    intro cs p hlen h
    cases cs with
    | nil => cases hlen
    | cons c cs =>
      simp only [predecessorsFrom, edgesFrom]
      rw [h 0 b c rfl rfl, ih cs (p + 1) (by simpa using hlen)
        (fun j b' c' hb' hc' => h (j + 1) b' c' (by simpa using hb') (by simpa using hc'))]

theorem phiNode_isTerminator (n : Nat) (v : List Value) (p : List Nat) :
    (phiNode n v p).isTerminator = false := rfl

theorem cfgCheck_filter (own n : Nat) :
    (cfgCheck own n).filter (fun t => t.isTerminator) = [] := rfl

theorem signTerminator_filter {idMap : List Nat} {k : Nat} {t : Instruction} {brDest : Value}
    {s : PassState} {r : Option (Value × Value) × List Instruction × PassState}
    (h : signTerminator idMap k t brDest s = some r) :
    r.2.1.filter (fun t => t.isTerminator) = [] := by
  rw [List.filter_eq_nil_iff]
  intro x hx
  rcases (signTerminator_spec h).2.2.2 x hx with h1 | h1 <;>
    simp [Instruction.isTerminator, h1, Opcode.isTerminator]

theorem SigDone.sig_terminators {idMap : List Nat} {k : Nat} {l : List Instruction}
    {s s' : PassState} {g : BlockSig} (h : SigDone idMap k l s g s') :
    g.block.insts.filter (fun t => t.isTerminator) = l.filter (fun t => t.isTerminator) := by
  obtain ⟨phis, body, t, r, hl, _, _, _, hr, _, _, _, h0, h1⟩ := h.shape
  have hnew := signTerminator_filter hr
  by_cases hk : k = 0
  · rw [(h0 hk).1, hl]
    simp only [List.filter_append, hnew, List.append_nil]
  · rw [(h1 hk).1, hl]
    simp only [List.filter_append, hnew, List.append_nil, cfgCheck_filter]
    simp [phiNode_isTerminator]

/-! ## The whole of `verifyControlFlow` -/

theorem WellFormed.cfReady {f : Function} {s : PassState} (hwf : WellFormed f s)
    (hE : predecessors f.blocks 0 = []) : CFReady f s :=
  { terminated := hwf.terminated
    allocated := fun _ hb x hx => hwf.allocated x (mem_allInsts hb hx)
    branches := fun _ hb t ht =>
      hwf.branches t (mem_allInsts hb (List.mem_of_getLast?_eq_some
        (getTerminator_eq_some.mp ht).1))
    entry := hE }

theorem verifyControlFlowMaps_spec {f : Function} {M : Module} {F : Function}
    {s : PassState} (hwf : CFReady f s)
    (hF : M.getFunction FuncName.assert_cfg_ft = some F) :
    ∃ res, verifyControlFlowMaps f M s = some res ∧
      verifyControlFlow f M s = some (res.f, res.state) ∧
      res.idMap = assignIds 0 f.blocks ∧ res.f.name = f.name ∧
      res.f.blocks.length = f.blocks.length ∧ s.nextId ≤ res.state.nextId ∧
      ∀ k b, f.blocks.get? k = some b →
        ∃ sk phis body t r out,
          s.nextId ≤ sk.nextId ∧ r.2.2.nextId ≤ res.state.nextId ∧
          CFDone res.idMap res.diffMap res.destMap (predecessors f.blocks k) k b.insts sk
            phis body t r out ∧
          res.f.blocks.get? k = some { insts := out } ∧
          res.diffMap.get? k = some (r.1.map Prod.fst) ∧
          res.destMap.get? k = some (r.1.map Prod.snd) ∧
          res.diffPhiMap.get? k = some (if k = 0 then none else some sk.nextId) ∧
          res.destPhiMap.get? k = some (if k = 0 then none else some (sk.nextId + 1)) := by
  obtain ⟨sigs, s', hrun, hle, hlen, hall⟩ := instrumentBlocks_spec hF (assignIds 0 f.blocks)
    f.blocks true 0 s (by simp)
    (fun b hb => ⟨hwf.terminated b hb, hwf.branches b hb⟩)
  -- predecessors are read from the instrumented blocks
  have hpred : ∀ k, predecessors (sigs.map (fun g => g.block)) k = predecessors f.blocks k := by
    intro k
    unfold predecessors
    apply predecessorsFrom_congr k f.blocks _ 0 (by simp [hlen])
    intro j b c hb hc
    rw [List.get?_eq_getElem?, List.getElem?_map] at hc
    cases hg : sigs[j]? with
    | none => rw [hg] at hc; cases hc
    | some g =>
      rw [hg] at hc
      simp only [Option.map_some', Option.some.injEq] at hc
      obtain ⟨_, _, _, _, hd⟩ := hall j b g hb (by rw [List.get?_eq_getElem?]; exact hg)
      rw [← hc]
      exact hd.sig_terminators
  -- the third loop, block by block
  have hfill : ∀ j g, sigs.get? j = some g → ∀ b, f.blocks.get? j = some b →
      ∀ sj sj', SigDone (assignIds 0 f.blocks) (0 + j) b.insts sj g sj' → s.nextId ≤ sj.nextId →
      ∃ phis body t r out,
        r.2.2 = sj' ∧
        CFDone (assignIds 0 f.blocks) (sigs.map (fun g => g.diff)) (sigs.map (fun g => g.dest))
          (predecessors f.blocks j) j b.insts sj phis body t r out ∧
        g.diff = r.1.map Prod.fst ∧ g.dest = r.1.map Prod.snd ∧
        g.diffPhi = (if j = 0 then none else some sj.nextId) ∧
        g.destPhi = (if j = 0 then none else some (sj.nextId + 1)) ∧
        fillPhis (assignIds 0 f.blocks) (sigs.map (fun g => g.diff)) (sigs.map (fun g => g.dest))
          (0 + j) g.diffPhi g.destPhi (predecessors (sigs.map (fun g => g.block)) (0 + j))
          g.block.insts = some out := by
    intro j g hg b hb sj sj' hd hsj
    rw [Nat.zero_add] at hd ⊢
    obtain ⟨phis, body, t, r, hl, hphis, hhead, hterm, hr, hs', hdiff, hdest, h0, h1⟩ := hd.shape
    rw [hpred j]
    have hbm : b ∈ f.blocks := List.get?_mem hb
    have hold : ∀ x ∈ b.insts, x.id < sj.nextId := fun x hx =>
      lt_of_lt_of_le (hwf.allocated b hbm x hx) hsj
    by_cases hj : j = 0
    · obtain ⟨e1, e2, e3⟩ := h0 hj
      refine ⟨phis, body, t, r, phis ++ body ++ r.2.1 ++ [t], hs'.symm,
        ⟨hl, hphis, hhead, hterm, hr, fun _ => rfl,
        fun h => absurd hj h⟩, hdiff, hdest, by rw [e2, if_pos hj], by rw [e3, if_pos hj], ?_⟩
      rw [hj, hwf.entry, fillPhis_nil, e1]
    · obtain ⟨e1, e2, e3⟩ := h1 hj
      refine ⟨phis, body, t, r, _, hs'.symm, ⟨hl, hphis, hhead, hterm, hr, fun h => absurd h hj,
        fun _ => rfl⟩, hdiff, hdest, by rw [e2, if_neg hj], by rw [e3, if_neg hj], ?_⟩
      rw [e1, e2, e3]
      have hsp := signTerminator_spec hr
      simp only [hj, if_false] at hsp
      have hnew : ∀ x ∈ r.2.1, sj.nextId + 6 ≤ x.id := by
        intro x hx
        have : x.id ∈ r.2.1.map (fun x => x.id) := List.mem_map_of_mem _ hx
        rw [hsp.2.2.1, List.mem_range'_1] at this
        exact this.1
      have hform : phis ++ ([phiNode sj.nextId [] [], phiNode (sj.nextId + 1) [] []] ++
            cfgCheck (idOf (assignIds 0 f.blocks) j) sj.nextId) ++ body ++ r.2.1 ++ [t] =
          phis ++ [phiNode sj.nextId [] [], phiNode (sj.nextId + 1) [] []] ++
            (cfgCheck (idOf (assignIds 0 f.blocks) j) sj.nextId ++ body ++ r.2.1 ++ [t]) := by
        simp
      rw [hform, fillPhis_spec _ _ _ j sj.nextId (sj.nextId + 1) (by omega) phis _ ?_ ?_ _ _ _ rfl rfl]
      · simp [addAll, phiNode]
      · intro x hx
        have := hold x (by rw [hl]; simp [hx])
        omega
      · intro x hx
        simp only [List.mem_append, List.mem_singleton] at hx
        rcases hx with ((hx | hx) | hx) | hx
        · simp only [cfgCheck, List.mem_cons, List.mem_singleton, List.not_mem_nil, or_false] at hx
          rcases hx with rfl | rfl | rfl | rfl <;> simp
        · have := hold x (by rw [hl]; simp [hx]); omega
        · have := hnew x hx; omega
        · have := hold x (by rw [hl]; simp [hx]); omega
  obtain ⟨blocks, hfb, hblen, hball⟩ := fillBlocks_spec (assignIds 0 f.blocks)
    (sigs.map (fun g => g.diff)) (sigs.map (fun g => g.dest)) (sigs.map (fun g => g.block)) sigs 0
    (by
      intro j g hg
      have hjlt : j < f.blocks.length := by
        rw [← hlen]
        rw [List.get?_eq_getElem?] at hg
        exact (List.getElem?_eq_some_iff.mp hg).1
      have hb : f.blocks.get? j = some (f.blocks.get ⟨j, hjlt⟩) := List.get?_eq_get hjlt
      obtain ⟨sj, sj', h1, _, h3⟩ := hall j _ g hb hg
      obtain ⟨_, _, _, _, out, _, _, _, _, _, _, h⟩ := hfill j g hg _ hb sj sj' h3 h1
      exact ⟨out, h⟩)
  refine ⟨{ f := { f with blocks := blocks }, idMap := assignIds 0 f.blocks,
            diffMap := sigs.map (fun g => g.diff), destMap := sigs.map (fun g => g.dest),
            diffPhiMap := sigs.map (fun g => g.diffPhi),
            destPhiMap := sigs.map (fun g => g.destPhi), state := s' }, ?_, ?_, rfl, rfl,
          by simp [hblen, hlen], hle, ?_⟩
  · unfold verifyControlFlowMaps
    simp only [hrun, hfb]
  · unfold verifyControlFlow verifyControlFlowMaps
    simp only [hrun, hfb, Option.map_some']
  · intro k b hb
    have hklt : k < sigs.length := by
      rw [hlen]
      rw [List.get?_eq_getElem?] at hb
      exact (List.getElem?_eq_some_iff.mp hb).1
    obtain ⟨g, hg⟩ : ∃ g, sigs.get? k = some g := ⟨_, List.get?_eq_get hklt⟩
    obtain ⟨sk, sk', h1, h2, h3⟩ := hall k b g hb hg
    obtain ⟨phis, body, t, r, out, hrs, hcf, hdiff, hdest, hdp, hxp, hfp⟩ :=
      hfill k g hg b hb sk sk' h3 h1
    obtain ⟨out', ho1, ho2⟩ := hball k g hg
    rw [hfp] at ho2
    simp only [Option.some.injEq] at ho2
    subst ho2
    refine ⟨sk, phis, body, t, r, out, h1, by rw [hrs]; exact h2, hcf, ho1, ?_, ?_, ?_, ?_⟩
    · simp only [List.get?_eq_getElem?, List.getElem?_map] at hg ⊢
      rw [hg]; simp [hdiff]
    · simp only [List.get?_eq_getElem?, List.getElem?_map] at hg ⊢
      rw [hg]; simp [hdest]
    · simp only [List.get?_eq_getElem?, List.getElem?_map] at hg ⊢
      rw [hg]; simp [hdp]
    · simp only [List.get?_eq_getElem?, List.getElem?_map] at hg ⊢
      rw [hg]; simp [hxp]

/-! ## The terminator cases -/

theorem createXor_ints (x y : Nat) (s : PassState) :
    createXor (getInt32 x) (getInt32 y) s = (getInt32 (x ^^^ y), [], s) := rfl

theorem createXor_poison (x : Nat) (s : PassState) :
    createXor (getInt32 x) Value.poison s = (Value.poison, [], s) := rfl

theorem createXor_inst (x n : Nat) (s : PassState) :
    createXor (getInt32 x) (Value.inst n) s =
      (Value.inst s.nextId,
       [{ id := s.nextId, opcode := Opcode.xor, ty := Ty.integer 32,
          operands := [getInt32 x, Value.inst n] }],
       { s with nextId := s.nextId + 1 }) := rfl

/-- What the folder returns for a branch condition: an integer constant or
poison. -/
theorem foldSelect_some {c : Value} {x y : Nat} {v : Value} (h : foldSelect c x y = some v) :
    (∃ w n, c = Value.constInt w n ∧ v = getInt32 (if n = 0 then y else x)) ∨
    (c = Value.undef ∧ v = getInt32 y) ∨
    (c = Value.poison ∧ v = Value.poison) ∨
    (((∃ g, c = Value.func g) ∨ (∃ j, c = Value.constant j)) ∧ x = y ∧ v = getInt32 x) := by
  cases c with
  | inst j => cases h
  | arg j => cases h
  | constInt w n =>
    simp only [foldSelect, Option.some.injEq] at h
    exact Or.inl ⟨w, n, rfl, h.symm⟩
  | undef =>
    simp only [foldSelect, Option.some.injEq] at h
    exact Or.inr (Or.inl ⟨rfl, h.symm⟩)
  | poison =>
    simp only [foldSelect, Option.some.injEq] at h
    exact Or.inr (Or.inr (Or.inl ⟨rfl, h.symm⟩))
  | func g =>
    simp only [foldSelect] at h
    split at h
    · rename_i hxy
      simp only [Option.some.injEq] at h
      exact Or.inr (Or.inr (Or.inr ⟨Or.inl ⟨g, rfl⟩, hxy, h.symm⟩))
    · cases h
  | constant j =>
    simp only [foldSelect] at h
    split at h
    · rename_i hxy
      simp only [Option.some.injEq] at h
      exact Or.inr (Or.inr (Or.inr ⟨Or.inr ⟨j, rfl⟩, hxy, h.symm⟩))
    · cases h

/-- A condition that is no constant is never folded. -/
theorem foldSelect_nonconstant {c : Value} (h : c.isConstant = false) (x y : Nat) :
    foldSelect c x y = none := by
  cases c <;> first | rfl | cases h

theorem signTerminator_branch (idMap : List Nat) (k : Nat) {S : Nat} {t : Instruction}
    (brDest : Value) (s : PassState) (hbr : t.opcode = Opcode.br) (hs : t.succs = [S])
    (hshape : branchShaped t) :
    signTerminator idMap k t brDest s =
      some (some (getInt32 (idOf idMap k ^^^ idOf idMap S), brDest), [], s) := by
  unfold signTerminator
  have hc : t.isConditional = false := by
    rcases hshape hbr with ⟨h1, _⟩ | ⟨_, h2⟩
    · simp [Instruction.isConditional, h1, hs]
    · rw [hs] at h2; cases h2
  rw [if_pos hbr, hc]
  simp [Instruction.getSuccessor, hs, createXor_ints]

theorem signTerminator_other (idMap : List Nat) (k : Nat) {S : Nat} {rest : List Nat}
    {t : Instruction} (brDest : Value)
    (s : PassState) (hbr : t.opcode ≠ Opcode.br) (hs : t.succs = S :: rest) :
    signTerminator idMap k t brDest s =
      some (some (getInt32 (idOf idMap k ^^^ idOf idMap S), getInt32 (idOf idMap k)), [], s) := by
  unfold signTerminator
  rw [if_neg hbr, if_pos (by rw [hs]; simp)]
  simp [Instruction.getSuccessor, hs, createXor_ints]

/-- A two-way branch as `signTerminator` reads it. -/
theorem signTerminator_two (idMap : List Nat) (k : Nat) {S0 S1 : Nat} {c : Value}
    {t : Instruction} (brDest : Value) (s : PassState) (hbr : t.opcode = Opcode.br)
    (ho : t.operands = [c]) (hs : t.succs = [S0, S1]) :
    signTerminator idMap k t brDest s =
      some (some ((createXor (getInt32 (idOf idMap k))
            (createSelect c (idOf idMap S0) (idOf idMap S1) s).1
            (createSelect c (idOf idMap S0) (idOf idMap S1) s).2.2).1, brDest),
        (createSelect c (idOf idMap S0) (idOf idMap S1) s).2.1 ++
          (createXor (getInt32 (idOf idMap k))
            (createSelect c (idOf idMap S0) (idOf idMap S1) s).1
            (createSelect c (idOf idMap S0) (idOf idMap S1) s).2.2).2.1,
        (createXor (getInt32 (idOf idMap k))
            (createSelect c (idOf idMap S0) (idOf idMap S1) s).1
            (createSelect c (idOf idMap S0) (idOf idMap S1) s).2.2).2.2) := by
  unfold signTerminator
  have hcd : t.isConditional = true := by simp [Instruction.isConditional, ho, hs]
  rw [if_pos hbr, hcd]
  simp only [Instruction.getSuccessor, Instruction.getCondition, hs, ho, if_true,
    List.head?_cons, List.get?_cons_zero, List.get?_cons_succ]

theorem signTerminator_cond_const (idMap : List Nat) (k : Nat) {S0 S1 w v : Nat}
    {t : Instruction} (brDest : Value) (s : PassState) (hbr : t.opcode = Opcode.br)
    (ho : t.operands = [Value.constInt w v]) (hs : t.succs = [S0, S1]) :
    signTerminator idMap k t brDest s =
      some (some (getInt32 (idOf idMap k ^^^ (if v = 0 then idOf idMap S1 else idOf idMap S0)),
        brDest), [], s) := by
  rw [signTerminator_two idMap k brDest s hbr ho hs]
  rfl

/-- A two-way branch whose `select` the folder folds to the value `v`. -/
theorem signTerminator_cond_fold (idMap : List Nat) (k : Nat) {S0 S1 : Nat} {c v : Value}
    {t : Instruction} (brDest : Value) (s : PassState) (hbr : t.opcode = Opcode.br)
    (ho : t.operands = [c]) (hs : t.succs = [S0, S1])
    (hf : foldSelect c (idOf idMap S0) (idOf idMap S1) = some v) :
    signTerminator idMap k t brDest s =
      some (some (foldXor (getInt32 (idOf idMap k)) v, brDest), [], s) := by
  rw [signTerminator_two idMap k brDest s hbr ho hs]
  have hsel : createSelect c (idOf idMap S0) (idOf idMap S1) s = (v, [], s) := by
    simp only [createSelect, hf]
  rw [hsel]
  have hv : v.isConstant = true := by
    rcases foldSelect_some hf with ⟨_, _, _, h⟩ | ⟨_, h⟩ | ⟨_, h⟩ | ⟨_, _, h⟩ <;> rw [h] <;> rfl
  have hx : createXor (getInt32 (idOf idMap k)) v s =
      (foldXor (getInt32 (idOf idMap k)) v, [], s) := by
    unfold createXor
    rw [hv]
    rfl
  rw [hx]
  rfl

theorem signTerminator_cond (idMap : List Nat) (k : Nat) {S0 S1 : Nat} {c : Value}
    {t : Instruction} (brDest : Value) (s : PassState) (hbr : t.opcode = Opcode.br)
    (ho : t.operands = [c]) (hc : foldSelect c (idOf idMap S0) (idOf idMap S1) = none)
    (hs : t.succs = [S0, S1]) :
    signTerminator idMap k t brDest s =
      some (some (Value.inst (s.nextId + 1), brDest),
        [ { id := s.nextId, opcode := Opcode.select, ty := Ty.integer 32,
            operands := [c, getInt32 (idOf idMap S0), getInt32 (idOf idMap S1)] },
          { id := s.nextId + 1, opcode := Opcode.xor, ty := Ty.integer 32,
            operands := [getInt32 (idOf idMap k), Value.inst s.nextId] } ],
        { s with nextId := s.nextId + 2 }) := by
  rw [signTerminator_two idMap k brDest s hbr ho hs]
  have hsel : createSelect c (idOf idMap S0) (idOf idMap S1) s =
      (Value.inst s.nextId,
       [{ id := s.nextId, opcode := Opcode.select, ty := Ty.integer 32,
          operands := [c, getInt32 (idOf idMap S0), getInt32 (idOf idMap S1)] }],
       { s with nextId := s.nextId + 1 }) := by
    simp only [createSelect, hc]
  rw [hsel, createXor_inst]
  rfl

theorem CFDone.terminator {idMap : List Nat} {dm xm : List (Option Value)} {preds : List Nat}
    {k : Nat} {l : List Instruction} {s : PassState} {phis body : List Instruction}
    {t : Instruction} {r : Option (Value × Value) × List Instruction × PassState}
    {out : List Instruction}
    (h : CFDone idMap dm xm preds k l s phis body t r out) : getTerminator l = some t := by
  rw [h.hsplit, List.append_assoc, getTerminator_append, getTerminator_concat h.hterm]

theorem signTerminator_new_mem {idMap : List Nat} {k : Nat} {t : Instruction} {brDest : Value}
    {s : PassState} {r : Option (Value × Value) × List Instruction × PassState}
    (h : signTerminator idMap k t brDest s = some r) :
    ∀ x ∈ r.2.1, x.opcode = Opcode.select ∨ x.opcode = Opcode.xor :=
  (signTerminator_spec h).2.2.2

/-- C7: after `verifyControlFlow`, every block but the entry block consists
of its pre-existing leading phi nodes, then the Diff node and the Dest node,
then `xorDest = Diff XOR Dest`, the comparison of `xorDest` with the block's
ID, its zero-extension and the call of `assert_cfg_ft` on the widened
comparison, the Dest node and the ID, and then only original instructions of
the block and `select` or `xor` instructions; the entry block holds only its
original instructions and `select` or `xor` instructions. -/
theorem C7_block_header (f : Function) (M : Module) (F : Function) (s : PassState)
    (hready : CFReady f s) (hF : M.getFunction FuncName.assert_cfg_ft = some F) :
    ∃ res, verifyControlFlowMaps f M s = some res ∧
      verifyControlFlow f M s = some (res.f, res.state) ∧
      ∀ k b, f.blocks.get? k = some b →
        ∃ phis rest out, b.insts = phis ++ rest ∧ (∀ x ∈ phis, x.isPHI = true) ∧
          (∀ y, rest.head? = some y → y.isPHI = false) ∧
          res.f.blocks.get? k = some { insts := out } ∧
          (k ≠ 0 → ∃ n dv xv preds rest', s.nextId ≤ n ∧
            res.diffPhiMap.get? k = some (some n) ∧
            res.destPhiMap.get? k = some (some (n + 1)) ∧
            out = phis ++ [phiNode n dv preds, phiNode (n + 1) xv preds] ++
              cfgCheck (idOf res.idMap k) n ++ rest' ∧
            ∀ x ∈ rest', x ∈ b.insts ∨ x.opcode = Opcode.select ∨ x.opcode = Opcode.xor) ∧
          (k = 0 → res.diffPhiMap.get? k = some none ∧ res.destPhiMap.get? k = some none ∧
            ∀ x ∈ out, x ∈ b.insts ∨ x.opcode = Opcode.select ∨ x.opcode = Opcode.xor) := by
  obtain ⟨res, h1, h2, _, _, _, _, hall⟩ := verifyControlFlowMaps_spec hready hF
  refine ⟨res, h1, h2, ?_⟩
  intro k b hb
  obtain ⟨sk, phis, body, t, r, out, hsk, _, hcf, hout, _, _, hdp, hxp⟩ := hall k b hb
  have hnew := signTerminator_new_mem hcf.hsign
  have hrest : ∀ x ∈ body ++ r.2.1 ++ [t],
      x ∈ b.insts ∨ x.opcode = Opcode.select ∨ x.opcode = Opcode.xor := by
    intro x hx
    simp only [List.mem_append, List.mem_singleton] at hx
    rcases hx with (hx | hx) | hx
    · left; rw [hcf.hsplit]; simp [hx]
    · right; exact hnew x hx
    · left; rw [hcf.hsplit]; simp [hx]
  refine ⟨phis, body ++ [t], out, by rw [hcf.hsplit]; simp, hcf.hphis, hcf.hhead, hout, ?_, ?_⟩
  · intro hk
    refine ⟨sk.nextId, (predecessors f.blocks k).map (incomingDiff res.idMap res.diffMap k),
      (predecessors f.blocks k).map (incomingDest res.idMap res.destMap k),
      predecessors f.blocks k, body ++ r.2.1 ++ [t], hsk,
      by rw [hdp, if_neg hk], by rw [hxp, if_neg hk], ?_, hrest⟩
    rw [hcf.hother hk]; simp
  · intro hk
    refine ⟨by rw [hdp, if_pos hk], by rw [hxp, if_pos hk], ?_⟩
    intro x hx
    rw [hcf.hentry hk] at hx
    simp only [List.mem_append, List.mem_singleton] at hx
    rcases hx with ((hx | hx) | hx) | hx
    · left; rw [hcf.hsplit]; simp [hx]
    · exact hrest x (by simp [hx])
    · exact hrest x (by simp [hx])
    · exact hrest x (by simp [hx])

/-- C10: after `verifyControlFlow`, the Diff node and the Dest node of every
block `B` but the entry block have one incoming entry per predecessor edge of
`B`, labelled with the predecessor; the entry for predecessor `P` carries the
diff, respectively the dest, recorded for `P` when there is one, and otherwise
the constants `id(P) XOR id(B)`, respectively `id(B)`. -/
theorem C10_merge_completion (f : Function) (M : Module) (F : Function) (s : PassState)
    (hready : CFReady f s) (hF : M.getFunction FuncName.assert_cfg_ft = some F) :
    ∃ res, verifyControlFlowMaps f M s = some res ∧
      verifyControlFlow f M s = some (res.f, res.state) ∧
      ∀ k B, k ≠ 0 → f.blocks.get? k = some B →
        ∃ n out Diff Dest, res.diffPhiMap.get? k = some (some n) ∧
          res.destPhiMap.get? k = some (some (n + 1)) ∧
          res.f.blocks.get? k = some { insts := out } ∧
          Diff ∈ out ∧ Dest ∈ out ∧ Diff.id = n ∧ Dest.id = n + 1 ∧
          Diff.opcode = Opcode.phi ∧ Dest.opcode = Opcode.phi ∧
          Diff.incoming = predecessors f.blocks k ∧
          Dest.incoming = predecessors f.blocks k ∧
          Diff.operands.length = (predecessors f.blocks k).length ∧
          Dest.operands.length = (predecessors f.blocks k).length ∧
          ∀ j P, (predecessors f.blocks k).get? j = some P →
            (∀ v, res.diffMap.get? P = some (some v) → Diff.operands.get? j = some v) ∧
            ((res.diffMap.get? P = some none ∨ res.diffMap.get? P = none) →
              Diff.operands.get? j =
                some (getInt32 (idOf res.idMap P ^^^ idOf res.idMap k))) ∧
            (∀ v, res.destMap.get? P = some (some v) → Dest.operands.get? j = some v) ∧
            ((res.destMap.get? P = some none ∨ res.destMap.get? P = none) →
              Dest.operands.get? j = some (getInt32 (idOf res.idMap k))) := by
  obtain ⟨res, h1, h2, _, _, _, _, hall⟩ := verifyControlFlowMaps_spec hready hF
  refine ⟨res, h1, h2, ?_⟩
  intro k B hk hB
  obtain ⟨sk, phis, body, t, r, out, _, _, hcf, hout, _, _, hdp, hxp⟩ := hall k B hB
  have hoo := hcf.hother hk
  have hgetD : ∀ (m : List (Option Value)) (P : Nat), m.getD P none = (m.get? P).getD none := by
    intro m P
    simp [List.getD_eq_getElem?_getD]
  refine ⟨sk.nextId, out,
    phiNode sk.nextId ((predecessors f.blocks k).map (incomingDiff res.idMap res.diffMap k))
      (predecessors f.blocks k),
    phiNode (sk.nextId + 1) ((predecessors f.blocks k).map (incomingDest res.idMap res.destMap k))
      (predecessors f.blocks k),
    by rw [hdp, if_neg hk], by rw [hxp, if_neg hk], hout,
    by rw [hoo]; simp, by rw [hoo]; simp, rfl, rfl, rfl, rfl, rfl, rfl, by simp [phiNode],
    by simp [phiNode], ?_⟩
  intro j P hj
  have hjd : (phiNode sk.nextId
      ((predecessors f.blocks k).map (incomingDiff res.idMap res.diffMap k))
      (predecessors f.blocks k)).operands.get? j =
      some (incomingDiff res.idMap res.diffMap k P) := by
    simp only [phiNode, List.get?_eq_getElem?, List.getElem?_map] at hj ⊢
    rw [hj]; rfl
  have hjx : (phiNode (sk.nextId + 1)
      ((predecessors f.blocks k).map (incomingDest res.idMap res.destMap k))
      (predecessors f.blocks k)).operands.get? j =
      some (incomingDest res.idMap res.destMap k P) := by
    simp only [phiNode, List.get?_eq_getElem?, List.getElem?_map] at hj ⊢
    rw [hj]; rfl
  rw [hjd, hjx]
  unfold incomingDiff incomingDest
  rw [hgetD, hgetD]
  refine ⟨?_, ?_, ?_, ?_⟩
  · intro v hv; rw [hv]; rfl
  · rintro (hv | hv) <;> rw [hv] <;> rfl
  · intro v hv; rw [hv]; rfl
  · rintro (hv | hv) <;> rw [hv] <;> rfl

/-! ## `replicate` followed by `verifyControlFlow` -/

theorem BlockDone.rep_sublist {M : Module} {order : CloneMap → CloneMap} {bbCount : Nat}
    {l : List Instruction} {s s' : PassState} {rep : BlockRep}
    (hd : BlockDone M order bbCount l s rep s') :
    l.Sublist rep.block.insts ∧ rep.block.insts.getLast? = l.getLast? := by
  obtain ⟨_, _, _, _, _, horig, hlast⟩ := hd.final
  refine ⟨?_, hlast⟩
  rw [← horig]
  exact List.filter_sublist _

theorem BlockDone.alloc {M : Module} {order : CloneMap → CloneMap} {bbCount : Nat}
    {l : List Instruction} {s s' : PassState} {rep : BlockRep}
    (hd : BlockDone M order bbCount l s rep s') :
    ∀ x ∈ rep.block.insts, x.id < s'.nextId := by
  obtain ⟨_, _, _, inv⟩ := hd.inv
  exact inv.alloc

theorem BlockDone.rep_terminators {M : Module} {order : CloneMap → CloneMap} {bbCount : Nat}
    {l : List Instruction} {s s' : PassState} {rep : BlockRep}
    (hd : BlockDone M order bbCount l s rep s') :
    rep.block.insts.filter (fun t => t.isTerminator) = l.filter (fun t => t.isTerminator) := by
  obtain ⟨num, _, hcl, _, _, horig, _⟩ := hd.final
  have ctx := hd.ctx
  have h1 : rep.block.insts.filter (fun t => t.isTerminator) =
      (rep.block.insts.filter (fun x => decide (x.id < s.nextId))).filter
        (fun t => t.isTerminator) := by
    rw [List.filter_filter]
    apply List.filter_congr
    intro x hx
    rcases hcl x hx with h | ⟨e, he, h⟩ | ⟨e, he, _, h⟩
    · have := ctx.origAlloc x h
      simp [this]
    · have : x.isTerminator = false := by
        rw [h, remapOperands_isTerminator, rawClone_isTerminator]
        exact canClone_not_terminator (ctx.key e he).2
      simp [this]
    · simp [checkInsts_isTerminator h]
  rw [h1, horig]

theorem getTerminator_congr {a b : List Instruction} (h : a.getLast? = b.getLast?) :
    getTerminator a = getTerminator b := by
  unfold getTerminator
  rw [h]

/-- The function `replicate` returns is ready for `verifyControlFlow`. -/
theorem replicate_cfReady {f : Function} {M : Module} {F : Function}
    (hF : M.getFunction FuncName.assert_ft = some F)
    (order : CloneMap → CloneMap) (hord : ∀ cm, (order cm).Perm cm)
    {s : PassState} (hwf : WellFormed f s) (hE : predecessors f.blocks 0 = []) :
    ∃ reps s', replicateMaps f M order s = some (reps, s') ∧
      replicate f M order s = some ({ f with blocks := reps.map (fun g => g.block) }, s') ∧
      reps.length = f.blocks.length ∧
      CFReady { f with blocks := reps.map (fun g => g.block) } s' ∧
      ∀ k b rep, f.blocks.get? k = some b → reps.get? k = some rep →
        b.insts.Sublist rep.block.insts ∧ rep.block.insts.getLast? = b.insts.getLast? := by
  obtain ⟨reps, s', h1, h2, _, hlen, hall⟩ := replicateMaps_spec hF order hord hwf
  have hget : ∀ b1 ∈ reps.map (fun g => g.block), ∃ k b rep, f.blocks.get? k = some b ∧
      reps.get? k = some rep ∧ b1 = rep.block := by
    intro b1 hb1
    obtain ⟨rep, hrep, rfl⟩ := List.mem_map.mp hb1
    obtain ⟨k, hk⟩ := List.get?_of_mem hrep
    have hklt : k < f.blocks.length := by
      rw [← hlen]
      rw [List.get?_eq_getElem?] at hk
      exact (List.getElem?_eq_some_iff.mp hk).1
    exact ⟨k, _, rep, List.get?_eq_get hklt, hk, rfl⟩
  refine ⟨reps, s', h1, h2, hlen, ?_, ?_⟩
  · refine
      { terminated := ?_
        allocated := ?_
        branches := ?_
        entry := ?_ }
    · intro b1 hb1
      obtain ⟨k, b, rep, hb, hrep, rfl⟩ := hget b1 hb1
      obtain ⟨_, _, _, _, hd⟩ := hall k b rep hb hrep
      rw [getTerminator_congr hd.rep_sublist.2]
      exact hwf.terminated b (List.get?_mem hb)
    · intro b1 hb1 x hx
      obtain ⟨k, b, rep, hb, hrep, rfl⟩ := hget b1 hb1
      obtain ⟨_, sk', _, hle, hd⟩ := hall k b rep hb hrep
      exact lt_of_lt_of_le (hd.alloc x hx) hle
    · intro b1 hb1 t ht
      obtain ⟨k, b, rep, hb, hrep, rfl⟩ := hget b1 hb1
      obtain ⟨_, _, _, _, hd⟩ := hall k b rep hb hrep
      rw [getTerminator_congr hd.rep_sublist.2] at ht
      exact hwf.branches t (mem_allInsts (List.get?_mem hb)
        (List.mem_of_getLast?_eq_some (getTerminator_eq_some.mp ht).1))
    · show predecessors (reps.map (fun g => g.block)) 0 = []
      rw [← hE]
      unfold predecessors
      apply predecessorsFrom_congr 0 f.blocks _ 0 (by simp [hlen])
      intro j b c hb hc
      rw [List.get?_eq_getElem?, List.getElem?_map] at hc
      cases hg : reps[j]? with
      | none => rw [hg] at hc; cases hc
      | some rep =>
        rw [hg] at hc
        simp only [Option.map_some', Option.some.injEq] at hc
        obtain ⟨_, _, _, _, hd⟩ := hall j b rep hb (by rw [List.get?_eq_getElem?]; exact hg)
        rw [← hc]
        exact hd.rep_terminators
  · intro k b rep hb hrep
    obtain ⟨_, _, _, _, hd⟩ := hall k b rep hb hrep
    exact hd.rep_sublist

theorem CFDone.cf_sublist {idMap : List Nat} {dm xm : List (Option Value)} {preds : List Nat}
    {k : Nat} {l : List Instruction} {s : PassState} {phis body : List Instruction}
    {t : Instruction} {r : Option (Value × Value) × List Instruction × PassState}
    {out : List Instruction}
    (h : CFDone idMap dm xm preds k l s phis body t r out) :
    l.Sublist out ∧ out.getLast? = l.getLast? := by
  have hl := h.hsplit
  by_cases hk : k = 0
  · rw [h.hentry hk, hl]
    refine ⟨?_, by simp⟩
    rw [List.append_assoc, List.append_assoc, List.append_assoc]
    exact (List.Sublist.refl phis).append
      ((List.Sublist.refl body).append (List.sublist_append_right _ _))
  · rw [h.hother hk, hl]
    refine ⟨?_, by rw [List.getLast?_concat, List.getLast?_concat]⟩
    simp only [List.append_assoc]
    exact (List.Sublist.refl phis).append (List.sublist_append_of_sublist_right
      (List.sublist_append_of_sublist_right
        ((List.Sublist.refl body).append (List.sublist_append_right _ _))))

/-- C4: instrumentation only adds instructions.  On a well-formed function
`replicate` and then `verifyControlFlow` succeed, and every block of the
result holds the instructions of the corresponding original block, unchanged
(operands included) and in their original order, among the inserted ones; its
last instruction is the original terminator. -/
theorem C4_only_adds (f : Function) (M : Module) (F G : Function)
    (order : CloneMap → CloneMap) (s : PassState)
    (hwf : WellFormed f s) (hE : predecessors f.blocks 0 = [])
    (hF : M.getFunction FuncName.assert_ft = some F)
    (hG : M.getFunction FuncName.assert_cfg_ft = some G)
    (hord : ∀ cm, (order cm).Perm cm) :
    ∃ f₁ s₁ f₂ s₂, replicate f M order s = some (f₁, s₁) ∧
      verifyControlFlow f₁ M s₁ = some (f₂, s₂) ∧
      f₂.blocks.length = f.blocks.length ∧
      ∀ k b, f.blocks.get? k = some b →
        ∃ b₂, f₂.blocks.get? k = some b₂ ∧ b.insts.Sublist b₂.insts ∧
          b₂.insts.getLast? = b.insts.getLast? ∧
          getTerminator b₂.insts = getTerminator b.insts := by
  obtain ⟨reps, s₁, _, h2, hlen, hready, hsub⟩ := replicate_cfReady hF order hord hwf hE
  obtain ⟨res, _, h4, _, _, hlen2, _, hall⟩ := verifyControlFlowMaps_spec hready hG
  refine ⟨_, s₁, res.f, res.state, h2, h4, ?_, ?_⟩
  · rw [hlen2]; simp [hlen]
  · intro k b hb
    have hklt : k < reps.length := by
      rw [hlen]
      rw [List.get?_eq_getElem?] at hb
      exact (List.getElem?_eq_some_iff.mp hb).1
    obtain ⟨rep, hrep⟩ : ∃ rep, reps.get? k = some rep := ⟨_, List.get?_eq_get hklt⟩
    obtain ⟨hs1, hl1⟩ := hsub k b rep hb hrep
    have hb1 : (reps.map (fun g => g.block)).get? k = some rep.block := by
      simp only [List.get?_eq_getElem?, List.getElem?_map] at hrep ⊢
      rw [hrep]; rfl
    obtain ⟨sk, phis, body, t, r, out, _, _, hcf, hout, _⟩ := hall k rep.block hb1
    obtain ⟨hs2, hl2⟩ := hcf.cf_sublist
    exact ⟨{ insts := out }, hout, hs1.trans hs2, hl2.trans hl1,
      getTerminator_congr (hl2.trans hl1)⟩

/-! ## Execution: general facts -/

theorem execInsts_append (entryEnv : Env) (o : Oracle) (pred : Option Nat)
    (a b : List Instruction) (env : Env) (tr : List CallEvent) :
    execInsts entryEnv o pred (a ++ b) env tr =
      execInsts entryEnv o pred b (execInsts entryEnv o pred a env tr).1
        (execInsts entryEnv o pred a env tr).2 := by
  induction a generalizing env tr with
  | nil => rfl
  | cons x xs ih =>
    simp only [List.cons_append, execInsts]
    exact ih _ _

/-- Executing instructions leaves the values of all other identities alone. -/
theorem execInsts_frame (entryEnv : Env) (o : Oracle) (pred : Option Nat)
    (l : List Instruction) (env : Env) (tr : List CallEvent) (k : Nat)
    (h : ∀ x ∈ l, x.id ≠ k) : (execInsts entryEnv o pred l env tr).1 k = env k := by
  induction l generalizing env tr with
  | nil => rfl
  | cons x xs ih =>
    simp only [execInsts]
    rw [ih _ _ (fun y hy => h y (List.mem_cons_of_mem _ hy))]
    have := h x (List.mem_cons_self _ _)
    simp only [if_neg (Ne.symm this)]

/-- Calls already made stay in the trace. -/
theorem execInsts_trace (entryEnv : Env) (o : Oracle) (pred : Option Nat)
    (l : List Instruction) (env : Env) (tr : List CallEvent) :
    ∀ e ∈ tr, e ∈ (execInsts entryEnv o pred l env tr).2 := by
  induction l generalizing env tr with
  | nil => intro e he; exact he
  | cons x xs ih =>
    intro e he
    simp only [execInsts]
    apply ih
    split
    · exact List.mem_append_left _ he
    · exact he

theorem evalValue_isSig {v : Value} (h : v.isSig = true) (env : Env) (o o' : Oracle) :
    evalValue env o v = evalValue env o' v := by
  cases v <;> first | rfl | cases h

theorem evalValue_inst (env : Env) (o : Oracle) (k : Nat) :
    evalValue env o (Value.inst k) = some (env k) := rfl

theorem evalValue_constInt (env : Env) (o : Oracle) (w v : Nat) :
    evalValue env o (Value.constInt w v) = some v := rfl

theorem evalValue_congr {v : Value} {n : Nat} (hv : v.allocated n = true) {env env' : Env}
    (h : ∀ j, j < n → env' j = env j) (o : Oracle) :
    evalValue env' o v = evalValue env o v := by
  cases v with
  | inst k =>
    simp only [evalValue]
    rw [h k (Value.allocated_inst.mp hv)]
  | _ => rfl

theorem lookup_zip_map (g : Nat → Value) (p : Nat) :
    ∀ (preds : List Nat), p ∈ preds → List.lookup p (preds.zip (preds.map g)) = some (g p) := by
  intro preds
  induction preds with
  | nil => intro h; cases h
  | cons q qs ih =>
    intro h
    simp only [List.map_cons, List.zip_cons_cons, List.lookup_cons]
    by_cases hq : p = q
    · subst hq; simp
    · have : (p == q) = false := by simpa using hq
      rw [this]
      rcases List.mem_cons.mp h with h1 | h1
      · exact absurd h1 hq
      · exact ih h1

theorem phiValue_phiNode (entryEnv : Env) (o : Oracle) (p n : Nat) (g : Nat → Value)
    (preds : List Nat) (hp : p ∈ preds) (v : Nat) (hv : evalValue entryEnv o (g p) = some v) :
    phiValue entryEnv o (some p) (phiNode n (preds.map g) preds) = v := by
  simp only [phiValue, phiNode, lookup_zip_map g p preds hp, hv, Option.getD_some]

/-! ## Edges -/

theorem mem_predecessorsFrom (nb : Nat) :
    ∀ (bs : List BasicBlock) (p j : Nat) (b : BasicBlock) (t : Instruction),
      bs.get? j = some b → t ∈ b.insts → t.isTerminator = true → nb ∈ t.succs →
      p + j ∈ predecessorsFrom nb p bs := by
  intro bs
  induction bs with
  | nil => intro p j b t hb; cases hb
  | cons c cs ih =>
    intro p j b t hb ht hterm hnb
    simp only [predecessorsFrom, List.mem_append]
    cases j with
    | zero =>
      left
      simp only [List.get?_cons_zero, Option.some.injEq] at hb
      subst hb
      simp only [edgesFrom, List.mem_flatMap, List.mem_filter, List.mem_map]
      exact ⟨t, ⟨ht, hterm⟩, nb, ⟨hnb, by simp⟩, rfl⟩
    | succ j =>
      right
      simp only [List.get?_cons_succ] at hb
      have := ih (p + 1) j b t hb ht hterm hnb
      rw [show p + (j + 1) = p + 1 + j by omega]
      exact this

theorem mem_predecessors {bs : List BasicBlock} {cur nb : Nat} {b : BasicBlock}
    {t : Instruction} (hb : bs.get? cur = some b) (ht : t ∈ b.insts)
    (hterm : t.isTerminator = true) (hnb : nb ∈ t.succs) : cur ∈ predecessors bs nb := by
  have := mem_predecessorsFrom nb bs 0 cur b t hb ht hterm hnb
  simpa [predecessors] using this

/-- The instructions built above the terminator do not disturb older values. -/
theorem signTerminator_frame {idMap : List Nat} {k : Nat} {t : Instruction} {brDest : Value}
    {st : PassState} {r : Option (Value × Value) × List Instruction × PassState}
    (hsign : signTerminator idMap k t brDest st = some r)
    (entryEnv env : Env) (o : Oracle) (pred : Option Nat) (tr : List CallEvent)
    (j : Nat) (hj : j < st.nextId) :
    (execInsts entryEnv o pred r.2.1 env tr).1 j = env j := by
  apply execInsts_frame
  intro x hx
  obtain ⟨_, _, hids, _⟩ := signTerminator_spec hsign
  have : x.id ∈ r.2.1.map (fun x => x.id) := List.mem_map_of_mem _ hx
  rw [hids, List.mem_range'_1] at this
  omega

/-- The instructions built above the terminator make no call. -/
theorem signTerminator_trace {idMap : List Nat} {k : Nat} {t : Instruction} {brDest : Value}
    {st : PassState} {r : Option (Value × Value) × List Instruction × PassState}
    (hsign : signTerminator idMap k t brDest st = some r)
    (entryEnv env : Env) (o : Oracle) (pred : Option Nat) (tr : List CallEvent) :
    (execInsts entryEnv o pred r.2.1 env tr).2 = tr := by
  obtain ⟨_, _, _, hop⟩ := signTerminator_spec hsign
  generalize r.2.1 = l at hop
  induction l generalizing env with
  | nil => rfl
  | cons x xs ih =>
    simp only [execInsts]
    have hx : x.opcode ≠ Opcode.call := by
      rcases hop x (List.mem_cons_self _ _) with h | h <;> rw [h] <;> decide
    rw [if_neg hx]
    exact ih _ (fun y hy => hop y (List.mem_cons_of_mem _ hy))

/-- Run-time reading of the terminator cases: when control leaves the block
for `nb`, the recorded diff evaluates to `id(block) XOR id(nb)`. -/
theorem signTerminator_sem {idMap : List Nat} {k : Nat} {t : Instruction} {brDest : Value}
    {st : PassState} {r : Option (Value × Value) × List Instruction × PassState}
    (hsign : signTerminator idMap k t brDest st = some r)
    (hshape : branchShaped t)
    (hway : t.succs.length ≤ 1 ∨ (t.opcode = Opcode.br ∧ t.succs.length = 2))
    (halloc : ∀ op ∈ t.operands, op.allocated st.nextId = true)
    (entryEnv env : Env) (o : Oracle) (pred : Option Nat) (tr : List CallEvent) (nb : Nat)
    (hnb : nextBlock t (execInsts entryEnv o pred r.2.1 env tr).1 o = some nb) :
    nb ∈ t.succs ∧
    ∃ diff, r.1 = some (diff, if t.opcode = Opcode.br then brDest else getInt32 (idOf idMap k)) ∧
      diff.isSig = true ∧ (∀ j, diff = Value.inst j → st.nextId ≤ j) ∧
      evalValue (execInsts entryEnv o pred r.2.1 env tr).1 o diff =
        some (idOf idMap k ^^^ idOf idMap nb) := by
  match hs : t.succs with
  | [] =>
    exfalso
    have hbr : t.opcode ≠ Opcode.br := by
      intro h
      rcases hshape h with ⟨_, h2⟩ | ⟨_, h2⟩ <;> rw [hs] at h2 <;> cases h2
    simp [nextBlock, hbr, hs, Instruction.getSuccessor] at hnb
  | [S] =>
    by_cases hbr : t.opcode = Opcode.br
    · have hc : t.isConditional = false := by
        rcases hshape hbr with ⟨h1, _⟩ | ⟨_, h2⟩
        · simp [Instruction.isConditional, h1, hs]
        · rw [hs] at h2; cases h2
      rw [signTerminator_branch idMap k brDest st hbr hs hshape] at hsign
      simp only [Option.some.injEq] at hsign
      subst hsign
      simp only [nextBlock, hc, hs, Instruction.getSuccessor, List.length_singleton,
        if_true, List.get?_cons_zero, Option.some.injEq, and_false, if_false,
        Bool.false_eq_true] at hnb
      subst hnb
      exact ⟨List.mem_singleton_self _, getInt32 (idOf idMap k ^^^ idOf idMap S),
        by rw [if_pos hbr], rfl, (fun j h => by cases h), rfl⟩
    · rw [signTerminator_other idMap k brDest st hbr hs] at hsign
      simp only [Option.some.injEq] at hsign
      subst hsign
      simp only [nextBlock, hbr, hs, Instruction.getSuccessor, List.length_singleton,
        if_true, List.get?_cons_zero, Option.some.injEq, false_and, if_false] at hnb
      subst hnb
      exact ⟨List.mem_singleton_self _, getInt32 (idOf idMap k ^^^ idOf idMap S),
        by rw [if_neg hbr], rfl, (fun j h => by cases h), rfl⟩
  | [S0, S1] =>
    have hbr : t.opcode = Opcode.br := by
      rcases hway with h | h
      · rw [hs] at h; simp at h
      · exact h.1
    have hol : t.operands.length = 1 := by
      rcases hshape hbr with ⟨_, h2⟩ | ⟨h1, _⟩
      · rw [hs] at h2; cases h2
      · exact h1
    obtain ⟨c, ho⟩ : ∃ c, t.operands = [c] := by
      match hq : t.operands with
      | [c] => exact ⟨c, rfl⟩
      | [] => rw [hq] at hol; cases hol
      | _ :: _ :: _ => rw [hq] at hol; simp at hol
    have hcd : t.isConditional = true := by simp [Instruction.isConditional, ho, hs]
    have hcall : c.allocated st.nextId = true := halloc c (by rw [ho]; simp)
    have hframe := signTerminator_frame hsign entryEnv env o pred tr
    have hceq : evalValue (execInsts entryEnv o pred r.2.1 env tr).1 o c = evalValue env o c :=
      evalValue_congr hcall hframe o
    simp only [nextBlock, hbr, hcd, and_self, if_true, Instruction.getCondition, ho,
      List.head?_cons, hceq, Instruction.getSuccessor, hs, List.get?_cons_zero,
      List.get?_cons_succ] at hnb
    cases hv : evalValue env o c with
    | none => rw [hv] at hnb; cases hnb
    | some v =>
      rw [hv] at hnb
      simp only [] at hnb
      have hnbv : nb = if v = 0 then S1 else S0 := by
        by_cases h0 : v = 0
        · simp only [h0, if_true, Option.some.injEq] at hnb ⊢; exact hnb.symm
        · simp only [h0, if_false, Option.some.injEq] at hnb ⊢; exact hnb.symm
      have hmem : nb ∈ [S0, S1] := by
        rw [hnbv]; by_cases h0 : v = 0 <;> simp [h0]
      refine ⟨hmem, ?_⟩
      cases hf : foldSelect c (idOf idMap S0) (idOf idMap S1) with
      | some fv =>
        rcases foldSelect_some hf with ⟨w, x, hcc, _⟩ | ⟨hcc, _⟩ | ⟨hcc, _⟩ | ⟨_, hxy, hfv⟩
        · subst hcc
          rw [signTerminator_cond_const idMap k brDest st hbr ho hs] at hsign
          simp only [Option.some.injEq] at hsign
          subst hsign
          simp only [evalValue, Option.some.injEq] at hv
          subst hv
          refine ⟨getInt32 (idOf idMap k ^^^ (if x = 0 then idOf idMap S1 else idOf idMap S0)),
            by rw [if_pos hbr], rfl, (fun j h => by cases h), ?_⟩
          simp only [getInt32, evalValue, hnbv]
          by_cases h0 : x = 0 <;> simp [h0]
        · subst hcc
          cases hv
        · subst hcc
          cases hv
        · subst hfv
          rw [signTerminator_cond_fold idMap k brDest st hbr ho hs hf] at hsign
          simp only [Option.some.injEq] at hsign
          subst hsign
          refine ⟨getInt32 (idOf idMap k ^^^ idOf idMap S0),
            by rw [if_pos hbr]; rfl, rfl, (fun j h => by cases h), ?_⟩
          simp only [getInt32, evalValue, hnbv]
          by_cases h0 : v = 0 <;> simp [h0, hxy]
      | none =>
        rw [signTerminator_cond idMap k brDest st hbr ho hf hs] at hsign
        simp only [Option.some.injEq] at hsign
        subst hsign
        refine ⟨Value.inst (st.nextId + 1), by rw [if_pos hbr], rfl,
          (fun j h => by cases h; exact Nat.le_succ _), ?_⟩
        simp only [execInsts, Instruction.isPHI, evalInst, evalValue_inst, evalValue_constInt,
          getInt32, hv, hnbv]
        by_cases h0 : v = 0 <;> simp [h0]
  | _ :: _ :: _ :: _ =>
    exfalso
    rcases hway with h | h
    · rw [hs] at h; simp at h
    · rw [hs] at h; simp at h

theorem phiNode_isPHI (n : Nat) (vals : List Value) (preds : List Nat) :
    (phiNode n vals preds).isPHI = true := rfl

theorem phiNode_id (n : Nat) (vals : List Value) (preds : List Nat) :
    (phiNode n vals preds).id = n := rfl

theorem phiNode_opcode (n : Nat) (vals : List Value) (preds : List Nat) :
    (phiNode n vals preds).opcode = Opcode.phi := rfl

theorem xor_cancel_left (a b : Nat) : (a ^^^ b) ^^^ a = b := by
  rw [Nat.xor_comm a b, Nat.xor_assoc, Nat.xor_self, Nat.xor_zero]

/-- Execution of the header of a non-entry block entered from `p`: the two
nodes take their incoming values for `p`, and the check compares their XOR
with the block's ID and passes the outcome to the handler. -/
theorem exec_header (entryEnv env1 : Env) (o : Oracle) (p : Nat) (tr : List CallEvent)
    (own d : Nat) (g h : Nat → Value) (preds : List Nat) (hp : p ∈ preds) (dv xv : Nat)
    (hd : evalValue entryEnv o (g p) = some dv) (hx : evalValue entryEnv o (h p) = some xv) :
    (execInsts entryEnv o (some p)
        ([phiNode d (preds.map g) preds, phiNode (d + 1) (preds.map h) preds] ++
          cfgCheck own d) env1 tr).1 d = dv ∧
    (execInsts entryEnv o (some p)
        ([phiNode d (preds.map g) preds, phiNode (d + 1) (preds.map h) preds] ++
          cfgCheck own d) env1 tr).1 (d + 1) = xv ∧
    (execInsts entryEnv o (some p)
        ([phiNode d (preds.map g) preds, phiNode (d + 1) (preds.map h) preds] ++
          cfgCheck own d) env1 tr).1 (d + 2) = dv ^^^ xv ∧
    (execInsts entryEnv o (some p)
        ([phiNode d (preds.map g) preds, phiNode (d + 1) (preds.map h) preds] ++
          cfgCheck own d) env1 tr).1 (d + 4) = (if dv ^^^ xv = own then 1 else 0) ∧
    (execInsts entryEnv o (some p)
        ([phiNode d (preds.map g) preds, phiNode (d + 1) (preds.map h) preds] ++
          cfgCheck own d) env1 tr).2 =
      tr ++ [{ inst := d + 5, callee := some (Value.func FuncName.assert_cfg_ft),
               args := [some (if dv ^^^ xv = own then 1 else 0), some xv, some own] }] := by
  have e1 := phiValue_phiNode entryEnv o p d g preds hp dv hd
  have e2 := phiValue_phiNode entryEnv o p (d + 1) h preds hp xv hx
  simp only [List.cons_append, List.nil_append, cfgCheck, execInsts, phiNode_isPHI,
    phiNode_id, phiNode_opcode, e1, e2, Instruction.isPHI, evalInst, evalValue_inst,
    evalValue_constInt, getInt32]
  refine ⟨?_, ?_, ?_, ?_, ?_⟩ <;> simp
  split <;> simp [evalValue_inst, evalValue_constInt]

theorem getD_of_get? {α : Type} {l : List α} {k : Nat} {a : α} (h : l.get? k = some a)
    (d : α) : l.getD k d = a := by
  rw [List.getD_eq_getElem?_getD, ← List.get?_eq_getElem?, h]
  rfl

/-- Leaving a block: the values recorded for the block satisfy the entry
condition of the block control moves to. -/
theorem exit_cond {idMap : List Nat} {dm xm : List (Option Value)}
    {blocks : List BasicBlock} {k : Nat} {l : List Instruction} {t : Instruction}
    {brDest : Value} {st : PassState}
    {r : Option (Value × Value) × List Instruction × PassState}
    (hsign : signTerminator idMap k t brDest st = some r)
    (hshape : branchShaped t)
    (hway : t.succs.length ≤ 1 ∨ (t.opcode = Opcode.br ∧ t.succs.length = 2))
    (hops : ∀ op ∈ t.operands, op.allocated st.nextId = true)
    (hblk : blocks.get? k = some { insts := l }) (ht : t ∈ l) (hterm : t.isTerminator = true)
    (htid : t.id < st.nextId)
    (hdm : dm.get? k = some (r.1.map Prod.fst)) (hxm : xm.get? k = some (r.1.map Prod.snd))
    (entryEnv env : Env) (o : Oracle) (pred : Option Nat) (tr : List CallEvent)
    (hdest : ∀ o', evalValue (fun j => if j = t.id then o.result t.id
        else (execInsts entryEnv o pred r.2.1 env tr).1 j) o' brDest = some (idOf idMap k))
    (nb : Nat) (hnb : nextBlock t (execInsts entryEnv o pred r.2.1 env tr).1 o = some nb) :
    EntryCond idMap dm xm blocks nb (some k)
      (fun j => if j = t.id then o.result t.id
        else (execInsts entryEnv o pred r.2.1 env tr).1 j) := by
  obtain ⟨hmem, diff, hr1, hsig, hfresh, hev⟩ :=
    signTerminator_sem hsign hshape hway hops entryEnv env o pred tr nb hnb
  intro _
  refine ⟨k, rfl, mem_predecessors hblk ht hterm hmem, idOf idMap k ^^^ idOf idMap nb,
    idOf idMap k, ?_, ?_, xor_cancel_left _ _⟩
  · intro o'
    have hd : dm.getD k none = some diff := by
      rw [getD_of_get? hdm, hr1]; rfl
    simp only [incomingDiff, hd]
    cases diff with
    | inst j =>
      have := hfresh j rfl
      simp only [evalValue_inst, Option.some.injEq] at hev ⊢
      rw [if_neg (by omega)]
      exact hev
    | constInt w v => exact hev
    | _ => cases hsig
  · intro o'
    have hd : xm.getD k none =
        some (if t.opcode = Opcode.br then brDest else getInt32 (idOf idMap k)) := by
      rw [getD_of_get? hxm, hr1]; rfl
    simp only [incomingDest, hd]
    by_cases hbr : t.opcode = Opcode.br
    · rw [if_pos hbr]; exact hdest o'
    · rw [if_neg hbr]; rfl

/-- One block execution of the instrumented function: if the entry condition
holds, the block's check passes and the entry condition holds for the block
control moves to. -/
theorem block_sem {idMap : List Nat} {dm xm : List (Option Value)}
    {blocks : List BasicBlock} {k : Nat} {l : List Instruction} {sk : PassState}
    {phis body : List Instruction} {t : Instruction}
    {r : Option (Value × Value) × List Instruction × PassState} {out : List Instruction}
    (hdone : CFDone idMap dm xm (predecessors blocks k) k l sk phis body t r out)
    (hblk : blocks.get? k = some { insts := l })
    (halloc : ∀ x ∈ l, x.id < sk.nextId)
    (hshape : branchShaped t)
    (hway : t.succs.length ≤ 1 ∨ (t.opcode = Opcode.br ∧ t.succs.length = 2))
    (hops : ∀ op ∈ t.operands, op.allocated sk.nextId = true)
    (hdm : dm.get? k = some (r.1.map Prod.fst)) (hxm : xm.get? k = some (r.1.map Prod.snd))
    (env : Env) (pred : Option Nat) (o : Oracle)
    (hentry : EntryCond idMap dm xm blocks k pred env) :
    (k ≠ 0 →
      (execInsts env o pred out.dropLast env []).1 sk.nextId ^^^
        (execInsts env o pred out.dropLast env []).1 (sk.nextId + 1) = idOf idMap k ∧
      (execInsts env o pred out.dropLast env []).1 (sk.nextId + 4) = 1 ∧
      ({ inst := sk.nextId + 5, callee := some (Value.func FuncName.assert_cfg_ft),
         args := [some 1, some ((execInsts env o pred out.dropLast env []).1 (sk.nextId + 1)),
                  some (idOf idMap k)] } : CallEvent) ∈
        (execInsts env o pred out.dropLast env []).2) ∧
    (∀ nb, nextBlock t (execInsts env o pred out.dropLast env []).1 o = some nb →
      EntryCond idMap dm xm blocks nb (some k)
        (fun j => if j = t.id then o.result t.id
          else (execInsts env o pred out.dropLast env []).1 j)) := by
  have hl := hdone.hsplit
  have ht : t ∈ l := by rw [hl]; simp
  have htid : t.id < sk.nextId := halloc t ht
  have hsign := hdone.hsign
  by_cases hk : k = 0
  · rw [if_pos hk, if_pos hk] at hsign
    rw [hdone.hentry hk, List.dropLast_concat, execInsts_append]
    refine ⟨fun h => absurd hk h, ?_⟩
    intro nb hnb
    exact exit_cond hsign hshape hway hops hblk ht hdone.hterm htid hdm hxm env _ o pred _
      (fun _ => rfl) nb hnb
  · rw [if_neg hk, if_neg hk] at hsign
    obtain ⟨p, hpred, hpmem, dv, xv, hdv, hxv, hxor⟩ := hentry hk
    subst hpred
    rw [hdone.hother hk, List.dropLast_concat, execInsts_append, execInsts_append,
      execInsts_append]
    generalize execInsts env o (some p) phis env [] = r0
    have hh := exec_header env r0.1 o p r0.2 (idOf idMap k) sk.nextId
      (incomingDiff idMap dm k) (incomingDest idMap xm k) (predecessors blocks k) hpmem
      dv xv (hdv o) (hxv o)
    generalize execInsts env o (some p)
      ([phiNode sk.nextId ((predecessors blocks k).map (incomingDiff idMap dm k))
          (predecessors blocks k),
        phiNode (sk.nextId + 1) ((predecessors blocks k).map (incomingDest idMap xm k))
          (predecessors blocks k)] ++ cfgCheck (idOf idMap k) sk.nextId) r0.1 r0.2 = r1
      at hh ⊢
    obtain ⟨h0, h1, h2, h4, htr⟩ := hh
    have hbody : ∀ x ∈ body, x.id < sk.nextId := fun x hx =>
      halloc x (by rw [hl]; simp [hx])
    have f2 : ∀ j, sk.nextId ≤ j → (execInsts env o (some p) body r1.1 r1.2).1 j = r1.1 j :=
      fun j hj => execInsts_frame env o (some p) body r1.1 r1.2 j
        (fun x hx => by have := hbody x hx; omega)
    have t2 : ∀ e ∈ r1.2, e ∈ (execInsts env o (some p) body r1.1 r1.2).2 :=
      execInsts_trace env o (some p) body r1.1 r1.2
    generalize execInsts env o (some p) body r1.1 r1.2 = r2 at f2 t2 ⊢
    have f3 : ∀ j, j < sk.nextId + 6 → (execInsts env o (some p) r.2.1 r2.1 r2.2).1 j = r2.1 j :=
      fun j hj => signTerminator_frame hsign env r2.1 o (some p) r2.2 j hj
    have t3 := signTerminator_trace hsign env r2.1 o (some p) r2.2
    have hops6 : ∀ op ∈ t.operands, op.allocated (sk.nextId + 6) = true :=
      fun op hop => Value.allocated_mono (hops op hop) (by omega)
    have e0 : (execInsts env o (some p) r.2.1 r2.1 r2.2).1 sk.nextId = dv := by
      rw [f3 _ (by omega), f2 _ (by omega), h0]
    have e1 : (execInsts env o (some p) r.2.1 r2.1 r2.2).1 (sk.nextId + 1) = xv := by
      rw [f3 _ (by omega), f2 _ (by omega), h1]
    have e2 : (execInsts env o (some p) r.2.1 r2.1 r2.2).1 (sk.nextId + 2) = idOf idMap k := by
      rw [f3 _ (by omega), f2 _ (by omega), h2, hxor]
    have e4 : (execInsts env o (some p) r.2.1 r2.1 r2.2).1 (sk.nextId + 4) = 1 := by
      rw [f3 _ (by omega), f2 _ (by omega), h4, if_pos hxor]
    refine ⟨fun _ => ⟨by rw [e0, e1, hxor], e4, ?_⟩, ?_⟩
    · rw [t3, e1]
      apply t2
      rw [htr, if_pos hxor]
      simp
    · intro nb hnb
      refine exit_cond hsign hshape hway hops6 hblk ht hdone.hterm (by show t.id < sk.nextId + 6; omega) hdm hxm env
        r2.1 o (some p) r2.2 ?_ nb hnb
      intro o'
      simp only [evalValue_inst]
      rw [if_neg (by omega), e2]

/-- Every block execution of a path through the instrumented function passes
its check, provided the entry condition holds where the path starts. -/
theorem run_inv {f : Function} {s : PassState} {res : CFResult}
    (hready : CFReady f s)
    (hway : ∀ b ∈ f.blocks, ∀ t, getTerminator b.insts = some t →
      (t.succs.length ≤ 1 ∨ (t.opcode = Opcode.br ∧ t.succs.length = 2)) ∧
      ∀ op ∈ t.operands, op.allocated s.nextId = true)
    (hlen : res.f.blocks.length = f.blocks.length)
    (hall : ∀ k b, f.blocks.get? k = some b →
        ∃ sk phis body t r out,
          s.nextId ≤ sk.nextId ∧ r.2.2.nextId ≤ res.state.nextId ∧
          CFDone res.idMap res.diffMap res.destMap (predecessors f.blocks k) k b.insts sk
            phis body t r out ∧
          res.f.blocks.get? k = some { insts := out } ∧
          res.diffMap.get? k = some (r.1.map Prod.fst) ∧
          res.destMap.get? k = some (r.1.map Prod.snd) ∧
          res.diffPhiMap.get? k = some (if k = 0 then none else some sk.nextId) ∧
          res.destPhiMap.get? k = some (if k = 0 then none else some (sk.nextId + 1))) :
    ∀ (os : List Oracle) (cur : Nat) (pred : Option Nat) (env : Env),
      EntryCond res.idMap res.diffMap res.destMap f.blocks cur pred env →
      ∀ v ∈ run res.f.blocks os cur pred env, v.block ≠ 0 → CheckPassed res v := by
  intro os
  induction os with
  | nil => intro cur pred env _ v hv; simp [run] at hv
  | cons o os ih =>
    intro cur pred env hentry v hv
    cases hb' : res.f.blocks.get? cur with
    | none =>
      simp only [run, hb'] at hv
      exact absurd hv (List.not_mem_nil _)
    | some b' =>
      have hcur : cur < f.blocks.length := by
        rw [← hlen]
        by_contra hc
        rw [List.get?_eq_none.mpr (by omega)] at hb'
        cases hb'
      obtain ⟨b, hb⟩ : ∃ b, f.blocks.get? cur = some b :=
        ⟨f.blocks.get ⟨cur, hcur⟩, List.get?_eq_get hcur⟩
      have hbmem : b ∈ f.blocks := List.get?_mem hb
      obtain ⟨sk, phis, body, t, r, out, hsk, _, hdone, hout, hdm, hxm, hdp, hxp⟩ :=
        hall cur b hb
      rw [hb'] at hout
      simp only [Option.some.injEq] at hout
      subst hout
      have hterm := hdone.terminator
      have hterm' : getTerminator out = some t := by
        rw [getTerminator_congr hdone.cf_sublist.2]
        exact getTerminator_congr rfl ▸ hterm
      obtain ⟨hw, hops⟩ := hway b hbmem t hterm
      have hsem := block_sem hdone (show f.blocks.get? cur = some { insts := b.insts } from hb)
        (fun x hx => Nat.lt_of_lt_of_le (hready.allocated b hbmem x hx) hsk)
        (hready.branches b hbmem t hterm) hw
        (fun op hop => Value.allocated_mono (hops op hop) hsk) hdm hxm env pred o hentry
      simp only [run, hb', hterm', List.mem_cons] at hv
      rcases hv with hv | hv
      · subst hv
        intro hne
        simp only [] at hne
        obtain ⟨h1, h2, h3⟩ := hsem.1 hne
        have htid : t.id < sk.nextId :=
          Nat.lt_of_lt_of_le (hready.allocated b hbmem t
            (List.mem_of_getLast?_eq_some (getTerminator_eq_some.mp hterm).1)) hsk
        refine ⟨sk.nextId, ?_, ?_, ?_, ?_, ?_⟩
        · rw [hdp, if_neg hne]
        · rw [hxp, if_neg hne]
        · simp only []
          rw [if_neg (by omega), if_neg (by omega)]
          exact h1
        · simp only []
          rw [if_neg (by omega)]
          exact h2
        · simp only []
          rw [if_neg (by omega)]
          exact h3
      · cases hnb : nextBlock t (execInsts env o pred out.dropLast env []).1 o with
        | none => rw [hnb] at hv; simp at hv
        | some nb =>
          rw [hnb] at hv
          exact ih nb (some cur) _ (hsem.2 nb hnb) v hv

/-- C1: in a function whose terminators have no successor, one successor or
are two-way conditional branches, every fault-free path from the entry block
through the function `verifyControlFlow` returns finds, at each non-entry
block it runs, Diff XOR Dest equal to the block's ID, and the block's
`assert_cfg_ft` call receives 1 as its first argument. -/
theorem C1_fault_free_path (f : Function) (M : Module) (F : Function) (s : PassState)
    (hready : CFReady f s)
    (hF : M.getFunction FuncName.assert_cfg_ft = some F)
    (hway : ∀ b ∈ f.blocks, ∀ t, getTerminator b.insts = some t →
      (t.succs.length ≤ 1 ∨ (t.opcode = Opcode.br ∧ t.succs.length = 2)) ∧
      ∀ op ∈ t.operands, op.allocated s.nextId = true) :
    ∃ res, verifyControlFlowMaps f M s = some res ∧
      verifyControlFlow f M s = some (res.f, res.state) ∧
      ∀ (os : List Oracle) (env0 : Env),
        ∀ v ∈ run res.f.blocks os 0 none env0, v.block ≠ 0 → CheckPassed res v := by
  obtain ⟨res, h1, h2, _, _, hlen, _, hall⟩ := verifyControlFlowMaps_spec hready hF
  refine ⟨res, h1, h2, ?_⟩
  intro os env0
  exact run_inv hready hway hlen hall os 0 none env0 (fun h => absurd rfl h)

/-! ## The statements on concrete functions -/

theorem exDiamond_wf : WellFormed exDiamond exState :=
  { terminated := by decide
    distinct := by decide
    allocated := by decide
    operandsAllocated := by decide
    phis := by
      intro b hb
      unfold phisLead
      revert b
      decide
    branches := by
      unfold branchShaped
      decide }

theorem exDiamond_ready : CFReady exDiamond exState :=
  exDiamond_wf.cfReady (by decide)

/-- C3 as stated fails: the sum of two doubles in `exDouble` is not excluded
and `replicate` clones it, but the function it returns holds no comparison
and no call. -/
theorem C3_double_not_checked :
    WellFormed exDouble { nextId := 2, SWFTAdded := 0 } ∧
    (∃ I ∈ exDouble.allInsts, ¬ Excluded I ∧ I.id = 0) ∧
    replicate exDouble exModule id { nextId := 2, SWFTAdded := 0 } =
      some (exDoubleOut, { nextId := 3, SWFTAdded := 1 }) ∧
    ∀ x ∈ exDoubleOut.allInsts,
      x.opcode ≠ Opcode.call ∧ x.opcode ≠ Opcode.icmpEQ ∧ x.opcode ≠ Opcode.fcmpOEQ := by
  refine ⟨⟨by decide, by decide, by decide, by decide, ?_, ?_⟩, ?_, by decide, by decide⟩
  · intro b hb
    unfold phisLead
    revert b
    decide
  · unfold branchShaped
    decide
  · unfold Excluded
    decide

theorem exDiamond_ways : ∀ b ∈ exDiamond.blocks, ∀ t, getTerminator b.insts = some t →
    (t.succs.length ≤ 1 ∨ (t.opcode = Opcode.br ∧ t.succs.length = 2)) ∧
    ∀ op ∈ t.operands, op.allocated exState.nextId = true := by
  intro b hb t ht
  simp only [exDiamond, List.mem_cons, List.mem_singleton, List.not_mem_nil, or_false] at hb
  rcases hb with rfl | rfl | rfl | rfl <;> cases ht <;> decide

/-- A path through the instrumented diamond: entry block, block 2, block 3.
Each check receives 1, the ID of the block control came from, and the
block's own ID. -/
theorem exDiamond_path :
    (verifyControlFlowMaps exDiamond exModule exState).map (fun res =>
      (run res.f.blocks [exOracle, exOracle, exOracle, exOracle] 0 none (fun _ => 0)).map
        (fun v => (v.block, v.pred, v.calls.map (fun e => (e.inst, e.args))))) =
    some [ (0, none, []),
           (2, some 0, [(23, [some 1, some (uniqueID 1 3), some (uniqueID 3 2)])]),
           (3, some 2, [(29, [some 1, some (uniqueID 3 2), some (uniqueID 4 3)])]) ] := rfl

theorem C1_fault_free_path_witness :
    CFReady exDiamond exState ∧
    (∃ res, verifyControlFlowMaps exDiamond exModule exState = some res ∧
      verifyControlFlow exDiamond exModule exState = some (res.f, res.state) ∧
      ∀ (os : List Oracle) (env0 : Env),
        ∀ v ∈ run res.f.blocks os 0 none env0, v.block ≠ 0 → CheckPassed res v) :=
  ⟨exDiamond_ready,
    C1_fault_free_path exDiamond exModule exAssertCfgFt exState exDiamond_ready rfl
      exDiamond_ways⟩

theorem C2_excluded_not_cloned_witness :
    WellFormed exDiamond exState ∧
    (∃ reps s', replicateMaps exDiamond exModule id exState = some (reps, s') ∧
      replicate exDiamond exModule id exState =
        some ({ exDiamond with blocks := reps.map (fun g => g.block) }, s') ∧
      reps.length = exDiamond.blocks.length ∧
      ∀ k b rep, exDiamond.blocks.get? k = some b → reps.get? k = some rep →
        ∀ I ∈ b.insts, Excluded I →
          (∀ e ∈ rep.cloneMap, e.1.id ≠ I.id) ∧
          (∀ x ∈ rep.block.insts, x ∈ b.insts ∨
            ∃ e ∈ rep.cloneMap, e.1.id ≠ I.id ∧ ¬ Excluded e.1 ∧
              (x = remapOperands rep.cloneMap (rawClone e.1 e.2) ∨
               ∃ n, x ∈ checkInsts (uniqueID (k + 2) b.insts.length) e.1 e.2 n))) :=
  ⟨exDiamond_wf,
    C2_excluded_not_cloned exDiamond exModule exAssertFt id exState exDiamond_wf rfl
      (fun cm => List.Perm.refl cm)⟩

theorem C3_one_clone_one_check_witness :
    WellFormed exDiamond exState ∧
    (∃ reps s', replicateMaps exDiamond exModule id exState = some (reps, s') ∧
      replicate exDiamond exModule id exState =
        some ({ exDiamond with blocks := reps.map (fun g => g.block) }, s') ∧
      reps.length = exDiamond.blocks.length ∧
      ∀ k b rep, exDiamond.blocks.get? k = some b → reps.get? k = some rep →
        ∀ I ∈ b.insts, ¬ Excluded I →
          ∃ c, (I, c) ∈ rep.cloneMap ∧
            (∀ e ∈ rep.cloneMap, e.1.id = I.id → e = (I, c)) ∧
            (rep.block.insts.filter (fun x => decide (x.id = c))).length = 1 ∧
            Adjacent [remapOperands rep.cloneMap (rawClone I c), I] rep.block.insts ∧
            (I.ty.isCompared = true →
              ∃ n pre post t,
                rep.block.insts =
                  pre ++ checkInsts (uniqueID (k + 2) b.insts.length) I c n ++ post ++ [t] ∧
                I ∈ pre ∧ getTerminator b.insts = some t ∧
                (rep.block.insts.filter (fun x =>
                  decide (x.operands = [Value.inst I.id, Value.inst c]))).length = 1 ∧
                (rep.block.insts.filter (fun x =>
                  decide (x.opcode = Opcode.call ∧
                    x.operands.head? = some (Value.inst (n + 1))))).length = 1) ∧
            (I.ty.isCompared = false →
              ∀ x ∈ rep.block.insts, x.operands ≠ [Value.inst I.id, Value.inst c])) :=
  ⟨exDiamond_wf,
    C3_one_clone_one_check exDiamond exModule exAssertFt id exState exDiamond_wf rfl
      (fun cm => List.Perm.refl cm)⟩

theorem C4_only_adds_witness :
    (WellFormed exDiamond exState ∧ predecessors exDiamond.blocks 0 = []) ∧
    (∃ f₁ s₁ f₂ s₂, replicate exDiamond exModule id exState = some (f₁, s₁) ∧
      verifyControlFlow f₁ exModule s₁ = some (f₂, s₂) ∧
      f₂.blocks.length = exDiamond.blocks.length ∧
      ∀ k b, exDiamond.blocks.get? k = some b →
        ∃ b₂, f₂.blocks.get? k = some b₂ ∧ b.insts.Sublist b₂.insts ∧
          b₂.insts.getLast? = b.insts.getLast? ∧
          getTerminator b₂.insts = getTerminator b.insts) :=
  ⟨⟨exDiamond_wf, by decide⟩,
    C4_only_adds exDiamond exModule exAssertFt exAssertCfgFt id exState exDiamond_wf (by decide) rfl rfl
      (fun cm => List.Perm.refl cm)⟩

theorem C5_clone_operands_witness :
    WellFormed exDiamond exState ∧
    (∃ reps₁ s₁ reps₂ s₂, replicateMaps exDiamond exModule id exState = some (reps₁, s₁) ∧
      replicateMaps exDiamond exModule List.reverse exState = some (reps₂, s₂) ∧
      reps₁.length = exDiamond.blocks.length ∧ reps₂.length = exDiamond.blocks.length ∧
      ∀ k b rep₁ rep₂, exDiamond.blocks.get? k = some b → reps₁.get? k = some rep₁ →
        reps₂.get? k = some rep₂ →
        rep₁.cloneMap = rep₂.cloneMap ∧
        (∀ e ∈ rep₁.cloneMap, e.1 ∈ b.insts ∧ ¬ Excluded e.1) ∧
        (∀ k' b', k' ≠ k → exDiamond.blocks.get? k' = some b' →
          ∀ i' ∈ b'.insts, ∀ e ∈ rep₁.cloneMap, i'.id ≠ e.1.id) ∧
        ∀ i c, (i, c) ∈ rep₁.cloneMap →
          ∃ cl : Instruction, cl.id = c ∧ cl.opcode = i.opcode ∧
            cl.operands.length = i.operands.length ∧
            Adjacent [cl, i] rep₁.block.insts ∧ Adjacent [cl, i] rep₂.block.insts ∧
            ∀ j op, i.operands.get? j = some op →
              (∀ i' c', (i', c') ∈ rep₁.cloneMap → op = Value.inst i'.id →
                cl.operands.get? j = some (Value.inst c')) ∧
              ((∀ i' c', (i', c') ∈ rep₁.cloneMap → op ≠ Value.inst i'.id) →
                cl.operands.get? j = some op)) :=
  ⟨exDiamond_wf,
    C5_clone_operands exDiamond exModule exAssertFt id List.reverse exState exDiamond_wf rfl
      (fun cm => List.Perm.refl cm) (fun cm => List.reverse_perm cm)⟩

theorem C6_check_emitted_witness :
    WellFormed exDiamond exState ∧
    (∃ reps s', replicateMaps exDiamond exModule id exState = some (reps, s') ∧
      replicate exDiamond exModule id exState =
        some ({ exDiamond with blocks := reps.map (fun g => g.block) }, s') ∧
      reps.length = exDiamond.blocks.length ∧
      ∀ k b rep, exDiamond.blocks.get? k = some b → reps.get? k = some rep →
        (∀ i c, (i, c) ∈ rep.cloneMap →
          (i.ty.isIntegerTy = true ∨ i.ty.isPointerTy = true →
            cmpOpcode i.ty = Opcode.icmpEQ ∧
            ∃ n, CheckPlaced (uniqueID (k + 2) b.insts.length) (i, c) n rep.block.insts) ∧
          (i.ty.isFloatTy = true →
            cmpOpcode i.ty = Opcode.fcmpOEQ ∧
            ∃ n, CheckPlaced (uniqueID (k + 2) b.insts.length) (i, c) n rep.block.insts) ∧
          (i.ty.isCompared = false →
            ∀ x ∈ rep.block.insts, x.operands ≠ [Value.inst i.id, Value.inst c])) ∧
        rep.block.insts.length = b.insts.length + rep.cloneMap.length +
          3 * (rep.cloneMap.filter (fun e => e.1.ty.isCompared)).length) :=
  ⟨exDiamond_wf,
    C6_check_emitted exDiamond exModule exAssertFt id exState exDiamond_wf rfl
      (fun cm => List.Perm.refl cm)⟩

theorem C7_block_header_witness :
    CFReady exDiamond exState ∧
    (∃ res, verifyControlFlowMaps exDiamond exModule exState = some res ∧
      verifyControlFlow exDiamond exModule exState = some (res.f, res.state) ∧
      ∀ k b, exDiamond.blocks.get? k = some b →
        ∃ phis rest out, b.insts = phis ++ rest ∧ (∀ x ∈ phis, x.isPHI = true) ∧
          (∀ y, rest.head? = some y → y.isPHI = false) ∧
          res.f.blocks.get? k = some { insts := out } ∧
          (k ≠ 0 → ∃ n dv xv preds rest', exState.nextId ≤ n ∧
            res.diffPhiMap.get? k = some (some n) ∧
            res.destPhiMap.get? k = some (some (n + 1)) ∧
            out = phis ++ [phiNode n dv preds, phiNode (n + 1) xv preds] ++
              cfgCheck (idOf res.idMap k) n ++ rest' ∧
            ∀ x ∈ rest', x ∈ b.insts ∨ x.opcode = Opcode.select ∨ x.opcode = Opcode.xor) ∧
          (k = 0 → res.diffPhiMap.get? k = some none ∧ res.destPhiMap.get? k = some none ∧
            ∀ x ∈ out, x ∈ b.insts ∨ x.opcode = Opcode.select ∨ x.opcode = Opcode.xor)) :=
  ⟨exDiamond_ready,
    C7_block_header exDiamond exModule exAssertCfgFt exState exDiamond_ready rfl⟩

theorem C10_merge_completion_witness :
    CFReady exDiamond exState ∧
    (∃ res, verifyControlFlowMaps exDiamond exModule exState = some res ∧
      verifyControlFlow exDiamond exModule exState = some (res.f, res.state) ∧
      ∀ k B, k ≠ 0 → exDiamond.blocks.get? k = some B →
        ∃ n out Diff Dest, res.diffPhiMap.get? k = some (some n) ∧
          res.destPhiMap.get? k = some (some (n + 1)) ∧
          res.f.blocks.get? k = some { insts := out } ∧
          Diff ∈ out ∧ Dest ∈ out ∧ Diff.id = n ∧ Dest.id = n + 1 ∧
          Diff.opcode = Opcode.phi ∧ Dest.opcode = Opcode.phi ∧
          Diff.incoming = predecessors exDiamond.blocks k ∧
          Dest.incoming = predecessors exDiamond.blocks k ∧
          Diff.operands.length = (predecessors exDiamond.blocks k).length ∧
          Dest.operands.length = (predecessors exDiamond.blocks k).length ∧
          ∀ j P, (predecessors exDiamond.blocks k).get? j = some P →
            (∀ v, res.diffMap.get? P = some (some v) → Diff.operands.get? j = some v) ∧
            ((res.diffMap.get? P = some none ∨ res.diffMap.get? P = none) →
              Diff.operands.get? j =
                some (getInt32 (idOf res.idMap P ^^^ idOf res.idMap k))) ∧
            (∀ v, res.destMap.get? P = some (some v) → Dest.operands.get? j = some v) ∧
            ((res.destMap.get? P = some none ∨ res.destMap.get? P = none) →
              Dest.operands.get? j = some (getInt32 (idOf res.idMap k)))) :=
  ⟨exDiamond_ready,
    C10_merge_completion exDiamond exModule exAssertCfgFt exState exDiamond_ready rfl⟩

/-! ## The ID formula, the pass over a module, and faults -/

/-! ## The block-ID formula -/

/-- On indices below 2^11 and sizes below 2^12 the three fields of the ID do
not overlap and nothing is lost to the 32-bit width. -/
theorem uniqueID_eq_add {b n : Nat} (hb : b < 2048) (hn : n < 4096) :
    uniqueID b n = b * 1048576 + n * 256 + (b * n) % 37 := by
  have hr : (b * n) % 37 < 2 ^ 8 := lt_of_lt_of_le (Nat.mod_lt _ (by decide)) (by decide)
  have h1 : n <<< 8 ||| (b * n) % 37 = n * 256 + (b * n) % 37 := by
    rw [Nat.shiftLeft_eq, Nat.mul_comm n (2 ^ 8), ← Nat.mul_add_lt_is_or hr n]
  have h2 : n * 256 + (b * n) % 37 < 2 ^ 20 := by
    have := Nat.mod_lt (b * n) (show 37 > 0 by decide)
    norm_num
    omega
  unfold uniqueID
  rw [Nat.lor_assoc, h1, Nat.shiftLeft_eq, Nat.mul_comm b (2 ^ 20), ← Nat.mul_add_lt_is_or h2 b]
  have := Nat.mod_lt (b * n) (show 37 > 0 by decide)
  rw [Nat.mod_eq_of_lt (by norm_num; omega)]
  norm_num
  omega

theorem uniqueID_inj {b1 n1 b2 n2 : Nat} (hb1 : b1 < 2048) (hb2 : b2 < 2048)
    (hn1 : n1 < 4096) (hn2 : n2 < 4096) (h : uniqueID b1 n1 = uniqueID b2 n2) :
    b1 = b2 ∧ n1 = n2 := by
  rw [uniqueID_eq_add hb1 hn1, uniqueID_eq_add hb2 hn2] at h
  have r1 := Nat.mod_lt (b1 * n1) (show 37 > 0 by decide)
  have r2 := Nat.mod_lt (b2 * n2) (show 37 > 0 by decide)
  generalize (b1 * n1) % 37 = x at h r1
  generalize (b2 * n2) % 37 = y at h r2
  omega

/-! ## The first loop of `verifyControlFlow` -/

theorem assignIds_length (c : Nat) (bs : List BasicBlock) :
    (assignIds c bs).length = bs.length := by
  induction bs generalizing c with
  | nil => rfl
  | cons b bs ih => simp [assignIds, ih]

theorem assignIds_get? (c : Nat) (bs : List BasicBlock) (k : Nat) (b : BasicBlock)
    (h : bs.get? k = some b) :
    (assignIds c bs).get? k = some (uniqueID (c + k + 1) b.insts.length) := by
  induction bs generalizing c k with
  | nil => cases h
  | cons x xs ih =>
    cases k with
    | zero =>
      simp only [List.get?_cons_zero, Option.some.injEq] at h
      subst h
      rfl
    | succ k =>
      simp only [List.get?_cons_succ] at h
      simp only [assignIds, List.get?_cons_succ]
      rw [ih (c + 1) k h, show c + 1 + k + 1 = c + (k + 1) + 1 by omega]

theorem idOf_assignIds (bs : List BasicBlock) (k : Nat) (b : BasicBlock)
    (h : bs.get? k = some b) :
    idOf (assignIds 0 bs) k = uniqueID (k + 1) b.insts.length := by
  unfold idOf
  rw [getD_of_get? (assignIds_get? 0 bs k b h), Nat.zero_add]

theorem verifyControlFlowMaps_idMap {f : Function} {M : Module} {s : PassState}
    {res : CFResult} (h : verifyControlFlowMaps f M s = some res) :
    res.idMap = assignIds 0 f.blocks := by
  unfold verifyControlFlowMaps at h
  simp only [] at h
  split at h
  · cases h
  · split at h
    · cases h
    · simp only [Option.some.injEq] at h
      rw [← h]

/-- C11 (amended): `verifyControlFlow` visits the blocks in layout order and
gives the block at position `k` (counted from 0, so the first block has
`k = 0`) the ID `(b << 20) | (n << 8) | ((b * n) mod 37)` with traversal index
`b = k + 1`, so that the first block's index is 1, and with `n` the number of
instructions the block holds when `verifyControlFlow` starts. -/
theorem C11_block_ids (f : Function) (M : Module) (F : Function) (s : PassState)
    (hready : CFReady f s) (hF : M.getFunction FuncName.assert_cfg_ft = some F) :
    ∃ res, verifyControlFlowMaps f M s = some res ∧
      res.idMap.length = f.blocks.length ∧
      ∀ k b, f.blocks.get? k = some b →
        res.idMap.get? k = some (uniqueID (k + 1) b.insts.length) ∧
        uniqueID (k + 1) b.insts.length =
          (((k + 1) <<< 20) ||| (b.insts.length <<< 8) |||
            (((k + 1) * b.insts.length) % 37)) % 2 ^ 32 := by
  obtain ⟨res, h1, _, hid, _⟩ := verifyControlFlowMaps_spec hready hF
  refine ⟨res, h1, by rw [hid, assignIds_length], ?_⟩
  intro k b hb
  refine ⟨?_, rfl⟩
  rw [hid, assignIds_get? 0 f.blocks k b hb, Nat.zero_add]

/-- C20: on traversal indices below 2048 and instruction counts below 4096 the
ID formula is injective, and in a function of fewer than 2047 blocks, each of
fewer than 4096 instructions, the first loop of `verifyControlFlow` gives
blocks at different positions different IDs; the `idMap` the pass works with
is the one this loop builds. -/
theorem C20_ids_distinct (b1 n1 b2 n2 : Nat) (f : Function)
    (hb1 : b1 < 2048) (hb2 : b2 < 2048) (hn1 : n1 < 4096) (hn2 : n2 < 4096)
    (hlen : f.blocks.length < 2047) (hsz : ∀ b ∈ f.blocks, b.insts.length < 4096) :
    (uniqueID b1 n1 = uniqueID b2 n2 → b1 = b2 ∧ n1 = n2) ∧
    (∀ i j, i < f.blocks.length → j < f.blocks.length → i ≠ j →
      idOf (assignIds 0 f.blocks) i ≠ idOf (assignIds 0 f.blocks) j) ∧
    (∀ M s res, verifyControlFlowMaps f M s = some res →
      res.idMap = assignIds 0 f.blocks) := by
  refine ⟨uniqueID_inj hb1 hb2 hn1 hn2, ?_, fun M s res h => verifyControlFlowMaps_idMap h⟩
  intro i j hi hj hij h
  have gi : f.blocks.get? i = some (f.blocks.get ⟨i, hi⟩) := List.get?_eq_get hi
  have gj : f.blocks.get? j = some (f.blocks.get ⟨j, hj⟩) := List.get?_eq_get hj
  rw [idOf_assignIds _ _ _ gi, idOf_assignIds _ _ _ gj] at h
  have := (uniqueID_inj (by omega) (by omega) (hsz _ (List.get_mem _ _ _))
    (hsz _ (List.get_mem _ _ _)) h).1
  omega

/-! ## Every predecessor has a recorded pair -/

theorem predecessorsFrom_mem (B : Nat) :
    ∀ (bs : List BasicBlock) (p q : Nat), q ∈ predecessorsFrom B p bs →
      ∃ j b x, q = p + j ∧ bs.get? j = some b ∧ x ∈ b.insts ∧ x.isTerminator = true ∧
        B ∈ x.succs := by
  intro bs
  induction bs with
  | nil => intro p q h; cases h
  | cons c cs ih =>
    intro p q h
    simp only [predecessorsFrom, List.mem_append] at h
    rcases h with h | h
    · simp only [edgesFrom, List.mem_flatMap, List.mem_filter, List.mem_map] at h
      obtain ⟨x, ⟨hx, hterm⟩, d, ⟨hd, hdB⟩, hq⟩ := h
      have : d = B := by simpa using hdB
      subst this
      exact ⟨0, c, x, by omega, rfl, hx, hterm, hd⟩
    · obtain ⟨j, b, x, hq, hb, hx, hterm, hB⟩ := ih (p + 1) q h
      exact ⟨j + 1, b, x, by omega, by simpa using hb, hx, hterm, hB⟩

theorem predecessors_mem {bs : List BasicBlock} {B P : Nat} (h : P ∈ predecessors bs B) :
    ∃ b x, bs.get? P = some b ∧ x ∈ b.insts ∧ x.isTerminator = true ∧ B ∈ x.succs := by
  obtain ⟨j, b, x, hq, hb, hx, hterm, hB⟩ := predecessorsFrom_mem B bs 0 P h
  have : P = j := by omega
  subst this
  exact ⟨b, x, hb, hx, hterm, hB⟩

/-- A terminator with a successor always gets a pair recorded. -/
theorem signTerminator_records {idMap : List Nat} {k : Nat} {t : Instruction} {brDest : Value}
    {st : PassState} {r : Option (Value × Value) × List Instruction × PassState}
    (hsign : signTerminator idMap k t brDest st = some r) (hs : t.succs ≠ []) :
    ∃ dv xv, r.1 = some (dv, xv) := by
  unfold signTerminator at hsign
  split at hsign
  · split at hsign
    · split at hsign
      · simp only [Option.some.injEq] at hsign
        subst hsign
        exact ⟨_, _, rfl⟩
      · cases hsign
    · split at hsign
      · simp only [Option.some.injEq] at hsign
        subst hsign
        exact ⟨_, _, rfl⟩
      · cases hsign
  · split at hsign
    · split at hsign
      · simp only [Option.some.injEq] at hsign
        subst hsign
        exact ⟨_, _, rfl⟩
      · cases hsign
    · rename_i h
      exfalso
      apply h
      cases hq : t.succs with
      | nil => exact absurd hq hs
      | cons a as => simp

/-- In a block whose only terminator is its last instruction, an instruction
flagged as terminator is the block's terminator. -/
theorem terminator_unique {l : List Instruction} {t x : Instruction}
    (ht : getTerminator l = some t) (hlast : ∀ y ∈ l.dropLast, y.isTerminator = false)
    (hx : x ∈ l) (hterm : x.isTerminator = true) : x = t := by
  obtain ⟨hl, _⟩ := getTerminator_eq_some.mp ht
  have hne : l ≠ [] := by
    intro h; rw [h] at hx; cases hx
  have hsplit : l = l.dropLast ++ [t] := by
    have := List.dropLast_append_getLast? t (by simpa using hl)
    exact this.symm
  rw [hsplit] at hx
  rcases List.mem_append.mp hx with h | h
  · rw [hlast x h] at hterm; cases hterm
  · simpa using h

/-- C18 (amended): the fallback of the third loop is never taken.  In a
function whose blocks each end in their only terminator, every block `P` that
has an edge into a block `B` has a diff and a dest recorded, so the lookups of
the third loop find them, and the entries of the Diff and Dest nodes of `B`
for that edge are the recorded values.  (The diff recorded for a block with a single
successor is the constant `id(P) XOR id(B)` the builder folded; it reaches the
node as the recorded value, not through the fallback.) -/
theorem C18_fallback_not_taken (f : Function) (M : Module) (F : Function) (s : PassState)
    (hready : CFReady f s) (hF : M.getFunction FuncName.assert_cfg_ft = some F)
    (hlast : ∀ b ∈ f.blocks, ∀ x ∈ b.insts.dropLast, x.isTerminator = false) :
    ∃ res, verifyControlFlowMaps f M s = some res ∧
      verifyControlFlow f M s = some (res.f, res.state) ∧
      (∀ B P, P ∈ predecessors f.blocks B →
        ∃ dv xv, res.diffMap.get? P = some (some dv) ∧ res.destMap.get? P = some (some xv) ∧
          incomingDiff res.idMap res.diffMap B P = dv ∧
          incomingDest res.idMap res.destMap B P = xv) ∧
      ∀ B bB, B ≠ 0 → f.blocks.get? B = some bB →
        ∃ n out Diff Dest, res.diffPhiMap.get? B = some (some n) ∧
          res.destPhiMap.get? B = some (some (n + 1)) ∧
          res.f.blocks.get? B = some { insts := out } ∧
          Diff ∈ out ∧ Dest ∈ out ∧ Diff.id = n ∧ Dest.id = n + 1 ∧
          Diff.incoming = predecessors f.blocks B ∧
          Dest.incoming = predecessors f.blocks B ∧
          ∀ j P, (predecessors f.blocks B).get? j = some P →
            ∃ dv xv, res.diffMap.get? P = some (some dv) ∧
              res.destMap.get? P = some (some xv) ∧
              Diff.operands.get? j = some dv ∧ Dest.operands.get? j = some xv := by
  obtain ⟨res, h1, h2, _, _, _, _, hall⟩ := verifyControlFlowMaps_spec hready hF
  have hrec : ∀ B P, P ∈ predecessors f.blocks B →
      ∃ dv xv, res.diffMap.get? P = some (some dv) ∧ res.destMap.get? P = some (some xv) ∧
        incomingDiff res.idMap res.diffMap B P = dv ∧
        incomingDest res.idMap res.destMap B P = xv := by
    intro B P hP
    obtain ⟨b, x, hb, hx, hterm, hB⟩ := predecessors_mem hP
    obtain ⟨sk, phis, body, t, r, out, _, _, hdone, _, hdm, hxm, _, _⟩ := hall P b hb
    have hxt : x = t := terminator_unique hdone.terminator (hlast b (List.get?_mem hb)) hx hterm
    subst hxt
    obtain ⟨dv, xv, hr⟩ := signTerminator_records hdone.hsign
      (fun h => by rw [h] at hB; cases hB)
    rw [hr] at hdm hxm
    refine ⟨dv, xv, hdm, hxm, ?_, ?_⟩
    · simp only [incomingDiff, getD_of_get? hdm, Option.map_some']
    · simp only [incomingDest, getD_of_get? hxm, Option.map_some']
  refine ⟨res, h1, h2, hrec, ?_⟩
  intro B bB hB0 hbB
  obtain ⟨sk, phis, body, t, r, out, _, _, hdone, hout, _, _, hdp, hxp⟩ := hall B bB hbB
  have ho := hdone.hother hB0
  refine ⟨sk.nextId, out,
    phiNode sk.nextId ((predecessors f.blocks B).map (incomingDiff res.idMap res.diffMap B))
      (predecessors f.blocks B),
    phiNode (sk.nextId + 1)
      ((predecessors f.blocks B).map (incomingDest res.idMap res.destMap B))
      (predecessors f.blocks B),
    by rw [hdp, if_neg hB0], by rw [hxp, if_neg hB0], hout, by rw [ho]; simp,
    by rw [ho]; simp, rfl, rfl, rfl, rfl, ?_⟩
  intro j P hj
  obtain ⟨dv, xv, a1, a2, a3, a4⟩ := hrec B P (List.get?_mem hj)
  refine ⟨dv, xv, a1, a2, ?_, ?_⟩
  · show ((predecessors f.blocks B).map (incomingDiff res.idMap res.diffMap B)).get? j = some dv
    rw [List.get?_eq_getElem?, List.getElem?_map, ← List.get?_eq_getElem?, hj]
    exact congrArg some a3
  · show ((predecessors f.blocks B).map (incomingDest res.idMap res.destMap B)).get? j = some xv
    rw [List.get?_eq_getElem?, List.getElem?_map, ← List.get?_eq_getElem?, hj]
    exact congrArg some a4

/-! ## Execution of a guarded block, whatever the incoming values -/

/-- A block made of leading phi nodes, a Diff and a Dest node, the check, the
original body and instructions built later: entered from `p`, the two nodes
take their values for `p`, the check compares their XOR with `own`, and the
handler is called with the outcome. -/
theorem guarded_exec (env : Env) (o : Oracle) (p own d : Nat) (preds : List Nat)
    (gD gX : Nat → Value) (phis body new : List Instruction)
    (hbody : ∀ x ∈ body, x.id < d) (hnew : ∀ x ∈ new, d + 6 ≤ x.id)
    (hp : p ∈ preds) (dv xv : Nat)
    (hdv : evalValue env o (gD p) = some dv) (hxv : evalValue env o (gX p) = some xv) :
    ∃ env1 tr1,
      execInsts env o (some p)
        (phis ++ ([phiNode d (preds.map gD) preds, phiNode (d + 1) (preds.map gX) preds] ++
          cfgCheck own d) ++ body ++ new) env [] =
        execInsts env o (some p) new env1 tr1 ∧
      env1 d = dv ∧ env1 (d + 1) = xv ∧ env1 (d + 2) = dv ^^^ xv ∧
      env1 (d + 4) = (if dv ^^^ xv = own then 1 else 0) ∧
      (execInsts env o (some p) new env1 tr1).1 d = dv ∧
      (execInsts env o (some p) new env1 tr1).1 (d + 1) = xv ∧
      (execInsts env o (some p) new env1 tr1).1 (d + 2) = dv ^^^ xv ∧
      (execInsts env o (some p) new env1 tr1).1 (d + 4) = (if dv ^^^ xv = own then 1 else 0) ∧
      ({ inst := d + 5, callee := some (Value.func FuncName.assert_cfg_ft),
         args := [some (if dv ^^^ xv = own then 1 else 0), some xv, some own] } : CallEvent) ∈
        (execInsts env o (some p) new env1 tr1).2 := by
  rw [execInsts_append, execInsts_append, execInsts_append]
  generalize execInsts env o (some p) phis env [] = r0
  have hh := exec_header env r0.1 o p r0.2 own d gD gX preds hp dv xv hdv hxv
  generalize execInsts env o (some p)
    ([phiNode d (preds.map gD) preds, phiNode (d + 1) (preds.map gX) preds] ++
      cfgCheck own d) r0.1 r0.2 = r1 at hh ⊢
  obtain ⟨h0, h1, h2, h4, htr⟩ := hh
  have f2 : ∀ j, d ≤ j → (execInsts env o (some p) body r1.1 r1.2).1 j = r1.1 j :=
    fun j hj => execInsts_frame env o (some p) body r1.1 r1.2 j
      (fun x hx => by have := hbody x hx; omega)
  have t2 : ∀ e ∈ r1.2, e ∈ (execInsts env o (some p) body r1.1 r1.2).2 :=
    execInsts_trace env o (some p) body r1.1 r1.2
  generalize execInsts env o (some p) body r1.1 r1.2 = r2 at f2 t2 ⊢
  have f3 : ∀ j, j < d + 6 → (execInsts env o (some p) new r2.1 r2.2).1 j = r2.1 j :=
    fun j hj => execInsts_frame env o (some p) new r2.1 r2.2 j
      (fun x hx => by have := hnew x hx; omega)
  refine ⟨r2.1, r2.2, rfl, ?_, ?_, ?_, ?_, ?_, ?_, ?_, ?_, ?_⟩
  · rw [f2 _ (by omega), h0]
  · rw [f2 _ (by omega), h1]
  · rw [f2 _ (by omega), h2]
  · rw [f2 _ (by omega), h4]
  · rw [f3 _ (by omega), f2 _ (by omega), h0]
  · rw [f3 _ (by omega), f2 _ (by omega), h1]
  · rw [f3 _ (by omega), f2 _ (by omega), h2]
  · rw [f3 _ (by omega), f2 _ (by omega), h4]
  · apply execInsts_trace
    apply t2
    rw [htr]
    simp

theorem nextBlock_mem {t : Instruction} {env : Env} {o : Oracle} {nb : Nat}
    (h : nextBlock t env o = some nb) : nb ∈ t.succs := by
  unfold nextBlock at h
  simp only [Instruction.getSuccessor] at h
  split at h
  · split at h
    · split at h
      · split at h
        · exact List.get?_mem h
        · exact List.get?_mem h
      · cases h
    · cases h
  · split at h
    · exact List.get?_mem h
    · exact List.get?_mem h

theorem signTerminator_ids {idMap : List Nat} {k : Nat} {t : Instruction} {brDest : Value}
    {st : PassState} {r : Option (Value × Value) × List Instruction × PassState}
    (hsign : signTerminator idMap k t brDest st = some r) :
    ∀ x ∈ r.2.1, st.nextId ≤ x.id := by
  intro x hx
  obtain ⟨_, _, hids, _⟩ := signTerminator_spec hsign
  have : x.id ∈ r.2.1.map (fun x => x.id) := List.mem_map_of_mem _ hx
  rw [hids, List.mem_range'_1] at this
  omega

/-- A visit entered from a block whose recorded pair is the two constants
`id(P) XOR id(S0)` and `id(P)`: the check sees `id(S0)`, so it fails in every
block whose ID is not `id(S0)`. -/
theorem run_from_constants {f : Function} {s : PassState} {res : CFResult} {P S0 : Nat}
    (hready : CFReady f s)
    (hlen : res.f.blocks.length = f.blocks.length)
    (hall : ∀ k b, f.blocks.get? k = some b →
        ∃ sk phis body t r out,
          s.nextId ≤ sk.nextId ∧ r.2.2.nextId ≤ res.state.nextId ∧
          CFDone res.idMap res.diffMap res.destMap (predecessors f.blocks k) k b.insts sk
            phis body t r out ∧
          res.f.blocks.get? k = some { insts := out } ∧
          res.diffMap.get? k = some (r.1.map Prod.fst) ∧
          res.destMap.get? k = some (r.1.map Prod.snd) ∧
          res.diffPhiMap.get? k = some (if k = 0 then none else some sk.nextId) ∧
          res.destPhiMap.get? k = some (if k = 0 then none else some (sk.nextId + 1)))
    (hdm : res.diffMap.get? P =
      some (some (getInt32 (idOf res.idMap P ^^^ idOf res.idMap S0))))
    (hxm : res.destMap.get? P = some (some (getInt32 (idOf res.idMap P)))) :
    ∀ (os : List Oracle) (cur : Nat) (pred : Option Nat) (env : Env),
      (∀ p, pred = some p → p ∈ predecessors f.blocks cur) →
      ∀ v ∈ run res.f.blocks os cur pred env, v.pred = some P →
        idOf res.idMap v.block ≠ idOf res.idMap S0 →
        CheckFailed res v ∧
        ∃ d, res.diffPhiMap.get? v.block = some (some d) ∧
          v.env d ^^^ v.env (d + 1) = idOf res.idMap S0 := by
  intro os
  induction os with
  | nil => intro cur pred env _ v hv; simp [run] at hv
  | cons o os ih =>
    intro cur pred env hpred v hv
    cases hb' : res.f.blocks.get? cur with
    | none =>
      simp only [run, hb'] at hv
      exact absurd hv (List.not_mem_nil _)
    | some b' =>
      have hcur : cur < f.blocks.length := by
        rw [← hlen]
        by_contra hc
        rw [List.get?_eq_none.mpr (by omega)] at hb'
        cases hb'
      obtain ⟨b, hb⟩ : ∃ b, f.blocks.get? cur = some b :=
        ⟨f.blocks.get ⟨cur, hcur⟩, List.get?_eq_get hcur⟩
      have hbmem : b ∈ f.blocks := List.get?_mem hb
      obtain ⟨sk, phis, body, t, r, out, hsk, _, hdone, hout, _, _, hdp, hxp⟩ :=
        hall cur b hb
      rw [hb'] at hout
      simp only [Option.some.injEq] at hout
      subst hout
      have hterm := hdone.terminator
      have hterm' : getTerminator out = some t := by
        rw [getTerminator_congr hdone.cf_sublist.2]
        exact hterm
      have htmem : t ∈ b.insts :=
        List.mem_of_getLast?_eq_some (getTerminator_eq_some.mp hterm).1
      have htid : t.id < sk.nextId :=
        Nat.lt_of_lt_of_le (hready.allocated b hbmem t htmem) hsk
      simp only [run, hb', hterm', List.mem_cons] at hv
      rcases hv with hv | hv
      · subst hv
        intro hP hne
        simp only [] at hP hne ⊢
        have hPmem := hpred P hP
        have hk : cur ≠ 0 := by
          intro h0
          rw [h0, hready.entry] at hPmem
          cases hPmem
        have hsign := hdone.hsign
        rw [if_neg hk, if_neg hk] at hsign
        have hD : incomingDiff res.idMap res.diffMap cur P =
            getInt32 (idOf res.idMap P ^^^ idOf res.idMap S0) := by
          simp only [incomingDiff, getD_of_get? hdm]
        have hX : incomingDest res.idMap res.destMap cur P = getInt32 (idOf res.idMap P) := by
          simp only [incomingDest, getD_of_get? hxm]
        obtain ⟨env1, tr1, hexec, _, _, _, _, e0, e1, _, e4, hev⟩ :=
          guarded_exec env o P (idOf res.idMap cur) sk.nextId (predecessors f.blocks cur)
            (incomingDiff res.idMap res.diffMap cur) (incomingDest res.idMap res.destMap cur)
            phis body r.2.1
            (fun x hx => Nat.lt_of_lt_of_le
              (hready.allocated b hbmem x (by rw [hdone.hsplit]; simp [hx])) hsk)
            (signTerminator_ids hsign) hPmem
            (idOf res.idMap P ^^^ idOf res.idMap S0) (idOf res.idMap P)
            (by rw [hD]; rfl) (by rw [hX]; rfl)
        have hx : (idOf res.idMap P ^^^ idOf res.idMap S0) ^^^ idOf res.idMap P =
            idOf res.idMap S0 := xor_cancel_left _ _
        rw [hx] at e4 hev
        rw [if_neg (fun h => hne h.symm)] at e4 hev
        subst hP
        rw [hdone.hother hk, List.dropLast_concat, hexec]
        refine ⟨⟨sk.nextId, by rw [hdp, if_neg hk], by rw [hxp, if_neg hk], ?_, ?_, ?_⟩,
          sk.nextId, by rw [hdp, if_neg hk], ?_⟩
        · try simp only []
          rw [if_neg (by omega), if_neg (by omega), e0, e1, hx]
          exact fun h => hne h.symm
        · try simp only []
          rw [if_neg (by omega), e4]
        · try simp only []
          rw [if_neg (by omega), e1]
          exact hev
        · try simp only []
          rw [if_neg (by omega), if_neg (by omega), e0, e1, hx]
      · cases hnb : nextBlock t (execInsts env o pred out.dropLast env []).1 o with
        | none => rw [hnb] at hv; simp at hv
        | some nb =>
          rw [hnb] at hv
          refine ih nb (some cur) _ ?_ v hv
          intro p hp
          simp only [Option.some.injEq] at hp
          subst hp
          exact mem_predecessors hb htmem hdone.hterm (nextBlock_mem hnb)

/-- C19: for a block `P` whose terminator is not a branch and has the
successors `S0 :: rest`, `verifyControlFlow` records the constants
`diff = id(P) XOR id(S0)` and `dest = id(P)`; so on every path, a block
entered from `P` whose ID is not `id(S0)` finds Diff XOR Dest equal to
`id(S0)`, and its `assert_cfg_ft` call receives 0 as its first argument. -/
theorem C19_switch_edge (f : Function) (M : Module) (F : Function) (s : PassState)
    (P S0 : Nat) (bP : BasicBlock) (t : Instruction) (rest : List Nat)
    (hready : CFReady f s) (hF : M.getFunction FuncName.assert_cfg_ft = some F)
    (hP : f.blocks.get? P = some bP) (ht : getTerminator bP.insts = some t)
    (hbr : t.opcode ≠ Opcode.br) (hs : t.succs = S0 :: rest) :
    ∃ res, verifyControlFlowMaps f M s = some res ∧
      res.diffMap.get? P =
        some (some (getInt32 (idOf res.idMap P ^^^ idOf res.idMap S0))) ∧
      res.destMap.get? P = some (some (getInt32 (idOf res.idMap P))) ∧
      ∀ (os : List Oracle) (env0 : Env),
        ∀ v ∈ run res.f.blocks os 0 none env0, v.pred = some P →
          idOf res.idMap v.block ≠ idOf res.idMap S0 →
          CheckFailed res v ∧
          ∃ d, res.diffPhiMap.get? v.block = some (some d) ∧
            v.env d ^^^ v.env (d + 1) = idOf res.idMap S0 := by
  obtain ⟨res, h1, _, _, _, hlen, _, hall⟩ := verifyControlFlowMaps_spec hready hF
  obtain ⟨sk, phis, body, t', r, out, _, _, hdone, _, hdm, hxm, _, _⟩ := hall P bP hP
  have htt : t' = t := by
    have := hdone.terminator
    rw [ht] at this
    exact (Option.some.inj this).symm
  subst htt
  have hsign := hdone.hsign
  rw [signTerminator_other res.idMap P _ _ hbr hs] at hsign
  simp only [Option.some.injEq] at hsign
  subst hsign
  refine ⟨res, h1, hdm, hxm, ?_⟩
  intro os env0
  exact run_from_constants hready hlen hall hdm hxm os 0 none env0 (fun p hp => by cases hp)

/-- The options `no-replicate` and `no-control-protection` are never read:
the pass does the same whatever their values. -/
theorem runPass_flags (opts : Options) (a b : Bool) (c : Callees)
    (order : CloneMap → CloneMap) (M : Module) (s : PassState) :
    runPass { opts with NoReplicate := a, NoControlProtection := b } c order M s =
      runPass opts c order M s := rfl

/-- C16 fails on the code: run with `no-replicate` and `no-control-protection`
both set, the pass still takes `exProgram` from 10 instructions to 47, with 4
calls of `assert_ft`, 3 calls of `assert_cfg_ft` and 7 more phi nodes (a clone
and the Diff and Dest nodes of three blocks). -/
theorem C16_flags_not_honoured :
    (exProgram.size, (exProgram.callsTo FuncName.assert_ft).length,
      (exProgram.callsTo FuncName.assert_cfg_ft).length, exProgram.phis.length) =
      (10, 0, 0, 1) ∧
    (runPass { NoSWFT := false, NoReplicate := true, NoControlProtection := true }
        exCallees id exProgram exState).map
      (fun r => (r.1.size, (r.1.callsTo FuncName.assert_ft).length,
        (r.1.callsTo FuncName.assert_cfg_ft).length, r.1.phis.length)) =
      some (47, 4, 3, 8) := ⟨rfl, rfl⟩

/-- C17 fails on the code: on `exProgram` the pass inserts 37 instructions and
the statistic goes up by 5, the number of instructions `canRep` accepted. -/
theorem C17_statistic_counts_canRep :
    exProgram.size = 10 ∧ exState.SWFTAdded = 0 ∧
    (runPass { NoSWFT := false, NoReplicate := false, NoControlProtection := false }
        exCallees id exProgram exState).map
      (fun r => (r.1.size, r.2.SWFTAdded)) = some (47, 5) := ⟨rfl, rfl, rfl⟩

/-- C15 as stated fails: `exBare` declares neither handler, and the pass
completes on it, leaving the instrumented function `exDoubleOut`. -/
theorem C15_completes_without_handlers :
    exBare.getFunction FuncName.assert_ft = none ∧
    exBare.getFunction FuncName.assert_cfg_ft = none ∧
    runPass { NoSWFT := false, NoReplicate := false, NoControlProtection := false }
        { AssertFT := none, AssertCFG := none } id exBare { nextId := 2, SWFTAdded := 0 } =
      some ({ functions := [exDoubleOut] }, { nextId := 3, SWFTAdded := 1 }) :=
  ⟨rfl, rfl, rfl⟩

/-! ## A handler that is missing -/

theorem processPair_missing {M : Module} (hF : M.getFunction FuncName.assert_ft = none)
    (uid : Nat) (cm : CloneMap) (i : Instruction) (c : Nat) (blk : List Instruction)
    (s : PassState) (hty : i.ty.isCompared = true) :
    processPair M uid cm i c blk s = none := by
  unfold processPair
  simp only [hF]
  split
  · rfl
  · cases h : i.ty <;>
      simp_all [Ty.isCompared, Ty.isIntegerTy, Ty.isPointerTy, Ty.isFloatTy]

theorem processPairs_missing {M : Module} (hF : M.getFunction FuncName.assert_ft = none)
    (uid : Nat) (cm : CloneMap) :
    ∀ (ps : List (Instruction × Nat)) (blk : List Instruction) (s : PassState),
      (∃ e ∈ ps, e.1.ty.isCompared = true) → processPairs M uid cm ps blk s = none := by
  intro ps
  induction ps with
  | nil => intro blk s h; obtain ⟨e, he, _⟩ := h; cases he
  | cons p ps ih =>
    intro blk s h
    simp only [processPairs]
    cases hp : processPair M uid cm p.1 p.2 blk s with
    | none => rfl
    | some r =>
      simp only []
      obtain ⟨e, he, hty⟩ := h
      rcases List.mem_cons.mp he with rfl | he
      · rw [processPair_missing hF uid cm e.1 e.2 blk s hty] at hp
        cases hp
      · exact ih r.1 r.2 ⟨e, he, hty⟩

theorem replicateBlock_missing {M : Module} (hF : M.getFunction FuncName.assert_ft = none)
    (order : CloneMap → CloneMap) (hord : ∀ cm, (order cm).Perm cm) (bbCount : Nat)
    (b : BasicBlock) (s : PassState) (I : Instruction) (hI : I ∈ b.insts)
    (hex : ¬ Excluded I) (hty : I.ty.isCompared = true) :
    replicateBlock M order bbCount b s = none := by
  unfold replicateBlock
  simp only []
  have hmem : I ∈ (cloneInsts b.insts s).2.1.map Prod.fst := by
    rw [cloneInsts_keys]
    exact List.mem_filter.mpr ⟨hI, (canClone_iff I).mpr hex⟩
  obtain ⟨e, he, heq⟩ := List.mem_map.mp hmem
  rw [processPairs_missing hF _ _ _ _ _ ⟨e, (hord _).mem_iff.mpr he, by rw [heq]; exact hty⟩]
  rfl

theorem replicateBlocks_missing {M : Module} (hF : M.getFunction FuncName.assert_ft = none)
    (order : CloneMap → CloneMap) (hord : ∀ cm, (order cm).Perm cm) :
    ∀ (bs : List BasicBlock) (bbCount : Nat) (s : PassState),
      (∃ b ∈ bs, ∃ I ∈ b.insts, ¬ Excluded I ∧ I.ty.isCompared = true) →
      replicateBlocks M order bbCount bs s = none := by
  intro bs
  induction bs with
  | nil => intro _ _ h; obtain ⟨b, hb, _⟩ := h; cases hb
  | cons c cs ih =>
    intro bbCount s h
    simp only [replicateBlocks]
    cases hc : replicateBlock M order (bbCount + 1) c s with
    | none => rfl
    | some r =>
      simp only []
      obtain ⟨b, hb, I, hI, hex, hty⟩ := h
      rcases List.mem_cons.mp hb with rfl | hb
      · rw [replicateBlock_missing hF order hord _ _ _ I hI hex hty] at hc
        cases hc
      · rw [ih (bbCount + 1) r.2 ⟨b, hb, I, hI, hex, hty⟩]

theorem replicate_missing {M : Module} (hF : M.getFunction FuncName.assert_ft = none)
    (order : CloneMap → CloneMap) (hord : ∀ cm, (order cm).Perm cm) (f : Function)
    (s : PassState)
    (h : ∃ b ∈ f.blocks, ∃ I ∈ b.insts, ¬ Excluded I ∧ I.ty.isCompared = true) :
    replicate f M order s = none := by
  unfold replicate replicateMaps
  rw [replicateBlocks_missing hF order hord f.blocks 1 s h]
  rfl

theorem instrumentBlock_missing {M : Module}
    (hG : M.getFunction FuncName.assert_cfg_ft = none) (idMap : List Nat) (k : Nat)
    (b : BasicBlock) (s : PassState) :
    instrumentBlock M idMap false k b s = none := by
  unfold instrumentBlock
  split
  · rfl
  · simp [hG]

theorem instrumentBlocks_missing {M : Module}
    (hG : M.getFunction FuncName.assert_cfg_ft = none) (idMap : List Nat) (k : Nat)
    (b c : BasicBlock) (bs : List BasicBlock) (isEntryBlock : Bool) (s : PassState) :
    instrumentBlocks M idMap isEntryBlock k (b :: c :: bs) s = none := by
  simp only [instrumentBlocks]
  cases instrumentBlock M idMap isEntryBlock k b s with
  | none => rfl
  | some r =>
    simp only []
    rw [instrumentBlock_missing hG]

theorem verifyControlFlow_missing {M : Module}
    (hG : M.getFunction FuncName.assert_cfg_ft = none) (f : Function) (s : PassState)
    (h : 2 ≤ f.blocks.length) : verifyControlFlow f M s = none := by
  unfold verifyControlFlow verifyControlFlowMaps
  match hb : f.blocks with
  | [] => rw [hb] at h; simp at h
  | [_] => rw [hb] at h; simp at h
  | b :: c :: bs =>
    simp only []
    rw [instrumentBlocks_missing hG]
    rfl

/-! ## Names and sizes are kept -/

theorem replicateBlocks_length {M : Module} {order : CloneMap → CloneMap} :
    ∀ (bs : List BasicBlock) (bbCount : Nat) (s : PassState)
      (r : List BlockRep × PassState),
      replicateBlocks M order bbCount bs s = some r → r.1.length = bs.length := by
  intro bs
  induction bs with
  | nil =>
    intro _ _ r h
    simp only [replicateBlocks, Option.some.injEq] at h
    subst h
    rfl
  | cons c cs ih =>
    intro bbCount s r h
    simp only [replicateBlocks] at h
    split at h
    · cases h
    · split at h
      · cases h
      · rename_i rs hrs
        simp only [Option.some.injEq] at h
        subst h
        simp [ih _ _ rs hrs]

theorem replicate_name {f : Function} {M : Module} {order : CloneMap → CloneMap}
    {s : PassState} {r : Function × PassState} (h : replicate f M order s = some r) :
    r.1.name = f.name ∧ r.1.blocks.length = f.blocks.length := by
  unfold replicate replicateMaps at h
  cases hb : replicateBlocks M order 1 f.blocks s with
  | none => rw [hb] at h; cases h
  | some rs =>
    rw [hb] at h
    simp only [Option.map_some', Option.some.injEq] at h
    subst h
    exact ⟨rfl, by simp [replicateBlocks_length _ _ _ _ hb]⟩

theorem verifyControlFlow_name {f : Function} {M : Module} {s : PassState}
    {r : Function × PassState} (h : verifyControlFlow f M s = some r) :
    r.1.name = f.name := by
  unfold verifyControlFlow at h
  cases hm : verifyControlFlowMaps f M s with
  | none => rw [hm] at h; cases h
  | some res =>
    rw [hm] at h
    simp only [Option.map_some', Option.some.injEq] at h
    subst h
    unfold verifyControlFlowMaps at hm
    simp only [] at hm
    split at hm
    · cases hm
    · split at hm
      · cases hm
      · simp only [Option.some.injEq] at hm
        rw [← hm]

theorem getFunction_isSome (M : Module) (h : FuncName) :
    (M.getFunction h).isSome = true ↔ h ∈ M.functions.map (fun g => g.name) := by
  unfold Module.getFunction
  rw [List.find?_isSome]
  simp only [List.mem_map, beq_iff_eq]

theorem set_names :
    ∀ (l : List Function) (k : Nat) (g g' : Function), l.get? k = some g →
      g'.name = g.name → (l.set k g').map (fun x => x.name) = l.map (fun x => x.name) := by
  intro l
  induction l with
  | nil => intro k g g' h; cases h
  | cons x xs ih =>
    intro k g g' h hn
    cases k with
    | zero =>
      simp only [List.get?_cons_zero, Option.some.injEq] at h
      subst h
      simp [hn]
    | succ k =>
      simp only [List.get?_cons_succ] at h
      simp only [List.set_cons_succ, List.map_cons, ih k g g' h hn]

theorem setFunction_names {M : Module} {k : Nat} {g g' : Function}
    (h : M.functions.get? k = some g) (hn : g'.name = g.name) :
    (setFunction M k g').functions.map (fun x => x.name) =
      M.functions.map (fun x => x.name) :=
  set_names M.functions k g g' h hn

theorem getFunction_setFunction {M : Module} {k : Nat} {g g' : Function}
    (h : M.functions.get? k = some g) (hn : g'.name = g.name) (n : FuncName) :
    ((setFunction M k g').getFunction n).isSome = (M.getFunction n).isSome := by
  rw [Bool.eq_iff_iff, getFunction_isSome, getFunction_isSome, setFunction_names h hn]

theorem getFunction_none_setFunction {M : Module} {k : Nat} {g g' : Function}
    (h : M.functions.get? k = some g) (hn : g'.name = g.name) {n : FuncName}
    (hnone : M.getFunction n = none) : (setFunction M k g').getFunction n = none := by
  have := getFunction_setFunction h hn n
  rw [hnone] at this
  cases hq : (setFunction M k g').getFunction n with
  | none => rfl
  | some _ => rw [hq] at this; cases this

theorem setFunction_get?_self {M : Module} {k : Nat} {g : Function} (g' : Function)
    (h : M.functions.get? k = some g) : (setFunction M k g').functions.get? k = some g' := by
  have hk : k < M.functions.length := by
    by_contra hc
    rw [List.get?_eq_none.mpr (by omega)] at h
    cases h
  simp only [setFunction, List.get?_eq_getElem?]
  rw [List.getElem?_set_self hk]

theorem setFunction_get?_ne (M : Module) {k j : Nat} (g' : Function) (h : k ≠ j) :
    (setFunction M k g').functions.get? j = M.functions.get? j := by
  simp only [setFunction, List.get?_eq_getElem?]
  rw [List.getElem?_set_ne h]

theorem mem_selectFunctions (c : Callees) :
    ∀ (gs : List Function) (p j : Nat) (g : Function), gs.get? j = some g →
      instrumentable c (p + j) g = true → p + j ∈ selectFunctions c p gs := by
  intro gs
  induction gs with
  | nil => intro p j g h; cases h
  | cons x xs ih =>
    intro p j g h hsel
    cases j with
    | zero =>
      simp only [List.get?_cons_zero, Option.some.injEq] at h
      subst h
      simp only [selectFunctions]
      rw [if_pos (by simpa using hsel)]
      simp
    | succ j =>
      simp only [List.get?_cons_succ] at h
      have := ih (p + 1) j g h (by rw [show p + 1 + j = p + (j + 1) by omega]; exact hsel)
      rw [show p + 1 + j = p + (j + 1) by omega] at this
      simp only [selectFunctions]
      split
      · exact List.mem_cons_of_mem _ this
      · exact this

theorem protectFunctions_missing (order : CloneMap → CloneMap)
    (hord : ∀ cm, (order cm).Perm cm) :
    ∀ (ks : List Nat) (M : Module) (s : PassState) (k : Nat) (g : Function),
      k ∈ ks → M.functions.get? k = some g →
      ((M.getFunction FuncName.assert_ft = none ∧
          ∃ b ∈ g.blocks, ∃ I ∈ b.insts, ¬ Excluded I ∧ I.ty.isCompared = true) ∨
        (M.getFunction FuncName.assert_cfg_ft = none ∧ 2 ≤ g.blocks.length)) →
      protectFunctions order ks M s = none := by
  intro ks
  induction ks with
  | nil => intro M s k g hk; cases hk
  | cons k0 ks ih =>
    intro M s k g hk hg hneed
    simp only [protectFunctions]
    cases hg0 : M.functions.get? k0 with
    | none => rfl
    | some g0 =>
      simp only []
      cases hr1 : replicate g0 M order s with
      | none => rfl
      | some r1 =>
        simp only []
        cases hr2 : verifyControlFlow r1.1 (setFunction M k0 r1.1) r1.2 with
        | none => rfl
        | some r2 =>
          simp only []
          obtain ⟨hn1, hl1⟩ := replicate_name hr1
          have hn2 := verifyControlFlow_name hr2
          have hg1 : (setFunction M k0 r1.1).functions.get? k0 = some r1.1 :=
            setFunction_get?_self r1.1 hg0
          by_cases hkk : k = k0
          · subst hkk
            rw [hg0] at hg
            simp only [Option.some.injEq] at hg
            subst hg
            exfalso
            rcases hneed with ⟨hF, hI⟩ | ⟨hG, hlen⟩
            · rw [replicate_missing hF order hord g0 s hI] at hr1
              cases hr1
            · rw [verifyControlFlow_missing (getFunction_none_setFunction hg0 hn1 hG) r1.1 r1.2
                (by rw [hl1]; exact hlen)] at hr2
              cases hr2
          · have hk' : k ∈ ks := by
              rcases List.mem_cons.mp hk with h | h
              · exact absurd h hkk
              · exact h
            apply ih _ _ k g hk'
            · rw [setFunction_get?_ne _ _ (Ne.symm hkk), setFunction_get?_ne _ _ (Ne.symm hkk)]
              exact hg
            · rcases hneed with ⟨hF, hI⟩ | ⟨hG, hlen⟩
              · exact Or.inl ⟨getFunction_none_setFunction hg1 hn2
                  (getFunction_none_setFunction hg0 hn1 hF), hI⟩
              · exact Or.inr ⟨getFunction_none_setFunction hg1 hn2
                  (getFunction_none_setFunction hg0 hn1 hG), hlen⟩

/-- C15 (amended): in a module where `assert_ft` is absent and a function the
pass instruments holds a replicable instruction of integer, pointer or float
type, or where `assert_cfg_ft` is absent and a function the pass instruments
has two or more blocks, the pass does not complete: it dereferences the null
handler where it first needs it. -/
theorem C15_missing_handler (c : Callees) (order : CloneMap → CloneMap) (M : Module)
    (s : PassState) (opts : Options) (k : Nat) (g : Function)
    (hord : ∀ cm, (order cm).Perm cm) (hopts : opts.NoSWFT = false)
    (hg : M.functions.get? k = some g) (hsel : instrumentable c k g = true)
    (hneed : (M.getFunction FuncName.assert_ft = none ∧
          ∃ b ∈ g.blocks, ∃ I ∈ b.insts, ¬ Excluded I ∧ I.ty.isCompared = true) ∨
        (M.getFunction FuncName.assert_cfg_ft = none ∧ 2 ≤ g.blocks.length)) :
    SoftwareFaultTolerance c order M s = none ∧ runPass opts c order M s = none := by
  have h : SoftwareFaultTolerance c order M s = none := by
    unfold SoftwareFaultTolerance
    have hm := mem_selectFunctions c M.functions 0 k g hg (by rw [Nat.zero_add]; exact hsel)
    rw [Nat.zero_add] at hm
    exact protectFunctions_missing order hord _ M s k g hm hg hneed
  refine ⟨h, ?_⟩
  unfold runPass
  rw [hopts]
  exact h

/-! ## The passes read the module only for the presence of the handlers -/

theorem processPair_congr {M M' : Module}
    (h : (M.getFunction FuncName.assert_ft).isSome = (M'.getFunction FuncName.assert_ft).isSome)
    (uid : Nat) (cm : CloneMap) (i : Instruction) (c : Nat) (blk : List Instruction)
    (s : PassState) : processPair M uid cm i c blk s = processPair M' uid cm i c blk s := by
  unfold processPair
  cases h1 : M.getFunction FuncName.assert_ft <;>
    cases h2 : M'.getFunction FuncName.assert_ft <;>
    rw [h1, h2] at h <;> first | rfl | cases h

theorem processPairs_congr {M M' : Module}
    (h : (M.getFunction FuncName.assert_ft).isSome = (M'.getFunction FuncName.assert_ft).isSome)
    (uid : Nat) (cm : CloneMap) :
    ∀ (ps : List (Instruction × Nat)) (blk : List Instruction) (s : PassState),
      processPairs M uid cm ps blk s = processPairs M' uid cm ps blk s := by
  intro ps
  induction ps with
  | nil => intro _ _; rfl
  | cons p ps ih =>
    intro blk s
    simp only [processPairs, processPair_congr h]
    cases processPair M' uid cm p.1 p.2 blk s with
    | none => rfl
    | some r => exact ih r.1 r.2

theorem replicateBlocks_congr {M M' : Module}
    (h : (M.getFunction FuncName.assert_ft).isSome = (M'.getFunction FuncName.assert_ft).isSome)
    (order : CloneMap → CloneMap) :
    ∀ (bs : List BasicBlock) (bbCount : Nat) (s : PassState),
      replicateBlocks M order bbCount bs s = replicateBlocks M' order bbCount bs s := by
  intro bs
  induction bs with
  | nil => intro _ _; rfl
  | cons b bs ih =>
    intro bbCount s
    have hb : replicateBlock M order (bbCount + 1) b s =
        replicateBlock M' order (bbCount + 1) b s := by
      unfold replicateBlock
      simp only [processPairs_congr h]
    simp only [replicateBlocks, hb]
    cases replicateBlock M' order (bbCount + 1) b s with
    | none => rfl
    | some r => simp only [ih]

theorem replicate_congr {M M' : Module}
    (h : (M.getFunction FuncName.assert_ft).isSome = (M'.getFunction FuncName.assert_ft).isSome)
    (f : Function) (order : CloneMap → CloneMap) (s : PassState) :
    replicate f M order s = replicate f M' order s := by
  unfold replicate replicateMaps
  rw [replicateBlocks_congr h]

theorem instrumentBlock_congr {M M' : Module}
    (h : (M.getFunction FuncName.assert_cfg_ft).isSome =
      (M'.getFunction FuncName.assert_cfg_ft).isSome)
    (idMap : List Nat) (e : Bool) (k : Nat) (b : BasicBlock) (s : PassState) :
    instrumentBlock M idMap e k b s = instrumentBlock M' idMap e k b s := by
  unfold instrumentBlock
  cases h1 : M.getFunction FuncName.assert_cfg_ft <;>
    cases h2 : M'.getFunction FuncName.assert_cfg_ft <;>
    rw [h1, h2] at h <;> first | rfl | cases h

theorem instrumentBlocks_congr {M M' : Module}
    (h : (M.getFunction FuncName.assert_cfg_ft).isSome =
      (M'.getFunction FuncName.assert_cfg_ft).isSome)
    (idMap : List Nat) :
    ∀ (bs : List BasicBlock) (e : Bool) (k : Nat) (s : PassState),
      instrumentBlocks M idMap e k bs s = instrumentBlocks M' idMap e k bs s := by
  intro bs
  induction bs with
  | nil => intro _ _ _; rfl
  | cons b bs ih =>
    intro e k s
    simp only [instrumentBlocks, instrumentBlock_congr h]
    cases instrumentBlock M' idMap e k b s with
    | none => rfl
    | some r => simp only [ih]

theorem verifyControlFlow_congr {M M' : Module}
    (h : (M.getFunction FuncName.assert_cfg_ft).isSome =
      (M'.getFunction FuncName.assert_cfg_ft).isSome)
    (f : Function) (s : PassState) :
    verifyControlFlow f M s = verifyControlFlow f M' s := by
  unfold verifyControlFlow verifyControlFlowMaps
  simp only [instrumentBlocks_congr h]

theorem getFunction_congr {M M' : Module}
    (h : M.functions.map (fun g => g.name) = M'.functions.map (fun g => g.name))
    (n : FuncName) : (M.getFunction n).isSome = (M'.getFunction n).isSome := by
  rw [Bool.eq_iff_iff, getFunction_isSome, getFunction_isSome, h]

theorem WellFormed.wf_mono {f : Function} {s t : PassState} (hwf : WellFormed f s)
    (h : s.nextId ≤ t.nextId) : WellFormed f t :=
  { terminated := hwf.terminated
    distinct := hwf.distinct
    allocated := fun i hi => lt_of_lt_of_le (hwf.allocated i hi) h
    operandsAllocated := fun i hi op hop => Value.allocated_mono (hwf.operandsAllocated i hi op hop) h
    phis := hwf.phis
    branches := hwf.branches }

/-- On a well-formed function whose entry block has no predecessor, and with
both handlers declared, `replicate` and then `verifyControlFlow` return. -/
theorem instrument_one {g : Function} {M : Module} {F G : Function}
    (hF : M.getFunction FuncName.assert_ft = some F)
    (hG : M.getFunction FuncName.assert_cfg_ft = some G)
    (order : CloneMap → CloneMap) (hord : ∀ cm, (order cm).Perm cm) {s : PassState}
    (hwf : WellFormed g s) (hE : predecessors g.blocks 0 = []) :
    ∃ r1 r2, replicate g M order s = some r1 ∧ verifyControlFlow r1.1 M r1.2 = some r2 ∧
      s.nextId ≤ r2.2.nextId := by
  obtain ⟨reps, s1, _, h2, _, hcf, _⟩ := replicate_cfReady hF order hord hwf hE
  obtain ⟨reps', s1', _, h2', hle, _⟩ := replicateMaps_spec hF order hord hwf
  rw [h2] at h2'
  simp only [Option.some.injEq, Prod.mk.injEq] at h2'
  obtain ⟨res, _, h4, _, _, _, hle2, _⟩ := verifyControlFlowMaps_spec hcf hG
  refine ⟨_, _, h2, h4, ?_⟩
  rw [← h2'.2] at hle
  exact le_trans hle hle2

theorem set_at_length {α : Type} (pre : List α) (x y : α) (xs : List α) :
    (pre ++ x :: xs).set pre.length y = pre ++ y :: xs := by
  induction pre with
  | nil => rfl
  | cons a as ih => simp only [List.cons_append, List.length_cons, List.set_cons_succ, ih]

theorem get?_at_length {α : Type} (pre : List α) (x : α) (xs : List α) :
    (pre ++ x :: xs).get? pre.length = some x := by
  induction pre with
  | nil => rfl
  | cons a as ih => simpa using ih

theorem get?_past_length {α : Type} (pre : List α) (xs : List α) (j : Nat) :
    (pre ++ xs).get? (pre.length + j) = xs.get? j := by
  induction pre with
  | nil => simp
  | cons a as ih =>
    rw [List.length_cons, show as.length + 1 + j = (as.length + j) + 1 by omega]
    simpa using ih

theorem instrumentable_false {c : Callees} {k : Nat} {g : Function}
    (h : ¬ instrumentable c k g = true) : instrumentable c k g = false := by
  simpa using h

/-- The second loop of `SoftwareFaultTolerance` over the functions `gs` that
follow the already processed `pre`: it returns, function by function. -/
theorem protectFunctions_spec (c : Callees) (order : CloneMap → CloneMap)
    (hord : ∀ cm, (order cm).Perm cm) (M0 : Module) (F G : Function)
    (hF : M0.getFunction FuncName.assert_ft = some F)
    (hG : M0.getFunction FuncName.assert_cfg_ft = some G) :
    ∀ (gs pre : List Function) (M : Module) (s : PassState),
      M.functions = pre ++ gs →
      M.functions.map (fun g => g.name) = M0.functions.map (fun g => g.name) →
      (∀ j g, gs.get? j = some g → instrumentable c (pre.length + j) g = true →
        WellFormed g s ∧ predecessors g.blocks 0 = []) →
      ∃ (M' : Module) (s' : PassState) (st : Nat → PassState),
        protectFunctions order (selectFunctions c pre.length gs) M s = some (M', s') ∧
        M'.functions.length = M.functions.length ∧
        (∀ i, i < pre.length → M'.functions.get? i = M.functions.get? i) ∧
        st 0 = s ∧ st gs.length = s' ∧
        ∀ j g, gs.get? j = some g →
          (instrumentable c (pre.length + j) g = true →
            ∃ r1 r2, replicate g M0 order (st j) = some r1 ∧
              verifyControlFlow r1.1 M0 r1.2 = some r2 ∧ r2.2 = st (j + 1) ∧
              M'.functions.get? (pre.length + j) = some r2.1) ∧
          (instrumentable c (pre.length + j) g = false →
            st (j + 1) = st j ∧ M'.functions.get? (pre.length + j) = some g) := by
  intro gs
  induction gs with
  | nil =>
    intro pre M s _ _ _
    exact ⟨M, s, fun _ => s, rfl, rfl, fun _ _ => rfl, rfl, rfl, fun j g h => by cases h⟩
  | cons g0 gs ih =>
    intro pre M s hM hnames hwf
    have hk : M.functions.get? pre.length = some g0 := by rw [hM]; exact get?_at_length _ _ _
    by_cases hsel : instrumentable c pre.length g0 = true
    · obtain ⟨hwf0, hE0⟩ := hwf 0 g0 rfl (by rw [Nat.add_zero]; exact hsel)
      -- the handlers are declared in the module as it stands
      obtain ⟨F', hF'⟩ := Option.isSome_iff_exists.mp
        (by rw [getFunction_congr hnames, hF]; rfl :
          (M.getFunction FuncName.assert_ft).isSome = true)
      obtain ⟨G', hG'⟩ := Option.isSome_iff_exists.mp
        (by rw [getFunction_congr hnames, hG]; rfl :
          (M.getFunction FuncName.assert_cfg_ft).isSome = true)
      obtain ⟨r1, r2, hr1, hr2, hle⟩ := instrument_one hF' hG' order hord hwf0 hE0
      obtain ⟨hn1, _⟩ := replicate_name hr1
      have hn2 := verifyControlFlow_name hr2
      have hg1 : (setFunction M pre.length r1.1).functions.get? pre.length = some r1.1 :=
        setFunction_get?_self r1.1 hk
      have hnames1 : (setFunction M pre.length r1.1).functions.map (fun g => g.name) =
          M.functions.map (fun g => g.name) := setFunction_names hk hn1
      have hr2' : verifyControlFlow r1.1 (setFunction M pre.length r1.1) r1.2 = some r2 := by
        rw [verifyControlFlow_congr (getFunction_congr hnames1 _)]
        exact hr2
      have hM2 : (setFunction (setFunction M pre.length r1.1) pre.length r2.1).functions =
          (pre ++ [r2.1]) ++ gs := by
        simp only [setFunction, hM, set_at_length, List.append_assoc, List.singleton_append]
      have hnames2 : (setFunction (setFunction M pre.length r1.1) pre.length r2.1).functions.map
          (fun g => g.name) = M0.functions.map (fun g => g.name) := by
        rw [setFunction_names hg1 hn2, hnames1, hnames]
      obtain ⟨M', s', st, hrun, hlen, hpre, hst0, hstn, hall⟩ :=
        ih (pre ++ [r2.1]) _ r2.2 hM2 hnames2 (by
          intro j g hg hs
          rw [List.length_append, List.length_singleton,
            show pre.length + 1 + j = pre.length + (j + 1) by omega] at hs
          obtain ⟨a, b⟩ := hwf (j + 1) g (by simpa using hg) hs
          exact ⟨a.wf_mono hle, b⟩)
      rw [List.length_append, List.length_singleton] at hrun hpre hall
      refine ⟨M', s', fun j => if j = 0 then s else st (j - 1), ?_, ?_, ?_, rfl, ?_, ?_⟩
      · simp only [selectFunctions, if_pos hsel, protectFunctions, hk, hr1, hr2']
        exact hrun
      · rw [hlen]; simp [setFunction]
      · intro i hi
        rw [hpre i (by omega), setFunction_get?_ne _ _ (by omega),
          setFunction_get?_ne _ _ (by omega)]
      · simp only [List.length_cons, Nat.add_sub_cancel]
        rw [if_neg (by omega)]
        exact hstn
      · intro j g hg
        cases j with
        | zero =>
          simp only [List.get?_cons_zero, Option.some.injEq] at hg
          subst hg
          refine ⟨fun _ => ⟨r1, r2, ?_, ?_, ?_, ?_⟩, fun h => ?_⟩
          · simp only [if_true]
            rw [← replicate_congr (getFunction_congr hnames _)]
            exact hr1
          · rw [← verifyControlFlow_congr (getFunction_congr hnames _)]
            exact hr2
          · simp only [Nat.zero_add, Nat.add_sub_cancel]
            rw [if_neg (by omega)]
            exact hst0.symm
          · rw [Nat.add_zero, hpre pre.length (by omega)]
            exact setFunction_get?_self r2.1 hg1
          · rw [Nat.add_zero, hsel] at h
            cases h
        | succ j =>
          simp only [List.get?_cons_succ] at hg
          obtain ⟨a, b⟩ := hall j g hg
          rw [show pre.length + 1 + j = pre.length + (j + 1) by omega] at a b
          refine ⟨fun h => ?_, fun h => ?_⟩
          · obtain ⟨q1, q2, e1, e2, e3, e4⟩ := a h
            refine ⟨q1, q2, ?_, e2, ?_, e4⟩
            · simp only [Nat.add_sub_cancel]
              rw [if_neg (by omega)]
              exact e1
            · simp only [Nat.add_sub_cancel]
              rw [if_neg (by omega)]
              exact e3
          · obtain ⟨e1, e2⟩ := b h
            refine ⟨?_, e2⟩
            simp only [Nat.add_sub_cancel]
            rw [if_neg (by omega), if_neg (by omega)]
            exact e1
    · have hsel' := instrumentable_false hsel
      have hM2 : M.functions = (pre ++ [g0]) ++ gs := by
        rw [hM]; simp
      obtain ⟨M', s', st, hrun, hlen, hpre, hst0, hstn, hall⟩ :=
        ih (pre ++ [g0]) M s hM2 hnames (by
          intro j g hg hs
          rw [List.length_append, List.length_singleton,
            show pre.length + 1 + j = pre.length + (j + 1) by omega] at hs
          exact hwf (j + 1) g (by simpa using hg) hs)
      rw [List.length_append, List.length_singleton] at hrun hpre hall
      refine ⟨M', s', fun j => if j = 0 then s else st (j - 1), ?_, hlen, ?_, rfl, ?_, ?_⟩
      · simp only [selectFunctions, hsel']
        exact hrun
      · intro i hi
        exact hpre i (by omega)
      · simp only [List.length_cons, Nat.add_sub_cancel]
        rw [if_neg (by omega)]
        exact hstn
      · intro j g hg
        cases j with
        | zero =>
          simp only [List.get?_cons_zero, Option.some.injEq] at hg
          subst hg
          refine ⟨fun h => ?_, fun _ => ⟨?_, ?_⟩⟩
          · rw [Nat.add_zero, hsel'] at h
            cases h
          · simp only [Nat.zero_add, Nat.add_sub_cancel, if_true]
            rw [if_neg (by omega)]
            exact hst0
          · rw [Nat.add_zero, hpre pre.length (by omega)]
            exact hk
        | succ j =>
          simp only [List.get?_cons_succ] at hg
          obtain ⟨a, b⟩ := hall j g hg
          rw [show pre.length + 1 + j = pre.length + (j + 1) by omega] at a b
          refine ⟨fun h => ?_, fun h => ?_⟩
          · obtain ⟨q1, q2, e1, e2, e3, e4⟩ := a h
            refine ⟨q1, q2, ?_, e2, ?_, e4⟩
            · simp only [Nat.add_sub_cancel]
              rw [if_neg (by omega)]
              exact e1
            · simp only [Nat.add_sub_cancel]
              rw [if_neg (by omega)]
              exact e3
          · obtain ⟨e1, e2⟩ := b h
            refine ⟨?_, e2⟩
            simp only [Nat.add_sub_cancel]
            rw [if_neg (by omega), if_neg (by omega)]
            exact e1

/-- C13: `SoftwareFaultTolerance` rewrites exactly the functions that have a
body and are neither of the two callees.  Walking the function list with the
states `st 0 = s`, `st 1`, ..., each such function `g` at position `k` is
replaced by what `replicate` and then `verifyControlFlow` make of it, started
in the state `st k` the functions before it left and ending in `st (k + 1)`;
every other function (a callee, a declaration) is kept as it is and leaves
the state as it is. -/
theorem C13_pass_scope (c : Callees) (order : CloneMap → CloneMap) (M : Module)
    (F G : Function) (s : PassState)
    (hord : ∀ cm, (order cm).Perm cm)
    (hF : M.getFunction FuncName.assert_ft = some F)
    (hG : M.getFunction FuncName.assert_cfg_ft = some G)
    (hwf : ∀ k g, M.functions.get? k = some g → instrumentable c k g = true →
      WellFormed g s ∧ predecessors g.blocks 0 = []) :
    ∃ (M' : Module) (s' : PassState) (st : Nat → PassState),
      SoftwareFaultTolerance c order M s = some (M', s') ∧
      M'.functions.length = M.functions.length ∧
      st 0 = s ∧ st M.functions.length = s' ∧
      ∀ k g, M.functions.get? k = some g →
        (instrumentable c k g = true ↔
          g.blocks ≠ [] ∧ some k ≠ c.AssertFT ∧ some k ≠ c.AssertCFG) ∧
        (instrumentable c k g = true →
          ∃ r1 r2, replicate g M order (st k) = some r1 ∧
            verifyControlFlow r1.1 M r1.2 = some r2 ∧ r2.2 = st (k + 1) ∧
            M'.functions.get? k = some r2.1) ∧
        (instrumentable c k g = false →
          st (k + 1) = st k ∧ M'.functions.get? k = some g) := by
  obtain ⟨M', s', st, hrun, hlen, _, hst0, hstn, hall⟩ :=
    protectFunctions_spec c order hord M F G hF hG M.functions [] M s rfl rfl
      (fun j g hg hs => hwf j g hg (by simpa using hs))
  refine ⟨M', s', st, hrun, hlen, hst0, hstn, ?_⟩
  intro k g hg
  obtain ⟨a, b⟩ := hall k g hg
  simp only [List.length_nil, Nat.zero_add] at a b
  refine ⟨?_, a, b⟩
  unfold instrumentable
  simp only [Bool.and_eq_true, decide_eq_true_eq, gt_iff_lt, List.length_pos, and_assoc]

/-! ## Instrumenting what has been instrumented -/

theorem WellFormed.repReady {f : Function} {s : PassState} (hwf : WellFormed f s)
    (hE : predecessors f.blocks 0 = []) : RepReady f s :=
  { blocks := fun _ hb => hwf.blockOK hb
    branches := (hwf.cfReady hE).branches
    entry := hE }

theorem RepReady.rep_cfReady {f : Function} {s : PassState} (h : RepReady f s) : CFReady f s :=
  { terminated := fun b hb => by
      obtain ⟨t, ht, hterm⟩ := (h.blocks b hb).term
      rw [getTerminator_eq_some.mpr ⟨ht, hterm⟩]
      rfl
    allocated := fun b hb => (h.blocks b hb).alloc
    branches := h.branches
    entry := h.entry }

theorem get?_of_mem_map_block {reps : List BlockRep} {bs : List BasicBlock}
    (hlen : reps.length = bs.length) {b1 : BasicBlock}
    (hb1 : b1 ∈ reps.map (fun g => g.block)) :
    ∃ k b rep, bs.get? k = some b ∧ reps.get? k = some rep ∧ b1 = rep.block := by
  obtain ⟨rep, hrep, rfl⟩ := List.mem_map.mp hb1
  obtain ⟨k, hk⟩ := List.get?_of_mem hrep
  have hklt : k < bs.length := by
    rw [← hlen]
    rw [List.get?_eq_getElem?] at hk
    exact (List.getElem?_eq_some_iff.mp hk).1
  exact ⟨k, _, rep, List.get?_eq_get hklt, hk, rfl⟩

/-- On a function that is ready for it, `replicate` returns a function that is
ready again, and reports every block as `BlockDone` says. -/
theorem replicate_ready {f : Function} {M : Module} {F : Function}
    (hF : M.getFunction FuncName.assert_ft = some F)
    (order : CloneMap → CloneMap) (hord : ∀ cm, (order cm).Perm cm)
    {s : PassState} (hready : RepReady f s) :
    ∃ (reps : List BlockRep) (s' : PassState), replicate f M order s =
        some ({ f with blocks := reps.map (fun g => g.block) }, s') ∧
      s.nextId ≤ s'.nextId ∧ reps.length = f.blocks.length ∧
      RepReady { f with blocks := reps.map (fun g => g.block) } s' ∧
      ∀ k b rep, f.blocks.get? k = some b → reps.get? k = some rep →
        ∃ sk sk', s.nextId ≤ sk.nextId ∧ sk'.nextId ≤ s'.nextId ∧
          BlockDone M order (k + 2) b.insts sk rep sk' := by
  obtain ⟨reps, s', hrun, hle, hlen, hall⟩ := replicateBlocks_spec hF order hord f.blocks 1 s
    hready.blocks
  have hall' : ∀ k b rep, f.blocks.get? k = some b → reps.get? k = some rep →
      ∃ sk sk', s.nextId ≤ sk.nextId ∧ sk'.nextId ≤ s'.nextId ∧
        BlockDone M order (k + 2) b.insts sk rep sk' := by
    intro k b rep hb hrep
    obtain ⟨sk, sk', h1, h2, h3⟩ := hall k b rep hb hrep
    refine ⟨sk, sk', h1, h2, ?_⟩
    have : k + 2 = 1 + k + 1 := by omega
    rw [this]; exact h3
  refine ⟨reps, s', ?_, hle, hlen, ?_, hall'⟩
  · unfold replicate
    rw [show replicateMaps f M order s = some (reps, s') from hrun]
    rfl
  · refine { blocks := ?_, branches := ?_, entry := ?_ }
    · intro b1 hb1
      obtain ⟨k, b, rep, hb, hrep, rfl⟩ := get?_of_mem_map_block hlen hb1
      obtain ⟨sk, sk', _, hle', hd⟩ := hall' k b rep hb hrep
      obtain ⟨done, num, _, inv⟩ := hd.inv
      refine { term := ?_, nodup := inv.nodup, alloc := ?_, phis := ?_ }
      · rw [inv.last]
        exact (hready.blocks b (List.get?_mem hb)).term
      · intro x hx
        exact lt_of_lt_of_le (inv.alloc x hx) hle'
      · exact (phisLead_iff _).mpr inv.phis
    · intro b1 hb1 t ht
      obtain ⟨k, b, rep, hb, hrep, rfl⟩ := get?_of_mem_map_block hlen hb1
      obtain ⟨_, _, _, _, hd⟩ := hall' k b rep hb hrep
      rw [getTerminator_congr hd.rep_sublist.2] at ht
      exact hready.branches b (List.get?_mem hb) t ht
    · show predecessors (reps.map (fun g => g.block)) 0 = []
      rw [← hready.entry]
      unfold predecessors
      apply predecessorsFrom_congr 0 f.blocks _ 0 (by simp [hlen])
      intro j b c hb hc
      rw [List.get?_eq_getElem?, List.getElem?_map] at hc
      cases hg : reps[j]? with
      | none => rw [hg] at hc; cases hc
      | some rep =>
        rw [hg] at hc
        simp only [Option.map_some', Option.some.injEq] at hc
        obtain ⟨_, _, _, _, hd⟩ := hall' j b rep hb (by rw [List.get?_eq_getElem?]; exact hg)
        rw [← hc]
        exact hd.rep_terminators

theorem nonphi_of_phisLead :
    ∀ (phis rest : List Instruction), phisLead (phis ++ rest) →
      (∀ x ∈ phis, x.isPHI = true) → (∀ y, rest.head? = some y → y.isPHI = false) →
      ∀ x ∈ rest, x.isPHI = false := by
  intro phis
  induction phis with
  | nil =>
    intro rest h _ hhead x hx
    cases rest with
    | nil => cases hx
    | cons y ys =>
      have hy := hhead y rfl
      apply h
      simp only [List.nil_append, List.dropWhile_cons, hy]
      exact hx
  | cons p ps ih =>
    intro rest h hp hhead
    apply ih rest _ (fun x hx => hp x (List.mem_cons_of_mem _ hx)) hhead
    intro x hx
    apply h
    simp only [List.cons_append, List.dropWhile_cons, hp p (List.mem_cons_self _ _)]
    exact hx

theorem cfgCheck_isPHI {own n : Nat} {x : Instruction} (h : x ∈ cfgCheck own n) :
    x.isPHI = false := by
  simp only [cfgCheck, List.mem_cons, List.mem_singleton, List.not_mem_nil, or_false] at h
  rcases h with rfl | rfl | rfl | rfl <;> rfl

theorem cfgCheck_ids (own n : Nat) :
    (cfgCheck own n).map (fun x => x.id) = [n + 2, n + 3, n + 4, n + 5] := rfl

theorem signTerminator_isPHI {idMap : List Nat} {k : Nat} {t : Instruction} {brDest : Value}
    {s : PassState} {r : Option (Value × Value) × List Instruction × PassState}
    (h : signTerminator idMap k t brDest s = some r) :
    ∀ x ∈ r.2.1, x.isPHI = false := by
  intro x hx
  rcases (signTerminator_spec h).2.2.2 x hx with h1 | h1 <;> simp [Instruction.isPHI, h1]

theorem CFDone.cf_terminators {idMap : List Nat} {dm xm : List (Option Value)}
    {preds : List Nat} {k : Nat} {l : List Instruction} {s : PassState}
    {phis body : List Instruction} {t : Instruction}
    {r : Option (Value × Value) × List Instruction × PassState} {out : List Instruction}
    (h : CFDone idMap dm xm preds k l s phis body t r out) :
    out.filter (fun t => t.isTerminator) = l.filter (fun t => t.isTerminator) := by
  have hnew := signTerminator_filter h.hsign
  by_cases hk : k = 0
  · rw [h.hentry hk, h.hsplit]
    simp only [List.filter_append, hnew, List.append_nil]
  · rw [h.hother hk, h.hsplit]
    simp only [List.filter_append, hnew, List.append_nil, cfgCheck_filter]
    simp [phiNode_isTerminator]

/-- The identities of a block after `verifyControlFlow`: those it had, and
fresh ones. -/
theorem CFDone.cf_ids {idMap : List Nat} {dm xm : List (Option Value)}
    {preds : List Nat} {k : Nat} {l : List Instruction} {s : PassState}
    {phis body : List Instruction} {t : Instruction}
    {r : Option (Value × Value) × List Instruction × PassState} {out : List Instruction}
    (h : CFDone idMap dm xm preds k l s phis body t r out) :
    ∃ fresh : List Nat, (out.map (fun x => x.id)).Perm (l.map (fun x => x.id) ++ fresh) ∧
      fresh.Nodup ∧ ∀ n ∈ fresh, s.nextId ≤ n ∧ n < r.2.2.nextId := by
  obtain ⟨hn, _, hids, _⟩ := signTerminator_spec h.hsign
  by_cases hk : k = 0
  · rw [if_pos hk] at hn hids
    simp only [] at hn hids
    refine ⟨r.2.1.map (fun x => x.id), ?_, ?_, ?_⟩
    · rw [h.hentry hk, h.hsplit]
      simp only [List.map_append, List.append_assoc]
      exact (List.perm_append_comm.append_left _).append_left _
    · rw [hids]; exact List.nodup_range' _ _
    · intro n hmem
      rw [hids, List.mem_range'_1] at hmem
      omega
  · rw [if_neg hk] at hn hids
    simp only [] at hn hids
    refine ⟨[s.nextId, s.nextId + 1, s.nextId + 2, s.nextId + 3, s.nextId + 4, s.nextId + 5] ++
      r.2.1.map (fun x => x.id), ?_, ?_, ?_⟩
    · rw [h.hother hk, h.hsplit]
      simp only [List.map_append, List.append_assoc, List.map_cons, List.map_nil, phiNode_id,
        cfgCheck_ids, List.cons_append, List.nil_append]
      apply List.Perm.append_left
      have e : ∀ (A B C D : List Nat), (A ++ (B ++ (C ++ D))).Perm (B ++ (D ++ (A ++ C))) := by
        intro A B C D
        calc (A ++ (B ++ (C ++ D))).Perm (A ++ (B ++ (D ++ C))) :=
              (List.perm_append_comm.append_left _).append_left _
          _ |>.Perm ((B ++ (D ++ C)) ++ A) := List.perm_append_comm
          _ |>.Perm (B ++ (D ++ (C ++ A))) := by simp only [List.append_assoc]; rfl
          _ |>.Perm (B ++ (D ++ (A ++ C))) :=
              (List.perm_append_comm.append_left _).append_left _
      exact e [s.nextId, s.nextId + 1, s.nextId + 2, s.nextId + 3, s.nextId + 4, s.nextId + 5]
        (body.map (fun x => x.id)) (r.2.1.map (fun x => x.id)) [t.id]
    · rw [hids]
      have := List.nodup_range' s.nextId (6 + r.2.1.length)
      rw [show 6 + r.2.1.length = 6 + r.2.1.length from rfl] at this
      have e : List.range' s.nextId (6 + r.2.1.length) =
          [s.nextId, s.nextId + 1, s.nextId + 2, s.nextId + 3, s.nextId + 4, s.nextId + 5] ++
            List.range' (s.nextId + 6) r.2.1.length := by
        rw [← range'_append_range' s.nextId 6 r.2.1.length]
        rfl
      rw [← e]
      exact this
    · intro n hmem
      rcases List.mem_append.mp hmem with h1 | h1
      · simp only [List.mem_cons, List.mem_singleton, List.not_mem_nil, or_false] at h1
        omega
      · rw [hids, List.mem_range'_1] at h1
        omega

/-- On a function that is ready for `replicate`, `verifyControlFlow` returns a
function that is ready for it again; every block keeps its instructions, all
below the allocator it ends with. -/
theorem verify_ready {f : Function} {M : Module} {G : Function}
    (hG : M.getFunction FuncName.assert_cfg_ft = some G)
    {s : PassState} (hready : RepReady f s) :
    ∃ r2 : Function × PassState, verifyControlFlow f M s = some r2 ∧
      s.nextId ≤ r2.2.nextId ∧ r2.1.blocks.length = f.blocks.length ∧
      RepReady r2.1 r2.2 ∧
      ∀ k b, f.blocks.get? k = some b →
        ∃ b2, r2.1.blocks.get? k = some b2 ∧ b.insts.Sublist b2.insts := by
  obtain ⟨res, _, h2, _, _, hlen, hle, hall⟩ := verifyControlFlowMaps_spec hready.rep_cfReady hG
  have hget : ∀ b2 ∈ res.f.blocks, ∃ k b, f.blocks.get? k = some b ∧
      res.f.blocks.get? k = some b2 := by
    intro b2 hb2
    obtain ⟨k, hk⟩ := List.get?_of_mem hb2
    have hklt : k < f.blocks.length := by
      rw [← hlen]
      rw [List.get?_eq_getElem?] at hk
      exact (List.getElem?_eq_some_iff.mp hk).1
    exact ⟨k, _, List.get?_eq_get hklt, hk⟩
  refine ⟨(res.f, res.state), h2, hle, hlen, ?_, ?_⟩
  · refine { blocks := ?_, branches := ?_, entry := ?_ }
    · intro b2 hb2
      obtain ⟨k, b, hb, hk⟩ := hget b2 hb2
      obtain ⟨sk, phis, body, t, r, out, hsk, hr, hdone, hout, _⟩ := hall k b hb
      rw [hk] at hout
      simp only [Option.some.injEq] at hout
      subst hout
      have ok := hready.blocks b (List.get?_mem hb)
      obtain ⟨fresh, hperm, hfn, hfr⟩ := hdone.cf_ids
      refine { term := ?_, nodup := ?_, alloc := ?_, phis := ?_ }
      · show ∃ t, out.getLast? = some t ∧ t.isTerminator = true
        rw [hdone.cf_sublist.2]
        exact ok.term
      · show (out.map (fun x => x.id)).Nodup
        rw [hperm.nodup_iff]
        apply List.Nodup.append ok.nodup hfn
        intro n h1 h2
        obtain ⟨x, hx, rfl⟩ := List.mem_map.mp h1
        have := ok.alloc x hx
        have := (hfr _ h2).1
        omega
      · intro x hx
        have hmem : x.id ∈ out.map (fun x => x.id) := List.mem_map_of_mem _ hx
        rcases List.mem_append.mp (hperm.mem_iff.mp hmem) with h1 | h1
        · obtain ⟨y, hy, hxy⟩ := List.mem_map.mp h1
          have := ok.alloc y hy
          show x.id < res.state.nextId
          rw [← hxy]
          omega
        · have := (hfr _ h1).2
          show x.id < res.state.nextId
          omega
      · show phisLead out
        have hrest : ∀ x ∈ body ++ [t], x.isPHI = false :=
          nonphi_of_phisLead phis (body ++ [t])
            (by rw [← List.append_assoc, ← hdone.hsplit]; exact ok.phis)
            hdone.hphis hdone.hhead
        have hb : ∀ x ∈ body, x.isPHI = false := fun x hx =>
          hrest x (List.mem_append_left _ hx)
        have ht : t.isPHI = false := hrest t (by simp)
        have hnew := signTerminator_isPHI hdone.hsign
        rw [phisLead_iff]
        by_cases hk0 : k = 0
        · refine ⟨phis, body ++ r.2.1 ++ [t], ?_, hdone.hphis, ?_⟩
          · rw [hdone.hentry hk0]; simp
          · intro x hx
            simp only [List.mem_append, List.mem_singleton] at hx
            rcases hx with (h | h) | h
            · exact hb x h
            · exact hnew x h
            · rw [h]; exact ht
        · refine ⟨phis ++ [phiNode sk.nextId
              ((predecessors f.blocks k).map (incomingDiff res.idMap res.diffMap k))
              (predecessors f.blocks k),
            phiNode (sk.nextId + 1)
              ((predecessors f.blocks k).map (incomingDest res.idMap res.destMap k))
              (predecessors f.blocks k)],
            cfgCheck (idOf res.idMap k) sk.nextId ++ body ++ r.2.1 ++ [t], ?_, ?_, ?_⟩
          · rw [hdone.hother hk0]; simp
          · intro x hx
            simp only [List.mem_append, List.mem_cons, List.mem_singleton, List.not_mem_nil,
              or_false] at hx
            rcases hx with h | h | h
            · exact hdone.hphis x h
            · rw [h]; rfl
            · rw [h]; rfl
          · intro x hx
            simp only [List.mem_append, List.mem_singleton] at hx
            rcases hx with ((h | h) | h) | h
            · exact cfgCheck_isPHI h
            · exact hb x h
            · exact hnew x h
            · rw [h]; exact ht
    · intro b2 hb2 t ht
      obtain ⟨k, b, hb, hk⟩ := hget b2 hb2
      obtain ⟨sk, phis, body, t', r, out, _, _, hdone, hout, _⟩ := hall k b hb
      rw [hk] at hout
      simp only [Option.some.injEq] at hout
      subst hout
      have : getTerminator out = getTerminator b.insts :=
        getTerminator_congr hdone.cf_sublist.2
      rw [show getTerminator ({ insts := out } : BasicBlock).insts = getTerminator out from rfl,
        this] at ht
      exact hready.branches b (List.get?_mem hb) t ht
    · show predecessors res.f.blocks 0 = []
      rw [← hready.entry]
      unfold predecessors
      apply predecessorsFrom_congr 0 f.blocks _ 0 hlen.symm
      intro j b c hb hc
      obtain ⟨sk, phis, body, t', r, out, _, _, hdone, hout, _⟩ := hall j b hb
      rw [hc] at hout
      simp only [Option.some.injEq] at hout
      subst hout
      exact hdone.cf_terminators
  · intro k b hb
    obtain ⟨sk, phis, body, t', r, out, _, _, hdone, hout, _⟩ := hall k b hb
    exact ⟨_, hout, hdone.cf_sublist.1⟩

theorem flatMap_sublist :
    ∀ (bs cs : List BasicBlock), bs.length = cs.length →
      (∀ k b c, bs.get? k = some b → cs.get? k = some c → b.insts.Sublist c.insts) →
      (bs.flatMap (fun b => b.insts)).Sublist (cs.flatMap (fun b => b.insts)) := by
  intro bs
  induction bs with
  | nil =>
    intro cs hlen _
    cases cs with
    | nil => exact List.Sublist.refl _
    | cons c cs => cases hlen
  | cons b bs ih =>
    intro cs hlen h
    cases cs with
    | nil => cases hlen
    | cons c cs =>
      simp only [List.flatMap_cons]
      exact (h 0 b c rfl rfl).append
        (ih cs (by simpa using hlen) (fun k b' c' hb hc => h (k + 1) b' c' hb hc))

theorem filter_length_lt {α : Type} {l l' : List α} (p : α → Bool) (hs : l.Sublist l')
    {x : α} (hx : x ∈ l') (hp : p x = true) (hn : x ∉ l) :
    (l.filter p).length < (l'.filter p).length := by
  have hsf : (l.filter p).Sublist (l'.filter p) := hs.filter p
  rcases Nat.lt_or_ge (l.filter p).length (l'.filter p).length with h | h
  · exact h
  · exfalso
    have heq := hsf.eq_of_length_le h
    have : x ∈ l'.filter p := List.mem_filter.mpr ⟨hx, hp⟩
    rw [← heq] at this
    exact hn (List.mem_filter.mp this).1

theorem mem_of_checkPlaced {uid n : Nat} {e : Instruction × Nat} {blk : List Instruction}
    (h : CheckPlaced uid e n blk) : ∀ x ∈ checkInsts uid e.1 e.2 n, x ∈ blk := by
  intro x hx
  unfold CheckPlaced at h
  split at h
  · obtain ⟨pre, post, hblk, _⟩ := h
    rw [hblk]
    exact List.mem_append_left _ (List.mem_append_right _ hx)
  · obtain ⟨pre, post, hblk⟩ := h
    rw [hblk]
    exact List.mem_append_left _ (List.mem_append_right _ (List.mem_cons_of_mem _ hx))

theorem mem_of_adjacent {α : Type} {xs l : List α} (h : Adjacent xs l) :
    ∀ x ∈ xs, x ∈ l := by
  intro x hx
  obtain ⟨pre, post, hl⟩ := h
  rw [hl]
  exact List.mem_append_left _ (List.mem_append_right _ hx)

theorem get?_map_block {reps : List BlockRep} {k : Nat} {rep : BlockRep}
    (h : reps.get? k = some rep) :
    (reps.map (fun g => g.block)).get? k = some rep.block := by
  simp only [List.get?_eq_getElem?, List.getElem?_map] at h ⊢
  rw [h]; rfl

theorem get?_of_length_eq {α β : Type} {l : List α} {l' : List β} (hlen : l'.length = l.length)
    {k : Nat} {a : α} (h : l.get? k = some a) : ∃ b, l'.get? k = some b := by
  have hk : k < l'.length := by
    rw [hlen]
    rw [List.get?_eq_getElem?] at h
    exact (List.getElem?_eq_some_iff.mp h).1
  exact ⟨_, List.get?_eq_get hk⟩

theorem checkInsts_call (uid : Nat) (i : Instruction) (c n : Nat) :
    ∃ x ∈ checkInsts uid i c n, x.id = n + 2 ∧ x.opcode = Opcode.call ∧
      x.operands.getLast? = some (Value.func FuncName.assert_ft) :=
  ⟨{ id := n + 2, opcode := Opcode.call, ty := Ty.void,
     operands := [Value.inst (n + 1), getInt32 uid, Value.func FuncName.assert_ft] },
    by simp [checkInsts], rfl, rfl, rfl⟩

/-- C14: instrumentation is not idempotent.  On every well-formed function
that holds an instruction `I` of integer type outside the exclusion set,
`replicate` and `verifyControlFlow` can be applied a second time to their own
result, and what comes out differs from the result of the first application:
it keeps every instruction of it and holds, under identities the first result
does not have, a further clone of `I` and a further call of `assert_ft`, so
that it has more calls of `assert_ft`. -/
theorem C14_not_idempotent (f : Function) (M : Module) (F G : Function)
    (order : CloneMap → CloneMap) (s : PassState) (k0 : Nat) (b0 : BasicBlock)
    (I : Instruction)
    (hwf : WellFormed f s) (hE : predecessors f.blocks 0 = [])
    (hF : M.getFunction FuncName.assert_ft = some F)
    (hG : M.getFunction FuncName.assert_cfg_ft = some G)
    (hord : ∀ cm, (order cm).Perm cm)
    (hb0 : f.blocks.get? k0 = some b0) (hI : I ∈ b0.insts) (hex : ¬ Excluded I)
    (hty : I.ty.isIntegerTy = true) :
    ∃ r1 r2 r3 r4, replicate f M order s = some r1 ∧
      verifyControlFlow r1.1 M r1.2 = some r2 ∧
      replicate r2.1 M order r2.2 = some r3 ∧
      verifyControlFlow r3.1 M r3.2 = some r4 ∧
      r4.1 ≠ r2.1 ∧
      (∀ x ∈ r2.1.allInsts, x.id < r2.2.nextId) ∧
      r2.1.allInsts.Sublist r4.1.allInsts ∧
      I ∈ r2.1.allInsts ∧
      (∃ cl ∈ r4.1.allInsts, r2.2.nextId ≤ cl.id ∧ cl.opcode = I.opcode ∧ cl.ty = I.ty ∧
        cl.operands.length = I.operands.length) ∧
      (∃ call ∈ r4.1.allInsts, r2.2.nextId ≤ call.id ∧ call.opcode = Opcode.call ∧
        call.operands.getLast? = some (Value.func FuncName.assert_ft)) ∧
      (r2.1.callsTo FuncName.assert_ft).length < (r4.1.callsTo FuncName.assert_ft).length := by
  have hr0 := hwf.repReady hE
  obtain ⟨reps1, s1, h1, _, hlen1, hr1, hall1⟩ := replicate_ready hF order hord hr0
  obtain ⟨r2, h2, _, hlen2, hr2, hsub2⟩ := verify_ready hG hr1
  obtain ⟨reps3, s3, h3, _, hlen3, hr3, hall3⟩ := replicate_ready hF order hord hr2
  obtain ⟨r4, h4, _, hlen4, hr4, hsub4⟩ := verify_ready hG hr3
  -- the block of `I` through the four steps
  obtain ⟨rep1, hrep1⟩ := get?_of_length_eq hlen1 hb0
  obtain ⟨_, _, _, _, hd1⟩ := hall1 k0 b0 rep1 hb0 hrep1
  obtain ⟨b2, hb2, hs2⟩ := hsub2 k0 rep1.block (get?_map_block hrep1)
  have hI2 : I ∈ b2.insts := hs2.subset (hd1.rep_sublist.1.subset hI)
  obtain ⟨rep3, hrep3⟩ := get?_of_length_eq hlen3 hb2
  obtain ⟨sk, sk', hsk, _, hd3⟩ := hall3 k0 b2 rep3 hb2 hrep3
  obtain ⟨b4, hb4, hs4⟩ := hsub4 k0 rep3.block (get?_map_block hrep3)
  -- the pair of `I` in the second run of `replicate`
  have hkey : I ∈ rep3.cloneMap.map Prod.fst := by
    rw [hd3.map, cloneInsts_keys]
    exact List.mem_filter.mpr ⟨hI2, (canClone_iff I).mpr hex⟩
  obtain ⟨e, he, heI⟩ := List.mem_map.mp hkey
  have hcmp : e.1.ty.isCompared = true := by
    rw [heI]; simp [Ty.isCompared, hty]
  obtain ⟨num, hchk, _, hadj, _, _, _⟩ := hd3.final
  obtain ⟨hnum, hplaced⟩ := hchk e he hcmp
  have hval := hd3.ctx.value e he
  have hlo := hd3.ctx.lo0_le
  have hall2 : ∀ x ∈ r2.1.allInsts, x.id < r2.2.nextId := by
    intro x hx
    simp only [Function.allInsts, List.mem_flatMap] at hx
    obtain ⟨b, hb, hxb⟩ := hx
    exact (hr2.blocks b hb).alloc x hxb
  have hb4mem : b4 ∈ r4.1.blocks := List.get?_mem hb4
  -- the further clone
  have hcl : remapOperands rep3.cloneMap (rawClone e.1 e.2) ∈ r4.1.allInsts :=
    mem_allInsts hb4mem (hs4.subset (mem_of_adjacent (hadj e he) _ (by simp)))
  -- the further call
  obtain ⟨call, hcmem, hcid, hcop, hcallee⟩ :=
    checkInsts_call (uniqueID (k0 + 2) b2.insts.length) e.1 e.2 (num e)
  have hcall : call ∈ r4.1.allInsts :=
    mem_allInsts hb4mem (hs4.subset (mem_of_checkPlaced hplaced _ hcmem))
  have hsubAll : r2.1.allInsts.Sublist r4.1.allInsts := by
    apply flatMap_sublist _ _ (by rw [hlen4]; simp [hlen3])
    intro k b c hb hc
    obtain ⟨rep, hrep⟩ := get?_of_length_eq hlen3 hb
    obtain ⟨_, _, _, _, hd⟩ := hall3 k b rep hb hrep
    obtain ⟨c', hc', hsc⟩ := hsub4 k rep.block (get?_map_block hrep)
    rw [hc] at hc'
    simp only [Option.some.injEq] at hc'
    subst hc'
    exact hd.rep_sublist.1.trans hsc
  refine ⟨_, r2, _, r4, h1, h2, h3, h4, ?_, hall2, hsubAll,
    mem_allInsts (List.get?_mem hb2) hI2, ?_, ?_, ?_⟩
  · intro heq
    rw [heq] at hcl
    have := hall2 _ hcl
    simp only [remapOperands_id, rawClone_id] at this
    omega
  · refine ⟨_, hcl, ?_, ?_, ?_, ?_⟩
    · simp only [remapOperands_id, rawClone_id]; omega
    · rw [← heI]; rfl
    · rw [← heI]; rfl
    · rw [← heI]; simp [remapOperands, rawClone]
  · exact ⟨_, hcall, by rw [hcid]; omega, hcop, hcallee⟩
  · apply filter_length_lt _ hsubAll hcall (by simp [hcop, hcallee])
    intro hmem
    have := hall2 _ hmem
    rw [hcid] at this
    omega

theorem updateBlock_get? (g : List Instruction → List Instruction) :
    ∀ (bs : List BasicBlock) (k j : Nat),
      (updateBlock g k bs).get? j =
        if j = k then (bs.get? j).map (fun b => { insts := g b.insts }) else bs.get? j := by
  intro bs
  induction bs with
  | nil => intro k j; cases k <;> simp [updateBlock]
  | cons b bs ih =>
    intro k j
    cases k with
    | zero =>
      cases j with
      | zero => simp [updateBlock]
      | succ j => simp [updateBlock]
    | succ k =>
      cases j with
      | zero => simp [updateBlock]
      | succ j =>
        simp only [updateBlock, List.get?_cons_succ, ih k j, Nat.succ_inj']

theorem zipWith_map_patch (P : Nat) (v : Value) (gD : Nat → Value) :
    ∀ preds : List Nat,
      List.zipWith (fun q old => if q = P then v else old) preds (preds.map gD) =
        preds.map (fun q => if q = P then v else gD q) := by
  intro preds
  induction preds with
  | nil => rfl
  | cons q qs ih => simp only [List.map_cons, List.zipWith_cons_cons, ih]

theorem corruptIncoming_phiNode (P : Nat) (v : Value) (n : Nat) (gD : Nat → Value)
    (preds : List Nat) :
    corruptIncoming P v (phiNode n (preds.map gD) preds) =
      phiNode n (preds.map (fun q => if q = P then v else gD q)) preds := by
  simp only [corruptIncoming, phiNode, zipWith_map_patch]

theorem updateInst_hit (k : Nat) (g : Instruction → Instruction) (x : Instruction)
    (h : x.id = k) (l : List Instruction) :
    updateInst k g (x :: l) = g x :: updateInst k g l := by
  simp [updateInst, h]

theorem updateInst_miss (k : Nat) (g : Instruction → Instruction) (x : Instruction)
    (h : x.id ≠ k) (l : List Instruction) :
    updateInst k g (x :: l) = x :: updateInst k g l := by
  simp [updateInst, h]

/-! ## What a block hands to its successor -/

/-- Leaving a block of the instrumented function for `nb`: the diff recorded
for the block evaluates to `id(block) XOR id(nb)` and the dest to `id(block)`. -/
theorem exit_vals {idMap : List Nat} {dm xm : List (Option Value)}
    {k : Nat} {t : Instruction} {brDest : Value} {st : PassState}
    {r : Option (Value × Value) × List Instruction × PassState}
    (hsign : signTerminator idMap k t brDest st = some r)
    (hshape : branchShaped t)
    (hway : t.succs.length ≤ 1 ∨ (t.opcode = Opcode.br ∧ t.succs.length = 2))
    (hops : ∀ op ∈ t.operands, op.allocated st.nextId = true)
    (htid : t.id < st.nextId)
    (hdm : dm.get? k = some (r.1.map Prod.fst)) (hxm : xm.get? k = some (r.1.map Prod.snd))
    (entryEnv env : Env) (o : Oracle) (pred : Option Nat) (tr : List CallEvent)
    (hdest : ∀ o', evalValue (fun j => if j = t.id then o.result t.id
        else (execInsts entryEnv o pred r.2.1 env tr).1 j) o' brDest = some (idOf idMap k))
    (nb : Nat) (hnb : nextBlock t (execInsts entryEnv o pred r.2.1 env tr).1 o = some nb) :
    nb ∈ t.succs ∧
    (∀ o', evalValue (fun j => if j = t.id then o.result t.id
        else (execInsts entryEnv o pred r.2.1 env tr).1 j) o' (incomingDiff idMap dm nb k) =
      some (idOf idMap k ^^^ idOf idMap nb)) ∧
    (∀ o', evalValue (fun j => if j = t.id then o.result t.id
        else (execInsts entryEnv o pred r.2.1 env tr).1 j) o' (incomingDest idMap xm nb k) =
      some (idOf idMap k)) := by
  obtain ⟨hmem, diff, hr1, hsig, hfresh, hev⟩ :=
    signTerminator_sem hsign hshape hway hops entryEnv env o pred tr nb hnb
  refine ⟨hmem, ?_, ?_⟩
  · intro o'
    have hd : dm.getD k none = some diff := by
      rw [getD_of_get? hdm, hr1]; rfl
    simp only [incomingDiff, hd]
    cases diff with
    | inst j =>
      have := hfresh j rfl
      simp only [evalValue_inst, Option.some.injEq] at hev ⊢
      rw [if_neg (by omega)]
      exact hev
    | constInt w v => exact hev
    | _ => cases hsig
  · intro o'
    have hd : xm.getD k none =
        some (if t.opcode = Opcode.br then brDest else getInt32 (idOf idMap k)) := by
      rw [getD_of_get? hxm, hr1]; rfl
    simp only [incomingDest, hd]
    by_cases hbr : t.opcode = Opcode.br
    · rw [if_pos hbr]; exact hdest o'
    · rw [if_neg hbr]; rfl

/-- Leaving a block through a two-way branch whose `select` has the constant
arms `x0` and `x1`: the `xor` holds the block's ID XOR the arm of the side
taken. -/
theorem selectXor_sem {t : Instruction} {c : Value} {S0 S1 : Nat} (n own x0 x1 : Nat)
    (hbr : t.opcode = Opcode.br) (ho : t.operands = [c]) (hs : t.succs = [S0, S1])
    (hc : c.allocated n = true)
    (entryEnv env : Env) (o : Oracle) (pred : Option Nat) (tr : List CallEvent) (nb : Nat)
    (hnb : nextBlock t
      (execInsts entryEnv o pred (selectXor n own c (getInt32 x0) (getInt32 x1)) env tr).1 o =
        some nb) :
    (nb = S0 ∧
      (execInsts entryEnv o pred (selectXor n own c (getInt32 x0) (getInt32 x1)) env tr).1
        (n + 1) = own ^^^ x0) ∨
    (nb = S1 ∧
      (execInsts entryEnv o pred (selectXor n own c (getInt32 x0) (getInt32 x1)) env tr).1
        (n + 1) = own ^^^ x1) := by
  have hcd : t.isConditional = true := by simp [Instruction.isConditional, ho, hs]
  have hframe : ∀ j, j < n →
      (execInsts entryEnv o pred (selectXor n own c (getInt32 x0) (getInt32 x1)) env tr).1 j =
        env j := by
    intro j hj
    apply execInsts_frame
    intro x hx
    simp only [selectXor, List.mem_cons, List.mem_singleton, List.not_mem_nil, or_false] at hx
    rcases hx with rfl | rfl <;> simp only [] <;> omega
  have hceq := evalValue_congr hc hframe o
  simp only [nextBlock, hbr, hcd, and_self, if_true, Instruction.getCondition, ho,
    List.head?_cons, hceq, Instruction.getSuccessor, hs, List.get?_cons_zero,
    List.get?_cons_succ] at hnb
  cases hv : evalValue env o c with
  | none => rw [hv] at hnb; cases hnb
  | some v =>
    rw [hv] at hnb
    simp only [] at hnb
    by_cases h0 : v = 0
    · right
      simp only [h0, if_true, Option.some.injEq] at hnb
      refine ⟨hnb.symm, ?_⟩
      simp only [selectXor, execInsts, Instruction.isPHI, evalInst, evalValue_inst,
        evalValue_constInt, getInt32, hv]
      simp [h0]
    · left
      simp only [h0, if_false, Option.some.injEq] at hnb
      refine ⟨hnb.symm, ?_⟩
      simp only [selectXor, execInsts, Instruction.isPHI, evalInst, evalValue_inst,
        evalValue_constInt, getInt32, hv]
      simp [h0]

/-! ## Paths through a function with one faulted edge -/

/-- A path on which an entry condition `J` is kept from block to block, and on
which a block entered over the edge `P → B` fails its check while every other
block passes: the first visit over that edge fails its check, and all visits
before it pass theirs. -/
theorem fault_path (g : List BasicBlock) (res : CFResult) (P B : Nat)
    (J : Nat → Option Nat → Env → Prop)
    (H : ∀ cur pred env o b, g.get? cur = some b → J cur pred env →
      ∃ t, getTerminator b.insts = some t ∧
        ((pred = some P ∧ cur = B) →
          CheckFailed res
            { block := cur, pred := pred,
              env := fun k => if k = t.id then o.result t.id
                else (execInsts env o pred b.insts.dropLast env []).1 k,
              calls := (execInsts env o pred b.insts.dropLast env []).2 }) ∧
        (¬ (pred = some P ∧ cur = B) →
          (cur ≠ 0 → CheckPassed res
            { block := cur, pred := pred,
              env := fun k => if k = t.id then o.result t.id
                else (execInsts env o pred b.insts.dropLast env []).1 k,
              calls := (execInsts env o pred b.insts.dropLast env []).2 }) ∧
          ∀ nb, nextBlock t (execInsts env o pred b.insts.dropLast env []).1 o = some nb →
            J nb (some cur)
              (fun k => if k = t.id then o.result t.id
                else (execInsts env o pred b.insts.dropLast env []).1 k))) :
    ∀ (os : List Oracle) (cur : Nat) (pred : Option Nat) (env : Env), J cur pred env →
      ∀ i v, (run g os cur pred env).get? i = some v →
        (∀ j w, j < i → (run g os cur pred env).get? j = some w →
          ¬ (w.pred = some P ∧ w.block = B)) →
        ((v.pred = some P ∧ v.block = B) → CheckFailed res v) ∧
        (¬ (v.pred = some P ∧ v.block = B) → v.block ≠ 0 → CheckPassed res v) := by
  intro os
  induction os with
  | nil => intro cur pred env _ i v hv; simp [run] at hv
  | cons o os ih =>
    intro cur pred env hJ i v hv hfirst
    cases hb : g.get? cur with
    | none =>
      simp only [run, hb] at hv
      simp at hv
    | some b =>
      obtain ⟨t, ht, hbad, hgood⟩ := H cur pred env o b hb hJ
      simp only [run, hb, ht] at hv hfirst
      cases i with
      | zero =>
        simp only [List.get?_cons_zero, Option.some.injEq] at hv
        subst hv
        exact ⟨fun h => hbad h, fun h h0 => (hgood h).1 h0⟩
      | succ i =>
        simp only [List.get?_cons_succ] at hv
        have h0 := hfirst 0 _ (Nat.succ_pos i) rfl
        simp only [] at h0
        obtain ⟨_, hnext⟩ := hgood h0
        cases hnb : nextBlock t (execInsts env o pred b.insts.dropLast env []).1 o with
        | none => rw [hnb] at hv; simp at hv
        | some nb =>
          rw [hnb] at hv hfirst
          simp only [] at hv hfirst
          exact ih nb (some cur) _ (hnext nb hnb) i v hv
            (fun j w hj hw => hfirst (j + 1) w (Nat.succ_lt_succ hj) hw)

/-- One block of the faulted function: it has the shape `verifyControlFlow`
gives a block, with `gD` for the entries of the Diff node and `new` above the
terminator.  If leaving it keeps the entry condition, the block does what the
path argument needs. -/
theorem fault_block {res : CFResult} {blocks : List BasicBlock} {P B cur d : Nat}
    {gD : Nat → Nat → Value} {phis body new : List Instruction} {t : Instruction}
    {out : List Instruction}
    (hdp : res.diffPhiMap.get? cur = some (if cur = 0 then none else some d))
    (hxp : res.destPhiMap.get? cur = some (if cur = 0 then none else some (d + 1)))
    (hentry : cur = 0 → out = phis ++ body ++ new ++ [t])
    (hother : cur ≠ 0 → out =
      phis ++ ([phiNode d ((predecessors blocks cur).map (gD cur)) (predecessors blocks cur),
                phiNode (d + 1)
                  ((predecessors blocks cur).map (incomingDest res.idMap res.destMap cur))
                  (predecessors blocks cur)] ++
              cfgCheck (idOf res.idMap cur) d) ++ body ++ new ++ [t])
    (hterm : t.isTerminator = true) (hB : B ≠ 0)
    (hbody : ∀ x ∈ body, x.id < d) (htid : t.id < d)
    (hnew : ∀ x ∈ new, d + 6 ≤ x.id ∨ (cur = 0 ∧ d ≤ x.id))
    (env : Env) (pred : Option Nat) (o : Oracle)
    (hJ : FaultEntry res.idMap res.destMap blocks gD P B cur pred env)
    (hexit : ∀ (env1 : Env) (tr1 : List CallEvent),
      (cur ≠ 0 → env1 (d + 2) = idOf res.idMap cur) →
      ∀ nb, nextBlock t (execInsts env o pred new env1 tr1).1 o = some nb →
        FaultEntry res.idMap res.destMap blocks gD P B nb (some cur)
          (fun k => if k = t.id then o.result t.id
            else (execInsts env o pred new env1 tr1).1 k)) :
    getTerminator out = some t ∧
    ((pred = some P ∧ cur = B) →
      CheckFailed res
        { block := cur, pred := pred,
          env := fun k => if k = t.id then o.result t.id
            else (execInsts env o pred out.dropLast env []).1 k,
          calls := (execInsts env o pred out.dropLast env []).2 }) ∧
    (¬ (pred = some P ∧ cur = B) →
      (cur ≠ 0 → CheckPassed res
        { block := cur, pred := pred,
          env := fun k => if k = t.id then o.result t.id
            else (execInsts env o pred out.dropLast env []).1 k,
          calls := (execInsts env o pred out.dropLast env []).2 }) ∧
      ∀ nb, nextBlock t (execInsts env o pred out.dropLast env []).1 o = some nb →
        FaultEntry res.idMap res.destMap blocks gD P B nb (some cur)
          (fun k => if k = t.id then o.result t.id
            else (execInsts env o pred out.dropLast env []).1 k)) := by
  by_cases hk : cur = 0
  · have ho := hentry hk
    refine ⟨by rw [ho]; exact getTerminator_concat hterm, ?_, ?_⟩
    · rintro ⟨hp, hc⟩
      exact absurd (hc ▸ hk) hB
    · intro _
      refine ⟨fun h => absurd hk h, ?_⟩
      intro nb hnb
      rw [ho, List.dropLast_concat, execInsts_append] at hnb ⊢
      exact hexit _ _ (fun h => absurd hk h) nb hnb
  · have ho := hother hk
    obtain ⟨p, hpred, hpmem, dv, xv, hdv, hxv, hbad, hgood⟩ := hJ hk
    subst hpred
    obtain ⟨env1, tr1, hexec, _, _, a2, _, e0, e1, _, e4, hev⟩ :=
      guarded_exec env o p (idOf res.idMap cur) d (predecessors blocks cur) (gD cur)
        (incomingDest res.idMap res.destMap cur) phis body new hbody
        (fun x hx => by
          rcases hnew x hx with h | h
          · exact h
          · exact absurd h.1 hk) hpmem dv xv (hdv o) (hxv o)
    refine ⟨by rw [ho]; exact getTerminator_concat hterm, ?_, ?_⟩
    · rintro ⟨hp, hc⟩
      simp only [Option.some.injEq] at hp
      have hne := hbad ⟨hp, hc⟩
      rw [if_neg hne] at e4 hev
      rw [ho, List.dropLast_concat, hexec]
      refine ⟨d, by rw [hdp, if_neg hk], by rw [hxp, if_neg hk], ?_, ?_, ?_⟩
      · show (if d = t.id then _ else _) ^^^ (if d + 1 = t.id then _ else _) ≠ _
        rw [if_neg (by omega), if_neg (by omega), e0, e1]
        exact hne
      · show (if d + 4 = t.id then _ else _) = 0
        rw [if_neg (by omega), e4]
      · show (⟨d + 5, _, [some 0, some (if d + 1 = t.id then _ else _), _]⟩ : CallEvent) ∈ _
        rw [if_neg (by omega), e1]
        exact hev
    · intro hnf
      have hnf' : ¬ (p = P ∧ cur = B) := fun h => hnf ⟨by rw [h.1], h.2⟩
      have hxor := hgood hnf'
      rw [if_pos hxor] at e4 hev
      rw [ho, List.dropLast_concat, hexec]
      refine ⟨fun _ => ⟨d, by rw [hdp, if_neg hk], by rw [hxp, if_neg hk], ?_, ?_, ?_⟩, ?_⟩
      · show (if d = t.id then _ else _) ^^^ (if d + 1 = t.id then _ else _) = _
        rw [if_neg (by omega), if_neg (by omega), e0, e1]
        exact hxor
      · show (if d + 4 = t.id then _ else _) = 1
        rw [if_neg (by omega), e4]
      · show (⟨d + 5, _, [some 1, some (if d + 1 = t.id then _ else _), _]⟩ : CallEvent) ∈ _
        rw [if_neg (by omega), e1]
        exact hev
      · intro nb hnb
        exact hexit env1 tr1 (fun _ => by rw [a2, hxor]) nb hnb

/-- The ways a terminator with a successor gets its diff, in a function whose
terminators have at most one successor or are two-way branches: a constant the
builder folded, with nothing inserted; the `xor` of a `select` on the branch
condition; or poison, with nothing inserted, for a branch on poison, which no
run gets past. -/
theorem signTerminator_cases {idMap : List Nat} {k : Nat} {t : Instruction} {brDest : Value}
    {st : PassState} {r : Option (Value × Value) × List Instruction × PassState}
    (hsign : signTerminator idMap k t brDest st = some r)
    (hshape : branchShaped t)
    (hway : t.succs.length ≤ 1 ∨ (t.opcode = Opcode.br ∧ t.succs.length = 2))
    (hs : t.succs ≠ []) :
    (∃ w v, r.1.map Prod.fst = some (Value.constInt w v) ∧ r.2.1 = []) ∨
    (∃ c S0 S1, t.opcode = Opcode.br ∧ t.operands = [c] ∧ t.succs = [S0, S1] ∧
      r.1.map Prod.fst = some (Value.inst (st.nextId + 1)) ∧
      r.1.map Prod.snd = some brDest ∧
      r.2.1 = selectXor st.nextId (idOf idMap k) c (getInt32 (idOf idMap S0))
        (getInt32 (idOf idMap S1))) ∨
    (r.1.map Prod.fst = some Value.poison ∧ r.2.1 = [] ∧
      ∀ env o, nextBlock t env o = none) := by
  rcases hway with h1 | ⟨hbr, h2⟩
  · obtain ⟨S, hS⟩ : ∃ S, t.succs = [S] := by
      cases hsu : t.succs with
      | nil => exact absurd hsu hs
      | cons a l =>
        cases l with
        | nil => exact ⟨a, rfl⟩
        | cons b l => rw [hsu] at h1; simp at h1
    by_cases hbr : t.opcode = Opcode.br
    · rw [signTerminator_branch idMap k brDest st hbr hS hshape] at hsign
      cases hsign
      exact Or.inl ⟨32, _, rfl, rfl⟩
    · rw [signTerminator_other idMap k brDest st hbr hS] at hsign
      cases hsign
      exact Or.inl ⟨32, _, rfl, rfl⟩
  · obtain ⟨S0, S1, hS⟩ : ∃ S0 S1, t.succs = [S0, S1] := by
      cases hsu : t.succs with
      | nil => rw [hsu] at h2; cases h2
      | cons a l =>
        cases l with
        | nil => rw [hsu] at h2; cases h2
        | cons b l =>
          cases l with
          | nil => exact ⟨a, b, rfl⟩
          | cons c l => rw [hsu] at h2; simp at h2
    obtain ⟨c, hc⟩ : ∃ c, t.operands = [c] := by
      rcases hshape hbr with ⟨_, h⟩ | ⟨h, _⟩
      · rw [h2] at h; cases h
      · cases ho : t.operands with
        | nil => rw [ho] at h; cases h
        | cons a l =>
          cases l with
          | nil => exact ⟨a, rfl⟩
          | cons b l => rw [ho] at h; simp at h
    cases hf : foldSelect c (idOf idMap S0) (idOf idMap S1) with
    | none =>
      rw [signTerminator_cond idMap k brDest st hbr hc hf hS] at hsign
      cases hsign
      exact Or.inr (Or.inl ⟨c, S0, S1, hbr, hc, hS, rfl, rfl, rfl⟩)
    | some fv =>
      rw [signTerminator_cond_fold idMap k brDest st hbr hc hS hf] at hsign
      cases hsign
      rcases foldSelect_some hf with ⟨_, _, _, hfv⟩ | ⟨_, hfv⟩ | ⟨hcc, hfv⟩ | ⟨_, _, hfv⟩
      · subst hfv
        exact Or.inl ⟨32, _, rfl, rfl⟩
      · subst hfv
        exact Or.inl ⟨32, _, rfl, rfl⟩
      · subst hfv
        subst hcc
        refine Or.inr (Or.inr ⟨rfl, rfl, ?_⟩)
        intro env o
        have hcd : t.isConditional = true := by simp [Instruction.isConditional, hc, hS]
        simp [nextBlock, hbr, hcd, Instruction.getCondition, hc, evalValue]
      · subst hfv
        exact Or.inl ⟨32, _, rfl, rfl⟩

/-- Leaving a block whose outgoing diff computation is intact. -/
theorem fault_exit_plain {idMap : List Nat} {dm xm : List (Option Value)}
    {blocks : List BasicBlock} {k : Nat} {l : List Instruction} {t : Instruction}
    {brDest : Value} {st : PassState}
    {r : Option (Value × Value) × List Instruction × PassState}
    {gD : Nat → Nat → Value} {P B c : Nat}
    (hsign : signTerminator idMap k t brDest st = some r)
    (hshape : branchShaped t)
    (hway : t.succs.length ≤ 1 ∨ (t.opcode = Opcode.br ∧ t.succs.length = 2))
    (hops : ∀ op ∈ t.operands, op.allocated st.nextId = true)
    (hblk : blocks.get? k = some { insts := l }) (ht : t ∈ l) (hterm : t.isTerminator = true)
    (htid : t.id < st.nextId)
    (hdm : dm.get? k = some (r.1.map Prod.fst)) (hxm : xm.get? k = some (r.1.map Prod.snd))
    (hgD : ∀ nb, ¬ (k = P ∧ nb = B) → gD nb k = incomingDiff idMap dm nb k)
    (hgDf : k = P → gD B k = getInt32 (idOf idMap k ^^^ c))
    (hc : c ≠ idOf idMap B)
    (entryEnv env : Env) (o : Oracle) (pred : Option Nat) (tr : List CallEvent)
    (hdest : ∀ o', evalValue (fun j => if j = t.id then o.result t.id
        else (execInsts entryEnv o pred r.2.1 env tr).1 j) o' brDest = some (idOf idMap k))
    (nb : Nat) (hnb : nextBlock t (execInsts entryEnv o pred r.2.1 env tr).1 o = some nb) :
    FaultEntry idMap xm blocks gD P B nb (some k)
      (fun j => if j = t.id then o.result t.id
        else (execInsts entryEnv o pred r.2.1 env tr).1 j) := by
  obtain ⟨hmem, hd, hx⟩ := exit_vals hsign hshape hway hops htid hdm hxm entryEnv env o pred tr
    hdest nb hnb
  intro _
  refine ⟨k, rfl, mem_predecessors hblk ht hterm hmem, ?_⟩
  by_cases hf : k = P ∧ nb = B
  · refine ⟨idOf idMap k ^^^ c, idOf idMap k, ?_, hx, ?_, fun h => absurd hf h⟩
    · intro o'
      rw [hf.2, hgDf hf.1]
      rfl
    · intro _
      rw [xor_cancel_left, hf.2]
      exact hc
  · refine ⟨idOf idMap k ^^^ idOf idMap nb, idOf idMap k, ?_, hx, fun h => absurd h hf,
      fun _ => xor_cancel_left _ _⟩
    intro o'
    rw [hgD nb hf]
    exact hd o'

/-- Leaving the block `P` whose `select` had the arms for `B` replaced by `c`. -/
theorem fault_exit_select {idMap : List Nat} {dm xm : List (Option Value)}
    {blocks : List BasicBlock} {P B c n : Nat} {l : List Instruction} {t : Instruction}
    {brDest cond : Value} {S0 S1 : Nat}
    (hbr : t.opcode = Opcode.br) (ho : t.operands = [cond]) (hs : t.succs = [S0, S1])
    (hcond : cond.allocated n = true)
    (hblk : blocks.get? P = some { insts := l }) (ht : t ∈ l) (hterm : t.isTerminator = true)
    (htid : t.id < n)
    (hdm : dm.get? P = some (some (Value.inst (n + 1))))
    (hxm : xm.get? P = some (some brDest))
    (hc : c ≠ idOf idMap B)
    (entryEnv env : Env) (o : Oracle) (pred : Option Nat) (tr : List CallEvent)
    (hdest : ∀ o', evalValue (fun j => if j = t.id then o.result t.id
        else (execInsts entryEnv o pred
          (selectXor n (idOf idMap P) cond
            (getInt32 (if S0 = B then c else idOf idMap S0))
            (getInt32 (if S1 = B then c else idOf idMap S1))) env tr).1 j) o' brDest =
        some (idOf idMap P))
    (nb : Nat)
    (hnb : nextBlock t (execInsts entryEnv o pred
          (selectXor n (idOf idMap P) cond
            (getInt32 (if S0 = B then c else idOf idMap S0))
            (getInt32 (if S1 = B then c else idOf idMap S1))) env tr).1 o = some nb) :
    FaultEntry idMap xm blocks (incomingDiff idMap dm) P B nb (some P)
      (fun j => if j = t.id then o.result t.id
        else (execInsts entryEnv o pred
          (selectXor n (idOf idMap P) cond
            (getInt32 (if S0 = B then c else idOf idMap S0))
            (getInt32 (if S1 = B then c else idOf idMap S1))) env tr).1 j) := by
  have hd : dm.getD P none = some (Value.inst (n + 1)) := getD_of_get? hdm none
  have hx : xm.getD P none = some brDest := getD_of_get? hxm none
  have hsem := selectXor_sem n (idOf idMap P) (if S0 = B then c else idOf idMap S0)
    (if S1 = B then c else idOf idMap S1) hbr ho hs hcond entryEnv env o pred tr nb hnb
  intro _
  have hmem : nb ∈ t.succs := by
    rw [hs]
    rcases hsem with ⟨h, _⟩ | ⟨h, _⟩ <;> simp [h]
  refine ⟨P, rfl, mem_predecessors hblk ht hterm hmem, ?_⟩
  have key : ∀ x, (execInsts entryEnv o pred
          (selectXor n (idOf idMap P) cond
            (getInt32 (if S0 = B then c else idOf idMap S0))
            (getInt32 (if S1 = B then c else idOf idMap S1))) env tr).1 (n + 1) =
        idOf idMap P ^^^ x →
      x = (if nb = B then c else idOf idMap nb) →
      ∃ dv xv, (∀ o', evalValue (fun j => if j = t.id then o.result t.id
        else (execInsts entryEnv o pred
          (selectXor n (idOf idMap P) cond
            (getInt32 (if S0 = B then c else idOf idMap S0))
            (getInt32 (if S1 = B then c else idOf idMap S1))) env tr).1 j) o'
          (incomingDiff idMap dm nb P) = some dv) ∧
        (∀ o', evalValue (fun j => if j = t.id then o.result t.id
        else (execInsts entryEnv o pred
          (selectXor n (idOf idMap P) cond
            (getInt32 (if S0 = B then c else idOf idMap S0))
            (getInt32 (if S1 = B then c else idOf idMap S1))) env tr).1 j) o'
          (incomingDest idMap xm nb P) = some xv) ∧
        ((P = P ∧ nb = B) → dv ^^^ xv ≠ idOf idMap nb) ∧
        (¬ (P = P ∧ nb = B) → dv ^^^ xv = idOf idMap nb) := by
    intro x he hxe
    refine ⟨idOf idMap P ^^^ x, idOf idMap P, ?_, ?_, ?_, ?_⟩
    · intro o'
      simp only [incomingDiff, hd, evalValue_inst, Option.some.injEq]
      rw [if_neg (by omega)]
      exact he
    · intro o'
      simp only [incomingDest, hx]
      exact hdest o'
    · rintro ⟨_, hB⟩
      rw [xor_cancel_left, hxe, if_pos hB, hB]
      exact hc
    · intro hn
      have hB : nb ≠ B := fun h => hn ⟨rfl, h⟩
      rw [xor_cancel_left, hxe, if_neg hB]
  rcases hsem with ⟨h, he⟩ | ⟨h, he⟩
  · exact key _ he (by rw [h])
  · exact key _ he (by rw [h])

/-- A block of the faulted function that is the block `verifyControlFlow`
made, with `gD` in the Diff node and `new` above the terminator. -/
theorem fault_cfblock {res : CFResult} {blocks : List BasicBlock} {P B cur : Nat}
    {gD : Nat → Nat → Value} {l phis body new : List Instruction} {t : Instruction}
    {sk : PassState} {r : Option (Value × Value) × List Instruction × PassState}
    {out out1 : List Instruction}
    (hdone : CFDone res.idMap res.diffMap res.destMap (predecessors blocks cur) cur l sk
      phis body t r out)
    (hdp : res.diffPhiMap.get? cur = some (if cur = 0 then none else some sk.nextId))
    (hxp : res.destPhiMap.get? cur = some (if cur = 0 then none else some (sk.nextId + 1)))
    (halloc : ∀ x ∈ l, x.id < sk.nextId) (hB : B ≠ 0)
    (hout : out1 = if cur = 0 then phis ++ body ++ new ++ [t] else
      phis ++ ([phiNode sk.nextId ((predecessors blocks cur).map (gD cur))
                  (predecessors blocks cur),
                phiNode (sk.nextId + 1)
                  ((predecessors blocks cur).map (incomingDest res.idMap res.destMap cur))
                  (predecessors blocks cur)] ++
              cfgCheck (idOf res.idMap cur) sk.nextId) ++ body ++ new ++ [t])
    (hnew : ∀ x ∈ new, (if cur = 0 then sk.nextId else sk.nextId + 6) ≤ x.id)
    (env : Env) (pred : Option Nat) (o : Oracle)
    (hJ : FaultEntry res.idMap res.destMap blocks gD P B cur pred env)
    (hexit : ∀ (env1 : Env) (tr1 : List CallEvent),
      (∀ o', evalValue (fun k => if k = t.id then o.result t.id
            else (execInsts env o pred new env1 tr1).1 k) o'
          (if cur = 0 then getInt32 (idOf res.idMap cur) else Value.inst (sk.nextId + 2)) =
        some (idOf res.idMap cur)) →
      ∀ nb, nextBlock t (execInsts env o pred new env1 tr1).1 o = some nb →
        FaultEntry res.idMap res.destMap blocks gD P B nb (some cur)
          (fun k => if k = t.id then o.result t.id
            else (execInsts env o pred new env1 tr1).1 k)) :
    getTerminator out1 = some t ∧
    ((pred = some P ∧ cur = B) →
      CheckFailed res
        { block := cur, pred := pred,
          env := fun k => if k = t.id then o.result t.id
            else (execInsts env o pred out1.dropLast env []).1 k,
          calls := (execInsts env o pred out1.dropLast env []).2 }) ∧
    (¬ (pred = some P ∧ cur = B) →
      (cur ≠ 0 → CheckPassed res
        { block := cur, pred := pred,
          env := fun k => if k = t.id then o.result t.id
            else (execInsts env o pred out1.dropLast env []).1 k,
          calls := (execInsts env o pred out1.dropLast env []).2 }) ∧
      ∀ nb, nextBlock t (execInsts env o pred out1.dropLast env []).1 o = some nb →
        FaultEntry res.idMap res.destMap blocks gD P B nb (some cur)
          (fun k => if k = t.id then o.result t.id
            else (execInsts env o pred out1.dropLast env []).1 k)) := by
  have hl := hdone.hsplit
  have htid : t.id < sk.nextId := halloc t (by rw [hl]; simp)
  have hbody : ∀ x ∈ body, x.id < sk.nextId := fun x hx => halloc x (by rw [hl]; simp [hx])
  refine fault_block hdp hxp (fun hk => by rw [hout, if_pos hk])
    (fun hk => by rw [hout, if_neg hk]) hdone.hterm hB hbody htid ?_ env pred o hJ ?_
  · intro x hx
    have := hnew x hx
    by_cases hk : cur = 0
    · rw [if_pos hk] at this
      exact Or.inr ⟨hk, this⟩
    · rw [if_neg hk] at this
      exact Or.inl this
  · intro env1 tr1 h2 nb hnb
    refine hexit env1 tr1 ?_ nb hnb
    intro o'
    by_cases hk : cur = 0
    · rw [if_pos hk]; rfl
    · rw [if_neg hk]
      simp only [evalValue_inst, Option.some.injEq]
      rw [if_neg (by omega), execInsts_frame env o pred new env1 tr1 (sk.nextId + 2)
        (fun x hx => by
          have := hnew x hx
          rw [if_neg hk] at this
          omega)]
      exact h2 hk

/-- The `select` with the arms for `B` replaced. -/
theorem corruptSelect_selectXor (B c n own S0 S1 : Nat) (cond : Value) (x0 x1 : Nat)
    (A T : List Instruction)
    (hA : ∀ x ∈ A, x.id ≠ n) (hT : ∀ x ∈ T, x.id ≠ n) :
    updateInst n (corruptSelect B c [S0, S1])
        (A ++ selectXor n own cond (getInt32 x0) (getInt32 x1) ++ T) =
      A ++ selectXor n own cond (getInt32 (if S0 = B then c else x0))
        (getInt32 (if S1 = B then c else x1)) ++ T := by
  have h := updateInst_mid n (corruptSelect B c [S0, S1]) A T
    { id := n, opcode := Opcode.select, ty := Ty.integer 32,
      operands := [cond, getInt32 x0, getInt32 x1] }
    { id := n + 1, opcode := Opcode.xor, ty := Ty.integer 32,
      operands := [getInt32 own, Value.inst n] } rfl (by show n + 1 ≠ n; omega) hA hT
  show updateInst n (corruptSelect B c [S0, S1]) (A ++ [_, _] ++ T) = _
  rw [h]
  simp only [selectXor, corruptSelect]
  by_cases h0 : S0 = B <;> by_cases h1 : S1 = B <;> simp [h0, h1]

/-- A missing block stays missing. -/
theorem injectFault_get?_none (res : CFResult) (P B c cur : Nat)
    (h : res.f.blocks.get? cur = none) : (injectFault res P B c).get? cur = none := by
  unfold injectFault
  split
  · split
    · rw [updateBlock_get?, h]; simp
    · exact h
  · split
    · rw [updateBlock_get?, h]; simp
    · exact h
  · exact h

/-- The fault in a `select` arm: the first traversal of the edge `P → B` fails
the check of `B`, every block execution before it passes. -/
theorem fault_select_path {f : Function} {s : PassState} {res : CFResult}
    (hready : CFReady f s)
    (hway : ∀ b ∈ f.blocks, ∀ t, getTerminator b.insts = some t →
      (t.succs.length ≤ 1 ∨ (t.opcode = Opcode.br ∧ t.succs.length = 2)) ∧
      ∀ op ∈ t.operands, op.allocated s.nextId = true)
    (hlen : res.f.blocks.length = f.blocks.length)
    (hall : ∀ k b, f.blocks.get? k = some b →
        ∃ sk phis body t r out,
          s.nextId ≤ sk.nextId ∧ r.2.2.nextId ≤ res.state.nextId ∧
          CFDone res.idMap res.diffMap res.destMap (predecessors f.blocks k) k b.insts sk
            phis body t r out ∧
          res.f.blocks.get? k = some { insts := out } ∧
          res.diffMap.get? k = some (r.1.map Prod.fst) ∧
          res.destMap.get? k = some (r.1.map Prod.snd) ∧
          res.diffPhiMap.get? k = some (if k = 0 then none else some sk.nextId) ∧
          res.destPhiMap.get? k = some (if k = 0 then none else some (sk.nextId + 1)))
    {P B c m : Nat} {bP : BasicBlock} {t : Instruction}
    (hP : f.blocks.get? P = some bP) (ht : getTerminator bP.insts = some t)
    (hB : B ∈ t.succs) (hB0 : B ≠ 0) (hc : c ≠ idOf res.idMap B)
    (hdmP : res.diffMap.get? P = some (some (Value.inst m))) :
    ∀ (os : List Oracle) (env0 : Env) (i : Nat) (v : Visit),
      (run (injectFault res P B c) os 0 none env0).get? i = some v →
      (∀ j w, j < i → (run (injectFault res P B c) os 0 none env0).get? j = some w →
        ¬ (w.pred = some P ∧ w.block = B)) →
      ((v.pred = some P ∧ v.block = B) → CheckFailed res v) ∧
      (¬ (v.pred = some P ∧ v.block = B) → v.block ≠ 0 → CheckPassed res v) := by
  intro os env0
  refine fault_path (injectFault res P B c) res P B
    (FaultEntry res.idMap res.destMap f.blocks (incomingDiff res.idMap res.diffMap) P B)
    ?_ os 0 none env0 (fun h => absurd rfl h)
  -- the faulted function
  have hg : injectFault res P B c =
      updateBlock (updateInst (m - 1) (corruptSelect B c t.succs)) P res.f.blocks := by
    obtain ⟨_, _, _, tP, _, outP, _, _, hdoneP, hresP, _, _, _, _⟩ := hall P bP hP
    have h1 : getTerminator outP = some t :=
      (getTerminator_congr hdoneP.cf_sublist.2).trans ht
    unfold injectFault
    rw [getD_of_get? hdmP none]
    simp only [hresP, Option.some_bind, h1]
  intro cur pred env o b hgb hJ
  cases hb0 : f.blocks.get? cur with
  | none =>
    have : res.f.blocks.get? cur = none := by
      rw [List.get?_eq_none] at hb0 ⊢
      omega
    rw [injectFault_get?_none res P B c cur this] at hgb
    cases hgb
  | some b0 =>
    obtain ⟨sk, phis, body, t1, r, out, hsk, _, hdone, hres, hdm, hxm, hdp, hxp⟩ :=
      hall cur b0 hb0
    have hb0mem : b0 ∈ f.blocks := List.get?_mem hb0
    have htm : getTerminator b0.insts = some t1 := hdone.terminator
    obtain ⟨hw, hops⟩ := hway b0 hb0mem t1 htm
    have hshape := hready.branches b0 hb0mem t1 htm
    have halloc : ∀ x ∈ b0.insts, x.id < sk.nextId := fun x hx =>
      Nat.lt_of_lt_of_le (hready.allocated b0 hb0mem x hx) hsk
    have hl := hdone.hsplit
    have ht1 : t1 ∈ b0.insts := by rw [hl]; simp
    have htid : t1.id < sk.nextId := halloc t1 ht1
    have hphis : ∀ x ∈ phis, x.id < sk.nextId := fun x hx => halloc x (by rw [hl]; simp [hx])
    have hbody : ∀ x ∈ body, x.id < sk.nextId := fun x hx => halloc x (by rw [hl]; simp [hx])
    have hsign := hdone.hsign
    have hst : ({ sk with nextId := if cur = 0 then sk.nextId else sk.nextId + 6 } :
        PassState).nextId = if cur = 0 then sk.nextId else sk.nextId + 6 := rfl
    have hopsσ : ∀ op ∈ t1.operands, op.allocated
        (if cur = 0 then sk.nextId else sk.nextId + 6) = true := fun op hop =>
      Value.allocated_mono (hops op hop) (by split <;> omega)
    rw [hg, updateBlock_get?, hres] at hgb
    by_cases hcP : cur = P
    · subst hcP
      rw [if_pos rfl] at hgb
      simp only [Option.map_some', Option.some.injEq] at hgb
      have hbb : b0 = bP := Option.some.inj (hb0.symm.trans hP)
      subst hbb
      have htt : t1 = t := Option.some.inj (htm.symm.trans ht)
      subst htt
      rcases signTerminator_cases hsign hshape hw (List.ne_nil_of_mem hB) with
        ⟨w, v, h1, _⟩ | ⟨cond, S0, S1, hbr, ho, hs, hfst, hsnd, hnew⟩ | ⟨h1, _, _⟩
      · rw [hdm, h1] at hdmP
        cases hdmP
      · rw [hst] at hfst hnew
        rw [hdm, hfst] at hdmP
        have hm : m - 1 = if cur = 0 then sk.nextId else sk.nextId + 6 := by
          simp only [Option.some.injEq, Value.inst.injEq] at hdmP
          omega
        rw [hm, hs] at hgb
        have hout : b.insts = if cur = 0 then
            phis ++ body ++ selectXor (if cur = 0 then sk.nextId else sk.nextId + 6)
              (idOf res.idMap cur) cond
              (getInt32 (if S0 = B then c else idOf res.idMap S0))
              (getInt32 (if S1 = B then c else idOf res.idMap S1)) ++ [t1]
          else
            phis ++ ([phiNode sk.nextId ((predecessors f.blocks cur).map
                  (incomingDiff res.idMap res.diffMap cur)) (predecessors f.blocks cur),
                phiNode (sk.nextId + 1)
                  ((predecessors f.blocks cur).map (incomingDest res.idMap res.destMap cur))
                  (predecessors f.blocks cur)] ++
              cfgCheck (idOf res.idMap cur) sk.nextId) ++ body ++
              selectXor (if cur = 0 then sk.nextId else sk.nextId + 6)
              (idOf res.idMap cur) cond
              (getInt32 (if S0 = B then c else idOf res.idMap S0))
              (getInt32 (if S1 = B then c else idOf res.idMap S1)) ++ [t1] := by
          rw [← hgb]
          by_cases hk : cur = 0
          · simp only [if_pos hk]
            rw [hdone.hentry hk, hnew, if_pos hk]
            exact corruptSelect_selectXor B c sk.nextId _ S0 S1 cond _ _ (phis ++ body) [t1]
              (fun x hx => by
                rcases List.mem_append.mp hx with h | h
                · have := hphis x h; omega
                · have := hbody x h; omega)
              (fun x hx => by
                rw [List.mem_singleton] at hx
                rw [hx]; omega)
          · simp only [if_neg hk]
            rw [hdone.hother hk, hnew, if_neg hk]
            refine corruptSelect_selectXor B c (sk.nextId + 6) _ S0 S1 cond _ _ _ [t1]
              (fun x hx => ?_)
              (fun x hx => by
                rw [List.mem_singleton] at hx
                rw [hx]; omega)
            rcases List.mem_append.mp hx with h | h
            · rcases List.mem_append.mp h with h | h
              · have := hphis x h; omega
              · simp only [cfgCheck, phiNode, List.cons_append, List.nil_append,
                  List.mem_cons, List.mem_singleton, List.not_mem_nil, or_false] at h
                rcases h with rfl | rfl | rfl | rfl | rfl | rfl <;> simp only [] <;> omega
            · have := hbody x h; omega
        refine ⟨t1, fault_cfblock hdone hdp hxp halloc hB0 hout ?_ env pred o hJ ?_⟩
        · intro x hx
          simp only [selectXor, List.mem_cons, List.mem_singleton, List.not_mem_nil,
            or_false] at hx
          rcases hx with rfl | rfl <;> simp only [] <;> omega
        · intro env1 tr1 hdest nb hnb
          exact fault_exit_select hbr ho hs (hopsσ cond (by rw [ho]; simp))
            (show f.blocks.get? cur = some { insts := b0.insts } from hb0) ht1 hdone.hterm
            (by split <;> omega) (by rw [hdm, hfst]) (by rw [hxm, hsnd]) hc env env1 o pred
            tr1 hdest nb hnb
      · rw [hdm, h1] at hdmP
        cases hdmP
    · rw [if_neg hcP] at hgb
      simp only [Option.some.injEq] at hgb
      have hout : b.insts = if cur = 0 then phis ++ body ++ r.2.1 ++ [t1] else
            phis ++ ([phiNode sk.nextId ((predecessors f.blocks cur).map
                  (incomingDiff res.idMap res.diffMap cur)) (predecessors f.blocks cur),
                phiNode (sk.nextId + 1)
                  ((predecessors f.blocks cur).map (incomingDest res.idMap res.destMap cur))
                  (predecessors f.blocks cur)] ++
              cfgCheck (idOf res.idMap cur) sk.nextId) ++ body ++ r.2.1 ++ [t1] := by
        rw [← hgb]
        by_cases hk : cur = 0
        · rw [if_pos hk]; exact hdone.hentry hk
        · rw [if_neg hk]; exact hdone.hother hk
      refine ⟨t1, fault_cfblock hdone hdp hxp halloc hB0 hout
        (fun x hx => signTerminator_ids hsign x hx) env pred o hJ ?_⟩
      intro env1 tr1 hdest nb hnb
      exact fault_exit_plain hsign hshape hw hopsσ
        (show f.blocks.get? cur = some { insts := b0.insts } from hb0) ht1 hdone.hterm
        (by rw [hst]; split <;> omega) hdm hxm (fun _ _ => rfl)
        (fun h => absurd h hcP) hc env env1 o pred tr1 hdest nb hnb

/-- The Diff node of a block with its entries for `P` replaced. -/
theorem corruptIncoming_block (P d own : Nat) (v : Value) (gD gX : Nat → Value)
    (preds : List Nat) (phis body new : List Instruction) (t : Instruction)
    (hphis : ∀ x ∈ phis, x.id < d) (hbody : ∀ x ∈ body, x.id < d)
    (hnew : ∀ x ∈ new, d + 6 ≤ x.id) (ht : t.id < d) :
    updateInst d (corruptIncoming P v)
        (phis ++ ([phiNode d (preds.map gD) preds, phiNode (d + 1) (preds.map gX) preds] ++
          cfgCheck own d) ++ body ++ new ++ [t]) =
      phis ++ ([phiNode d (preds.map (fun q => if q = P then v else gD q)) preds,
                phiNode (d + 1) (preds.map gX) preds] ++ cfgCheck own d) ++ body ++ new ++
        [t] := by
  rw [updateInst_append, updateInst_append, updateInst_append, updateInst_append,
    updateInst_of_ne d _ phis (fun x hx => by have := hphis x hx; omega),
    updateInst_of_ne d _ body (fun x hx => by have := hbody x hx; omega),
    updateInst_of_ne d _ new (fun x hx => by have := hnew x hx; omega),
    updateInst_of_ne d _ [t] (fun x hx => by
      rw [List.mem_singleton] at hx
      rw [hx]; omega)]
  show phis ++ updateInst d _ (phiNode d (preds.map gD) preds ::
    (phiNode (d + 1) (preds.map gX) preds :: cfgCheck own d)) ++ body ++ new ++ [t] = _
  rw [updateInst_hit d _ _ rfl, corruptIncoming_phiNode,
    updateInst_of_ne d _ (phiNode (d + 1) (preds.map gX) preds :: cfgCheck own d)
      (fun x hx => by
        simp only [cfgCheck, phiNode, List.mem_cons, List.mem_singleton, List.not_mem_nil,
          or_false] at hx
        rcases hx with rfl | rfl | rfl | rfl | rfl <;> simp only [] <;> omega)]
  rfl

/-- The fault in a folded diff: the first traversal of the edge `P → B` fails
the check of `B`, every block execution before it passes. -/
theorem fault_folded_path {f : Function} {s : PassState} {res : CFResult}
    (hready : CFReady f s)
    (hway : ∀ b ∈ f.blocks, ∀ t, getTerminator b.insts = some t →
      (t.succs.length ≤ 1 ∨ (t.opcode = Opcode.br ∧ t.succs.length = 2)) ∧
      ∀ op ∈ t.operands, op.allocated s.nextId = true)
    (hlen : res.f.blocks.length = f.blocks.length)
    (hall : ∀ k b, f.blocks.get? k = some b →
        ∃ sk phis body t r out,
          s.nextId ≤ sk.nextId ∧ r.2.2.nextId ≤ res.state.nextId ∧
          CFDone res.idMap res.diffMap res.destMap (predecessors f.blocks k) k b.insts sk
            phis body t r out ∧
          res.f.blocks.get? k = some { insts := out } ∧
          res.diffMap.get? k = some (r.1.map Prod.fst) ∧
          res.destMap.get? k = some (r.1.map Prod.snd) ∧
          res.diffPhiMap.get? k = some (if k = 0 then none else some sk.nextId) ∧
          res.destPhiMap.get? k = some (if k = 0 then none else some (sk.nextId + 1)))
    {P B c w v : Nat}
    (hB0 : B ≠ 0) (hc : c ≠ idOf res.idMap B)
    (hdmP : res.diffMap.get? P = some (some (Value.constInt w v))) :
    ∀ (os : List Oracle) (env0 : Env) (i : Nat) (vis : Visit),
      (run (injectFault res P B c) os 0 none env0).get? i = some vis →
      (∀ j u, j < i → (run (injectFault res P B c) os 0 none env0).get? j = some u →
        ¬ (u.pred = some P ∧ u.block = B)) →
      ((vis.pred = some P ∧ vis.block = B) → CheckFailed res vis) ∧
      (¬ (vis.pred = some P ∧ vis.block = B) → vis.block ≠ 0 → CheckPassed res vis) := by
  intro os env0
  refine fault_path (injectFault res P B c) res P B
    (FaultEntry res.idMap res.destMap f.blocks
      (fun cur p => if cur = B ∧ p = P then getInt32 (idOf res.idMap P ^^^ c)
        else incomingDiff res.idMap res.diffMap cur p) P B)
    ?_ os 0 none env0 (fun h => absurd rfl h)
  have hg : injectFault res P B c =
      (match res.diffPhiMap.getD B none with
       | some d =>
         updateBlock (updateInst d (corruptIncoming P (getInt32 (idOf res.idMap P ^^^ c)))) B
           res.f.blocks
       | none => res.f.blocks) := by
    unfold injectFault
    simp only [getD_of_get? hdmP none]
  intro cur pred env o b hgb hJ
  cases hb0 : f.blocks.get? cur with
  | none =>
    have : res.f.blocks.get? cur = none := by
      rw [List.get?_eq_none] at hb0 ⊢
      omega
    rw [injectFault_get?_none res P B c cur this] at hgb
    cases hgb
  | some b0 =>
    obtain ⟨sk, phis, body, t1, r, out, hsk, _, hdone, hres, hdm, hxm, hdp, hxp⟩ :=
      hall cur b0 hb0
    have hb0mem : b0 ∈ f.blocks := List.get?_mem hb0
    have htm : getTerminator b0.insts = some t1 := hdone.terminator
    obtain ⟨hw, hops⟩ := hway b0 hb0mem t1 htm
    have hshape := hready.branches b0 hb0mem t1 htm
    have halloc : ∀ x ∈ b0.insts, x.id < sk.nextId := fun x hx =>
      Nat.lt_of_lt_of_le (hready.allocated b0 hb0mem x hx) hsk
    have hl := hdone.hsplit
    have ht1 : t1 ∈ b0.insts := by rw [hl]; simp
    have htid : t1.id < sk.nextId := halloc t1 ht1
    have hphis : ∀ x ∈ phis, x.id < sk.nextId := fun x hx => halloc x (by rw [hl]; simp [hx])
    have hbody : ∀ x ∈ body, x.id < sk.nextId := fun x hx => halloc x (by rw [hl]; simp [hx])
    have hsign := hdone.hsign
    have hst : ({ sk with nextId := if cur = 0 then sk.nextId else sk.nextId + 6 } :
        PassState).nextId = if cur = 0 then sk.nextId else sk.nextId + 6 := rfl
    have hopsσ : ∀ op ∈ t1.operands, op.allocated
        (if cur = 0 then sk.nextId else sk.nextId + 6) = true := fun op hop =>
      Value.allocated_mono (hops op hop) (by split <;> omega)
    have hnewids : ∀ x ∈ r.2.1, (if cur = 0 then sk.nextId else sk.nextId + 6) ≤ x.id :=
      fun x hx => signTerminator_ids hsign x hx
    -- the block of the faulted function at `cur`
    have hb : b.insts = if cur = B then
        updateInst sk.nextId (corruptIncoming P (getInt32 (idOf res.idMap P ^^^ c))) out
        else out := by
      rw [hg] at hgb
      by_cases hcB : cur = B
      · have hk : cur ≠ 0 := fun h => hB0 (hcB ▸ h)
        have hd : res.diffPhiMap.getD B none = some sk.nextId := by
          rw [← hcB, getD_of_get? hdp none, if_neg hk]
        rw [hd] at hgb
        simp only [] at hgb
        rw [updateBlock_get?, if_pos hcB, hres] at hgb
        simp only [Option.map_some', Option.some.injEq] at hgb
        rw [if_pos hcB, ← hgb]
      · rw [if_neg hcB]
        cases hd : res.diffPhiMap.getD B none with
        | none =>
          rw [hd] at hgb
          simp only [] at hgb
          rw [hres] at hgb
          simp only [Option.some.injEq] at hgb
          rw [← hgb]
        | some d =>
          rw [hd] at hgb
          simp only [] at hgb
          rw [updateBlock_get?, if_neg hcB, hres] at hgb
          simp only [Option.some.injEq] at hgb
          rw [← hgb]
    have hout : b.insts = if cur = 0 then phis ++ body ++ r.2.1 ++ [t1] else
          phis ++ ([phiNode sk.nextId ((predecessors f.blocks cur).map
                (fun p => if cur = B ∧ p = P then getInt32 (idOf res.idMap P ^^^ c)
                  else incomingDiff res.idMap res.diffMap cur p)) (predecessors f.blocks cur),
              phiNode (sk.nextId + 1)
                ((predecessors f.blocks cur).map (incomingDest res.idMap res.destMap cur))
                (predecessors f.blocks cur)] ++
            cfgCheck (idOf res.idMap cur) sk.nextId) ++ body ++ r.2.1 ++ [t1] := by
      rw [hb]
      by_cases hk : cur = 0
      · have hcB : cur ≠ B := fun h => hB0 (h ▸ hk)
        rw [if_pos hk, if_neg hcB]
        exact hdone.hentry hk
      · rw [if_neg hk, hdone.hother hk]
        by_cases hcB : cur = B
        · rw [if_pos hcB, corruptIncoming_block P sk.nextId _ _ _ _ _ phis body r.2.1 t1 hphis
            hbody (fun x hx => by
              have := hnewids x hx
              rw [if_neg hk] at this
              exact this) htid]
          simp only [hcB, true_and]
        · rw [if_neg hcB]
          simp only [hcB, false_and, if_false]
    refine ⟨t1, fault_cfblock hdone hdp hxp halloc hB0 hout hnewids env pred o hJ ?_⟩
    intro env1 tr1 hdest nb hnb
    refine fault_exit_plain hsign hshape hw hopsσ
      (show f.blocks.get? cur = some { insts := b0.insts } from hb0) ht1 hdone.hterm
      (by rw [hst]; split <;> omega) hdm hxm ?_ ?_ hc env env1 o pred tr1 hdest nb hnb
    · intro nb' hn
      show (if nb' = B ∧ cur = P then _ else _) = _
      rw [if_neg (fun h => hn ⟨h.2, h.1⟩)]
    · intro hcP
      show (if B = B ∧ cur = P then _ else _) = _
      rw [if_pos ⟨rfl, hcP⟩, hcP]

/-- A branch on poison leaves nothing to corrupt and no run gets past it:
every block execution on a path passes its check, and none is entered over
the edge `P → B`. -/
theorem fault_poison_path {f : Function} {s : PassState} {res : CFResult}
    (hready : CFReady f s)
    (hway : ∀ b ∈ f.blocks, ∀ t, getTerminator b.insts = some t →
      (t.succs.length ≤ 1 ∨ (t.opcode = Opcode.br ∧ t.succs.length = 2)) ∧
      ∀ op ∈ t.operands, op.allocated s.nextId = true)
    (hlen : res.f.blocks.length = f.blocks.length)
    (hall : ∀ k b, f.blocks.get? k = some b →
        ∃ sk phis body t r out,
          s.nextId ≤ sk.nextId ∧ r.2.2.nextId ≤ res.state.nextId ∧
          CFDone res.idMap res.diffMap res.destMap (predecessors f.blocks k) k b.insts sk
            phis body t r out ∧
          res.f.blocks.get? k = some { insts := out } ∧
          res.diffMap.get? k = some (r.1.map Prod.fst) ∧
          res.destMap.get? k = some (r.1.map Prod.snd) ∧
          res.diffPhiMap.get? k = some (if k = 0 then none else some sk.nextId) ∧
          res.destPhiMap.get? k = some (if k = 0 then none else some (sk.nextId + 1)))
    {P B c : Nat} {bP : BasicBlock} {t : Instruction}
    (hP : f.blocks.get? P = some bP) (ht : getTerminator bP.insts = some t)
    (hB0 : B ≠ 0) (hc : c ≠ idOf res.idMap B)
    (hdmP : res.diffMap.get? P = some (some Value.poison))
    (hstop : ∀ env o, nextBlock t env o = none) :
    ∀ (os : List Oracle) (env0 : Env) (i : Nat) (vis : Visit),
      (run (injectFault res P B c) os 0 none env0).get? i = some vis →
      (∀ j u, j < i → (run (injectFault res P B c) os 0 none env0).get? j = some u →
        ¬ (u.pred = some P ∧ u.block = B)) →
      ((vis.pred = some P ∧ vis.block = B) → CheckFailed res vis) ∧
      (¬ (vis.pred = some P ∧ vis.block = B) → vis.block ≠ 0 → CheckPassed res vis) := by
  intro os env0
  refine fault_path (injectFault res P B c) res P B
    (FaultEntry res.idMap res.destMap f.blocks (incomingDiff res.idMap res.diffMap) P B)
    ?_ os 0 none env0 (fun h => absurd rfl h)
  have hg : injectFault res P B c = res.f.blocks := by
    unfold injectFault
    simp only [getD_of_get? hdmP none]
  intro cur pred env o b hgb hJ
  rw [hg] at hgb
  cases hb0 : f.blocks.get? cur with
  | none =>
    have : res.f.blocks.get? cur = none := by
      rw [List.get?_eq_none] at hb0 ⊢
      omega
    rw [this] at hgb
    cases hgb
  | some b0 =>
    obtain ⟨sk, phis, body, t1, r, out, hsk, _, hdone, hres, hdm, hxm, hdp, hxp⟩ :=
      hall cur b0 hb0
    have hb0mem : b0 ∈ f.blocks := List.get?_mem hb0
    have htm : getTerminator b0.insts = some t1 := hdone.terminator
    obtain ⟨hw, hops⟩ := hway b0 hb0mem t1 htm
    have hshape := hready.branches b0 hb0mem t1 htm
    have halloc : ∀ x ∈ b0.insts, x.id < sk.nextId := fun x hx =>
      Nat.lt_of_lt_of_le (hready.allocated b0 hb0mem x hx) hsk
    have hl := hdone.hsplit
    have ht1 : t1 ∈ b0.insts := by rw [hl]; simp
    have htid : t1.id < sk.nextId := halloc t1 ht1
    have hsign := hdone.hsign
    have hst : ({ sk with nextId := if cur = 0 then sk.nextId else sk.nextId + 6 } :
        PassState).nextId = if cur = 0 then sk.nextId else sk.nextId + 6 := rfl
    have hopsσ : ∀ op ∈ t1.operands, op.allocated
        (if cur = 0 then sk.nextId else sk.nextId + 6) = true := fun op hop =>
      Value.allocated_mono (hops op hop) (by split <;> omega)
    have hnewids : ∀ x ∈ r.2.1, (if cur = 0 then sk.nextId else sk.nextId + 6) ≤ x.id :=
      fun x hx => signTerminator_ids hsign x hx
    rw [hres] at hgb
    simp only [Option.some.injEq] at hgb
    have hout : b.insts = if cur = 0 then phis ++ body ++ r.2.1 ++ [t1] else
          phis ++ ([phiNode sk.nextId ((predecessors f.blocks cur).map
                (incomingDiff res.idMap res.diffMap cur)) (predecessors f.blocks cur),
              phiNode (sk.nextId + 1)
                ((predecessors f.blocks cur).map (incomingDest res.idMap res.destMap cur))
                (predecessors f.blocks cur)] ++
            cfgCheck (idOf res.idMap cur) sk.nextId) ++ body ++ r.2.1 ++ [t1] := by
      rw [← hgb]
      by_cases hk : cur = 0
      · rw [if_pos hk]; exact hdone.hentry hk
      · rw [if_neg hk]; exact hdone.hother hk
    refine ⟨t1, fault_cfblock hdone hdp hxp halloc hB0 hout hnewids env pred o hJ ?_⟩
    intro env1 tr1 hdest nb hnb
    by_cases hcP : cur = P
    · subst hcP
      have hbb : b0 = bP := Option.some.inj (hb0.symm.trans hP)
      subst hbb
      have htt : t1 = t := Option.some.inj (htm.symm.trans ht)
      subst htt
      rw [hstop] at hnb
      cases hnb
    · exact fault_exit_plain hsign hshape hw hopsσ
        (show f.blocks.get? cur = some { insts := b0.insts } from hb0) ht1 hdone.hterm
        (by rw [hst]; split <;> omega) hdm hxm (fun _ _ => rfl)
        (fun h => absurd h hcP) hc env env1 o pred tr1 hdest nb hnb

/-- C12: in a function whose terminators have at most one successor or are
two-way conditional branches, take an edge `P → B` and replace, in the
function `verifyControlFlow` returns, the constant that stands for the ID of
`B` in the outgoing diff of `P` by any `c` other than that ID.  On every path
from the entry block, the first execution of `B` entered from `P` finds Diff
XOR Dest different from the ID of `B` and its `assert_cfg_ft` call receives 0
as its first argument; every non-entry block executed before that passes its
check. -/
theorem C12_fault_injection (f : Function) (M : Module) (F : Function) (s : PassState)
    (P B c : Nat) (bP : BasicBlock) (t : Instruction)
    (hready : CFReady f s)
    (hF : M.getFunction FuncName.assert_cfg_ft = some F)
    (hway : ∀ b ∈ f.blocks, ∀ t, getTerminator b.insts = some t →
      (t.succs.length ≤ 1 ∨ (t.opcode = Opcode.br ∧ t.succs.length = 2)) ∧
      ∀ op ∈ t.operands, op.allocated s.nextId = true)
    (hP : f.blocks.get? P = some bP) (ht : getTerminator bP.insts = some t)
    (hB : B ∈ t.succs) (hc : c ≠ idOf (assignIds 0 f.blocks) B) :
    ∃ res, verifyControlFlowMaps f M s = some res ∧
      verifyControlFlow f M s = some (res.f, res.state) ∧
      ∀ (os : List Oracle) (env0 : Env) (i : Nat) (v : Visit),
        (run (injectFault res P B c) os 0 none env0).get? i = some v →
        (∀ j w, j < i → (run (injectFault res P B c) os 0 none env0).get? j = some w →
          ¬ (w.pred = some P ∧ w.block = B)) →
        ((v.pred = some P ∧ v.block = B) → CheckFailed res v) ∧
        (¬ (v.pred = some P ∧ v.block = B) → v.block ≠ 0 → CheckPassed res v) := by
  obtain ⟨res, h1, h2, hid, _, hlen, _, hall⟩ := verifyControlFlowMaps_spec hready hF
  refine ⟨res, h1, h2, ?_⟩
  rw [← hid] at hc
  obtain ⟨sk, phis, body, t1, r, out, _, _, hdone, _, hdm, _, _, _⟩ := hall P bP hP
  have hbm : bP ∈ f.blocks := List.get?_mem hP
  have htt : t1 = t := Option.some.inj (hdone.terminator.symm.trans ht)
  subst htt
  have hterm := hdone.hterm
  have htmem : t1 ∈ bP.insts := by rw [hdone.hsplit]; simp
  have hB0 : B ≠ 0 := by
    intro h
    have := mem_predecessors hP htmem hterm hB
    rw [h, hready.entry] at this
    cases this
  rcases signTerminator_cases hdone.hsign (hready.branches bP hbm t1 ht) (hway bP hbm t1 ht).1
    (List.ne_nil_of_mem hB) with
    ⟨w, v, hfst, _⟩ | ⟨_, _, _, _, _, _, hfst, _, _⟩ | ⟨hfst, _, hstop⟩
  · rw [hfst] at hdm
    exact fault_folded_path hready hway hlen hall hB0 hc hdm
  · rw [hfst] at hdm
    exact fault_select_path hready hway hlen hall hP ht hB hB0 hc hdm
  · rw [hfst] at hdm
    exact fault_poison_path hready hway hlen hall hP ht hB0 hc hdm hstop

theorem exSwitch_ready : CFReady exSwitch { nextId := 3, SWFTAdded := 0 } := by
  refine ⟨by decide, by decide, ?_, by decide⟩
  intro b hb t ht
  unfold branchShaped
  revert t
  revert b
  decide

theorem exSum_replicable : ¬ Excluded exSum := by
  unfold Excluded
  decide

theorem exProgram_wf : ∀ k g, exProgram.functions.get? k = some g →
    instrumentable exCallees k g = true →
    WellFormed g exState ∧ predecessors g.blocks 0 = [] := by
  intro k g hg hi
  rcases k with _ | _ | _ | k
  · cases hg; cases hi
  · cases hg; cases hi
  · cases hg; exact ⟨exDiamond_wf, by decide⟩
  · cases hg

/-- C11 as stated fails: the counter of `verifyControlFlow` starts at 0, so the
first block of the chain is numbered with index 1, the second with 2, the
third with 3; the ID of the first block is not the one index 2 would give. -/
theorem C11_first_index_is_one :
    CFReady exChain { nextId := 3, SWFTAdded := 0 } ∧
    (verifyControlFlowMaps exChain exModule { nextId := 3, SWFTAdded := 0 }).map
      (fun res => res.idMap) = some [uniqueID 1 1, uniqueID 2 1, uniqueID 3 1] ∧
    uniqueID 1 1 = 1048833 ∧ uniqueID 2 1 = 2097410 ∧ uniqueID 1 1 ≠ uniqueID 2 1 := by
  refine ⟨⟨by decide, by decide, ?_, by decide⟩, rfl, by decide, by decide, by decide⟩
  intro b hb t ht
  unfold branchShaped
  revert t
  revert b
  decide

/-- The fault of C12 on the diamond: with the `select` arm for block 2 in the
entry block replaced by 0, the path entry block, block 2, block 3 has the
check of block 2 receive 0; block 3 is handed the corrupted signature of
block 2 and its check receives 0 as well. -/
theorem exDiamond_fault :
    (verifyControlFlowMaps exDiamond exModule exState).map (fun res =>
      (run (injectFault res 0 2 0) [exOracle, exOracle, exOracle, exOracle] 0 none
        (fun _ => 0)).map
        (fun v => (v.block, v.pred, v.calls.map (fun e => (e.inst, e.args))))) =
    some [ (0, none, []),
           (2, some 0, [(23, [some 0, some (uniqueID 1 3), some (uniqueID 3 2)])]),
           (3, some 2, [(29, [some 0, some 0, some (uniqueID 4 3)])]) ] := rfl

/-- The fault of C12 on the chain, where the diff of the entry block is a
folded constant: with the ID of block 1 replaced by 0 in it, the check of
block 1 receives 0, and so does the check of block 2, which is handed the
corrupted signature of block 1. -/
theorem exChain_fault :
    (verifyControlFlowMaps exChain exModule { nextId := 3, SWFTAdded := 0 }).map (fun res =>
      (run (injectFault res 0 1 0) [exOracle, exOracle, exOracle, exOracle] 0 none
        (fun _ => 0)).map
        (fun v => (v.block, v.pred, v.calls.map (fun e => (e.inst, e.args))))) =
    some [ (0, none, []),
           (1, some 0, [(8, [some 0, some (uniqueID 1 1), some (uniqueID 2 1)])]),
           (2, some 1, [(14, [some 0, some 0, some (uniqueID 3 1)])]) ] := rfl

/-- The diff recorded for the entry block of `exBranchOn c` and the length of
that block afterwards: a branch on `undef` records the constant
`id(0) XOR id(2)` and a branch on poison records poison, both with nothing
inserted; a branch on a constant integer records the constant for the arm it
selects; a branch on an argument gets a `select` and an `xor`. -/
theorem exBranchOn_diff :
    (verifyControlFlowMaps (exBranchOn Value.undef) exModule { nextId := 3, SWFTAdded := 0 }).map
      (fun res => (res.diffMap.get? 0, (res.f.blocks.get? 0).map (fun b => b.insts.length))) =
      some (some (some (getInt32 (uniqueID 1 1 ^^^ uniqueID 3 1))), some 1) ∧
    (verifyControlFlowMaps (exBranchOn Value.poison) exModule { nextId := 3, SWFTAdded := 0 }).map
      (fun res => (res.diffMap.get? 0, (res.f.blocks.get? 0).map (fun b => b.insts.length))) =
      some (some (some Value.poison), some 1) ∧
    (verifyControlFlowMaps (exBranchOn (Value.constInt 1 1)) exModule
        { nextId := 3, SWFTAdded := 0 }).map
      (fun res => (res.diffMap.get? 0, (res.f.blocks.get? 0).map (fun b => b.insts.length))) =
      some (some (some (getInt32 (uniqueID 1 1 ^^^ uniqueID 2 1))), some 1) ∧
    (verifyControlFlowMaps (exBranchOn (Value.arg 0)) exModule
        { nextId := 3, SWFTAdded := 0 }).map
      (fun res => (res.diffMap.get? 0, (res.f.blocks.get? 0).map (fun b => b.insts.length))) =
      some (some (some (Value.inst 4)), some 3) := ⟨rfl, rfl, rfl, rfl⟩

/-- C18 as stated fails in its last clause: in the chain the entry block has
its pair recorded, and the value the Diff node of block 1 receives for it is
the recorded diff, which is the constant `id(0) XOR id(1)`, the very constant
the fallback would supply. -/
theorem C18_recorded_diff_is_that_constant :
    CFReady exChain { nextId := 3, SWFTAdded := 0 } ∧
    (∀ b ∈ exChain.blocks, ∀ x ∈ b.insts.dropLast, x.isTerminator = false) ∧
    predecessors exChain.blocks 1 = [0] ∧
    (verifyControlFlowMaps exChain exModule { nextId := 3, SWFTAdded := 0 }).map
      (fun res => (res.diffMap.get? 0, res.destMap.get? 0,
        incomingDiff res.idMap res.diffMap 1 0,
        getInt32 (idOf res.idMap 0 ^^^ idOf res.idMap 1),
        (res.f.blocks.get? 1).bind (fun b => b.insts.head?.map
          (fun x => (x.id, x.opcode, x.operands, x.incoming))))) =
      some (some (some (getInt32 3145731)), some (some (getInt32 1048833)),
        getInt32 3145731, getInt32 3145731,
        some (3, Opcode.phi, [getInt32 3145731], [0])) := by
  refine ⟨⟨by decide, by decide, ?_, by decide⟩, by decide, by decide, rfl⟩
  intro b hb t ht
  unfold branchShaped
  revert t
  revert b
  decide

/-- The instrumented `exSwitch` on the path that takes the second successor of
the `switch`: the check of block 2 receives 0. -/
theorem exSwitch_path :
    (verifyControlFlowMaps exSwitch exModule { nextId := 3, SWFTAdded := 0 }).map (fun res =>
      (run res.f.blocks [exChoice, exChoice, exChoice] 0 none (fun _ => 0)).map
        (fun v => (v.block, v.pred, v.calls.map (fun e => (e.inst, e.args))))) =
    some [ (0, none, []),
           (2, some 0, [(14, [some 0, some (uniqueID 1 1), some (uniqueID 3 1)])]) ] := rfl

theorem C11_block_ids_witness :
    CFReady exDiamond exState ∧
    (∃ res, verifyControlFlowMaps exDiamond exModule exState = some res ∧
      res.idMap.length = exDiamond.blocks.length ∧
      ∀ k b, exDiamond.blocks.get? k = some b →
        res.idMap.get? k = some (uniqueID (k + 1) b.insts.length) ∧
        uniqueID (k + 1) b.insts.length =
          (((k + 1) <<< 20) ||| (b.insts.length <<< 8) |||
            (((k + 1) * b.insts.length) % 37)) % 2 ^ 32) :=
  ⟨exDiamond_ready,
    C11_block_ids exDiamond exModule exAssertCfgFt exState exDiamond_ready rfl⟩

theorem C12_fault_injection_witness :
    CFReady exDiamond exState ∧
    exBranch.succs = [1, 2] ∧
    0 ≠ idOf (assignIds 0 exDiamond.blocks) 2 ∧
    (∃ res, verifyControlFlowMaps exDiamond exModule exState = some res ∧
      verifyControlFlow exDiamond exModule exState = some (res.f, res.state) ∧
      ∀ (os : List Oracle) (env0 : Env) (i : Nat) (v : Visit),
        (run (injectFault res 0 2 0) os 0 none env0).get? i = some v →
        (∀ j w, j < i → (run (injectFault res 0 2 0) os 0 none env0).get? j = some w →
          ¬ (w.pred = some 0 ∧ w.block = 2)) →
        ((v.pred = some 0 ∧ v.block = 2) → CheckFailed res v) ∧
        (¬ (v.pred = some 0 ∧ v.block = 2) → v.block ≠ 0 → CheckPassed res v)) :=
  ⟨exDiamond_ready, rfl, by decide,
    C12_fault_injection exDiamond exModule exAssertCfgFt exState 0 2 0 exEntry exBranch
      exDiamond_ready rfl exDiamond_ways rfl rfl (by decide) (by decide)⟩

theorem C13_pass_scope_witness :
    exProgram.getFunction FuncName.assert_ft = some exAssertFt ∧
    exProgram.getFunction FuncName.assert_cfg_ft = some exAssertCfgFt ∧
    (∃ (M' : Module) (s' : PassState) (st : Nat → PassState),
      SoftwareFaultTolerance exCallees id exProgram exState = some (M', s') ∧
      M'.functions.length = exProgram.functions.length ∧
      st 0 = exState ∧ st exProgram.functions.length = s' ∧
      ∀ k g, exProgram.functions.get? k = some g →
        (instrumentable exCallees k g = true ↔
          g.blocks ≠ [] ∧ some k ≠ exCallees.AssertFT ∧ some k ≠ exCallees.AssertCFG) ∧
        (instrumentable exCallees k g = true →
          ∃ r1 r2, replicate g exProgram id (st k) = some r1 ∧
            verifyControlFlow r1.1 exProgram r1.2 = some r2 ∧ r2.2 = st (k + 1) ∧
            M'.functions.get? k = some r2.1) ∧
        (instrumentable exCallees k g = false →
          st (k + 1) = st k ∧ M'.functions.get? k = some g)) :=
  ⟨rfl, rfl,
    C13_pass_scope exCallees id exProgram exAssertFt exAssertCfgFt exState (fun cm => List.Perm.refl cm) rfl rfl
      exProgram_wf⟩

theorem C14_not_idempotent_witness :
    WellFormed exDiamond exState ∧
    exSum ∈ exEntry.insts ∧
    (¬ Excluded exSum) ∧
    exSum.ty.isIntegerTy = true ∧
    (∃ r1 r2 r3 r4, replicate exDiamond exModule id exState = some r1 ∧
      verifyControlFlow r1.1 exModule r1.2 = some r2 ∧
      replicate r2.1 exModule id r2.2 = some r3 ∧
      verifyControlFlow r3.1 exModule r3.2 = some r4 ∧
      r4.1 ≠ r2.1 ∧
      (∀ x ∈ r2.1.allInsts, x.id < r2.2.nextId) ∧
      r2.1.allInsts.Sublist r4.1.allInsts ∧
      exSum ∈ r2.1.allInsts ∧
      (∃ cl ∈ r4.1.allInsts, r2.2.nextId ≤ cl.id ∧ cl.opcode = exSum.opcode ∧ cl.ty = exSum.ty ∧
        cl.operands.length = exSum.operands.length) ∧
      (∃ call ∈ r4.1.allInsts, r2.2.nextId ≤ call.id ∧ call.opcode = Opcode.call ∧
        call.operands.getLast? = some (Value.func FuncName.assert_ft)) ∧
      (r2.1.callsTo FuncName.assert_ft).length < (r4.1.callsTo FuncName.assert_ft).length) :=
  ⟨exDiamond_wf, by decide, exSum_replicable, rfl,
    C14_not_idempotent exDiamond exModule exAssertFt exAssertCfgFt id exState 0 exEntry exSum
      exDiamond_wf (by decide) rfl rfl (fun cm => List.Perm.refl cm) rfl (by decide) exSum_replicable rfl⟩

theorem C15_missing_handler_witness :
    exNoFt.getFunction FuncName.assert_ft = none ∧
    exNoFt.functions.get? 1 = some exDiamond ∧
    instrumentable { AssertFT := none, AssertCFG := some 0 } 1 exDiamond = true ∧
    (SoftwareFaultTolerance { AssertFT := none, AssertCFG := some 0 } id exNoFt exState =
        none ∧
      runPass { NoSWFT := false, NoReplicate := false, NoControlProtection := false }
        { AssertFT := none, AssertCFG := some 0 } id exNoFt exState = none) :=
  ⟨rfl, rfl, rfl,
    C15_missing_handler { AssertFT := none, AssertCFG := some 0 } id exNoFt exState
      { NoSWFT := false, NoReplicate := false, NoControlProtection := false } 1 exDiamond
      (fun cm => List.Perm.refl cm) rfl rfl rfl
      (Or.inl ⟨rfl, exEntry, by decide, exSum, by decide, exSum_replicable, rfl⟩)⟩

theorem C18_fallback_not_taken_witness :
    CFReady exDiamond exState ∧
    (∀ b ∈ exDiamond.blocks, ∀ x ∈ b.insts.dropLast, x.isTerminator = false) ∧
    (∃ res, verifyControlFlowMaps exDiamond exModule exState = some res ∧
      verifyControlFlow exDiamond exModule exState = some (res.f, res.state) ∧
      (∀ B P, P ∈ predecessors exDiamond.blocks B →
        ∃ dv xv, res.diffMap.get? P = some (some dv) ∧ res.destMap.get? P = some (some xv) ∧
          incomingDiff res.idMap res.diffMap B P = dv ∧
          incomingDest res.idMap res.destMap B P = xv) ∧
      ∀ B bB, B ≠ 0 → exDiamond.blocks.get? B = some bB →
        ∃ n out Diff Dest, res.diffPhiMap.get? B = some (some n) ∧
          res.destPhiMap.get? B = some (some (n + 1)) ∧
          res.f.blocks.get? B = some { insts := out } ∧
          Diff ∈ out ∧ Dest ∈ out ∧ Diff.id = n ∧ Dest.id = n + 1 ∧
          Diff.incoming = predecessors exDiamond.blocks B ∧
          Dest.incoming = predecessors exDiamond.blocks B ∧
          ∀ j P, (predecessors exDiamond.blocks B).get? j = some P →
            ∃ dv xv, res.diffMap.get? P = some (some dv) ∧
              res.destMap.get? P = some (some xv) ∧
              Diff.operands.get? j = some dv ∧ Dest.operands.get? j = some xv) :=
  ⟨exDiamond_ready, by decide,
    C18_fallback_not_taken exDiamond exModule exAssertCfgFt exState exDiamond_ready rfl (by decide)⟩

theorem C19_switch_edge_witness :
    CFReady exSwitch { nextId := 3, SWFTAdded := 0 } ∧
    exSwitchInst.opcode ≠ Opcode.br ∧
    exSwitchInst.succs = [1, 2] ∧
    (∃ res, verifyControlFlowMaps exSwitch exModule { nextId := 3, SWFTAdded := 0 } = some res ∧
      res.diffMap.get? 0 =
        some (some (getInt32 (idOf res.idMap 0 ^^^ idOf res.idMap 1))) ∧
      res.destMap.get? 0 = some (some (getInt32 (idOf res.idMap 0))) ∧
      ∀ (os : List Oracle) (env0 : Env),
        ∀ v ∈ run res.f.blocks os 0 none env0, v.pred = some 0 →
          idOf res.idMap v.block ≠ idOf res.idMap 1 →
          CheckFailed res v ∧
          ∃ d, res.diffPhiMap.get? v.block = some (some d) ∧
            v.env d ^^^ v.env (d + 1) = idOf res.idMap 1) :=
  ⟨exSwitch_ready, by decide, rfl,
    C19_switch_edge exSwitch exModule exAssertCfgFt { nextId := 3, SWFTAdded := 0 } 0 1
      { insts := [exSwitchInst] } exSwitchInst [2] exSwitch_ready rfl rfl rfl (by decide) rfl⟩

theorem C20_ids_distinct_witness :
    exDiamond.blocks.length < 2047 ∧
    (∀ b ∈ exDiamond.blocks, b.insts.length < 4096) ∧
    ((uniqueID 1 3 = uniqueID 2 2 → 1 = 2 ∧ 3 = 2) ∧
    (∀ i j, i < exDiamond.blocks.length → j < exDiamond.blocks.length → i ≠ j →
      idOf (assignIds 0 exDiamond.blocks) i ≠ idOf (assignIds 0 exDiamond.blocks) j) ∧
    (∀ M s res, verifyControlFlowMaps exDiamond M s = some res →
      res.idMap = assignIds 0 exDiamond.blocks)) :=
  ⟨by decide, by decide,
    C20_ids_distinct 1 3 2 2 exDiamond (by decide) (by decide) (by decide) (by decide)
      (by decide) (by decide)⟩

end SWFT
